import Mathlib

/-!
Verification of the maze-engine core: a shallow embedding of the grid data
model (`maze_engine/core/grid.py`), the generation algorithms, the braiding
post-processor, the solvers and the serializer, together with proofs of the
documented properties.
-/

namespace MazeEngine

/-! ### Bit constants, from `Grid` in `maze_engine/core/grid.py` -/

def NORTH : Nat := 1
def EAST : Nat := 2
def SOUTH : Nat := 4
def WEST : Nat := 8
def VISITED : Nat := 16
def PATH_BIT : Nat := 32
def SOLVER_VISITED : Nat := 64
def SOLVER_AUX : Nat := 128
def ALL_WALLS : Nat := 15

/-- `Grid.DX`: x offset of the neighbor in a given direction. -/
def DX (d : Nat) : Int :=
  if d = EAST then 1 else if d = WEST then -1 else 0

/-- `Grid.DY`: y offset of the neighbor in a given direction. -/
def DY (d : Nat) : Int :=
  if d = NORTH then -1 else if d = SOUTH then 1 else 0

/-- `Grid.OPPOSITE`. -/
def OPPOSITE (d : Nat) : Nat :=
  if d = NORTH then SOUTH
  else if d = SOUTH then NORTH
  else if d = EAST then WEST
  else if d = WEST then EAST
  else 0

/-- A direction argument as the algorithms pass it: one of the four wall bits. -/
def ValidDir (d : Nat) : Prop := d = NORTH ∨ d = EAST ∨ d = SOUTH ∨ d = WEST

instance (d : Nat) : Decidable (ValidDir d) := by
  unfold ValidDir; infer_instance

/-! ### The grid -/

/-- `Grid`: width, height and one byte per cell in row-major order
(`cells[y * width + x]`). -/
structure Grid where
  width : Nat
  height : Nat
  cells : List Nat
  deriving Repr, DecidableEq

/-- `Grid.__init__`: all walls present in every cell. -/
def mkGrid (w h : Nat) : Grid :=
  ⟨w, h, List.replicate (w * h) ALL_WALLS⟩

/-- Cell byte at a flat index (reads as Python does on an in-range index). -/
def Grid.cell (g : Grid) (i : Nat) : Nat := g.cells.getD i 0

/-- Flat index of an in-range coordinate, `y * width + x`. -/
def Grid.idx (g : Grid) (x y : Nat) : Nat := y * g.width + x

/-- In-bounds predicate `0 <= x < width and 0 <= y < height`. -/
def Grid.inBounds (g : Grid) (x y : Nat) : Prop := x < g.width ∧ y < g.height

instance (g : Grid) (x y : Nat) : Decidable (g.inBounds x y) := by
  unfold Grid.inBounds; infer_instance

/-- `Grid.has_wall` for in-range coordinates. -/
def Grid.hasWall (g : Grid) (x y d : Nat) : Bool :=
  (g.cell (g.idx x y)) &&& d != 0

/-- The Python bit clear `v & ~b`, in an executable form: the bits of
`v &&& b` are a submask of `v`, so xoring them away clears exactly the bits
of `b` that are set in `v`. `clearBits_eq_ldiff` identifies it with the
bitwise difference. -/
def clearBits (v b : Nat) : Nat := v ^^^ (v &&& b)

theorem clearBits_eq_ldiff (v b : Nat) : clearBits v b = Nat.ldiff v b := by
  apply Nat.eq_of_testBit_eq
  intro i
  unfold clearBits
  rw [Nat.testBit_xor, Nat.testBit_and, Nat.testBit_ldiff]
  cases v.testBit i <;> cases b.testBit i <;> rfl

theorem clearBits_fun_eq : clearBits = Nat.ldiff :=
  funext fun v => funext fun b => clearBits_eq_ldiff v b

/-- `Grid.carve_path`: clear `dir_bit` on `(x1, y1)` and the opposite bit on the
neighbor, returning the grid unchanged when the neighbor is out of bounds. -/
def Grid.carvePath (g : Grid) (x1 y1 dirBit : Nat) : Grid :=
  let idx1 := y1 * g.width + x1
  let x2 : Int := (x1 : Int) + DX dirBit
  let y2 : Int := (y1 : Int) + DY dirBit
  let opposite := OPPOSITE dirBit
  if 0 ≤ x2 ∧ x2 < (g.width : Int) ∧ 0 ≤ y2 ∧ y2 < (g.height : Int) then
    let idx2 := y2.toNat * g.width + x2.toNat
    let c1 := g.cells.set idx1 (clearBits (g.cells.getD idx1 0) dirBit)
    { g with cells := c1.set idx2 (clearBits (c1.getD idx2 0) opposite) }
  else g

/-- `Grid.add_wall`: set `dir_bit` on `(x, y)`; set the opposite bit on the
neighbor when it is in bounds. -/
def Grid.addWall (g : Grid) (x y dirBit : Nat) : Grid :=
  let idx1 := y * g.width + x
  let nx : Int := (x : Int) + DX dirBit
  let ny : Int := (y : Int) + DY dirBit
  let opposite := OPPOSITE dirBit
  let c1 := g.cells.set idx1 ((g.cells.getD idx1 0) ||| dirBit)
  if 0 ≤ nx ∧ nx < (g.width : Int) ∧ 0 ≤ ny ∧ ny < (g.height : Int) then
    let idx2 := ny.toNat * g.width + nx.toNat
    { g with cells := c1.set idx2 ((c1.getD idx2 0) ||| opposite) }
  else { g with cells := c1 }

/-- `Grid.set_visited` in its default `visited=True` form. -/
def Grid.setVisited (g : Grid) (x y : Nat) : Grid :=
  let i := y * g.width + x
  { g with cells := g.cells.set i ((g.cells.getD i 0) ||| VISITED) }

/-- `Grid.is_visited`. -/
def Grid.isVisited (g : Grid) (x y : Nat) : Bool :=
  (g.cell (g.idx x y)) &&& VISITED != 0

/-- `Grid.get_neighbors`: lattice neighbors with direction, in N, S, E, W
order, excluding out-of-range candidates. -/
def Grid.getNeighbors (g : Grid) (x y : Nat) : List (Nat × Nat × Nat) :=
  (if y > 0 then [(x, y - 1, NORTH)] else []) ++
  (if y < g.height - 1 then [(x, y + 1, SOUTH)] else []) ++
  (if x < g.width - 1 then [(x + 1, y, EAST)] else []) ++
  (if x > 0 then [(x - 1, y, WEST)] else [])

/-- `Grid.get_open_neighbors`: neighbors not blocked by a wall, in N, S, E, W
order. -/
def Grid.getOpenNeighbors (g : Grid) (x y : Nat) : List (Nat × Nat) :=
  let val := g.cell (g.idx x y)
  (if val &&& NORTH = 0 ∧ y > 0 then [(x, y - 1)] else []) ++
  (if val &&& SOUTH = 0 ∧ y < g.height - 1 then [(x, y + 1)] else []) ++
  (if val &&& EAST = 0 ∧ x < g.width - 1 then [(x + 1, y)] else []) ++
  (if val &&& WEST = 0 ∧ x > 0 then [(x - 1, y)] else [])

/-! ### Elementary list and bit lemmas -/

theorem getD_set_eq {l : List Nat} {i : Nat} (h : i < l.length) (v : Nat) :
    (l.set i v).getD i 0 = v := by
  simp [List.getD, List.getElem?_set_self, h]

theorem getD_set_ne {l : List Nat} {i j : Nat} (h : i ≠ j) (v : Nat) :
    (l.set i v).getD j 0 = l.getD j 0 := by
  simp [List.getD, List.getElem?_set_ne h]

theorem getD_replicate {n i v : Nat} :
    (List.replicate n v).getD i 0 = if i < n then v else 0 := by
  by_cases h : i < n
  · simp [List.getD, List.getElem?_replicate, h]
  · simp [List.getD, List.getElem?_replicate, h]

theorem and_pow_or_self (v : Nat) (a : Nat) : (v ||| 2 ^ a) &&& 2 ^ a = 2 ^ a := by
  have h : ((v ||| 2 ^ a) &&& 2 ^ a) = (((v ||| 2 ^ a)).testBit a).toNat * 2 ^ a :=
    Nat.and_two_pow _ a
  rw [h]
  simp [Nat.testBit_or, Nat.testBit_two_pow_self]

theorem and_pow_or_ne (v : Nat) {a b : Nat} (h : a ≠ b) :
    (v ||| 2 ^ a) &&& 2 ^ b = v &&& 2 ^ b := by
  rw [Nat.and_two_pow, Nat.and_two_pow]
  simp [Nat.testBit_or, Nat.testBit_two_pow_of_ne h]

theorem and_pow_ldiff_self (v : Nat) (a : Nat) : (Nat.ldiff v (2 ^ a)) &&& 2 ^ a = 0 := by
  rw [Nat.and_two_pow]
  simp [Nat.testBit_ldiff, Nat.testBit_two_pow_self]

theorem and_pow_ldiff_ne (v : Nat) {a b : Nat} (h : a ≠ b) :
    (Nat.ldiff v (2 ^ a)) &&& 2 ^ b = v &&& 2 ^ b := by
  rw [Nat.and_two_pow, Nat.and_two_pow]
  simp [Nat.testBit_ldiff, Nat.testBit_two_pow_of_ne h]

/-- Row-major index injectivity on the x component. -/
theorem idx_inj {w x1 y1 x2 y2 : Nat} (h1 : x1 < w) (h2 : x2 < w)
    (h : y1 * w + x1 = y2 * w + x2) : x1 = x2 ∧ y1 = y2 := by
  have hx : x1 = x2 := by
    have e1 : (y1 * w + x1) % w = x1 % w := by
      rw [Nat.add_comm, Nat.add_mul_mod_self_right]
    have e2 : (y2 * w + x2) % w = x2 % w := by
      rw [Nat.add_comm, Nat.add_mul_mod_self_right]
    rw [h, e2] at e1
    rw [Nat.mod_eq_of_lt h2, Nat.mod_eq_of_lt h1] at e1
    omega
  subst hx
  constructor
  · rfl
  · have hmul : y1 * w = y2 * w := by omega
    exact Nat.eq_of_mul_eq_mul_right (by omega) hmul

theorem idx_lt {w h x y : Nat} (hx : x < w) (hy : y < h) : y * w + x < w * h := by
  have h1 : y * w + x < (y + 1) * w := by
    rw [Nat.succ_mul]; omega
  have h2 : (y + 1) * w ≤ h * w := Nat.mul_le_mul_right w hy
  calc y * w + x < (y + 1) * w := h1
    _ ≤ h * w := h2
    _ = w * h := Nat.mul_comm h w

theorem validDir_pow {d : Nat} (hd : ValidDir d) : ∃ k, k < 4 ∧ d = 2 ^ k := by
  rcases hd with h | h | h | h
  · exact ⟨0, by omega, by simp [h, NORTH]⟩
  · exact ⟨1, by omega, by simp [h, EAST]⟩
  · exact ⟨2, by omega, by simp [h, SOUTH]⟩
  · exact ⟨3, by omega, by simp [h, WEST]⟩

theorem hw_ldiff_same {d : Nat} (hd : ValidDir d) (v : Nat) : (Nat.ldiff v d) &&& d = 0 := by
  obtain ⟨k, _, rfl⟩ := validDir_pow hd
  exact and_pow_ldiff_self v k

theorem hw_ldiff_ne {d e : Nat} (hd : ValidDir d) (he : ValidDir e) (hne : d ≠ e) (v : Nat) :
    (Nat.ldiff v d) &&& e = v &&& e := by
  obtain ⟨k, _, rfl⟩ := validDir_pow hd
  obtain ⟨j, _, rfl⟩ := validDir_pow he
  exact and_pow_ldiff_ne v (fun h => hne (by rw [h]))

theorem hw_or_same {d : Nat} (hd : ValidDir d) (v : Nat) : (v ||| d) &&& d = d := by
  obtain ⟨k, _, rfl⟩ := validDir_pow hd
  exact and_pow_or_self v k

theorem hw_or_ne {d e : Nat} (hd : ValidDir d) (he : ValidDir e) (hne : d ≠ e) (v : Nat) :
    (v ||| d) &&& e = v &&& e := by
  obtain ⟨k, _, rfl⟩ := validDir_pow hd
  obtain ⟨j, _, rfl⟩ := validDir_pow he
  exact and_pow_or_ne v (fun h => hne (by rw [h]))

theorem validDir_ne_zero {d : Nat} (hd : ValidDir d) : d ≠ 0 := by
  rcases hd with h | h | h | h <;> simp [h, NORTH, EAST, SOUTH, WEST]

/-! ### Wall symmetry (claim C1)

A grid is wall-symmetric when for every lattice-adjacent pair of in-bounds
cells, the wall bit of each toward the other agrees. Every adjacent pair is
either a horizontal pair (east/west bits) or a vertical pair (south/north
bits). -/

def WallSym (g : Grid) : Prop :=
  (∀ x y, x + 1 < g.width → y < g.height →
    g.hasWall x y EAST = g.hasWall (x + 1) y WEST) ∧
  (∀ x y, x < g.width → y + 1 < g.height →
    g.hasWall x y SOUTH = g.hasWall x (y + 1) NORTH)

/-- Update two distinct cells by clearing one bit in each: the common shape of
both branches of `carve_path`. -/
def doubleUpd (g : Grid) (i1 b1 i2 b2 : Nat) (f : Nat → Nat → Nat) : Grid :=
  let c1 := g.cells.set i1 (f (g.cells.getD i1 0) b1)
  { g with cells := c1.set i2 (f (c1.getD i2 0) b2) }

theorem cell_doubleUpd {g : Grid} {i1 b1 i2 b2 : Nat} {f : Nat → Nat → Nat}
    (hne : i1 ≠ i2) (h1 : i1 < g.cells.length) (h2 : i2 < g.cells.length) (j : Nat) :
    (doubleUpd g i1 b1 i2 b2 f).cell j =
      if j = i2 then f (g.cell i2) b2
      else if j = i1 then f (g.cell i1) b1
      else g.cell j := by
  unfold doubleUpd Grid.cell
  by_cases hj2 : j = i2
  · subst hj2
    rw [getD_set_eq (by simpa using h2)]
    rw [getD_set_ne hne]
    simp
  · rw [getD_set_ne (fun h => hj2 h.symm)]
    by_cases hj1 : j = i1
    · subst hj1
      rw [getD_set_eq h1]
      simp [hj2]
    · rw [getD_set_ne (fun h => hj1 h.symm)]
      simp [hj2, hj1]

theorem cell_doubleUpd2 {g : Grid} {i1 i2 : Nat} (b1 b2 : Nat) (f : Nat → Nat → Nat)
    (hne : i1 ≠ i2) (h1 : i1 < g.cells.length) (h2 : i2 < g.cells.length) (j : Nat) :
    (doubleUpd g i1 b1 i2 b2 f).cell j =
      if j = i2 then f (g.cell i2) b2
      else if j = i1 then f (g.cell i1) b1
      else g.cell j := cell_doubleUpd hne h1 h2 j

theorem cell_set {g : Grid} {i : Nat} (hi : i < g.cells.length) (v j : Nat) :
    (Grid.mk g.width g.height (g.cells.set i v)).cell j = if j = i then v else g.cell j := by
  unfold Grid.cell
  by_cases hj : j = i
  · subst hj
    rw [getD_set_eq hi]
    simp
  · rw [getD_set_ne (fun h => hj h.symm)]
    simp [hj]

theorem doubleUpd_comm {g : Grid} {i1 b1 i2 b2 : Nat} {f : Nat → Nat → Nat}
    (hne : i1 ≠ i2) : doubleUpd g i1 b1 i2 b2 f = doubleUpd g i2 b2 i1 b1 f := by
  unfold doubleUpd
  simp only [getD_set_ne hne, getD_set_ne (fun h => hne h.symm)]
  congr 1
  exact List.set_comm _ _ _ hne

theorem carvePath_eq (g : Grid) (x y d : Nat) :
    g.carvePath x y d =
      if 0 ≤ (x : Int) + DX d ∧ (x : Int) + DX d < (g.width : Int) ∧
         0 ≤ (y : Int) + DY d ∧ (y : Int) + DY d < (g.height : Int) then
        doubleUpd g (y * g.width + x) d
          (((y : Int) + DY d).toNat * g.width + ((x : Int) + DX d).toNat)
          (OPPOSITE d) Nat.ldiff
      else g := by
  rw [← clearBits_fun_eq]
  rfl

theorem addWall_eq (g : Grid) (x y d : Nat) :
    g.addWall x y d =
      if 0 ≤ (x : Int) + DX d ∧ (x : Int) + DX d < (g.width : Int) ∧
         0 ≤ (y : Int) + DY d ∧ (y : Int) + DY d < (g.height : Int) then
        doubleUpd g (y * g.width + x) d
          (((y : Int) + DY d).toNat * g.width + ((x : Int) + DX d).toNat)
          (OPPOSITE d) (fun v b => v ||| b)
      else Grid.mk g.width g.height
        (g.cells.set (y * g.width + x) ((g.cells.getD (y * g.width + x) 0) ||| d)) := rfl

theorem toNat_add_one (x : Nat) : ((x : Int) + 1).toNat = x + 1 := by omega

theorem toNat_add_zero (x : Nat) : ((x : Int) + 0).toNat = x := by omega

theorem toNat_sub_one {x : Nat} (hx : 1 ≤ x) : ((x : Int) + -1).toNat = x - 1 := by omega

theorem carvePath_east {g : Grid} {x y : Nat} (hx : x + 1 < g.width) (hy : y < g.height) :
    g.carvePath x y EAST =
      doubleUpd g (y * g.width + x) EAST (y * g.width + (x + 1)) WEST Nat.ldiff := by
  rw [carvePath_eq]
  rw [if_pos (by simp [DX, DY, EAST, NORTH, SOUTH, WEST]; omega)]
  simp [DX, DY, EAST, NORTH, SOUTH, WEST, OPPOSITE, toNat_add_one, toNat_add_zero]

theorem carvePath_west {g : Grid} {x y : Nat} (hx1 : 1 ≤ x) (hx : x < g.width)
    (hy : y < g.height) :
    g.carvePath x y WEST =
      doubleUpd g (y * g.width + x) WEST (y * g.width + (x - 1)) EAST Nat.ldiff := by
  rw [carvePath_eq]
  rw [if_pos (by simp [DX, DY, EAST, NORTH, SOUTH, WEST]; omega)]
  simp [DX, DY, EAST, NORTH, SOUTH, WEST, OPPOSITE, toNat_sub_one hx1, toNat_add_zero]

theorem carvePath_south {g : Grid} {x y : Nat} (hx : x < g.width) (hy : y + 1 < g.height) :
    g.carvePath x y SOUTH =
      doubleUpd g (y * g.width + x) SOUTH ((y + 1) * g.width + x) NORTH Nat.ldiff := by
  rw [carvePath_eq]
  rw [if_pos (by simp [DX, DY, EAST, NORTH, SOUTH, WEST]; omega)]
  simp [DX, DY, EAST, NORTH, SOUTH, WEST, OPPOSITE, toNat_add_one, toNat_add_zero]

theorem carvePath_north {g : Grid} {x y : Nat} (hx : x < g.width) (hy1 : 1 ≤ y)
    (hy : y < g.height) :
    g.carvePath x y NORTH =
      doubleUpd g (y * g.width + x) NORTH ((y - 1) * g.width + x) SOUTH Nat.ldiff := by
  rw [carvePath_eq]
  rw [if_pos (by simp [DX, DY, EAST, NORTH, SOUTH, WEST]; omega)]
  simp [DX, DY, EAST, NORTH, SOUTH, WEST, OPPOSITE, toNat_sub_one hy1, toNat_add_zero]

theorem idx_ne_row {w a b x y : Nat} (ha : a < w) (hx : x < w) (hne : b ≠ y) :
    b * w + a ≠ y * w + x := fun h => hne (idx_inj ha hx h).2

theorem validE : ValidDir EAST := Or.inr (Or.inl rfl)
theorem validW : ValidDir WEST := Or.inr (Or.inr (Or.inr rfl))
theorem validN : ValidDir NORTH := Or.inl rfl
theorem validS : ValidDir SOUTH := Or.inr (Or.inr (Or.inl rfl))

theorem hasWall_cells (g : Grid) (a b e : Nat) :
    g.hasWall a b e = ((g.cell (b * g.width + a)) &&& e != 0) := rfl

/-- Updating the two bits of one horizontal wall pair in tandem preserves wall
symmetry, whether the update clears both (carving) or sets both (adding). -/
theorem wallSym_updPairH {g : Grid} (hlen : g.cells.length = g.width * g.height)
    {x y : Nat} (hx : x + 1 < g.width) (hy : y < g.height) (hs : WallSym g)
    (f : Nat → Nat → Nat) (c : Bool)
    (hSame : ∀ v b, ValidDir b → (((f v b) &&& b != 0) = c))
    (hOther : ∀ v b e, ValidDir b → ValidDir e → b ≠ e → (f v b) &&& e = v &&& e) :
    WallSym (doubleUpd g (y * g.width + x) EAST (y * g.width + (x + 1)) WEST f) := by
  set w := g.width with hw
  have hne : y * w + x ≠ y * w + (x + 1) := by omega
  have h1 : y * w + x < g.cells.length := by
    rw [hlen]; exact idx_lt (by omega) hy
  have h2 : y * w + (x + 1) < g.cells.length := by
    rw [hlen]; exact idx_lt hx hy
  have hcell := cell_doubleUpd2 EAST WEST f hne h1 h2
  constructor
  · intro a b ha hb
    rw [hasWall_cells, hasWall_cells]
    have hwidth : (doubleUpd g (y * w + x) EAST (y * w + (x + 1)) WEST f).width = w := rfl
    rw [hwidth] at ha ⊢
    rw [hcell, hcell]
    by_cases hby : b = y
    · subst hby
      by_cases hax : a = x
      · subst hax
        rw [if_neg (by omega), if_pos (by omega), if_pos (by omega)]
        rw [hSame _ EAST validE, hSame _ WEST validW]
      · by_cases hax1 : a = x + 1
        · subst hax1
          rw [if_pos (by omega), if_neg (by omega), if_neg (by omega)]
          rw [hOther _ WEST EAST validW validE (by decide)]
          exact hs.1 (x + 1) b (by omega) hb
        · by_cases hax2 : a + 1 = x
          · rw [if_neg (by omega), if_neg (by omega), if_neg (by omega),
              if_pos (by omega)]
            rw [hOther _ EAST WEST validE validW (by decide)]
            have hprev := hs.1 a b (by omega) hb
            rw [hasWall_cells, hasWall_cells] at hprev
            rw [← hw] at hprev
            rw [show b * w + x = b * w + (a + 1) by omega]
            exact hprev
          · rw [if_neg (by omega), if_neg (by omega), if_neg (by omega),
              if_neg (by omega)]
            exact hs.1 a b (by omega) hb
    · rw [if_neg (idx_ne_row (by omega) hx hby), if_neg (idx_ne_row (by omega) (by omega) hby),
        if_neg (idx_ne_row (by omega) hx hby), if_neg (idx_ne_row (by omega) (by omega) hby)]
      exact hs.1 a b (by omega) hb
  · intro a b ha hb
    rw [hasWall_cells, hasWall_cells]
    have hwidth : (doubleUpd g (y * w + x) EAST (y * w + (x + 1)) WEST f).width = w := rfl
    rw [hwidth] at ha ⊢
    rw [hcell, hcell]
    have huntouched : ∀ j e, ValidDir e → e ≠ EAST → e ≠ WEST →
        (if j = y * w + (x + 1) then f (g.cell (y * w + (x + 1))) WEST
          else if j = y * w + x then f (g.cell (y * w + x)) EAST else g.cell j) &&& e =
          g.cell j &&& e := by
      intro j e he heE heW
      split_ifs with hc1 hc2
      · rw [hOther _ WEST e validW he (fun hh => heW hh.symm), hc1]
      · rw [hOther _ EAST e validE he (fun hh => heE hh.symm), hc2]
      · rfl
    have hS := huntouched (b * w + a) SOUTH validS (by decide) (by decide)
    have hN := huntouched ((b + 1) * w + a) NORTH validN (by decide) (by decide)
    rw [hS, hN]
    have hsv := hs.2 a b ha hb
    rw [hasWall_cells, hasWall_cells] at hsv
    rw [← hw] at hsv
    exact hsv

theorem idx_eq_iff {w a b x y : Nat} (ha : a < w) (hx : x < w) :
    (b * w + a = y * w + x) ↔ (a = x ∧ b = y) := by
  constructor
  · exact idx_inj ha hx
  · rintro ⟨rfl, rfl⟩; rfl

/-- Updating the two bits of one vertical wall pair in tandem preserves wall
symmetry. -/
theorem wallSym_updPairV {g : Grid} (hlen : g.cells.length = g.width * g.height)
    {x y : Nat} (hx : x < g.width) (hy : y + 1 < g.height) (hs : WallSym g)
    (f : Nat → Nat → Nat) (c : Bool)
    (hSame : ∀ v b, ValidDir b → (((f v b) &&& b != 0) = c))
    (hOther : ∀ v b e, ValidDir b → ValidDir e → b ≠ e → (f v b) &&& e = v &&& e) :
    WallSym (doubleUpd g (y * g.width + x) SOUTH ((y + 1) * g.width + x) NORTH f) := by
  set w := g.width with hw
  have hne : y * w + x ≠ (y + 1) * w + x := by
    intro hcontr
    have := (idx_eq_iff hx hx).mp hcontr.symm
    omega
  have h1 : y * w + x < g.cells.length := by
    rw [hlen]; exact idx_lt hx (by omega)
  have h2 : (y + 1) * w + x < g.cells.length := by
    rw [hlen]; exact idx_lt hx hy
  have hcell := cell_doubleUpd2 SOUTH NORTH f hne h1 h2
  constructor
  · intro a b ha hb
    rw [hasWall_cells, hasWall_cells]
    have hwidth : (doubleUpd g (y * w + x) SOUTH ((y + 1) * w + x) NORTH f).width = w := rfl
    rw [hwidth] at ha ⊢
    rw [hcell, hcell]
    have huntouched : ∀ j e, ValidDir e → e ≠ SOUTH → e ≠ NORTH →
        (if j = (y + 1) * w + x then f (g.cell ((y + 1) * w + x)) NORTH
          else if j = y * w + x then f (g.cell (y * w + x)) SOUTH else g.cell j) &&& e =
          g.cell j &&& e := by
      intro j e he heS heN
      split_ifs with hc1 hc2
      · rw [hOther _ NORTH e validN he (fun hh => heN hh.symm), hc1]
      · rw [hOther _ SOUTH e validS he (fun hh => heS hh.symm), hc2]
      · rfl
    rw [huntouched (b * w + a) EAST validE (by decide) (by decide),
      huntouched (b * w + (a + 1)) WEST validW (by decide) (by decide)]
    have hsv := hs.1 a b ha hb
    rw [hasWall_cells, hasWall_cells] at hsv
    rw [← hw] at hsv
    exact hsv
  · intro a b ha hb
    rw [hasWall_cells, hasWall_cells]
    have hwidth : (doubleUpd g (y * w + x) SOUTH ((y + 1) * w + x) NORTH f).width = w := rfl
    rw [hwidth] at ha ⊢
    have hh : (doubleUpd g (y * w + x) SOUTH ((y + 1) * w + x) NORTH f).height = g.height :=
      rfl
    rw [hh] at hb
    rw [hcell, hcell]
    by_cases hax : a = x
    · subst hax
      by_cases hby : b = y
      · subst hby
        rw [if_neg (fun hcontr => by have := (idx_eq_iff hx hx).mp hcontr; omega),
          if_pos rfl, if_pos rfl]
        rw [hSame _ SOUTH validS, hSame _ NORTH validN]
      · by_cases hby1 : b = y + 1
        · subst hby1
          rw [if_pos rfl,
            if_neg (fun hcontr => by have := (idx_eq_iff hx hx).mp hcontr; omega),
            if_neg (fun hcontr => by have := (idx_eq_iff hx hx).mp hcontr; omega)]
          rw [hOther _ NORTH SOUTH validN validS (by decide)]
          exact hs.2 a (y + 1) ha hb
        · by_cases hby2 : b + 1 = y
          · rw [if_neg (fun hcontr => by have := (idx_eq_iff hx hx).mp hcontr; omega),
              if_neg (fun hcontr => by have := (idx_eq_iff hx hx).mp hcontr; omega),
              if_neg (fun hcontr => by have := (idx_eq_iff hx hx).mp hcontr; omega),
              if_pos (by rw [hby2])]
            rw [hOther _ SOUTH NORTH validS validN (by decide)]
            have hprev := hs.2 a b ha hb
            rw [hasWall_cells, hasWall_cells] at hprev
            rw [← hw] at hprev
            rw [show y * w + a = (b + 1) * w + a by rw [hby2]]
            exact hprev
          · rw [if_neg (fun hcontr => by have := (idx_eq_iff hx hx).mp hcontr; omega),
              if_neg (fun hcontr => by have := (idx_eq_iff hx hx).mp hcontr; omega),
              if_neg (fun hcontr => by have := (idx_eq_iff hx hx).mp hcontr; omega),
              if_neg (fun hcontr => by have := (idx_eq_iff hx hx).mp hcontr; omega)]
            exact hs.2 a b ha hb
    · rw [if_neg (fun hcontr => by have := (idx_eq_iff ha hx).mp hcontr; omega),
        if_neg (fun hcontr => by have := (idx_eq_iff ha hx).mp hcontr; omega),
        if_neg (fun hcontr => by have := (idx_eq_iff ha hx).mp hcontr; omega),
        if_neg (fun hcontr => by have := (idx_eq_iff ha hx).mp hcontr; omega)]
      exact hs.2 a b ha hb

theorem ldiff_same_bool {d : Nat} (hd : ValidDir d) (v : Nat) :
    ((Nat.ldiff v d &&& d) != 0) = false := by
  rw [hw_ldiff_same hd]; rfl

theorem or_same_bool {d : Nat} (hd : ValidDir d) (v : Nat) :
    (((v ||| d) &&& d) != 0) = true := by
  rw [hw_or_same hd]
  exact bne_iff_ne.mpr (validDir_ne_zero hd)

/-- Setting one wall bit whose neighbor is out of bounds preserves wall
symmetry: the bit belongs to no in-bounds adjacent pair. -/
theorem wallSym_setBitOob {g : Grid} (hlen : g.cells.length = g.width * g.height)
    {x y d : Nat} (hd : ValidDir d) (hx : x < g.width) (hy : y < g.height)
    (hoob : (x : Int) + DX d < 0 ∨ (g.width : Int) ≤ (x : Int) + DX d ∨
      (y : Int) + DY d < 0 ∨ (g.height : Int) ≤ (y : Int) + DY d)
    (hs : WallSym g) :
    WallSym (Grid.mk g.width g.height
      (g.cells.set (y * g.width + x) ((g.cells.getD (y * g.width + x) 0) ||| d))) := by
  set w := g.width with hw
  have h1 : y * w + x < g.cells.length := by rw [hlen]; exact idx_lt hx hy
  have hcs := cell_set (g := g) (i := y * w + x) h1 ((g.cells.getD (y * w + x) 0) ||| d)
  have hcellg : ∀ j, g.cells.getD j 0 = g.cell j := fun j => rfl
  have hq : ∀ j e, ValidDir e → e ≠ d →
      ((Grid.mk w g.height
        (g.cells.set (y * w + x) ((g.cells.getD (y * w + x) 0) ||| d))).cell j) &&& e =
        g.cell j &&& e := by
    intro j e he hne
    rw [hcs j]
    split_ifs with hj
    · rw [hcellg, hw_or_ne hd he (fun hh => hne hh.symm), hj]
    · rfl
  have hqd : ∀ j, j ≠ y * w + x →
      ((Grid.mk w g.height
        (g.cells.set (y * w + x) ((g.cells.getD (y * w + x) 0) ||| d))).cell j) =
        g.cell j := by
    intro j hj
    rw [hcs j, if_neg hj]
  constructor
  · intro a b ha hb
    have ha2 : a + 1 < w := ha
    have hb2 : b < g.height := hb
    rw [hasWall_cells, hasWall_cells]
    by_cases hdE : d = EAST
    · subst hdE
      have hxw : ¬(x + 1 < w) := by
        simp only [DX, DY, EAST, NORTH, SOUTH, WEST] at hoob
        norm_num at hoob
        omega
      rw [hqd (b * w + a) (fun hcontr => by
        have := (idx_eq_iff (by omega) hx).mp hcontr; omega)]
      rw [hq (b * w + (a + 1)) WEST validW (by decide)]
      exact hs.1 a b ha2 hb2
    · by_cases hdW : d = WEST
      · subst hdW
        have hx0 : x = 0 := by
          simp only [DX, DY, EAST, NORTH, SOUTH, WEST] at hoob
          norm_num at hoob
          omega
        rw [hq (b * w + a) EAST validE (by decide)]
        rw [hqd (b * w + (a + 1)) (fun hcontr => by
          have := (idx_eq_iff (by omega) hx).mp hcontr; omega)]
        exact hs.1 a b ha2 hb2
      · rw [hq _ EAST validE (fun hh => hdE hh.symm),
          hq _ WEST validW (fun hh => hdW hh.symm)]
        exact hs.1 a b ha2 hb2
  · intro a b ha hb
    have ha2 : a < w := ha
    have hb2 : b + 1 < g.height := hb
    rw [hasWall_cells, hasWall_cells]
    by_cases hdS : d = SOUTH
    · subst hdS
      have hyh : ¬(y + 1 < g.height) := by
        simp only [DX, DY, EAST, NORTH, SOUTH, WEST] at hoob
        norm_num at hoob
        omega
      rw [hqd (b * w + a) (fun hcontr => by
        have := (idx_eq_iff ha2 hx).mp hcontr; omega)]
      rw [hq ((b + 1) * w + a) NORTH validN (by decide)]
      exact hs.2 a b ha2 hb2
    · by_cases hdN : d = NORTH
      · subst hdN
        have hy0 : y = 0 := by
          simp only [DX, DY, EAST, NORTH, SOUTH, WEST] at hoob
          norm_num at hoob
          omega
        rw [hq (b * w + a) SOUTH validS (by decide)]
        rw [hqd ((b + 1) * w + a) (fun hcontr => by
          have := (idx_eq_iff ha2 hx).mp hcontr; omega)]
        exact hs.2 a b ha2 hb2
      · rw [hq _ SOUTH validS (fun hh => hdS hh.symm),
          hq _ NORTH validN (fun hh => hdN hh.symm)]
        exact hs.2 a b ha2 hb2

/-- `carve_path` with a single-direction bit and in-bounds source preserves
wall symmetry. -/
theorem wallSym_carvePath {g : Grid} (hlen : g.cells.length = g.width * g.height)
    {x y d : Nat} (hd : ValidDir d) (hx : x < g.width) (hy : y < g.height)
    (hs : WallSym g) : WallSym (g.carvePath x y d) := by
  have hOther : ∀ v b e, ValidDir b → ValidDir e → b ≠ e →
      (Nat.ldiff v b) &&& e = v &&& e := fun v b e hb he hne => hw_ldiff_ne hb he hne v
  rcases hd with rfl | rfl | rfl | rfl
  · by_cases hyb : 1 ≤ y
    · rw [carvePath_north hx hyb hy]
      rw [doubleUpd_comm (by
        intro hcontr
        have := (idx_eq_iff hx hx).mp hcontr
        omega)]
      have hform : y = (y - 1) + 1 := by omega
      rw [show y * g.width + x = ((y - 1) + 1) * g.width + x by rw [← hform]]
      exact wallSym_updPairV hlen hx (by omega) hs _ false (fun v b hb => ldiff_same_bool hb v) hOther
    · rw [carvePath_eq, if_neg (by simp [DX, DY, NORTH, EAST, SOUTH, WEST]; omega)]
      exact hs
  · by_cases hxb : x + 1 < g.width
    · rw [carvePath_east hxb hy]
      exact wallSym_updPairH hlen hxb hy hs _ false (fun v b hb => ldiff_same_bool hb v) hOther
    · rw [carvePath_eq, if_neg (by simp [DX, DY, NORTH, EAST, SOUTH, WEST]; omega)]
      exact hs
  · by_cases hyb : y + 1 < g.height
    · rw [carvePath_south hx hyb]
      exact wallSym_updPairV hlen hx hyb hs _ false (fun v b hb => ldiff_same_bool hb v) hOther
    · rw [carvePath_eq, if_neg (by simp [DX, DY, NORTH, EAST, SOUTH, WEST]; omega)]
      exact hs
  · by_cases hxb : 1 ≤ x
    · rw [carvePath_west hxb hx hy]
      rw [doubleUpd_comm (by
        intro hcontr
        have := (idx_eq_iff hx (by omega)).mp hcontr
        omega)]
      have hform : x = (x - 1) + 1 := by omega
      rw [show y * g.width + x = y * g.width + ((x - 1) + 1) by rw [← hform]]
      exact wallSym_updPairH hlen (by omega) hy hs _ false (fun v b hb => ldiff_same_bool hb v) hOther
    · rw [carvePath_eq, if_neg (by simp [DX, DY, NORTH, EAST, SOUTH, WEST]; omega)]
      exact hs

theorem addWall_north {g : Grid} {x y : Nat} (hx : x < g.width) (hy1 : 1 ≤ y)
    (hy : y < g.height) :
    g.addWall x y NORTH =
      doubleUpd g (y * g.width + x) NORTH ((y - 1) * g.width + x) SOUTH
        (fun v b => v ||| b) := by
  rw [addWall_eq]
  rw [if_pos (by simp [DX, DY, EAST, NORTH, SOUTH, WEST]; omega)]
  simp [DX, DY, EAST, NORTH, SOUTH, WEST, OPPOSITE, toNat_sub_one hy1, toNat_add_zero]

theorem addWall_east {g : Grid} {x y : Nat} (hx : x + 1 < g.width) (hy : y < g.height) :
    g.addWall x y EAST =
      doubleUpd g (y * g.width + x) EAST (y * g.width + (x + 1)) WEST
        (fun v b => v ||| b) := by
  rw [addWall_eq]
  rw [if_pos (by simp [DX, DY, EAST, NORTH, SOUTH, WEST]; omega)]
  simp [DX, DY, EAST, NORTH, SOUTH, WEST, OPPOSITE, toNat_add_one, toNat_add_zero]

theorem addWall_south {g : Grid} {x y : Nat} (hx : x < g.width) (hy : y + 1 < g.height) :
    g.addWall x y SOUTH =
      doubleUpd g (y * g.width + x) SOUTH ((y + 1) * g.width + x) NORTH
        (fun v b => v ||| b) := by
  rw [addWall_eq]
  rw [if_pos (by simp [DX, DY, EAST, NORTH, SOUTH, WEST]; omega)]
  simp [DX, DY, EAST, NORTH, SOUTH, WEST, OPPOSITE, toNat_add_one, toNat_add_zero]

theorem addWall_west {g : Grid} {x y : Nat} (hx1 : 1 ≤ x) (hx : x < g.width)
    (hy : y < g.height) :
    g.addWall x y WEST =
      doubleUpd g (y * g.width + x) WEST (y * g.width + (x - 1)) EAST
        (fun v b => v ||| b) := by
  rw [addWall_eq]
  rw [if_pos (by simp [DX, DY, EAST, NORTH, SOUTH, WEST]; omega)]
  simp [DX, DY, EAST, NORTH, SOUTH, WEST, OPPOSITE, toNat_sub_one hx1, toNat_add_zero]

/-- `add_wall` with a single-direction bit and in-bounds source preserves wall
symmetry. -/
theorem wallSym_addWall {g : Grid} (hlen : g.cells.length = g.width * g.height)
    {x y d : Nat} (hd : ValidDir d) (hx : x < g.width) (hy : y < g.height)
    (hs : WallSym g) : WallSym (g.addWall x y d) := by
  have hOther : ∀ v b e, ValidDir b → ValidDir e → b ≠ e →
      (v ||| b) &&& e = v &&& e := fun v b e hb he hne => hw_or_ne hb he hne v
  have hoobCase : ∀ (hcond : ¬(0 ≤ (x : Int) + DX d ∧ (x : Int) + DX d < (g.width : Int) ∧
      0 ≤ (y : Int) + DY d ∧ (y : Int) + DY d < (g.height : Int))),
      WallSym (g.addWall x y d) := by
    intro hcond
    rw [addWall_eq, if_neg hcond]
    exact wallSym_setBitOob hlen hd hx hy (by omega) hs
  rcases hd with rfl | rfl | rfl | rfl
  · by_cases hyb : 1 ≤ y
    · rw [addWall_north hx hyb hy]
      rw [doubleUpd_comm (by
        intro hcontr
        have := (idx_eq_iff hx hx).mp hcontr
        omega)]
      have hform : y = (y - 1) + 1 := by omega
      rw [show y * g.width + x = ((y - 1) + 1) * g.width + x by rw [← hform]]
      exact wallSym_updPairV hlen hx (by omega) hs _ true (fun v b hb => or_same_bool hb v) hOther
    · exact hoobCase (by simp [DX, DY, NORTH, EAST, SOUTH, WEST]; omega)
  · by_cases hxb : x + 1 < g.width
    · rw [addWall_east hxb hy]
      exact wallSym_updPairH hlen hxb hy hs _ true (fun v b hb => or_same_bool hb v) hOther
    · exact hoobCase (by simp [DX, DY, NORTH, EAST, SOUTH, WEST]; omega)
  · by_cases hyb : y + 1 < g.height
    · rw [addWall_south hx hyb]
      exact wallSym_updPairV hlen hx hyb hs _ true (fun v b hb => or_same_bool hb v) hOther
    · exact hoobCase (by simp [DX, DY, NORTH, EAST, SOUTH, WEST]; omega)
  · by_cases hxb : 1 ≤ x
    · rw [addWall_west hxb hx hy]
      rw [doubleUpd_comm (by
        intro hcontr
        have := (idx_eq_iff hx (by omega)).mp hcontr
        omega)]
      have hform : x = (x - 1) + 1 := by omega
      rw [show y * g.width + x = y * g.width + ((x - 1) + 1) by rw [← hform]]
      exact wallSym_updPairH hlen (by omega) hy hs _ true (fun v b hb => or_same_bool hb v) hOther
    · exact hoobCase (by simp [DX, DY, NORTH, EAST, SOUTH, WEST]; omega)


theorem width_carvePath (g : Grid) (x y d : Nat) : (g.carvePath x y d).width = g.width := by
  rw [carvePath_eq]; split <;> rfl

theorem height_carvePath (g : Grid) (x y d : Nat) : (g.carvePath x y d).height = g.height := by
  rw [carvePath_eq]; split <;> rfl

theorem len_carvePath (g : Grid) (x y d : Nat) :
    (g.carvePath x y d).cells.length = g.cells.length := by
  rw [carvePath_eq]; split
  · simp [doubleUpd]
  · rfl

theorem width_addWall (g : Grid) (x y d : Nat) : (g.addWall x y d).width = g.width := by
  rw [addWall_eq]; split <;> rfl

theorem height_addWall (g : Grid) (x y d : Nat) : (g.addWall x y d).height = g.height := by
  rw [addWall_eq]; split <;> rfl

theorem len_addWall (g : Grid) (x y d : Nat) :
    (g.addWall x y d).cells.length = g.cells.length := by
  rw [addWall_eq]; split
  · simp [doubleUpd]
  · simp

/-- The all-walls grid is wall-symmetric: every wall bit of every in-bounds
cell is set. -/
theorem wallSym_mkGrid (w h : Nat) : WallSym (mkGrid w h) := by
  have hcell : ∀ x y, x < w → y < h → (mkGrid w h).cell (y * w + x) = ALL_WALLS := by
    intro x y hx hy
    unfold mkGrid Grid.cell
    simp only []
    rw [getD_replicate, if_pos (idx_lt hx hy)]
  constructor
  · intro x y hx hy
    rw [hasWall_cells, hasWall_cells]
    have hw : (mkGrid w h).width = w := rfl
    rw [hw] at hx ⊢
    rw [hcell x y (by omega) hy, hcell (x + 1) y hx hy]
    decide
  · intro x y hx hy
    rw [hasWall_cells, hasWall_cells]
    have hw : (mkGrid w h).width = w := rfl
    have hh : (mkGrid w h).height = h := rfl
    rw [hw] at hx ⊢
    rw [hh] at hy
    rw [hcell x y hx (by omega), hcell x (y + 1) hx hy]
    decide

/-- A grid mutation: one `carve_path` or one `add_wall` call. -/
inductive GridOp where
  | carve : Nat → Nat → Nat → GridOp
  | wall : Nat → Nat → Nat → GridOp
  deriving Repr, DecidableEq

/-- An operation with a single-direction bit and an in-bounds source cell. -/
def ValidOp (w h : Nat) : GridOp → Prop
  | GridOp.carve x y d => ValidDir d ∧ x < w ∧ y < h
  | GridOp.wall x y d => ValidDir d ∧ x < w ∧ y < h

instance (w h : Nat) (op : GridOp) : Decidable (ValidOp w h op) := by
  cases op <;> (dsimp [ValidOp]; infer_instance)

def applyOp (g : Grid) : GridOp → Grid
  | GridOp.carve x y d => g.carvePath x y d
  | GridOp.wall x y d => g.addWall x y d

def applyOps (g : Grid) (ops : List GridOp) : Grid := ops.foldl applyOp g

theorem wallSym_applyOps {w h : Nat} (ops : List GridOp) :
    ∀ g : Grid, g.width = w → g.height = h → g.cells.length = w * h → WallSym g →
    (∀ op ∈ ops, ValidOp w h op) → WallSym (applyOps g ops) := by
  induction ops with
  | nil => exact fun g _ _ _ hs _ => hs
  | cons op rest ih =>
    intro g hgw hgh hglen hs hops
    have hop := hops op (List.mem_cons_self op rest)
    have hrest := fun o ho => hops o (List.mem_cons_of_mem _ ho)
    show WallSym (applyOps (applyOp g op) rest)
    have hlen2 : g.cells.length = g.width * g.height := by rw [hgw, hgh]; exact hglen
    cases op with
    | carve x y d =>
      obtain ⟨hd, hx, hy⟩ := hop
      exact ih (g.carvePath x y d)
        (by rw [width_carvePath, hgw])
        (by rw [height_carvePath, hgh])
        (by rw [len_carvePath, hglen])
        (wallSym_carvePath hlen2 hd (by omega) (by omega) hs) hrest
    | wall x y d =>
      obtain ⟨hd, hx, hy⟩ := hop
      exact ih (g.addWall x y d)
        (by rw [width_addWall, hgw])
        (by rw [height_addWall, hgh])
        (by rw [len_addWall, hglen])
        (wallSym_addWall hlen2 hd (by omega) (by omega) hs) hrest

/-- C1: wall symmetry is an invariant of every grid mutator — after any
sequence of `carve_path` and `add_wall` operations (single-direction bits,
in-bounds source cells) starting from the all-walls grid, `has_wall` on any
cell toward a lattice-adjacent cell equals `has_wall` on that cell back toward
the first. -/
theorem c1_wall_symmetry (w h : Nat) (ops : List GridOp)
    (hops : ∀ op ∈ ops, ValidOp w h op) :
    WallSym (applyOps (mkGrid w h) ops) :=
  wallSym_applyOps ops (mkGrid w h) rfl rfl (by simp [mkGrid]) (wallSym_mkGrid w h) hops

/-- Witness for C1 at a concrete op sequence on a 2-by-2 grid. -/
theorem c1_wall_symmetry_witness :
    (∀ op ∈ [GridOp.carve 0 0 EAST, GridOp.carve 0 0 SOUTH, GridOp.wall 1 1 NORTH],
      ValidOp 2 2 op) ∧
    WallSym (applyOps (mkGrid 2 2)
      [GridOp.carve 0 0 EAST, GridOp.carve 0 0 SOUTH, GridOp.wall 1 1 NORTH]) :=
  ⟨by decide, c1_wall_symmetry 2 2 _ (by decide)⟩


/-! ### Serializer, from `maze_engine/io/serializer.py`

Files are byte lists. The JSON metadata payload is modelled as its encoded
byte string, and zlib compression as an abstract pair of functions; both are
external collaborators of the serializer. -/

def MAGIC : List Nat := [77, 65, 90, 69]

def VERSION : Nat := 1

def FLAG_COMPRESSED : Nat := 1

def FLAG_SEED_ONLY : Nat := 2

/-- Little-endian 4-byte encoding, as `struct.pack("I", n)` on x86. -/
def u32le (n : Nat) : List Nat :=
  [n % 256, n / 256 % 256, n / 2 ^ 16 % 256, n / 2 ^ 24 % 256]

/-- Little-endian 2-byte encoding, as `struct.pack("H", n)`. -/
def u16le (n : Nat) : List Nat := [n % 256, n / 256 % 256]

/-- `MazeSerializer.save`: header, metadata and payload bytes. `comp` stands
for `zlib.compress`. -/
def save (g : Grid) (metaBytes : List Nat) (seedOnly compressFlag : Bool)
    (comp : List Nat → List Nat) : List Nat :=
  let flags := (if compressFlag then FLAG_COMPRESSED else 0) |||
    (if seedOnly then FLAG_SEED_ONLY else 0)
  MAGIC ++ [VERSION] ++ [flags] ++ u32le g.width ++ u32le g.height ++
    u16le metaBytes.length ++ metaBytes ++
    (if seedOnly then u32le 0
     else
       let data := if compressFlag then comp g.cells else g.cells
       u32le data.length ++ data)

/-- `struct.unpack("B", f.read(1))`: one byte, or an error on a short read. -/
def parseU8 (s : List Nat) : Option (Nat × List Nat) :=
  match s with
  | b0 :: rest => some (b0, rest)
  | _ => none

/-- `struct.unpack("H", f.read(2))`. -/
def parseU16 (s : List Nat) : Option (Nat × List Nat) :=
  match s with
  | b0 :: b1 :: rest => some (b0 + 256 * b1, rest)
  | _ => none

/-- `struct.unpack("I", f.read(4))`. -/
def parseU32 (s : List Nat) : Option (Nat × List Nat) :=
  match s with
  | b0 :: b1 :: b2 :: b3 :: rest =>
    some (b0 + 256 * b1 + 2 ^ 16 * b2 + 2 ^ 24 * b3, rest)
  | _ => none

/-- `MazeSerializer.load`. The magic bytes are compared; the version byte is
read but its value is not compared to anything. `decomp` stands for
`zlib.decompress`; a `struct` short read raises, modelled as an error. -/
def load (file : List Nat) (decomp : List Nat → List Nat) :
    Except String (Grid × List Nat) :=
  let magic := file.take 4
  if magic ≠ MAGIC then Except.error "Invalid file format"
  else
    match parseU8 (file.drop 4) with
    | none => Except.error "unpack"
    | some (_, r1) =>
      match parseU8 r1 with
      | none => Except.error "unpack"
      | some (flags, r2) =>
        match parseU32 r2 with
        | none => Except.error "unpack"
        | some (width, r3) =>
          match parseU32 r3 with
          | none => Except.error "unpack"
          | some (height, r4) =>
            match parseU16 r4 with
            | none => Except.error "unpack"
            | some (metaLen, r5) =>
              let metaBytes := r5.take metaLen
              let r6 := r5.drop metaLen
              match parseU32 r6 with
              | none => Except.error "unpack"
              | some (dataLen, r7) =>
                if flags &&& FLAG_SEED_ONLY ≠ 0 then
                  Except.ok (mkGrid width height, metaBytes)
                else if dataLen > 0 then
                  let data := r7.take dataLen
                  let data2 := if flags &&& FLAG_COMPRESSED ≠ 0 then decomp data else data
                  Except.ok (Grid.mk width height data2, metaBytes)
                else
                  Except.ok (mkGrid width height, metaBytes)

theorem parseU8_cons (b : Nat) (rest : List Nat) : parseU8 (b :: rest) = some (b, rest) := rfl

theorem parseU16_u16le {n : Nat} (hn : n < 2 ^ 16) (rest : List Nat) :
    parseU16 (u16le n ++ rest) = some (n, rest) := by
  unfold u16le parseU16
  simp only [List.cons_append, List.nil_append]
  congr 1
  congr 1
  omega

theorem parseU32_u32le {n : Nat} (hn : n < 2 ^ 32) (rest : List Nat) :
    parseU32 (u32le n ++ rest) = some (n, rest) := by
  unfold u32le parseU32
  simp only [List.cons_append, List.nil_append]
  congr 1
  congr 1
  omega

theorem take_magic (rest : List Nat) : (MAGIC ++ rest).take 4 = MAGIC := rfl

/-- Parsing a file in the exact layout `save` writes, through the metadata
field. -/
theorem load_header (flags w h : Nat) (metaBytes tail : List Nat)
    (decomp : List Nat → List Nat)
    (hw : w < 2 ^ 32) (hh : h < 2 ^ 32) (hml : metaBytes.length < 2 ^ 16) :
    load (MAGIC ++ [VERSION] ++ [flags] ++ u32le w ++ u32le h ++
      u16le metaBytes.length ++ metaBytes ++ tail) decomp =
      (match parseU32 tail with
       | none => Except.error "unpack"
       | some (dataLen, r7) =>
         if flags &&& FLAG_SEED_ONLY ≠ 0 then Except.ok (mkGrid w h, metaBytes)
         else if dataLen > 0 then
           let data := r7.take dataLen
           let data2 := if flags &&& FLAG_COMPRESSED ≠ 0 then decomp data else data
           Except.ok (Grid.mk w h data2, metaBytes)
         else Except.ok (mkGrid w h, metaBytes)) := by
  have hshape : MAGIC ++ [VERSION] ++ [flags] ++ u32le w ++ u32le h ++
      u16le metaBytes.length ++ metaBytes ++ tail =
      MAGIC ++ (VERSION :: flags ::
        (u32le w ++ (u32le h ++ (u16le metaBytes.length ++ (metaBytes ++ tail))))) := by
    simp [List.append_assoc]
  rw [hshape]
  unfold load
  rw [if_neg (by rw [take_magic]; exact fun hcontr => absurd hcontr (by simp))]
  have hdrop : (MAGIC ++ (VERSION :: flags ::
      (u32le w ++ (u32le h ++ (u16le metaBytes.length ++ (metaBytes ++ tail)))))).drop 4 =
      VERSION :: flags ::
        (u32le w ++ (u32le h ++ (u16le metaBytes.length ++ (metaBytes ++ tail)))) := rfl
  rw [hdrop]
  simp only [parseU8_cons, parseU32_u32le hw, parseU32_u32le hh, parseU16_u16le hml,
    List.take_left, List.drop_left]

/-- C8: save followed by load is the identity on the cell array, width and
height, for both the raw and the compressed payload modes (`comp`/`decomp`
standing for `zlib.compress`/`zlib.decompress`, which invert each other and
produce nonempty output). -/
theorem c8_save_load_roundtrip (g : Grid) (metaBytes : List Nat)
    (compressFlag : Bool) (comp decomp : List Nat → List Nat)
    (hinv : decomp (comp g.cells) = g.cells)
    (hcompPos : 0 < (comp g.cells).length)
    (hcompLen : (comp g.cells).length < 2 ^ 32)
    (hcells : g.cells.length < 2 ^ 32)
    (hlen : g.cells.length = g.width * g.height)
    (hw : g.width < 2 ^ 32) (hh : g.height < 2 ^ 32)
    (hml : metaBytes.length < 2 ^ 16) :
    load (save g metaBytes false compressFlag comp) decomp =
      Except.ok (g, metaBytes) := by
  unfold save
  rcases compressFlag with _ | _
  · simp only [Bool.false_eq_true, if_false]
    rw [show ((0 : Nat) ||| 0) = 0 by rfl]
    rw [load_header 0 g.width g.height metaBytes _ decomp hw hh hml]
    rw [parseU32_u32le hcells]
    dsimp only
    rw [if_neg (by decide)]
    by_cases hpos : g.cells.length > 0
    · rw [if_pos hpos]
      simp only [List.take_length]
      rw [if_neg (by decide)]
    · rw [if_neg hpos]
      have hnil : g.cells = [] := List.eq_nil_of_length_eq_zero (by omega)
      have hwh : g.width * g.height = 0 := by omega
      unfold mkGrid
      rw [hwh]
      simp only [List.replicate_zero]
      rw [← hnil]
  · simp only [Bool.false_eq_true, if_false, if_true]
    rw [show (FLAG_COMPRESSED ||| 0) = 1 by rfl]
    rw [load_header 1 g.width g.height metaBytes _ decomp hw hh hml]
    rw [parseU32_u32le hcompLen]
    dsimp only
    rw [if_neg (by decide)]
    rw [if_pos hcompPos]
    simp only [List.take_length]
    rw [if_pos (by decide)]
    rw [hinv]

/-- Witness for C8 on a concrete 1-by-1 grid with identity compression. -/
theorem c8_save_load_roundtrip_witness :
    (id (id (mkGrid 1 1).cells) = (mkGrid 1 1).cells ∧
      0 < (id (mkGrid 1 1).cells).length ∧
      (id (mkGrid 1 1).cells).length < 2 ^ 32 ∧
      (mkGrid 1 1).cells.length < 2 ^ 32 ∧
      (mkGrid 1 1).cells.length = (mkGrid 1 1).width * (mkGrid 1 1).height ∧
      (mkGrid 1 1).width < 2 ^ 32 ∧ (mkGrid 1 1).height < 2 ^ 32 ∧
      ([] : List Nat).length < 2 ^ 16) ∧
    load (save (mkGrid 1 1) [] false true id) id = Except.ok (mkGrid 1 1, []) :=
  ⟨⟨rfl, by decide, by decide, by decide, by decide, by decide, by decide, by decide⟩,
    c8_save_load_roundtrip (mkGrid 1 1) [] true id id rfl (by decide) (by decide)
      (by decide) (by decide) (by decide) (by decide) (by decide)⟩

/-- C9 counterexample: a file whose version byte is 2 (not the expected
`VERSION = 1`) loads successfully and returns a grid, so a version mismatch
does not fail. -/
theorem c9_version_not_checked_counterexample :
    (2 : Nat) ≠ VERSION ∧
    load (MAGIC ++ 2 :: 0 :: (u32le 1 ++ u32le 1 ++ u16le 0 ++ u32le 1 ++ [15])) id =
      Except.ok (Grid.mk 1 1 [15], []) := by
  constructor
  · decide
  · rfl

/-- C9 amended: loading a file whose magic bytes mismatch fails outright with
no grid; the version byte is read but never compared, so files differing only
in the version byte load identically. -/
theorem c9_amended_magic_checked_version_ignored :
    (∀ (file : List Nat) (decomp : List Nat → List Nat), file.take 4 ≠ MAGIC →
      load file decomp = Except.error "Invalid file format") ∧
    (∀ (v1 v2 : Nat) (rest : List Nat) (decomp : List Nat → List Nat),
      load (MAGIC ++ v1 :: rest) decomp = load (MAGIC ++ v2 :: rest) decomp) := by
  constructor
  · intro file decomp hmagic
    unfold load
    rw [if_pos hmagic]
  · intro v1 v2 rest decomp
    unfold load
    rw [if_neg (fun hcontr => hcontr (take_magic _)), if_neg (fun hcontr => hcontr (take_magic _))]
    rfl

/-- Witness for the amended C9 at concrete inputs. -/
theorem c9_amended_witness :
    ([1, 2, 3].take 4 ≠ MAGIC) ∧
    load [1, 2, 3] id = Except.error "Invalid file format" :=
  ⟨by decide, c9_amended_magic_checked_version_ignored.1 [1, 2, 3] id (by decide)⟩

/-- C10: loading a seed-only file returns the stored metadata bytes and a
freshly constructed grid of the stored width and height whose every cell byte
is the all-walls value 15. -/
theorem c10_seed_only_load (g : Grid) (metaBytes : List Nat) (compressFlag : Bool)
    (comp decomp : List Nat → List Nat)
    (hw : g.width < 2 ^ 32) (hh : g.height < 2 ^ 32) (hml : metaBytes.length < 2 ^ 16) :
    load (save g metaBytes true compressFlag comp) decomp =
      Except.ok (mkGrid g.width g.height, metaBytes) ∧
    ∀ c ∈ (mkGrid g.width g.height).cells, c = ALL_WALLS := by
  constructor
  · unfold save
    rcases compressFlag with _ | _
    · simp only [Bool.false_eq_true, if_false, if_true]
      rw [show ((0 : Nat) ||| FLAG_SEED_ONLY) = 2 by rfl]
      rw [load_header 2 g.width g.height metaBytes _ decomp hw hh hml]
      rw [show parseU32 (u32le 0) = some (0, []) from rfl]
      dsimp only
      rw [if_pos (by decide)]
    · simp only [Bool.false_eq_true, if_false, if_true]
      rw [show (FLAG_COMPRESSED ||| FLAG_SEED_ONLY) = 3 by rfl]
      rw [load_header 3 g.width g.height metaBytes _ decomp hw hh hml]
      rw [show parseU32 (u32le 0) = some (0, []) from rfl]
      dsimp only
      rw [if_pos (by decide)]
  · intro c hc
    unfold mkGrid at hc
    exact (List.eq_of_mem_replicate hc)

/-- Witness for C10 at a concrete grid and metadata payload. -/
theorem c10_seed_only_load_witness :
    ((mkGrid 3 2).width < 2 ^ 32 ∧ (mkGrid 3 2).height < 2 ^ 32 ∧
      ([7, 7] : List Nat).length < 2 ^ 16) ∧
    (load (save (mkGrid 3 2) [7, 7] true false id) id =
      Except.ok (mkGrid (mkGrid 3 2).width (mkGrid 3 2).height, [7, 7]) ∧
    ∀ c ∈ (mkGrid (mkGrid 3 2).width (mkGrid 3 2).height).cells, c = ALL_WALLS) :=
  ⟨⟨by decide, by decide, by decide⟩,
    c10_seed_only_load (mkGrid 3 2) [7, 7] false id id (by decide) (by decide) (by decide)⟩

/-! ### Bounds behavior of grid operations (claim C7)

`get_index` validates coordinates and raises; the other cell operations index
`cells[y * width + x]` directly with Python list semantics: a negative index
within range silently wraps, and only an index past either end raises. -/

/-- `Grid.get_index`: the only validating accessor. -/
def Grid.getIndex (g : Grid) (x y : Int) : Except String Nat :=
  if 0 ≤ x ∧ x < (g.width : Int) ∧ 0 ≤ y ∧ y < (g.height : Int) then
    Except.ok (y.toNat * g.width + x.toNat)
  else Except.error "out of bounds"

/-- A Python list read `l[i]`: wraps negative indexes within range, raises
(`none`) past either end. -/
def pyGet (l : List Nat) (i : Int) : Option Nat :=
  if 0 ≤ i ∧ i < (l.length : Int) then some (l.getD i.toNat 0)
  else if -(l.length : Int) ≤ i ∧ i < 0 then some (l.getD (i + l.length).toNat 0)
  else none

/-- `Grid.has_wall` on arbitrary integer coordinates: the raw indexing
expression `self.cells[y * self.width + x] & dir_bit != 0`. -/
def Grid.hasWallPy (g : Grid) (x y : Int) (d : Nat) : Option Bool :=
  match pyGet g.cells (y * (g.width : Int) + x) with
  | some v => some (v &&& d != 0)
  | none => none

/-- C7 counterexample: `has_wall` at the out-of-range coordinate (2, 0) of a
2-by-2 grid silently reads an aliased in-range cell and returns a value
instead of failing. -/
theorem c7_out_of_range_counterexample :
    ¬ (mkGrid 2 2).inBounds 2 0 ∧
    (mkGrid 2 2).hasWallPy 2 0 NORTH = some true := by
  constructor
  · decide
  · rfl

/-- C7 amended: `get_index` alone fails fast exactly on out-of-range
coordinates, and neighbor enumeration yields only in-bounds cells; the raw
cell operations such as `has_wall` do not validate their coordinates. -/
theorem c7_amended_bounds_behavior :
    (∀ (g : Grid) (x y : Int), (∃ i, g.getIndex x y = Except.ok i) ↔
      (0 ≤ x ∧ x < (g.width : Int) ∧ 0 ≤ y ∧ y < (g.height : Int))) ∧
    (∀ (g : Grid) (x y : Nat), x < g.width → y < g.height →
      ∀ nx ny d, (nx, ny, d) ∈ g.getNeighbors x y → nx < g.width ∧ ny < g.height) := by
  constructor
  · intro g x y
    unfold Grid.getIndex
    constructor
    · intro ⟨i, hi⟩
      by_cases hc : 0 ≤ x ∧ x < (g.width : Int) ∧ 0 ≤ y ∧ y < (g.height : Int)
      · exact hc
      · rw [if_neg hc] at hi
        exact absurd hi (by simp)
    · intro hc
      exact ⟨_, by rw [if_pos hc]⟩
  · intro g x y hx hy nx ny d hmem
    unfold Grid.getNeighbors at hmem
    simp only [List.mem_append] at hmem
    rcases hmem with ((hmem | hmem) | hmem) | hmem <;>
      (split_ifs at hmem with hcond <;> simp_all <;> omega)

/-- Witness for the amended C7 at a concrete grid and coordinates. -/
theorem c7_amended_witness :
    ((0 : Nat) < (mkGrid 2 2).width ∧ (0 : Nat) < (mkGrid 2 2).height) ∧
    ((1, 0, EAST) ∈ (mkGrid 2 2).getNeighbors 0 0 →
      (1 : Nat) < (mkGrid 2 2).width ∧ (0 : Nat) < (mkGrid 2 2).height) :=
  ⟨⟨by decide, by decide⟩,
    fun hmem => c7_amended_bounds_behavior.2 (mkGrid 2 2) 0 0 (by decide) (by decide)
      1 0 EAST hmem⟩

/-! ### Braiding post-processor, from `maze_engine/core/complexity.py`

The shuffled dead-end list is a parameter constrained to be a permutation of
the scan order, and `rng.choice` is a stream of draws; this covers every
behavior of the seeded `random.Random`. `int(len(dead_ends) * factor)` is 0
for factor 0.0 and `len(dead_ends)` for factor 1.0. -/

/-- Wall-bit popcount, the dead-end test of `MazePostProcessor`. -/
def popcountWalls (v : Nat) : Nat :=
  (if v &&& NORTH ≠ 0 then 1 else 0) + (if v &&& EAST ≠ 0 then 1 else 0) +
  (if v &&& SOUTH ≠ 0 then 1 else 0) + (if v &&& WEST ≠ 0 then 1 else 0)

/-- The dead-end scan: all cells with exactly 3 wall bits, in row-major
order. -/
def scanDeadEnds (g : Grid) : List (Nat × Nat) :=
  (List.range g.height).flatMap (fun y =>
    (List.range g.width).filterMap (fun x =>
      if popcountWalls (g.cell (y * g.width + x)) = 3 then some (x, y) else none))

/-- The number of dead ends, as `calculate_stats` counts them. -/
def countDeadEnds (g : Grid) : Nat := (scanDeadEnds g).length

/-- The closed in-bounds directions of a cell, in the N, S, E, W order the
braid loop collects them. -/
def closedNeighbors (g : Grid) (x y : Nat) : List Nat :=
  (if g.hasWall x y NORTH ∧ y > 0 then [NORTH] else []) ++
  (if g.hasWall x y SOUTH ∧ y < g.height - 1 then [SOUTH] else []) ++
  (if g.hasWall x y EAST ∧ x < g.width - 1 then [EAST] else []) ++
  (if g.hasWall x y WEST ∧ x > 0 then [WEST] else [])

/-- The braid processing loop over the shuffled dead-end candidates. -/
def braidLoop (g : Grid) (cands : List (Nat × Nat)) (target removed : Nat)
    (choice : Nat → Nat) (t : Nat) : Grid × Nat :=
  match cands with
  | [] => (g, removed)
  | (x, y) :: rest =>
    if removed ≥ target then (g, removed)
    else if popcountWalls (g.cell (y * g.width + x)) ≠ 3 then
      braidLoop g rest target removed choice t
    else if (closedNeighbors g x y).length = 0 then
      braidLoop g rest target removed choice t
    else
      braidLoop (g.carvePath x y ((closedNeighbors g x y).getD
        (choice t % (closedNeighbors g x y).length) 0)) rest target
        (removed + 1) choice (t + 1)

/-- `MazePostProcessor.braid` given the shuffled candidate list and the
remove target `int(len(dead_ends) * factor)`. -/
def braid (g : Grid) (shuffled : List (Nat × Nat)) (target : Nat)
    (choice : Nat → Nat) : Grid × Nat :=
  braidLoop g shuffled target 0 choice 0

/-- Braiding with factor 0.0 (target 0) returns the grid unchanged. -/
theorem braid_zero (g : Grid) (shuffled : List (Nat × Nat)) (choice : Nat → Nat) :
    braid g shuffled 0 choice = (g, 0) := by
  unfold braid
  cases shuffled with
  | nil => rfl
  | cons p rest =>
    obtain ⟨x, y⟩ := p
    unfold braidLoop
    rw [if_pos (Nat.le_refl 0)]

theorem popcount_ldiff_le {d : Nat} (hd : ValidDir d) (v : Nat) :
    popcountWalls (Nat.ldiff v d) ≤ popcountWalls v := by
  rcases hd with rfl | rfl | rfl | rfl
  · unfold popcountWalls
    rw [hw_ldiff_same validN, hw_ldiff_ne validN validE (by decide),
      hw_ldiff_ne validN validS (by decide), hw_ldiff_ne validN validW (by decide)]
    split_ifs <;> omega
  · unfold popcountWalls
    rw [hw_ldiff_same validE, hw_ldiff_ne validE validN (by decide),
      hw_ldiff_ne validE validS (by decide), hw_ldiff_ne validE validW (by decide)]
    split_ifs <;> omega
  · unfold popcountWalls
    rw [hw_ldiff_same validS, hw_ldiff_ne validS validN (by decide),
      hw_ldiff_ne validS validE (by decide), hw_ldiff_ne validS validW (by decide)]
    split_ifs <;> omega
  · unfold popcountWalls
    rw [hw_ldiff_same validW, hw_ldiff_ne validW validN (by decide),
      hw_ldiff_ne validW validE (by decide), hw_ldiff_ne validW validS (by decide)]
    split_ifs <;> omega

theorem popcount_ldiff_clear {d : Nat} (hd : ValidDir d) {v : Nat} (hset : v &&& d ≠ 0) :
    popcountWalls (Nat.ldiff v d) + 1 = popcountWalls v := by
  rcases hd with rfl | rfl | rfl | rfl
  · unfold popcountWalls
    rw [hw_ldiff_same validN, hw_ldiff_ne validN validE (by decide),
      hw_ldiff_ne validN validS (by decide), hw_ldiff_ne validN validW (by decide)]
    rw [if_pos hset]
    split_ifs <;> omega
  · unfold popcountWalls
    rw [hw_ldiff_same validE, hw_ldiff_ne validE validN (by decide),
      hw_ldiff_ne validE validS (by decide), hw_ldiff_ne validE validW (by decide)]
    rw [if_pos hset]
    split_ifs <;> omega
  · unfold popcountWalls
    rw [hw_ldiff_same validS, hw_ldiff_ne validS validN (by decide),
      hw_ldiff_ne validS validE (by decide), hw_ldiff_ne validS validW (by decide)]
    rw [if_pos hset]
    split_ifs <;> omega
  · unfold popcountWalls
    rw [hw_ldiff_same validW, hw_ldiff_ne validW validN (by decide),
      hw_ldiff_ne validW validE (by decide), hw_ldiff_ne validW validS (by decide)]
    rw [if_pos hset]
    split_ifs <;> omega

theorem mem_closedNeighbors {g : Grid} {x y d : Nat} (hd : d ∈ closedNeighbors g x y) :
    (d = NORTH ∧ g.hasWall x y NORTH = true ∧ 0 < y) ∨
    (d = SOUTH ∧ g.hasWall x y SOUTH = true ∧ y < g.height - 1) ∨
    (d = EAST ∧ g.hasWall x y EAST = true ∧ x < g.width - 1) ∨
    (d = WEST ∧ g.hasWall x y WEST = true ∧ 0 < x) := by
  unfold closedNeighbors at hd
  simp only [List.mem_append] at hd
  rcases hd with ((hd | hd) | hd) | hd
  · left
    split_ifs at hd with hc
    · simp only [List.mem_singleton] at hd
      exact ⟨hd, hc.1, hc.2⟩
    · simp at hd
  · right; left
    split_ifs at hd with hc
    · simp only [List.mem_singleton] at hd
      exact ⟨hd, hc.1, hc.2⟩
    · simp at hd
  · right; right; left
    split_ifs at hd with hc
    · simp only [List.mem_singleton] at hd
      exact ⟨hd, hc.1, hc.2⟩
    · simp at hd
  · right; right; right
    split_ifs at hd with hc
    · simp only [List.mem_singleton] at hd
      exact ⟨hd, hc.1, hc.2⟩
    · simp at hd

theorem hasWall_false_and {g : Grid} {x y d : Nat}
    (h : ¬ g.hasWall x y d = true) : g.cell (y * g.width + x) &&& d = 0 := by
  unfold Grid.hasWall Grid.idx at h
  simpa using h

/-- A dead-end cell of a grid at least 2 wide and 2 tall always has a closed
in-bounds direction to carve. -/
theorem closedNeighbors_nonempty {g : Grid} {x y : Nat}
    (hw2 : 2 ≤ g.width) (hh2 : 2 ≤ g.height) (hx : x < g.width) (hy : y < g.height)
    (hpc : popcountWalls (g.cell (y * g.width + x)) = 3) :
    closedNeighbors g x y ≠ [] := by
  intro hnil
  unfold closedNeighbors at hnil
  simp only [List.append_eq_nil] at hnil
  obtain ⟨⟨⟨hN, hS⟩, hE⟩, hW⟩ := hnil
  have hNc : ¬(g.hasWall x y NORTH = true ∧ 0 < y) := by
    intro hc; rw [if_pos hc] at hN; exact absurd hN (by simp)
  have hSc : ¬(g.hasWall x y SOUTH = true ∧ y < g.height - 1) := by
    intro hc; rw [if_pos hc] at hS; exact absurd hS (by simp)
  have hEc : ¬(g.hasWall x y EAST = true ∧ x < g.width - 1) := by
    intro hc; rw [if_pos hc] at hE; exact absurd hE (by simp)
  have hWc : ¬(g.hasWall x y WEST = true ∧ 0 < x) := by
    intro hc; rw [if_pos hc] at hW; exact absurd hW (by simp)
  have hvert : g.cell (y * g.width + x) &&& NORTH = 0 ∨
      g.cell (y * g.width + x) &&& SOUTH = 0 := by
    by_cases hy0 : 0 < y
    · left
      exact hasWall_false_and (fun hcontr => hNc ⟨hcontr, hy0⟩)
    · right
      exact hasWall_false_and (fun hcontr => hSc ⟨hcontr, by omega⟩)
  have hhor : g.cell (y * g.width + x) &&& EAST = 0 ∨
      g.cell (y * g.width + x) &&& WEST = 0 := by
    by_cases hx0 : 0 < x
    · right
      exact hasWall_false_and (fun hcontr => hWc ⟨hcontr, hx0⟩)
    · left
      exact hasWall_false_and (fun hcontr => hEc ⟨hcontr, by omega⟩)
  unfold popcountWalls at hpc
  rcases hvert with hv | hv <;> rcases hhor with hhr | hhr <;>
    rw [hv, hhr] at hpc <;> norm_num at hpc <;> split_ifs at hpc <;> omega

theorem hasWall_true_and {g : Grid} {x y d : Nat}
    (h : g.hasWall x y d = true) : g.cell (y * g.width + x) &&& d ≠ 0 := by
  unfold Grid.hasWall Grid.idx at h
  simpa using h

/-- Carving a dead end toward a closed in-bounds direction: the source cell
loses exactly one wall, the neighbor loses at most one, and no other cell
changes. -/
theorem carve_closed_effect {g : Grid} {x y d : Nat}
    (hlen : g.cells.length = g.width * g.height)
    (hx : x < g.width) (hy : y < g.height) (hd : d ∈ closedNeighbors g x y) :
    ∃ nx ny, nx < g.width ∧ ny < g.height ∧ ¬(nx = x ∧ ny = y) ∧
      (g.carvePath x y d).width = g.width ∧
      (g.carvePath x y d).height = g.height ∧
      (g.carvePath x y d).cells.length = g.cells.length ∧
      popcountWalls ((g.carvePath x y d).cell (y * g.width + x)) + 1 =
        popcountWalls (g.cell (y * g.width + x)) ∧
      popcountWalls ((g.carvePath x y d).cell (ny * g.width + nx)) ≤
        popcountWalls (g.cell (ny * g.width + nx)) ∧
      ∀ j, j ≠ y * g.width + x → j ≠ ny * g.width + nx →
        (g.carvePath x y d).cell j = g.cell j := by
  rcases mem_closedNeighbors hd with ⟨rfl, hwall, hcond⟩ | ⟨rfl, hwall, hcond⟩ |
    ⟨rfl, hwall, hcond⟩ | ⟨rfl, hwall, hcond⟩
  · refine ⟨x, y - 1, hx, by omega, by omega, ?_⟩
    rw [carvePath_north hx (by omega) hy]
    have hne : y * g.width + x ≠ (y - 1) * g.width + x := fun hcontr => by
      have := (idx_eq_iff hx hx).mp hcontr; omega
    have h1 : y * g.width + x < g.cells.length := by rw [hlen]; exact idx_lt hx hy
    have h2 : (y - 1) * g.width + x < g.cells.length := by
      rw [hlen]; exact idx_lt hx (by omega)
    have hcell := cell_doubleUpd2 NORTH SOUTH Nat.ldiff hne h1 h2
    refine ⟨rfl, rfl, by simp [doubleUpd], ?_, ?_, ?_⟩
    · rw [hcell, if_neg hne, if_pos rfl]
      exact popcount_ldiff_clear validN (hasWall_true_and hwall)
    · rw [hcell, if_pos rfl]
      exact popcount_ldiff_le validS _
    · intro j hj1 hj2
      rw [hcell, if_neg hj2, if_neg hj1]
  · refine ⟨x, y + 1, hx, by omega, by omega, ?_⟩
    rw [carvePath_south hx (by omega)]
    have hne : y * g.width + x ≠ (y + 1) * g.width + x := fun hcontr => by
      have := (idx_eq_iff hx hx).mp hcontr; omega
    have h1 : y * g.width + x < g.cells.length := by rw [hlen]; exact idx_lt hx hy
    have h2 : (y + 1) * g.width + x < g.cells.length := by
      rw [hlen]; exact idx_lt hx (by omega)
    have hcell := cell_doubleUpd2 SOUTH NORTH Nat.ldiff hne h1 h2
    refine ⟨rfl, rfl, by simp [doubleUpd], ?_, ?_, ?_⟩
    · rw [hcell, if_neg hne, if_pos rfl]
      exact popcount_ldiff_clear validS (hasWall_true_and hwall)
    · rw [hcell, if_pos rfl]
      exact popcount_ldiff_le validN _
    · intro j hj1 hj2
      rw [hcell, if_neg hj2, if_neg hj1]
  · refine ⟨x + 1, y, by omega, hy, by omega, ?_⟩
    rw [carvePath_east (by omega) hy]
    have hne : y * g.width + x ≠ y * g.width + (x + 1) := by omega
    have h1 : y * g.width + x < g.cells.length := by rw [hlen]; exact idx_lt hx hy
    have h2 : y * g.width + (x + 1) < g.cells.length := by
      rw [hlen]; exact idx_lt (by omega) hy
    have hcell := cell_doubleUpd2 EAST WEST Nat.ldiff hne h1 h2
    refine ⟨rfl, rfl, by simp [doubleUpd], ?_, ?_, ?_⟩
    · rw [hcell, if_neg hne, if_pos rfl]
      exact popcount_ldiff_clear validE (hasWall_true_and hwall)
    · rw [hcell, if_pos rfl]
      exact popcount_ldiff_le validW _
    · intro j hj1 hj2
      rw [hcell, if_neg hj2, if_neg hj1]
  · refine ⟨x - 1, y, by omega, hy, by omega, ?_⟩
    rw [carvePath_west (by omega) hx hy]
    have hne : y * g.width + x ≠ y * g.width + (x - 1) := by omega
    have h1 : y * g.width + x < g.cells.length := by rw [hlen]; exact idx_lt hx hy
    have h2 : y * g.width + (x - 1) < g.cells.length := by
      rw [hlen]; exact idx_lt (by omega) hy
    have hcell := cell_doubleUpd2 WEST EAST Nat.ldiff hne h1 h2
    refine ⟨rfl, rfl, by simp [doubleUpd], ?_, ?_, ?_⟩
    · rw [hcell, if_neg hne, if_pos rfl]
      exact popcount_ldiff_clear validW (hasWall_true_and hwall)
    · rw [hcell, if_pos rfl]
      exact popcount_ldiff_le validE _
    · intro j hj1 hj2
      rw [hcell, if_neg hj2, if_neg hj1]

theorem braidLoop_cons (g : Grid) (x y : Nat) (rest : List (Nat × Nat))
    (target removed : Nat) (choice : Nat → Nat) (t : Nat) :
    braidLoop g ((x, y) :: rest) target removed choice t =
      if removed ≥ target then (g, removed)
      else if popcountWalls (g.cell (y * g.width + x)) ≠ 3 then
        braidLoop g rest target removed choice t
      else if (closedNeighbors g x y).length = 0 then
        braidLoop g rest target removed choice t
      else
        braidLoop (g.carvePath x y ((closedNeighbors g x y).getD
          (choice t % (closedNeighbors g x y).length) 0)) rest target
          (removed + 1) choice (t + 1) := rfl

/-- The braid loop with a target covering the whole candidate list leaves no
dead end, given that every dead end is among the candidates, no cell has all
four walls, and the grid is at least 2-by-2. -/
theorem braidLoop_main (choice : Nat → Nat) (cands : List (Nat × Nat)) :
    ∀ (g : Grid) (removed t target : Nat),
    2 ≤ g.width → 2 ≤ g.height → g.cells.length = g.width * g.height →
    (∀ i, i < g.cells.length → popcountWalls (g.cell i) ≤ 3) →
    (∀ p ∈ cands, p.1 < g.width ∧ p.2 < g.height) →
    (∀ x y, x < g.width → y < g.height →
      popcountWalls (g.cell (y * g.width + x)) = 3 → (x, y) ∈ cands) →
    removed + cands.length ≤ target →
    (braidLoop g cands target removed choice t).1.width = g.width ∧
    (braidLoop g cands target removed choice t).1.height = g.height ∧
    ∀ x y, x < g.width → y < g.height →
      popcountWalls ((braidLoop g cands target removed choice t).1.cell
        (y * g.width + x)) ≠ 3 := by
  induction cands with
  | nil =>
    intro g removed t target hw2 hh2 hlen hmax hbnd hcomplete htarget
    refine ⟨rfl, rfl, ?_⟩
    intro x y hx hy hpc
    exact absurd (hcomplete x y hx hy hpc) (List.not_mem_nil _)
  | cons p rest ih =>
    intro g removed t target hw2 hh2 hlen hmax hbnd hcomplete htarget
    obtain ⟨x, y⟩ := p
    have hx : x < g.width := (hbnd (x, y) (List.mem_cons_self _ _)).1
    have hy : y < g.height := (hbnd (x, y) (List.mem_cons_self _ _)).2
    have htlt : ¬ removed ≥ target := by
      simp only [List.length_cons] at htarget
      omega
    rw [braidLoop_cons, if_neg htlt]
    by_cases hpc : popcountWalls (g.cell (y * g.width + x)) = 3
    · rw [if_neg (fun hc => hc hpc)]
      have hclosed : closedNeighbors g x y ≠ [] :=
        closedNeighbors_nonempty hw2 hh2 hx hy hpc
      have hclen : 0 < (closedNeighbors g x y).length := List.length_pos.mpr hclosed
      rw [if_neg (by omega)]
      have hmem : (closedNeighbors g x y).getD
          (choice t % (closedNeighbors g x y).length) 0 ∈ closedNeighbors g x y := by
        rw [List.getD_eq_getElem _ _ (Nat.mod_lt _ hclen)]
        exact List.getElem_mem _
      obtain ⟨nx, ny, hnx, hny, hne2, hWw, hWh, hWlen, hpc1, hpc2, hunch⟩ :=
        carve_closed_effect hlen hx hy hmem
      set d := (closedNeighbors g x y).getD
        (choice t % (closedNeighbors g x y).length) 0 with hd
      set g2 := g.carvePath x y d with hg2
      have hres := ih g2 (removed + 1) (t + 1) target
        (by rw [hWw]; exact hw2) (by rw [hWh]; exact hh2)
        (by rw [hWlen, hWw, hWh]; exact hlen)
        (by
          intro i hi
          rw [hWlen] at hi
          by_cases hi1 : i = y * g.width + x
          · subst hi1
            have := hmax _ hi
            omega
          · by_cases hi2 : i = ny * g.width + nx
            · subst hi2
              have := hmax _ hi
              omega
            · rw [hunch i hi1 hi2]
              exact hmax _ hi)
        (by
          intro q hq
          rw [hWw, hWh]
          exact hbnd q (List.mem_cons_of_mem _ hq))
        (by
          intro a b ha hb h3
          rw [hWw] at ha h3
          rw [hWh] at hb
          by_cases hi1 : b * g.width + a = y * g.width + x
          · exfalso
            rw [hi1] at h3
            omega
          · by_cases hi2 : b * g.width + a = ny * g.width + nx
            · have hab : a = nx ∧ b = ny := idx_inj ha hnx hi2
              rw [hi2] at h3
              have hold : popcountWalls (g.cell (ny * g.width + nx)) = 3 := by
                have hle := hmax (ny * g.width + nx) (by rw [hlen]; exact idx_lt hnx hny)
                omega
              have hmem2 := hcomplete nx ny hnx hny hold
              rcases List.mem_cons.mp hmem2 with heq | hmem3
              · exfalso
                apply hne2
                exact ⟨congrArg Prod.fst heq, congrArg Prod.snd heq⟩
              · rw [hab.1, hab.2]
                exact hmem3
            · rw [hunch _ hi1 hi2] at h3
              have hmem2 := hcomplete a b ha hb h3
              rcases List.mem_cons.mp hmem2 with heq | hmem3
              · exfalso
                apply hi1
                have h1 := congrArg Prod.fst heq
                have h2 := congrArg Prod.snd heq
                simp only [] at h1 h2
                rw [h1, h2]
              · exact hmem3)
        (by
          simp only [List.length_cons] at htarget
          omega)
      obtain ⟨ihw, ihh, ihpc⟩ := hres
      rw [hWw] at ihw
      rw [hWh] at ihh
      refine ⟨ihw, ihh, ?_⟩
      intro a b ha hb
      have hpc3 := ihpc a b (by rw [hWw]; exact ha) (by rw [hWh]; exact hb)
      rw [hWw] at hpc3
      exact hpc3
    · rw [if_pos hpc]
      apply ih g removed t target hw2 hh2 hlen hmax
        (fun q hq => hbnd q (List.mem_cons_of_mem _ hq))
        (by
          intro a b ha hb h3
          rcases List.mem_cons.mp (hcomplete a b ha hb h3) with heq | hmem3
          · exfalso
            apply hpc
            have h1 := congrArg Prod.fst heq
            have h2 := congrArg Prod.snd heq
            simp only [] at h1 h2
            rw [← h1, ← h2]
            exact h3
          · exact hmem3)
        (by
          simp only [List.length_cons] at htarget
          omega)

theorem mem_scanDeadEnds {g : Grid} {x y : Nat} :
    (x, y) ∈ scanDeadEnds g ↔ x < g.width ∧ y < g.height ∧
      popcountWalls (g.cell (y * g.width + x)) = 3 := by
  unfold scanDeadEnds
  simp only [List.mem_flatMap, List.mem_filterMap, List.mem_range]
  constructor
  · rintro ⟨b, hb, a, ha, hsome⟩
    by_cases hc : popcountWalls (g.cell (b * g.width + a)) = 3
    · rw [if_pos hc] at hsome
      simp only [Option.some.injEq, Prod.mk.injEq] at hsome
      obtain ⟨rfl, rfl⟩ := hsome
      exact ⟨ha, hb, hc⟩
    · rw [if_neg hc] at hsome
      exact absurd hsome (by simp)
  · rintro ⟨hx, hy, hpc⟩
    exact ⟨y, hy, x, hx, by rw [if_pos hpc]⟩

theorem countDeadEnds_eq_zero {g : Grid}
    (h : ∀ x y, x < g.width → y < g.height →
      popcountWalls (g.cell (y * g.width + x)) ≠ 3) :
    countDeadEnds g = 0 := by
  unfold countDeadEnds
  rw [List.length_eq_zero]
  apply List.eq_nil_iff_forall_not_mem.mpr
  intro p hp
  obtain ⟨x, y⟩ := p
  have hmem := mem_scanDeadEnds.mp hp
  exact h x y hmem.1 hmem.2.1 hmem.2.2

/-- A 3-by-1 corridor: both end cells are dead ends whose only closed
directions point out of the grid. -/
def braidCexGrid : Grid := ((mkGrid 3 1).carvePath 0 0 EAST).carvePath 1 0 EAST

/-- C5 counterexample: braiding this grid with factor 1.0 (target = number of
dead ends) leaves 2 dead ends, not zero — both dead ends have no closed
in-bounds direction to carve. -/
theorem c5_braid_full_counterexample :
    countDeadEnds braidCexGrid = 2 ∧
    countDeadEnds (braid braidCexGrid (scanDeadEnds braidCexGrid)
      (scanDeadEnds braidCexGrid).length (fun _ => 0)).1 = 2 := by
  constructor
  · decide
  · decide

/-- C5 amended: on a grid at least 2 wide and 2 tall in which no cell has all
four walls, braiding with factor 1.0 (remove target = full dead-end count)
leaves zero dead ends, for every shuffle permutation and every sequence of
`rng.choice` draws; braiding with factor 0.0 (remove target 0) returns the
grid unchanged, with no hypotheses at all. -/
theorem c5_braid_amended (g : Grid) (shuffled : List (Nat × Nat)) (choice : Nat → Nat)
    (hperm : shuffled.Perm (scanDeadEnds g))
    (hw2 : 2 ≤ g.width) (hh2 : 2 ≤ g.height)
    (hlen : g.cells.length = g.width * g.height)
    (hmax : ∀ i, i < g.cells.length → popcountWalls (g.cell i) ≤ 3) :
    countDeadEnds (braid g shuffled shuffled.length choice).1 = 0 ∧
    (braid g shuffled 0 choice).1 = g := by
  constructor
  · unfold braid
    have hres := braidLoop_main choice shuffled g 0 0 shuffled.length hw2 hh2 hlen hmax
      (by
        intro p hp
        obtain ⟨a, b⟩ := p
        have hmem := mem_scanDeadEnds.mp (hperm.mem_iff.mp hp)
        exact ⟨hmem.1, hmem.2.1⟩)
      (fun x y hx hy h3 => hperm.mem_iff.mpr (mem_scanDeadEnds.mpr ⟨hx, hy, h3⟩))
      (by omega)
    obtain ⟨hww, hhh, hpc⟩ := hres
    apply countDeadEnds_eq_zero
    intro x y hx hy
    rw [hww] at hx ⊢
    rw [hhh] at hy
    exact hpc x y hx hy
  · rw [braid_zero]

/-- A 2-by-2 spanning-tree maze used as the concrete witness input. -/
def braidWitGrid : Grid :=
  (((mkGrid 2 2).carvePath 0 0 EAST).carvePath 0 0 SOUTH).carvePath 1 0 SOUTH

/-- Witness for the amended C5 at a concrete grid, shuffle and draw stream. -/
theorem c5_braid_amended_witness :
    ((scanDeadEnds braidWitGrid).Perm (scanDeadEnds braidWitGrid) ∧
      2 ≤ braidWitGrid.width ∧ 2 ≤ braidWitGrid.height ∧
      braidWitGrid.cells.length = braidWitGrid.width * braidWitGrid.height ∧
      ∀ i, i < braidWitGrid.cells.length →
        popcountWalls (braidWitGrid.cell i) ≤ 3) ∧
    (countDeadEnds (braid braidWitGrid (scanDeadEnds braidWitGrid)
      (scanDeadEnds braidWitGrid).length (fun _ => 0)).1 = 0 ∧
    (braid braidWitGrid (scanDeadEnds braidWitGrid) 0 (fun _ => 0)).1 = braidWitGrid) :=
  ⟨⟨List.Perm.refl _, by decide, by decide, by decide,
    by
      intro i hi
      have h4 : i < 4 := hi
      interval_cases i <;> decide⟩,
    c5_braid_amended braidWitGrid (scanDeadEnds braidWitGrid) (fun _ => 0)
      (List.Perm.refl _) (by decide) (by decide) (by decide)
      (by
        intro i hi
        have h4 : i < 4 := hi
        interval_cases i <;> decide)⟩

/-! ### Solvers, from `maze_engine/algo/solvers.py`

Coordinates inside the search loops stay in bounds (they come from
`get_neighbors`); the entry-point `get_index` calls and the reconstruction
walk, which Python guards with raising `get_index`, are modelled with
`Except`. Paths reconstructed by parent walking carry integer coordinates as
Python does. -/

def setBitAt (g : Grid) (i b : Nat) : Grid :=
  { g with cells := g.cells.set i (g.cell i ||| b) }

/-- `AStar.heuristic`: Manhattan distance. -/
def manhattan (a b : Nat × Nat) : Nat :=
  ((a.1 : Int) - b.1).natAbs + ((a.2 : Int) - b.2).natAbs

/-- The shared parent-walking loop of `reconstruct_path`: follow parent
directions from `end`, marking path bits, until the start cell, a cell with no
parent, or an out-of-range cell (a raising `get_index`) stops it. -/
def reconLoop (parents : List Nat) (start : Nat × Nat) :
    Nat → Grid → Int × Int → List (Int × Int) →
      Except String (List (Int × Int) × Grid)
  | 0, _, _, _ => Except.error "fuel"
  | fuel + 1, g, curr, acc =>
    if curr = ((start.1 : Int), (start.2 : Int)) then Except.ok (acc, g)
    else
      match g.getIndex curr.1 curr.2 with
      | Except.error e => Except.error e
      | Except.ok i =>
        let g2 := setBitAt g i PATH_BIT
        let acc2 := acc ++ [curr]
        let p := parents.getD i 0
        if p = 0 then Except.ok (acc2, g2)
        else reconLoop parents start fuel g2 (curr.1 + DX p, curr.2 + DY p) acc2

/-! #### BFS -/

structure BfsState where
  g : Grid
  queue : List (Nat × Nat)
  parents : List Nat
  deriving Repr, DecidableEq

/-- The neighbor loop of one BFS dequeue. -/
def bfsScan (cx cy : Nat) (st : BfsState) : BfsState :=
  (st.g.getNeighbors cx cy).foldl (fun s p =>
    if s.g.hasWall cx cy p.2.2 then s
    else
      let i := p.2.1 * s.g.width + p.1
      if s.g.cell i &&& SOLVER_VISITED ≠ 0 then s
      else
        { g := setBitAt s.g i SOLVER_VISITED,
          queue := s.queue ++ [(p.1, p.2.1)],
          parents := s.parents.set i (OPPOSITE p.2.2) }) st

/-- `BFS.run`: FIFO processing until the end is dequeued or the queue
empties. -/
def bfsLoop (endp : Nat × Nat) : Nat → BfsState → BfsState
  | 0, st => st
  | fuel + 1, st =>
    match st.queue with
    | [] => st
    | c :: rest =>
      if c = endp then { st with queue := rest }
      else bfsLoop endp fuel (bfsScan c.1 c.2 { st with queue := rest })

/-- `BFS.reconstruct_path`. -/
def bfsReconstructPath (rfuel : Nat) (g : Grid) (parents : List Nat)
    (start endp : Nat × Nat) : Except String (List (Int × Int) × Grid) :=
  match g.getIndex endp.1 endp.2 with
  | Except.error e => Except.error e
  | Except.ok ei =>
    if g.cell ei &&& SOLVER_VISITED = 0 ∧ start ≠ endp then Except.ok ([], g)
    else
      match reconLoop parents start rfuel g ((endp.1 : Int), (endp.2 : Int)) [] with
      | Except.error e => Except.error e
      | Except.ok (acc, g2) =>
        Except.ok ((acc ++ [((start.1 : Int), (start.2 : Int))]).reverse, g2)

/-- `BFS.run` followed by `reconstruct_path`; the returned list is the
solver path. -/
def bfsRun (g : Grid) (start endp : Nat × Nat) (fuel rfuel : Nat) :
    Except String (List (Int × Int) × Grid) :=
  let parents := List.replicate (g.width * g.height) 0
  match g.getIndex start.1 start.2 with
  | Except.error e => Except.error e
  | Except.ok si =>
    let st := bfsLoop endp fuel ⟨setBitAt g si SOLVER_VISITED, [start], parents⟩
    bfsReconstructPath rfuel st.g st.parents start endp

/-! #### A* and Dijkstra -/

structure AStarState where
  g : Grid
  openSet : List (Int × Nat × Nat)
  gScore : List Int
  parents : List Nat
  deriving Repr, DecidableEq

/-- Lexicographic comparison of `(f, x, y)` heap entries, the order `heapq`
pops them in. -/
def tripleLe (a b : Int × Nat × Nat) : Bool :=
  if a.1 < b.1 then true
  else if b.1 < a.1 then false
  else if a.2.1 < b.2.1 then true
  else if b.2.1 < a.2.1 then false
  else decide (a.2.2 ≤ b.2.2)

def listMin3 : List (Int × Nat × Nat) → Option (Int × Nat × Nat)
  | [] => none
  | x :: xs => some (xs.foldl (fun m a => if tripleLe m a then m else a) x)

/-- `heapq.heappop`: remove and return the least entry. -/
def popMin3 (l : List (Int × Nat × Nat)) :
    Option ((Int × Nat × Nat) × List (Int × Nat × Nat)) :=
  match listMin3 l with
  | none => none
  | some m => some (m, l.erase m)

/-- The neighbor relaxation loop of one A* expansion. -/
def aStarScan (h : Nat × Nat → Nat × Nat → Nat) (endp : Nat × Nat)
    (cx cy : Nat) (currG : Int) (st : AStarState) : AStarState :=
  (st.g.getNeighbors cx cy).foldl (fun s p =>
    if s.g.hasWall cx cy p.2.2 then s
    else
      let i := p.2.1 * s.g.width + p.1
      let newG : Int := currG + 1
      let oldG := s.gScore.getD i (-1)
      if oldG = -1 ∨ newG < oldG then
        { g := setBitAt s.g i SOLVER_VISITED,
          openSet := s.openSet ++ [(newG + (h (p.1, p.2.1) endp : Int), p.1, p.2.1)],
          gScore := s.gScore.set i newG,
          parents := s.parents.set i (OPPOSITE p.2.2) }
      else s) st

/-- `AStar.run`: pop the least entry, stop on the end cell, otherwise relax
all open neighbors with the current g value. -/
def aStarLoop (h : Nat × Nat → Nat × Nat → Nat) (endp : Nat × Nat) :
    Nat → AStarState → AStarState
  | 0, st => st
  | fuel + 1, st =>
    match popMin3 st.openSet with
    | none => st
    | some ((_, cx, cy), rest) =>
      if (cx, cy) = endp then { st with openSet := rest }
      else
        let ci := cy * st.g.width + cx
        aStarLoop h endp fuel
          (aStarScan h endp cx cy (st.gScore.getD ci (-1)) { st with openSet := rest })

/-- `AStar.reconstruct_path`. -/
def aStarReconstructPath (rfuel : Nat) (g : Grid) (gScore : List Int)
    (parents : List Nat) (start endp : Nat × Nat) :
    Except String (List (Int × Int) × Grid) :=
  match g.getIndex endp.1 endp.2 with
  | Except.error e => Except.error e
  | Except.ok ei =>
    if gScore.getD ei (-1) = -1 ∧ start ≠ endp then Except.ok ([], g)
    else
      match reconLoop parents start rfuel g ((endp.1 : Int), (endp.2 : Int)) [] with
      | Except.error e => Except.error e
      | Except.ok (acc, g2) =>
        Except.ok ((acc ++ [((start.1 : Int), (start.2 : Int))]).reverse, g2)

/-- `AStar.run` to completion with an arbitrary heuristic; `Dijkstra` is the
same run with the zero heuristic. -/
def aStarRun (h : Nat × Nat → Nat × Nat → Nat) (g : Grid) (start endp : Nat × Nat)
    (fuel rfuel : Nat) : Except String (List (Int × Int) × Grid) :=
  match g.getIndex start.1 start.2 with
  | Except.error e => Except.error e
  | Except.ok si =>
    let st0 : AStarState :=
      { g := setBitAt g si SOLVER_VISITED,
        openSet := [((0 : Int), start.1, start.2)],
        gScore := (List.replicate (g.width * g.height) (-1 : Int)).set si 0,
        parents := List.replicate (g.width * g.height) 0 }
    let st := aStarLoop h endp fuel st0
    aStarReconstructPath rfuel st.g st.gScore st.parents start endp

/-- `Dijkstra`: A* with the zero heuristic. -/
def dijkstraRun (g : Grid) (start endp : Nat × Nat) (fuel rfuel : Nat) :
    Except String (List (Int × Int) × Grid) :=
  aStarRun (fun _ _ => 0) g start endp fuel rfuel

deriving instance DecidableEq for Except

/-! #### Wall follower -/

def wfDirBit (i : Nat) : Nat :=
  if i = 0 then NORTH else if i = 1 then EAST else if i = 2 then SOUTH else WEST

def wfDx (i : Nat) : Int := if i = 0 then 0 else if i = 1 then 1 else if i = 2 then 0 else -1

def wfDy (i : Nat) : Int := if i = 0 then -1 else if i = 1 then 0 else if i = 2 then 1 else 0

/-- The inner direction scan: the first direction in rule order that is open
and leads in bounds. -/
def wfFind (g : Grid) (cx cy : Nat) (order : List Nat) : Option Nat :=
  order.find? (fun dIdx =>
    !g.hasWall cx cy (wfDirBit dIdx) &&
    decide (0 ≤ (cx : Int) + wfDx dIdx) && decide ((cx : Int) + wfDx dIdx < (g.width : Int)) &&
    decide (0 ≤ (cy : Int) + wfDy dIdx) && decide ((cy : Int) + wfDy dIdx < (g.height : Int)))

structure WfState where
  g : Grid
  cx : Nat
  cy : Nat
  facing : Nat
  path : List (Nat × Nat)
  deriving Repr, DecidableEq

/-- `WallFollower.run`: the stepping loop, fuel counting the remaining step
budget out of `width * height * 4`. -/
def wfLoop (ruleLeft : Bool) (endp : Nat × Nat) : Nat → WfState → WfState
  | 0, st => st
  | fuel + 1, st =>
    if (st.cx, st.cy) = endp then st
    else
      let order := if ruleLeft then
          [(st.facing + 3) % 4, st.facing, (st.facing + 1) % 4, (st.facing + 2) % 4]
        else
          [(st.facing + 1) % 4, st.facing, (st.facing + 3) % 4, (st.facing + 2) % 4]
      match wfFind st.g st.cx st.cy order with
      | none => st
      | some dIdx =>
        let nx := ((st.cx : Int) + wfDx dIdx).toNat
        let ny := ((st.cy : Int) + wfDy dIdx).toNat
        wfLoop ruleLeft endp fuel
          { g := setBitAt st.g (ny * st.g.width + nx) SOLVER_VISITED,
            cx := nx, cy := ny, facing := dIdx, path := st.path ++ [(nx, ny)] }

/-- `WallFollower.run` to completion: path, final grid, and whether it
reports Solved (`true`) or Stuck (`false`). -/
def wfRun (ruleLeft : Bool) (g : Grid) (start endp : Nat × Nat) :
    Except String (List (Nat × Nat) × Grid × Bool) :=
  match g.getIndex start.1 start.2 with
  | Except.error e => Except.error e
  | Except.ok si =>
    let st0 : WfState :=
      { g := setBitAt g si (SOLVER_VISITED ||| PATH_BIT),
        cx := start.1, cy := start.2, facing := 1, path := [start] }
    let st := wfLoop ruleLeft endp (g.width * g.height * 4) st0
    if (st.cx, st.cy) = endp then
      Except.ok (st.path,
        st.path.foldl (fun gg p => setBitAt gg (p.2 * gg.width + p.1) PATH_BIT) st.g,
        true)
    else Except.ok (st.path, st.g, false)

/-! #### Trémaux -/

structure TrState where
  g : Grid
  curr : Nat × Nat
  stack : List (Nat × Nat)
  deriving Repr, DecidableEq

/-- The 2-bit visit level: 0 unvisited, 1 once, 2 twice or more. -/
def trVisits (g : Grid) (n : Nat × Nat) : Nat :=
  let cell := g.cell (n.2 * g.width + n.1)
  if cell &&& SOLVER_AUX ≠ 0 then 2 else if cell &&& SOLVER_VISITED ≠ 0 then 1 else 0

/-- Moving to a target cell: first visits push it on the path stack, repeat
visits mark the second-visit bit and pop when backtracking. -/
def trMove (st : TrState) (tgt : Nat × Nat) : TrState :=
  let ti := tgt.2 * st.g.width + tgt.1
  if st.g.cell ti &&& SOLVER_VISITED = 0 then
    { g := setBitAt st.g ti SOLVER_VISITED, curr := tgt, stack := st.stack ++ [tgt] }
  else
    { g := setBitAt st.g ti SOLVER_AUX, curr := tgt,
      stack := if st.stack ≠ [] ∧ st.stack.getLast? = some tgt then st.stack.dropLast
        else st.stack }

/-- Stable insertion by visit level: the stable `candidates.sort` on the
first tuple component. -/
def insertByFst (a : Nat × Nat × Nat) : List (Nat × Nat × Nat) → List (Nat × Nat × Nat)
  | [] => [a]
  | b :: bs => if a.1 ≤ b.1 then a :: b :: bs else b :: insertByFst a bs

def sortByFst : List (Nat × Nat × Nat) → List (Nat × Nat × Nat)
  | [] => []
  | a :: rest => insertByFst a (sortByFst rest)

/-- `Tremaux.run`: prefer the least-visited open neighbor (stable sort on the
visit level), backtrack along the stack otherwise; fuel counts the
`width * height * 20` step budget. -/
def trLoop (endp : Nat × Nat) : Nat → TrState → TrState
  | 0, st => st
  | fuel + 1, st =>
    if st.curr = endp then st
    else
      let cands := sortByFst ((st.g.getOpenNeighbors st.curr.1 st.curr.2).filterMap
        (fun n => if trVisits st.g n < 2 then some (trVisits st.g n, n) else none))
      match cands.head? with
      | some c => trLoop endp fuel (trMove st c.2)
      | none =>
        match st.stack with
        | [] => st
        | _ :: _ =>
          let st2 := { st with stack := st.stack.dropLast }
          match st2.stack.getLast? with
          | none => st2
          | some tgt => trLoop endp fuel (trMove st2 tgt)

/-- `Tremaux.run` to completion; the reported path is the final path stack. -/
def trRun (g : Grid) (start endp : Nat × Nat) :
    Except String (List (Nat × Nat) × Grid) :=
  match g.getIndex start.1 start.2 with
  | Except.error e => Except.error e
  | Except.ok si =>
    let st := trLoop endp (g.width * g.height * 20)
      ⟨setBitAt g si SOLVER_VISITED, start, [start]⟩
    Except.ok (st.stack, st.g)

/-! #### Bounded-memory DFS -/

structure DfsState where
  g : Grid
  stack : List (Nat × Nat)
  parents : List Nat
  deriving Repr, DecidableEq

/-- The neighbor loop of `RecursiveDFS`: mark, record the direction back to
the current cell, push. -/
def rdfsScan (cx cy : Nat) (st : DfsState) : DfsState :=
  (st.g.getOpenNeighbors cx cy).foldl (fun s n =>
    let ni := n.2 * s.g.width + n.1
    if s.g.cell ni &&& SOLVER_VISITED ≠ 0 then s
    else
      let dx : Int := (cx : Int) - (n.1 : Int)
      let dy : Int := (cy : Int) - (n.2 : Int)
      let pbit := if dy = -1 then NORTH else if dy = 1 then SOUTH
        else if dx = -1 then WEST else if dx = 1 then EAST else 0
      { g := setBitAt s.g ni SOLVER_VISITED, stack := s.stack ++ [n],
        parents := s.parents.set ni pbit }) st

/-- `RecursiveDFS.run`: explicit LIFO stack, popping from the end. -/
def rdfsLoop (endp : Nat × Nat) : Nat → DfsState → DfsState
  | 0, st => st
  | fuel + 1, st =>
    match st.stack.getLast? with
    | none => st
    | some c =>
      let st1 := { st with stack := st.stack.dropLast }
      if c = endp then st1
      else rdfsLoop endp fuel (rdfsScan c.1 c.2 st1)

/-- `RecursiveDFS.run` to completion, with its inline reconstruction guarded
by the end cell's solver-visited bit. -/
def rdfsRun (g : Grid) (start endp : Nat × Nat) (fuel rfuel : Nat) :
    Except String (List (Int × Int) × Grid) :=
  match g.getIndex start.1 start.2 with
  | Except.error e => Except.error e
  | Except.ok si =>
    let st := rdfsLoop endp fuel
      ⟨setBitAt g si SOLVER_VISITED, [start], List.replicate (g.width * g.height) 0⟩
    match st.g.getIndex endp.1 endp.2 with
    | Except.error e => Except.error e
    | Except.ok ei =>
      if st.g.cell ei &&& SOLVER_VISITED ≠ 0 then
        match reconLoop st.parents start rfuel st.g ((endp.1 : Int), (endp.2 : Int)) [] with
        | Except.error e => Except.error e
        | Except.ok (acc, g2) =>
          Except.ok ((acc ++ [((start.1 : Int), (start.2 : Int))]).reverse, g2)
      else Except.ok ([], st.g)

/-! #### Dead-end filler -/

structure DefState where
  g : Grid
  degrees : List Nat
  nxt : List (Nat × Nat)
  deriving Repr, DecidableEq

/-- The per-cell open-neighbor degrees, scanned in row-major order. -/
def defDegrees (g : Grid) : List Nat :=
  (List.range (g.width * g.height)).map (fun i =>
    (g.getOpenNeighbors (i % g.width) (i / g.width)).length)

/-- The initial leaves: degree-1 cells other than start and end. -/
def defInitialLeaves (g : Grid) (degrees : List Nat) (start endp : Nat × Nat) :
    List (Nat × Nat) :=
  (List.range g.height).flatMap (fun y =>
    (List.range g.width).filterMap (fun x =>
      if degrees.getD (y * g.width + x) 0 = 1 ∧ (x, y) ≠ start ∧ (x, y) ≠ endp then
        some (x, y)
      else none))

/-- Filling one leaf: mark it, decrement unfilled open neighbors, collect the
ones that just became leaves. -/
def defProcessLeaf (start endp : Nat × Nat) (st : DefState) (leaf : Nat × Nat) :
    DefState :=
  let g1 := setBitAt st.g (leaf.2 * st.g.width + leaf.1) SOLVER_AUX
  (g1.getOpenNeighbors leaf.1 leaf.2).foldl (fun s n =>
    let ni := n.2 * s.g.width + n.1
    if s.g.cell ni &&& SOLVER_AUX ≠ 0 then s
    else
      let degs2 := s.degrees.set ni (s.degrees.getD ni 0 - 1)
      let nxt2 := if degs2.getD ni 0 = 1 ∧ n ≠ start ∧ n ≠ endp then s.nxt ++ [n]
        else s.nxt
      { g := s.g, degrees := degs2, nxt := nxt2 }) { g := g1, degrees := st.degrees, nxt := st.nxt }

/-- `DeadEndFiller.run`: peel waves of leaves until none remain. -/
def defLoop (start endp : Nat × Nat) : Nat → Grid → List Nat → List (Nat × Nat) → Grid
  | 0, g, _, _ => g
  | fuel + 1, g, degrees, active =>
    match active with
    | [] => g
    | _ :: _ =>
      let st := active.foldl (defProcessLeaf start endp) ⟨g, degrees, []⟩
      defLoop start endp fuel st.g st.degrees st.nxt

/-- `DeadEndFiller.run` to completion: the surviving (unfilled, carved) cells
in scanline order are the reported path. -/
def defRun (g : Grid) (start endp : Nat × Nat) (fuel : Nat) :
    List (Nat × Nat) × Grid :=
  let degrees := defDegrees g
  let g2 := defLoop start endp fuel g degrees (defInitialLeaves g degrees start endp)
  (List.range (g2.width * g2.height)).foldl (fun pr i =>
    if pr.2.cell i &&& SOLVER_AUX = 0 ∧ pr.2.cell i &&& 15 ≠ 15 then
      (pr.1 ++ [(i % pr.2.width, i / pr.2.width)], setBitAt pr.2 i PATH_BIT)
    else pr) ([], g2)

/-! #### Swarm -/

/-- One pass over the agent list: each live agent steps to a random unvisited
open neighbor or dies; stops early when an agent sits on the end cell. The
returned flags are (finished, all-stuck). -/
def swAgents (endp : Nat × Nat) (choice : Nat → Nat) :
    List (List (Nat × Nat)) → Grid → List Nat → Nat → Bool →
      List (List (Nat × Nat)) × Grid × List Nat × Nat × Bool × Bool
  | [], g, parents, t, allStuck => ([], g, parents, t, false, allStuck)
  | stack :: rest, g, parents, t, allStuck =>
    match stack.getLast? with
    | none =>
      let r := swAgents endp choice rest g parents t allStuck
      (stack :: r.1, r.2)
    | some curr =>
      if curr = endp then (stack :: rest, g, parents, t, true, false)
      else
        let nbs := (g.getOpenNeighbors curr.1 curr.2).filter (fun n =>
          g.cell (n.2 * g.width + n.1) &&& SOLVER_VISITED = 0)
        match nbs with
        | [] =>
          let r := swAgents endp choice rest g parents t false
          (stack.dropLast :: r.1, r.2)
        | _ :: _ =>
          let nxt := nbs.getD (choice t % nbs.length) (0, 0)
          let ni := nxt.2 * g.width + nxt.1
          let g2 := setBitAt g ni SOLVER_VISITED
          let parents2 :=
            if parents.getD ni 0 = 0 then
              let dx : Int := (nxt.1 : Int) - (curr.1 : Int)
              let dy : Int := (nxt.2 : Int) - (curr.2 : Int)
              let pbit := if dy = -1 then SOUTH else if dy = 1 then NORTH
                else if dx = -1 then EAST else if dx = 1 then WEST else 0
              parents.set ni pbit
            else parents
          let r := swAgents endp choice rest g2 parents2 (t + 1) false
          ((stack ++ [nxt]) :: r.1, r.2)

/-- `SwarmSolver.run`: rounds of agent passes until an agent finishes or all
are dead. Returns the final state and the finished flag. -/
def swLoop (endp : Nat × Nat) (choice : Nat → Nat) :
    Nat → List (List (Nat × Nat)) → Grid → List Nat → Nat →
      Grid × List Nat × Bool
  | 0, _, g, parents, _ => (g, parents, false)
  | fuel + 1, agents, g, parents, t =>
    let r := swAgents endp choice agents g parents t true
    let fin := r.2.2.2.2.1
    let allStuck := r.2.2.2.2.2
    if fin then (r.2.1, r.2.2.1, true)
    else if allStuck then (r.2.1, r.2.2.1, false)
    else swLoop endp choice fuel r.1 r.2.1 r.2.2.1 r.2.2.2.1

/-- `SwarmSolver.run` to completion: ten agents from the start; the path is
reconstructed only when an agent reached the end and the end has a recorded
parent, and it does not include the start cell. -/
def swRun (g : Grid) (start endp : Nat × Nat) (choice : Nat → Nat)
    (fuel rfuel : Nat) : Except String (List (Int × Int) × Grid) :=
  match g.getIndex start.1 start.2 with
  | Except.error e => Except.error e
  | Except.ok si =>
    let g1 := setBitAt g si SOLVER_VISITED
    let parents := List.replicate (g.width * g.height) 0
    let agents := List.replicate 10 [start]
    let r := swLoop endp choice fuel agents g1 parents 0
    if r.2.2 then
      match r.1.getIndex endp.1 endp.2 with
      | Except.error e => Except.error e
      | Except.ok ei =>
        if r.2.1.getD ei 0 ≠ 0 then
          match reconLoop r.2.1 start rfuel r.1 ((endp.1 : Int), (endp.2 : Int)) [] with
          | Except.error e => Except.error e
          | Except.ok (acc, g2) => Except.ok (acc.reverse, g2)
        else Except.ok ([], r.1)
    else Except.ok ([], r.1)

/-! #### Bidirectional A* -/

structure BdState where
  g : Grid
  pqF : List (Int × Int × Nat × Nat)
  pqB : List (Int × Int × Nat × Nat)
  gF : List Int
  gB : List Int
  pF : List Nat
  pB : List Nat
  deriving Repr, DecidableEq

/-- Lexicographic comparison of `(f, g, x, y)` entries. -/
def quadLe (a b : Int × Int × Nat × Nat) : Bool :=
  if a.1 < b.1 then true
  else if b.1 < a.1 then false
  else if a.2.1 < b.2.1 then true
  else if b.2.1 < a.2.1 then false
  else if a.2.2.1 < b.2.2.1 then true
  else if b.2.2.1 < a.2.2.1 then false
  else decide (a.2.2.2 ≤ b.2.2.2)

def listMin4 : List (Int × Int × Nat × Nat) → Option (Int × Int × Nat × Nat)
  | [] => none
  | x :: xs => some (xs.foldl (fun m a => if quadLe m a then m else a) x)

def popMin4 (l : List (Int × Int × Nat × Nat)) :
    Option ((Int × Int × Nat × Nat) × List (Int × Int × Nat × Nat)) :=
  match listMin4 l with
  | none => none
  | some m => some (m, l.erase m)

/-- Forward neighbor relaxation with the early exit on a meeting node. -/
def bdScanF (endp : Nat × Nat) (cx cy : Nat) (gCurr : Int) :
    List (Nat × Nat × Nat) → BdState → BdState × Option (Nat × Nat)
  | [], st => (st, none)
  | p :: rest, st =>
    if st.g.hasWall cx cy p.2.2 then bdScanF endp cx cy gCurr rest st
    else
      let i := p.2.1 * st.g.width + p.1
      let newG := gCurr + 1
      let oldG := st.gF.getD i (-1)
      if oldG = -1 ∨ newG < oldG then
        let st2 : BdState :=
          { st with
            gF := st.gF.set i newG,
            pqF := st.pqF ++ [(newG + (manhattan (p.1, p.2.1) endp : Int), newG, p.1, p.2.1)],
            pF := st.pF.set i (OPPOSITE p.2.2),
            g := setBitAt st.g i SOLVER_VISITED }
        if st2.g.cell i &&& SOLVER_AUX ≠ 0 then (st2, some (p.1, p.2.1))
        else bdScanF endp cx cy gCurr rest st2
      else bdScanF endp cx cy gCurr rest st

/-- Backward neighbor relaxation, heuristic toward the start, marking the aux
bit. -/
def bdScanB (start : Nat × Nat) (cx cy : Nat) (gCurr : Int) :
    List (Nat × Nat × Nat) → BdState → BdState × Option (Nat × Nat)
  | [], st => (st, none)
  | p :: rest, st =>
    if st.g.hasWall cx cy p.2.2 then bdScanB start cx cy gCurr rest st
    else
      let i := p.2.1 * st.g.width + p.1
      let newG := gCurr + 1
      let oldG := st.gB.getD i (-1)
      if oldG = -1 ∨ newG < oldG then
        let st2 : BdState :=
          { st with
            gB := st.gB.set i newG,
            pqB := st.pqB ++ [(newG + (manhattan (p.1, p.2.1) start : Int), newG, p.1, p.2.1)],
            pB := st.pB.set i (OPPOSITE p.2.2),
            g := setBitAt st.g i SOLVER_AUX }
        if st2.g.cell i &&& SOLVER_VISITED ≠ 0 then (st2, some (p.1, p.2.1))
        else bdScanB start cx cy gCurr rest st2
      else bdScanB start cx cy gCurr rest st

/-- `BiDirectionalAStar.run`: alternate one forward and one backward
expansion while both queues are nonempty; stop on the first meeting node. -/
def bdLoop (start endp : Nat × Nat) : Nat → BdState → BdState × Option (Nat × Nat)
  | 0, st => (st, none)
  | fuel + 1, st =>
    match st.pqF, st.pqB with
    | [], _ => (st, none)
    | _, [] => (st, none)
    | _ :: _, _ :: _ =>
      match popMin4 st.pqF with
      | none => (st, none)
      | some ((_, gC, cx, cy), rest) =>
        let st1 := { st with pqF := rest }
        if st1.g.cell (cy * st1.g.width + cx) &&& SOLVER_AUX ≠ 0 then (st1, some (cx, cy))
        else
          let sF := bdScanF endp cx cy gC (st1.g.getNeighbors cx cy) st1
          match sF.2 with
          | some m => (sF.1, some m)
          | none =>
            match popMin4 sF.1.pqB with
            | none => (sF.1, none)
            | some ((_, gC2, bx, by2), restB) =>
              let st3 := { sF.1 with pqB := restB }
              if st3.g.cell (by2 * st3.g.width + bx) &&& SOLVER_VISITED ≠ 0 then
                (st3, some (bx, by2))
              else
                let sB := bdScanB start bx by2 gC2 (st3.g.getNeighbors bx by2) st3
                match sB.2 with
                | some m => (sB.1, some m)
                | none => bdLoop start endp fuel sB.1

/-- The second half of `reconstruct_merged_path`: walk backward parents from
the meeting node to the end. -/
def bdPart2 (pB : List Nat) (endp : Nat × Nat) :
    Nat → Grid → Int × Int → List (Int × Int) →
      Except String (List (Int × Int) × Grid)
  | 0, _, _, _ => Except.error "fuel"
  | fuel + 1, g, curr, acc =>
    match g.getIndex curr.1 curr.2 with
    | Except.error e => Except.error e
    | Except.ok i =>
      let g2 := setBitAt g i PATH_BIT
      let acc2 := acc ++ [curr]
      if curr = ((endp.1 : Int), (endp.2 : Int)) then Except.ok (acc2, g2)
      else
        let p := pB.getD i 0
        if p = 0 then Except.ok (acc2, g2)
        else bdPart2 pB endp fuel g2 (curr.1 + DX p, curr.2 + DY p) acc2

/-- `BiDirectionalAStar.reconstruct_merged_path`. -/
def bdReconstruct (rfuel : Nat) (st : BdState) (meet start endp : Nat × Nat) :
    Except String (List (Int × Int) × Grid) :=
  match reconLoop st.pF start rfuel st.g ((meet.1 : Int), (meet.2 : Int)) [] with
  | Except.error e => Except.error e
  | Except.ok (acc, g2) =>
    let path1 := (acc ++ [((start.1 : Int), (start.2 : Int))]).reverse
    match g2.getIndex meet.1 meet.2 with
    | Except.error e => Except.error e
    | Except.ok mi =>
      let p := st.pB.getD mi 0
      if p = 0 then Except.ok (path1, g2)
      else
        match bdPart2 st.pB endp rfuel g2
          ((meet.1 : Int) + DX p, (meet.2 : Int) + DY p) [] with
        | Except.error e => Except.error e
        | Except.ok (acc2, g3) => Except.ok (path1 ++ acc2, g3)

/-- `BiDirectionalAStar.run` to completion: the path and whether a meeting
node was found. -/
def bdRun (g : Grid) (start endp : Nat × Nat) (fuel rfuel : Nat) :
    Except String (List (Int × Int) × Grid × Bool) :=
  match g.getIndex start.1 start.2 with
  | Except.error e => Except.error e
  | Except.ok si =>
    match g.getIndex endp.1 endp.2 with
    | Except.error e => Except.error e
    | Except.ok ei =>
      let n := g.width * g.height
      let st0 : BdState :=
        { g := setBitAt (setBitAt g si SOLVER_VISITED) ei SOLVER_AUX,
          pqF := [((0 : Int), (0 : Int), start.1, start.2)],
          pqB := [((0 : Int), (0 : Int), endp.1, endp.2)],
          gF := (List.replicate n (-1 : Int)).set si 0,
          gB := (List.replicate n (-1 : Int)).set ei 0,
          pF := List.replicate n 0,
          pB := List.replicate n 0 }
      let r := bdLoop start endp fuel st0
      match r.2 with
      | some meet =>
        match bdReconstruct rfuel r.1 meet start endp with
        | Except.error e => Except.error e
        | Except.ok (path, g2) => Except.ok (path, g2, true)
      | none => Except.ok ([], r.1.g, false)

/-- C6 counterexample: the wall follower on the all-walls 5-by-5 grid from
(0,0) to (4,4) reports Stuck with the nonempty path [(0,0)] — its path
accumulates the start cell by construction, so the claim that every solver
yields an empty path is false. -/
theorem c6_wall_follower_counterexample :
    (wfRun true (mkGrid 5 5) (0, 0) (4, 4)).map (fun r => r.1) =
      Except.ok [(0, 0)] ∧
    (wfRun true (mkGrid 5 5) (0, 0) (4, 4)).map (fun r => r.1) ≠
      Except.ok ([] : List (Nat × Nat)) := by
  constructor
  · decide
  · decide

set_option maxRecDepth 8000 in
/-- C6 amended: on the all-walls 5-by-5 grid from (0,0) to (4,4), BFS,
Dijkstra, A*, bidirectional A*, Trémaux, bounded-memory DFS, the dead-end
filler and the swarm (under every random stream) all yield an empty path;
the two wall followers yield the singleton path [(0,0)] and report Stuck. -/
theorem c6_amended_all_walls_5x5 :
    (bfsRun (mkGrid 5 5) (0, 0) (4, 4) 30 30).map Prod.fst = Except.ok [] ∧
    (dijkstraRun (mkGrid 5 5) (0, 0) (4, 4) 30 30).map Prod.fst = Except.ok [] ∧
    (aStarRun manhattan (mkGrid 5 5) (0, 0) (4, 4) 30 30).map Prod.fst = Except.ok [] ∧
    (bdRun (mkGrid 5 5) (0, 0) (4, 4) 30 30).map (fun r => r.1) = Except.ok [] ∧
    (trRun (mkGrid 5 5) (0, 0) (4, 4)).map Prod.fst = Except.ok [] ∧
    (rdfsRun (mkGrid 5 5) (0, 0) (4, 4) 30 30).map Prod.fst = Except.ok [] ∧
    (defRun (mkGrid 5 5) (0, 0) (4, 4) 30).1 = [] ∧
    (∀ choice : Nat → Nat,
      (swRun (mkGrid 5 5) (0, 0) (4, 4) choice 30 30).map Prod.fst = Except.ok []) ∧
    (wfRun true (mkGrid 5 5) (0, 0) (4, 4)).map (fun r => (r.1, r.2.2)) =
      Except.ok ([(0, 0)], false) ∧
    (wfRun false (mkGrid 5 5) (0, 0) (4, 4)).map (fun r => (r.1, r.2.2)) =
      Except.ok ([(0, 0)], false) := by
  refine ⟨by decide, by decide, by decide, by decide, by decide, by decide, by decide,
    ?_, by decide, by decide⟩
  intro choice
  rfl

/-- Witness for the amended C6: the swarm conjunct applied at a concrete
random stream. -/
theorem c6_amended_witness :
    (swRun (mkGrid 5 5) (0, 0) (4, 4) (fun _ => 0) 30 30).map Prod.fst =
      Except.ok [] :=
  c6_amended_all_walls_5x5.2.2.2.2.2.2.2.1 (fun _ => 0)

/-! ### Hierarchical block-parallel generator, from `maze_engine/algo/taichi_gen.py`

The kernels draw from `ti.random()` and `setup` from the unseeded global
numpy RNG; none of these derive from the stored `self.seed` (the per-block
`self.seeds` field is filled but never read by a kernel). The model therefore
takes the ambient randomness as explicit inputs: one draw stream per block
for the interior carve, the block-graph connectivity bits, and the boundary
draw predicates for stitching. The parallel block loop has disjoint per-block
writes, so it is modelled as a fold over blocks in row-major order. -/

def listClearBit (cs : List Nat) (i b : Nat) : List Nat :=
  cs.set i (clearBits (cs.getD i 0) b)

def listSetBit (cs : List Nat) (i b : Nat) : List Nat :=
  cs.set i ((cs.getD i 0) ||| b)

def tgBlocksX (w bs : Nat) : Nat := (w + bs - 1) / bs

def tgBlocksY (h bs : Nat) : Nat := (h + bs - 1) / bs

/-- Direction data `(dx, dy, bit, opposite)` for d = 0 (N), 1 (E), 2 (S),
3 (W). -/
def tgDirData (d : Nat) : Int × Int × Nat × Nat :=
  if d = 0 then (0, -1, 1, 4)
  else if d = 1 then (1, 0, 2, 8)
  else if d = 2 then (0, 1, 4, 1)
  else (-1, 0, 8, 2)

/-- The rotated direction scan of `generate_blocks_kernel`: the first
direction from `start_dir` that stays in the block, in the grid, and leads to
an unvisited cell. Returns local neighbor coordinates with carve and opposite
bits. -/
def tgFindNbr (w h bs gx0 gy0 : Nat) (cells : List Nat) (cx cy sd : Nat) :
    Option (Nat × Nat × Nat × Nat) :=
  ((List.range 4).map (fun k => (sd + k) % 4)).findSome? (fun d =>
    let dd := tgDirData d
    let nxi : Int := (cx : Int) + dd.1
    let nyi : Int := (cy : Int) + dd.2.1
    if 0 ≤ nxi ∧ nxi < (bs : Int) ∧ 0 ≤ nyi ∧ nyi < (bs : Int) then
      let nx := nxi.toNat
      let ny := nyi.toNat
      if gx0 + nx < w ∧ gy0 + ny < h then
        if (cells.getD ((gy0 + ny) * w + (gx0 + nx)) 0) &&& 16 = 0 then
          some (nx, ny, dd.2.2.1, dd.2.2.2)
        else none
      else none
    else none)

/-- The per-block DFS of `generate_blocks_kernel`, one `ti.random` draw per
iteration. -/
def tgBlockLoop (w h bs gx0 gy0 : Nat) (σ : Nat → Nat) :
    Nat → List Nat → List Nat → Nat → List Nat
  | 0, cells, _, _ => cells
  | fuel + 1, cells, stack, t =>
    match stack.getLast? with
    | none => cells
    | some curr =>
      let cy := curr / bs
      let cx := curr % bs
      match tgFindNbr w h bs gx0 gy0 cells cx cy (σ t % 4) with
      | some (nlx, nly, cb, ob) =>
        let c1 := listClearBit cells ((gy0 + cy) * w + (gx0 + cx)) cb
        let c2 := listClearBit c1 ((gy0 + nly) * w + (gx0 + nlx)) ob
        let c3 := listSetBit c2 ((gy0 + nly) * w + (gx0 + nlx)) 16
        tgBlockLoop w h bs gx0 gy0 σ fuel c3 (stack ++ [nly * bs + nlx]) (t + 1)
      | none => tgBlockLoop w h bs gx0 gy0 σ fuel cells stack.dropLast (t + 1)

/-- One block of `generate_blocks_kernel`: mark the block origin visited and
run the bounded interior DFS. -/
def tgBlock (w h bs : Nat) (σ : Nat → Nat) (cells : List Nat) (bx by2 : Nat) :
    List Nat :=
  let gx0 := bx * bs
  let gy0 := by2 * bs
  if gx0 < w ∧ gy0 < h then
    tgBlockLoop w h bs gx0 gy0 σ (2 * bs * bs + 1)
      (listSetBit cells (gy0 * w + gx0) 16) [0] 0
  else cells

/-- All blocks of `generate_blocks_kernel` (disjoint writes, folded in
row-major block order). -/
def tgGenerate (w h bs : Nat) (σ : Nat → Nat → Nat) (cells : List Nat) : List Nat :=
  ((List.range (tgBlocksY h bs)).flatMap (fun by2 =>
    (List.range (tgBlocksX w bs)).map (fun bx => (bx, by2)))).foldl
    (fun cs p => tgBlock w h bs (σ (p.2 * tgBlocksX w bs + p.1)) cs p.1 p.2) cells

/-- Horizontal stitching of `stitch_blocks_kernel`: along each east block boundary the block-graph bit gates opening the drawn subset of boundary cells. -/
def tgStitchH (w h bs : Nat) (mbits : Nat → Nat → Nat) (τ : Nat → Nat → Nat → Bool)
    (cells : List Nat) : List Nat :=
  (List.range (tgBlocksX w bs - 1)).foldl (fun cs bx =>
    (List.range (tgBlocksY h bs)).foldl (fun cs2 by2 =>
      if mbits bx by2 &&& 2 ≠ 0 then
        let x1 := bx * bs + (bs - 1)
        let x2 := x1 + 1
        if x1 < w ∧ x2 < w then
          (List.range bs).foldl (fun cs3 k =>
            if τ bx by2 k then
              let y := by2 * bs + k
              if y < h then
                listClearBit (listClearBit cs3 (y * w + x1) 2) (y * w + x2) 8
              else cs3
            else cs3) cs2
        else cs2
      else cs2) cs) cells

/-- Vertical stitching of `stitch_blocks_kernel`. -/
def tgStitchV (w h bs : Nat) (mbits : Nat → Nat → Nat) (τ : Nat → Nat → Nat → Bool)
    (cells : List Nat) : List Nat :=
  (List.range (tgBlocksX w bs)).foldl (fun cs bx =>
    (List.range (tgBlocksY h bs - 1)).foldl (fun cs2 by2 =>
      if mbits bx by2 &&& 4 ≠ 0 then
        let y1 := by2 * bs + (bs - 1)
        let y2 := y1 + 1
        if y1 < h ∧ y2 < h then
          (List.range bs).foldl (fun cs3 k =>
            if τ bx by2 k then
              let x := bx * bs + k
              if x < w then
                listClearBit (listClearBit cs3 (y1 * w + x) 4) (y2 * w + x) 1
              else cs3
            else cs3) cs2
        else cs2
      else cs2) cs) cells

/-- `TaichiParallelGenerator.run_all`: init to all walls, carve all block
interiors, stitch both boundary families, and copy the field back row-major.
`seed` is stored by `__init__` but reaches no kernel; every random input is
ambient. -/
def tgRunAll (seed : Nat) (w h bs : Nat) (σ : Nat → Nat → Nat)
    (mbits : Nat → Nat → Nat) (τH τV : Nat → Nat → Nat → Bool) : Grid :=
  let _ := seed
  let cells1 := tgGenerate w h bs σ (List.replicate (w * h) 15)
  ⟨w, h, tgStitchV w h bs mbits τV (tgStitchH w h bs mbits τH cells1)⟩

/-- C4: the block-parallel generator is not deterministic in its seed — with
the same seed, width, height and block size, two runs whose ambient
`ti.random` draw streams differ produce different cell arrays (here on a
2-by-2 grid in a single block). The same-stream comparison of the seeded
backtracking and frontier generators holds trivially since their only
randomness is `random.Random(self.seed)`. -/
theorem c4_taichi_nondeterminism :
    tgRunAll 42 2 2 32 (fun _ _ => 0) (fun _ _ => 0) (fun _ _ _ => false)
        (fun _ _ _ => false) ≠
      tgRunAll 42 2 2 32 (fun _ _ => 2) (fun _ _ => 0) (fun _ _ _ => false)
        (fun _ _ _ => false) := by
  decide

/-! ### Generator correctness infrastructure (claim C2)

Carved cells are counted through the `VISITED` bit; open wall pairs through
their canonical slot: the east bit of the left cell for horizontal pairs and
the south bit of the upper cell for vertical pairs. -/

def countIdx (n : Nat) (p : Nat → Bool) : Nat :=
  ((Finset.range n).filter (fun i => p i = true)).card

theorem countIdx_congr {n : Nat} {p q : Nat → Bool}
    (h : ∀ j, j < n → q j = p j) : countIdx n q = countIdx n p := by
  unfold countIdx
  congr 1
  apply Finset.filter_congr
  intro j hj
  rw [h j (Finset.mem_range.mp hj)]

theorem countIdx_flip {n i : Nat} {p q : Nat → Bool} (hi : i < n)
    (hpi : p i = false) (hqi : q i = true)
    (hother : ∀ j, j ≠ i → q j = p j) : countIdx n q = countIdx n p + 1 := by
  unfold countIdx
  have hins : (Finset.range n).filter (fun j => q j = true) =
      insert i ((Finset.range n).filter (fun j => p j = true)) := by
    ext j
    simp only [Finset.mem_filter, Finset.mem_insert, Finset.mem_range]
    constructor
    · intro ⟨hjn, hqj⟩
      by_cases hji : j = i
      · exact Or.inl hji
      · exact Or.inr ⟨hjn, by rw [← hother j hji]; exact hqj⟩
    · intro hcase
      rcases hcase with rfl | ⟨hjn, hpj⟩
      · exact ⟨hi, hqi⟩
      · by_cases hji : j = i
        · subst hji; rw [hpi] at hpj; exact absurd hpj (by simp)
        · exact ⟨hjn, by rw [hother j hji]; exact hpj⟩
  rw [hins, Finset.card_insert_of_not_mem]
  simp only [Finset.mem_filter, Finset.mem_range, not_and]
  intro _
  rw [hpi]
  simp

theorem countIdx_all {n : Nat} {p : Nat → Bool} (h : ∀ j, j < n → p j = true) :
    countIdx n p = n := by
  unfold countIdx
  rw [Finset.filter_true_of_mem (fun j hj => h j (Finset.mem_range.mp hj))]
  exact Finset.card_range n

def slotHbit (g : Grid) (x y : Nat) : Nat := g.cell (y * g.width + x) &&& EAST

def slotVbit (g : Grid) (x y : Nat) : Nat := g.cell (y * g.width + x) &&& SOUTH

def slotOpenH (g : Grid) (x y : Nat) : Prop :=
  x + 1 < g.width ∧ y < g.height ∧ slotHbit g x y = 0

def slotOpenV (g : Grid) (x y : Nat) : Prop :=
  x < g.width ∧ y + 1 < g.height ∧ slotVbit g x y = 0

/-- The open-wall adjacency between lattice cells realized by the carved
grid. -/
def openAdj (g : Grid) (a b : Nat × Nat) : Prop :=
  (slotOpenH g a.1 a.2 ∧ b = (a.1 + 1, a.2)) ∨
  (slotOpenH g b.1 b.2 ∧ a = (b.1 + 1, b.2)) ∨
  (slotOpenV g a.1 a.2 ∧ b = (a.1, a.2 + 1)) ∨
  (slotOpenV g b.1 b.2 ∧ a = (b.1, b.2 + 1))

/-- Reachability through open walls. -/
def ReachOpen (g : Grid) : Nat × Nat → Nat × Nat → Prop :=
  Relation.ReflTransGen (openAdj g)

def countVisited (g : Grid) : Nat :=
  countIdx (g.width * g.height) (fun i => g.cell i &&& VISITED != 0)

/-- The number of open wall pairs, one canonical slot per lattice-adjacent
pair. -/
def openPairCount (g : Grid) : Nat :=
  countIdx (g.width * g.height)
    (fun i => decide (i % g.width + 1 < g.width) && (g.cell i &&& EAST == 0)) +
  countIdx (g.width * g.height)
    (fun i => decide (i / g.width + 1 < g.height) && (g.cell i &&& SOUTH == 0))

/-- A predicate holding at a window origin and closed under right and down
steps inside the window holds on the whole window. -/
theorem window_closure {P : Nat → Nat → Prop} (x0 y0 rw rh : Nat)
    (hbase : P x0 y0)
    (hright : ∀ x y, x0 ≤ x → x + 1 < x0 + rw → y0 ≤ y → y < y0 + rh →
      P x y → P (x + 1) y)
    (hdown : ∀ x y, x0 ≤ x → x < x0 + rw → y0 ≤ y → y + 1 < y0 + rh →
      P x y → P x (y + 1)) :
    ∀ x y, x0 ≤ x → x < x0 + rw → y0 ≤ y → y < y0 + rh → P x y := by
  have main : ∀ k x y, x0 ≤ x → x < x0 + rw → y0 ≤ y → y < y0 + rh →
      (x - x0) + (y - y0) = k → P x y := by
    intro k
    induction k using Nat.strong_induction_on with
    | _ k ih =>
      intro x y hx1 hx2 hy1 hy2 hk
      by_cases hy : y = y0
      · subst hy
        by_cases hx : x = x0
        · subst hx; exact hbase
        · have hxp : x0 ≤ x - 1 := by omega
          have hprev := ih (k - 1) (by omega) (x - 1) y hxp (by omega) hy1 hy2 (by omega)
          have hr := hright (x - 1) y hxp (by omega) hy1 hy2 hprev
          have hform : x - 1 + 1 = x := by omega
          rw [hform] at hr
          exact hr
      · have hyp : y0 ≤ y - 1 := by omega
        have hprev := ih (k - 1) (by omega) x (y - 1) hx1 hx2 hyp (by omega) (by omega)
        have hd := hdown x (y - 1) hx1 hx2 hyp (by omega) hprev
        have hform : y - 1 + 1 = y := by omega
        rw [hform] at hd
        exact hd
  intro x y hx1 hx2 hy1 hy2
  exact main ((x - x0) + (y - y0)) x y hx1 hx2 hy1 hy2 rfl

theorem countIdx_le (n : Nat) (p : Nat → Bool) : countIdx n p ≤ n := by
  unfold countIdx
  calc ((Finset.range n).filter (fun i => p i = true)).card
      ≤ (Finset.range n).card := Finset.card_filter_le _ _
    _ = n := Finset.card_range n

theorem countIdx_false (n : Nat) : countIdx n (fun _ => false) = 0 := by
  unfold countIdx
  simp

theorem idx_mod {w x : Nat} (y : Nat) (hx : x < w) : (y * w + x) % w = x := by
  rw [Nat.mul_comm, Nat.mul_add_mod]
  exact Nat.mod_eq_of_lt hx

theorem idx_div {w x : Nat} (y : Nat) (hx : x < w) : (y * w + x) / w = y := by
  rw [Nat.mul_comm, Nat.mul_add_div (by omega)]
  rw [Nat.div_eq_of_lt hx]
  omega

theorem ldiff_vis {d : Nat} (hd : ValidDir d) (v : Nat) :
    (Nat.ldiff v d) &&& VISITED = v &&& VISITED := by
  rcases validDir_pow hd with ⟨k, hk, rfl⟩
  rw [show VISITED = 2 ^ 4 from rfl]
  exact and_pow_ldiff_ne v (by omega)

theorem or_vis_east (v : Nat) : (v ||| VISITED) &&& EAST = v &&& EAST := by
  rw [show VISITED = 2 ^ 4 from rfl, show EAST = 2 ^ 1 from rfl]
  exact and_pow_or_ne v (by omega)

theorem or_vis_south (v : Nat) : (v ||| VISITED) &&& SOUTH = v &&& SOUTH := by
  rw [show VISITED = 2 ^ 4 from rfl, show SOUTH = 2 ^ 2 from rfl]
  exact and_pow_or_ne v (by omega)

theorem or_vis_vis (v : Nat) : (v ||| VISITED) &&& VISITED = VISITED := by
  rw [show VISITED = 2 ^ 4 from rfl]
  exact and_pow_or_self v 4

theorem getNeighbors_congr {g2 g : Grid} (hw : g2.width = g.width)
    (hh : g2.height = g.height) (x y : Nat) :
    g2.getNeighbors x y = g.getNeighbors x y := by
  unfold Grid.getNeighbors
  rw [hw, hh]

theorem mem_getNeighbors_iff {g : Grid} {x y : Nat} {p : Nat × Nat × Nat} :
    p ∈ g.getNeighbors x y ↔
      (0 < y ∧ p = (x, y - 1, NORTH)) ∨ (y < g.height - 1 ∧ p = (x, y + 1, SOUTH)) ∨
      (x < g.width - 1 ∧ p = (x + 1, y, EAST)) ∨ (0 < x ∧ p = (x - 1, y, WEST)) := by
  unfold Grid.getNeighbors
  by_cases h1 : 0 < y <;> by_cases h2 : y < g.height - 1 <;>
    by_cases h3 : x < g.width - 1 <;> by_cases h4 : 0 < x <;>
      simp [h1, h2, h3, h4, List.mem_append] <;> tauto

theorem setVisited_effect {g : Grid} {x y : Nat}
    (hlen : g.cells.length = g.width * g.height)
    (hx : x < g.width) (hy : y < g.height) :
    (g.setVisited x y).width = g.width ∧
    (g.setVisited x y).height = g.height ∧
    (g.setVisited x y).cells.length = g.cells.length ∧
    (∀ j, (g.setVisited x y).cell j &&& EAST = g.cell j &&& EAST) ∧
    (∀ j, (g.setVisited x y).cell j &&& SOUTH = g.cell j &&& SOUTH) ∧
    (∀ j, (g.setVisited x y).cell j &&& VISITED =
        if j = y * g.width + x then VISITED else g.cell j &&& VISITED) := by
  have hi : y * g.width + x < g.cells.length := by rw [hlen]; exact idx_lt hx hy
  have hcell : ∀ j, (g.setVisited x y).cell j =
      if j = y * g.width + x then (g.cell (y * g.width + x)) ||| VISITED
      else g.cell j :=
    fun j => cell_set (g := g) hi ((g.cells.getD (y * g.width + x) 0) ||| VISITED) j
  refine ⟨rfl, rfl, by simp [Grid.setVisited], ?_, ?_, ?_⟩
  · intro j
    rw [hcell j]
    by_cases hj : j = y * g.width + x
    · subst hj; rw [if_pos rfl]; exact or_vis_east _
    · rw [if_neg hj]
  · intro j
    rw [hcell j]
    by_cases hj : j = y * g.width + x
    · subst hj; rw [if_pos rfl]; exact or_vis_south _
    · rw [if_neg hj]
  · intro j
    rw [hcell j]
    by_cases hj : j = y * g.width + x
    · subst hj; rw [if_pos rfl, if_pos rfl]; exact or_vis_vis _
    · rw [if_neg hj, if_neg hj]

theorem ite_ft {c : Prop} [Decidable c] (a b : Nat) :
    (if false = true ∧ c then a else b) = b := if_neg (by simp)

theorem ite_tf {c : Prop} [Decidable c] (a b : Nat) :
    (if true = false ∧ c then a else b) = b := if_neg (by simp)

theorem ite_tt {c : Prop} [Decidable c] (a b : Nat) :
    (if true = true ∧ c then a else b) = if c then a else b := by
  by_cases h : c
  · rw [if_pos ⟨rfl, h⟩, if_pos h]
  · rw [if_neg (fun hh => h hh.2), if_neg h]

theorem ite_ff {c : Prop} [Decidable c] (a b : Nat) :
    (if false = false ∧ c then a else b) = if c then a else b := by
  by_cases h : c
  · rw [if_pos ⟨rfl, h⟩, if_pos h]
  · rw [if_neg (fun hh => h hh.2), if_neg h]

/-- Effect of carving toward a lattice neighbor: dimensions and visited bits
are untouched, and exactly one canonical wall slot (the east bit of the left
cell or the south bit of the upper cell of the carved pair) is cleared, all
other east/south bits staying as they were. -/
theorem carve_nbr_master {g : Grid} {cx cy nx ny d : Nat}
    (hlen : g.cells.length = g.width * g.height)
    (hcx : cx < g.width) (hcy : cy < g.height)
    (hnb : (nx, ny, d) ∈ g.getNeighbors cx cy) :
    ∃ sx sy, ∃ o : Bool,
      (g.carvePath cx cy d).width = g.width ∧
      (g.carvePath cx cy d).height = g.height ∧
      (g.carvePath cx cy d).cells.length = g.cells.length ∧
      nx < g.width ∧ ny < g.height ∧ ¬(nx = cx ∧ ny = cy) ∧
      (∀ j, (g.carvePath cx cy d).cell j &&& VISITED = g.cell j &&& VISITED) ∧
      (if o = true then
        sx + 1 < g.width ∧ sy < g.height ∧
          (((sx, sy) = (cx, cy) ∧ (nx, ny) = (sx + 1, sy)) ∨
           ((sx, sy) = (nx, ny) ∧ (cx, cy) = (sx + 1, sy)))
      else
        sx < g.width ∧ sy + 1 < g.height ∧
          (((sx, sy) = (cx, cy) ∧ (nx, ny) = (sx, sy + 1)) ∨
           ((sx, sy) = (nx, ny) ∧ (cx, cy) = (sx, sy + 1)))) ∧
      (∀ j, (g.carvePath cx cy d).cell j &&& EAST =
        if o = true ∧ j = sy * g.width + sx then 0 else g.cell j &&& EAST) ∧
      (∀ j, (g.carvePath cx cy d).cell j &&& SOUTH =
        if o = false ∧ j = sy * g.width + sx then 0 else g.cell j &&& SOUTH) := by
  have hww : 0 < g.width := by omega
  rcases mem_getNeighbors_iff.mp hnb with ⟨hc, heq⟩ | ⟨hc, heq⟩ | ⟨hc, heq⟩ | ⟨hc, heq⟩ <;>
    (simp only [Prod.mk.injEq] at heq; obtain ⟨rfl, rfl, rfl⟩ := heq)
  · -- NORTH: neighbor (nx, cy - 1); canonical slot is the south bit of it
    refine ⟨nx, cy - 1, false, ?_⟩
    rw [carvePath_north hcx (by omega) hcy]
    have hne : cy * g.width + nx ≠ (cy - 1) * g.width + nx := fun hcontr => by
      have := (idx_eq_iff hcx hcx).mp hcontr; omega
    have h1 : cy * g.width + nx < g.cells.length := by rw [hlen]; exact idx_lt hcx hcy
    have h2 : (cy - 1) * g.width + nx < g.cells.length := by
      rw [hlen]; exact idx_lt hcx (by omega)
    have hcell := cell_doubleUpd2 NORTH SOUTH Nat.ldiff hne h1 h2
    refine ⟨rfl, rfl, by simp [doubleUpd], hcx, by omega, by omega, ?_, ?_, ?_, ?_⟩
    · intro j
      rw [hcell j]
      by_cases hj2 : j = (cy - 1) * g.width + nx
      · subst hj2; rw [if_pos rfl]; exact ldiff_vis validS _
      · rw [if_neg hj2]
        by_cases hj1 : j = cy * g.width + nx
        · subst hj1; rw [if_pos rfl]; exact ldiff_vis validN _
        · rw [if_neg hj1]
    · rw [if_neg (by decide)]
      exact ⟨hcx, by omega, Or.inr ⟨rfl, by rw [show cy - 1 + 1 = cy from by omega]⟩⟩
    · intro j
      rw [hcell j, ite_ft]
      by_cases hj2 : j = (cy - 1) * g.width + nx
      · subst hj2; rw [if_pos rfl]; exact hw_ldiff_ne validS validE (by decide) _
      · rw [if_neg hj2]
        by_cases hj1 : j = cy * g.width + nx
        · subst hj1; rw [if_pos rfl]; exact hw_ldiff_ne validN validE (by decide) _
        · rw [if_neg hj1]
    · intro j
      rw [hcell j, ite_ff]
      by_cases hj2 : j = (cy - 1) * g.width + nx
      · subst hj2; rw [if_pos rfl, if_pos rfl]; exact hw_ldiff_same validS _
      · rw [if_neg hj2, if_neg hj2]
        by_cases hj1 : j = cy * g.width + nx
        · subst hj1; rw [if_pos rfl]; exact hw_ldiff_ne validN validS (by decide) _
        · rw [if_neg hj1]
  · -- SOUTH: neighbor (nx, cy + 1); canonical slot is the south bit of (nx, cy)
    refine ⟨nx, cy, false, ?_⟩
    rw [carvePath_south hcx (by omega)]
    have hne : cy * g.width + nx ≠ (cy + 1) * g.width + nx := fun hcontr => by
      have := (idx_eq_iff hcx hcx).mp hcontr; omega
    have h1 : cy * g.width + nx < g.cells.length := by rw [hlen]; exact idx_lt hcx hcy
    have h2 : (cy + 1) * g.width + nx < g.cells.length := by
      rw [hlen]; exact idx_lt hcx (by omega)
    have hcell := cell_doubleUpd2 SOUTH NORTH Nat.ldiff hne h1 h2
    refine ⟨rfl, rfl, by simp [doubleUpd], hcx, by omega, by omega, ?_, ?_, ?_, ?_⟩
    · intro j
      rw [hcell j]
      by_cases hj2 : j = (cy + 1) * g.width + nx
      · subst hj2; rw [if_pos rfl]; exact ldiff_vis validN _
      · rw [if_neg hj2]
        by_cases hj1 : j = cy * g.width + nx
        · subst hj1; rw [if_pos rfl]; exact ldiff_vis validS _
        · rw [if_neg hj1]
    · rw [if_neg (by decide)]
      exact ⟨hcx, by omega, Or.inl ⟨rfl, rfl⟩⟩
    · intro j
      rw [hcell j, ite_ft]
      by_cases hj2 : j = (cy + 1) * g.width + nx
      · subst hj2; rw [if_pos rfl]; exact hw_ldiff_ne validN validE (by decide) _
      · rw [if_neg hj2]
        by_cases hj1 : j = cy * g.width + nx
        · subst hj1; rw [if_pos rfl]; exact hw_ldiff_ne validS validE (by decide) _
        · rw [if_neg hj1]
    · intro j
      rw [hcell j, ite_ff]
      by_cases hj2 : j = (cy + 1) * g.width + nx
      · subst hj2
        rw [if_pos rfl, if_neg (fun hcontr => hne hcontr.symm)]
        exact hw_ldiff_ne validN validS (by decide) _
      · rw [if_neg hj2]
        by_cases hj1 : j = cy * g.width + nx
        · subst hj1; rw [if_pos rfl, if_pos rfl]; exact hw_ldiff_same validS _
        · rw [if_neg hj1, if_neg hj1]
  · -- EAST: neighbor (cx + 1, ny); canonical slot is the east bit of (cx, ny)
    refine ⟨cx, ny, true, ?_⟩
    rw [carvePath_east (by omega) hcy]
    have hne : ny * g.width + cx ≠ ny * g.width + (cx + 1) := by omega
    have h1 : ny * g.width + cx < g.cells.length := by rw [hlen]; exact idx_lt hcx hcy
    have h2 : ny * g.width + (cx + 1) < g.cells.length := by
      rw [hlen]; exact idx_lt (by omega) hcy
    have hcell := cell_doubleUpd2 EAST WEST Nat.ldiff hne h1 h2
    refine ⟨rfl, rfl, by simp [doubleUpd], by omega, hcy, by omega, ?_, ?_, ?_, ?_⟩
    · intro j
      rw [hcell j]
      by_cases hj2 : j = ny * g.width + (cx + 1)
      · subst hj2; rw [if_pos rfl]; exact ldiff_vis validW _
      · rw [if_neg hj2]
        by_cases hj1 : j = ny * g.width + cx
        · subst hj1; rw [if_pos rfl]; exact ldiff_vis validE _
        · rw [if_neg hj1]
    · rw [if_pos rfl]
      exact ⟨by omega, hcy, Or.inl ⟨rfl, rfl⟩⟩
    · intro j
      rw [hcell j, ite_tt]
      by_cases hj2 : j = ny * g.width + (cx + 1)
      · subst hj2
        rw [if_pos rfl, if_neg (fun hcontr => hne hcontr.symm)]
        exact hw_ldiff_ne validW validE (by decide) _
      · rw [if_neg hj2]
        by_cases hj1 : j = ny * g.width + cx
        · subst hj1; rw [if_pos rfl, if_pos rfl]; exact hw_ldiff_same validE _
        · rw [if_neg hj1, if_neg hj1]
    · intro j
      rw [hcell j, ite_tf]
      by_cases hj2 : j = ny * g.width + (cx + 1)
      · subst hj2; rw [if_pos rfl]; exact hw_ldiff_ne validW validS (by decide) _
      · rw [if_neg hj2]
        by_cases hj1 : j = ny * g.width + cx
        · subst hj1; rw [if_pos rfl]; exact hw_ldiff_ne validE validS (by decide) _
        · rw [if_neg hj1]
  · -- WEST: neighbor (cx - 1, ny); canonical slot is the east bit of it
    refine ⟨cx - 1, ny, true, ?_⟩
    rw [carvePath_west (by omega) hcx hcy]
    have hne : ny * g.width + cx ≠ ny * g.width + (cx - 1) := by omega
    have h1 : ny * g.width + cx < g.cells.length := by rw [hlen]; exact idx_lt hcx hcy
    have h2 : ny * g.width + (cx - 1) < g.cells.length := by
      rw [hlen]; exact idx_lt (by omega) hcy
    have hcell := cell_doubleUpd2 WEST EAST Nat.ldiff hne h1 h2
    refine ⟨rfl, rfl, by simp [doubleUpd], by omega, hcy, by omega, ?_, ?_, ?_, ?_⟩
    · intro j
      rw [hcell j]
      by_cases hj2 : j = ny * g.width + (cx - 1)
      · subst hj2; rw [if_pos rfl]; exact ldiff_vis validE _
      · rw [if_neg hj2]
        by_cases hj1 : j = ny * g.width + cx
        · subst hj1; rw [if_pos rfl]; exact ldiff_vis validW _
        · rw [if_neg hj1]
    · rw [if_pos rfl]
      exact ⟨by omega, hcy, Or.inr ⟨rfl, by rw [show cx - 1 + 1 = cx from by omega]⟩⟩
    · intro j
      rw [hcell j, ite_tt]
      by_cases hj2 : j = ny * g.width + (cx - 1)
      · subst hj2; rw [if_pos rfl, if_pos rfl]; exact hw_ldiff_same validE _
      · rw [if_neg hj2, if_neg hj2]
        by_cases hj1 : j = ny * g.width + cx
        · subst hj1; rw [if_pos rfl]; exact hw_ldiff_ne validW validE (by decide) _
        · rw [if_neg hj1]
    · intro j
      rw [hcell j, ite_tf]
      by_cases hj2 : j = ny * g.width + (cx - 1)
      · subst hj2; rw [if_pos rfl]; exact hw_ldiff_ne validE validS (by decide) _
      · rw [if_neg hj2]
        by_cases hj1 : j = ny * g.width + cx
        · subst hj1; rw [if_pos rfl]; exact hw_ldiff_ne validW validS (by decide) _
        · rw [if_neg hj1]

/-- The carve-and-mark step both generators perform: carve from `(cx, cy)` in
direction `d` and set the `VISITED` bit of `(mx, my)` (the newly reached cell
for the backtracker, the frontier cell itself for Prim). -/
def carveMark (g : Grid) (cx cy mx my d : Nat) : Grid :=
  (g.carvePath cx cy d).setVisited mx my

theorem isVisited_bit_iff {g : Grid} {x y : Nat} :
    g.isVisited x y = true ↔ g.cell (y * g.width + x) &&& VISITED ≠ 0 := by
  unfold Grid.isVisited Grid.idx
  simp

theorem isVisited_transport {g2 g : Grid} (hW : g2.width = g.width) (x y : Nat) :
    g2.isVisited x y = true ↔ g2.cell (y * g.width + x) &&& VISITED ≠ 0 := by
  unfold Grid.isVisited Grid.idx
  rw [hW]
  simp

theorem isVisited_false_bit {g : Grid} {x y : Nat} (h : g.isVisited x y = false) :
    g.cell (y * g.width + x) &&& VISITED = 0 := by
  unfold Grid.isVisited Grid.idx at h
  simpa using h

theorem slotOpenH_transport {g2 g : Grid} (hW : g2.width = g.width)
    (hH : g2.height = g.height) (x y : Nat) :
    slotOpenH g2 x y ↔
      x + 1 < g.width ∧ y < g.height ∧ g2.cell (y * g.width + x) &&& EAST = 0 := by
  unfold slotOpenH slotHbit
  rw [hW, hH]

theorem slotOpenV_transport {g2 g : Grid} (hW : g2.width = g.width)
    (hH : g2.height = g.height) (x y : Nat) :
    slotOpenV g2 x y ↔
      x < g.width ∧ y + 1 < g.height ∧ g2.cell (y * g.width + x) &&& SOUTH = 0 := by
  unfold slotOpenV slotVbit
  rw [hW, hH]

/-- Dimensions, the visited-bit update and the carved-cell count after one
carve-and-mark step. -/
theorem carveMark_base {g : Grid} {cx cy nx ny d mx my : Nat}
    (hlen : g.cells.length = g.width * g.height)
    (hcx : cx < g.width) (hcy : cy < g.height)
    (hnb : (nx, ny, d) ∈ g.getNeighbors cx cy)
    (hmx : mx < g.width) (hmy : my < g.height)
    (hmvis : g.isVisited mx my = false) :
    (carveMark g cx cy mx my d).width = g.width ∧
    (carveMark g cx cy mx my d).height = g.height ∧
    (carveMark g cx cy mx my d).cells.length = g.cells.length ∧
    (∀ x y, x < g.width → y < g.height →
      ((carveMark g cx cy mx my d).isVisited x y = true ↔
        (x = mx ∧ y = my) ∨ g.isVisited x y = true)) ∧
    countVisited (carveMark g cx cy mx my d) = countVisited g + 1 := by
  obtain ⟨sx, sy, o, hW2, hH2, hL2, _, _, _, hVis2, _, _, _⟩ :=
    carve_nbr_master hlen hcx hcy hnb
  have hlen2 : (g.carvePath cx cy d).cells.length =
      (g.carvePath cx cy d).width * (g.carvePath cx cy d).height := by
    rw [hW2, hH2, hL2, hlen]
  have hset := setVisited_effect (g := g.carvePath cx cy d) hlen2
    (by rw [hW2]; exact hmx) (by rw [hH2]; exact hmy)
  have hW3 : (carveMark g cx cy mx my d).width = g.width := by
    unfold carveMark; rw [hset.1, hW2]
  have hH3 : (carveMark g cx cy mx my d).height = g.height := by
    unfold carveMark; rw [hset.2.1, hH2]
  have hL3 : (carveMark g cx cy mx my d).cells.length = g.cells.length := by
    unfold carveMark; rw [hset.2.2.1, hL2]
  have hVis3 : ∀ j, (carveMark g cx cy mx my d).cell j &&& VISITED =
      if j = my * g.width + mx then VISITED else g.cell j &&& VISITED := by
    intro j
    have hv := hset.2.2.2.2.2 j
    rw [hW2] at hv
    unfold carveMark
    rw [hv]
    by_cases hj : j = my * g.width + mx
    · rw [if_pos hj, if_pos hj]
    · rw [if_neg hj, if_neg hj, hVis2 j]
  have hviff : ∀ x y, x < g.width → y < g.height →
      ((carveMark g cx cy mx my d).isVisited x y = true ↔
        (x = mx ∧ y = my) ∨ g.isVisited x y = true) := by
    intro x y hx hy
    rw [isVisited_transport hW3, hVis3 (y * g.width + x)]
    by_cases hj : y * g.width + x = my * g.width + mx
    · rw [if_pos hj]
      have hxy := (idx_eq_iff hx hmx).mp hj
      constructor
      · intro _; exact Or.inl hxy
      · intro _; decide
    · rw [if_neg hj, ← isVisited_bit_iff]
      constructor
      · intro hv; exact Or.inr hv
      · intro hcase
        rcases hcase with ⟨h1, h2⟩ | hv
        · rw [h1, h2] at hj; exact absurd rfl hj
        · exact hv
  refine ⟨hW3, hH3, hL3, hviff, ?_⟩
  unfold countVisited
  simp only [hW3, hH3, hL3]
  exact countIdx_flip (idx_lt hmx hmy)
    (by rw [isVisited_false_bit hmvis]; rfl)
    (by rw [hVis3 (my * g.width + mx), if_pos rfl]; decide)
    (fun j hj => by rw [hVis3 j, if_neg hj])

/-- One carve-and-mark step opens exactly one new canonical wall pair,
provided every already-open pair joins two visited cells and the marked cell
was unvisited. -/
theorem carveMark_pairCount {g : Grid} {cx cy nx ny d mx my ox oy : Nat}
    (hlen : g.cells.length = g.width * g.height)
    (hcx : cx < g.width) (hcy : cy < g.height)
    (hnb : (nx, ny, d) ∈ g.getNeighbors cx cy)
    (hpair : ((mx, my) = (cx, cy) ∧ (ox, oy) = (nx, ny)) ∨
             ((mx, my) = (nx, ny) ∧ (ox, oy) = (cx, cy)))
    (hmvis : g.isVisited mx my = false)
    (hSlotH : ∀ x y, slotOpenH g x y →
      g.isVisited x y = true ∧ g.isVisited (x + 1) y = true)
    (hSlotV : ∀ x y, slotOpenV g x y →
      g.isVisited x y = true ∧ g.isVisited x (y + 1) = true) :
    openPairCount (carveMark g cx cy mx my d) = openPairCount g + 1 := by
  obtain ⟨sx, sy, o, hW2, hH2, hL2, hnxb, hnyb, _, hVis2, hslot, hE2, hS2⟩ :=
    carve_nbr_master hlen hcx hcy hnb
  have hmx : mx < g.width := by
    rcases hpair with ⟨h1, _⟩ | ⟨h1, _⟩ <;> simp only [Prod.mk.injEq] at h1
    · rw [h1.1]; exact hcx
    · rw [h1.1]; exact hnxb
  have hmy : my < g.height := by
    rcases hpair with ⟨h1, _⟩ | ⟨h1, _⟩ <;> simp only [Prod.mk.injEq] at h1
    · rw [h1.2]; exact hcy
    · rw [h1.2]; exact hnyb
  have hlen2 : (g.carvePath cx cy d).cells.length =
      (g.carvePath cx cy d).width * (g.carvePath cx cy d).height := by
    rw [hW2, hH2, hL2, hlen]
  have hset := setVisited_effect (g := g.carvePath cx cy d) hlen2
    (by rw [hW2]; exact hmx) (by rw [hH2]; exact hmy)
  have hW3 : (carveMark g cx cy mx my d).width = g.width := by
    unfold carveMark; rw [hset.1, hW2]
  have hH3 : (carveMark g cx cy mx my d).height = g.height := by
    unfold carveMark; rw [hset.2.1, hH2]
  have hE3 : ∀ j, (carveMark g cx cy mx my d).cell j &&& EAST =
      if o = true ∧ j = sy * g.width + sx then 0 else g.cell j &&& EAST := by
    intro j
    have he := hset.2.2.2.1 j
    unfold carveMark
    rw [he, hE2 j]
  have hS3 : ∀ j, (carveMark g cx cy mx my d).cell j &&& SOUTH =
      if o = false ∧ j = sy * g.width + sx then 0 else g.cell j &&& SOUTH := by
    intro j
    have hs := hset.2.2.2.2.1 j
    unfold carveMark
    rw [hs, hS2 j]
  unfold openPairCount
  simp only [hW3, hH3]
  cases o with
  | true =>
    rw [if_pos rfl] at hslot
    obtain ⟨hsb1, hsb2, hept⟩ := hslot
    have hclosed : g.cell (sy * g.width + sx) &&& EAST ≠ 0 := by
      intro hzero
      have hviss := hSlotH sx sy ⟨hsb1, hsb2, hzero⟩
      have hpairvis : g.isVisited cx cy = true ∧ g.isVisited nx ny = true := by
        rcases hept with ⟨he1, he2⟩ | ⟨he1, he2⟩ <;>
          simp only [Prod.mk.injEq] at he1 he2
        · exact ⟨by rw [← he1.1, ← he1.2]; exact hviss.1,
            by rw [he2.1, he2.2]; exact hviss.2⟩
        · exact ⟨by rw [he2.1, he2.2]; exact hviss.2,
            by rw [← he1.1, ← he1.2]; exact hviss.1⟩
      have hmv : g.isVisited mx my = true := by
        rcases hpair with ⟨h1, _⟩ | ⟨h1, _⟩ <;> simp only [Prod.mk.injEq] at h1
        · rw [h1.1, h1.2]; exact hpairvis.1
        · rw [h1.1, h1.2]; exact hpairvis.2
      simp [hmv] at hmvis
    have hHcnt : countIdx (g.width * g.height)
        (fun i => decide (i % g.width + 1 < g.width) &&
          ((carveMark g cx cy mx my d).cell i &&& EAST == 0)) =
      countIdx (g.width * g.height)
        (fun i => decide (i % g.width + 1 < g.width) &&
          (g.cell i &&& EAST == 0)) + 1 := by
      refine countIdx_flip (i := sy * g.width + sx) (idx_lt (by omega) hsb2) ?_ ?_ ?_
      · have hbeq : (g.cell (sy * g.width + sx) &&& EAST == 0) = false := by
          simp [hclosed]
        rw [hbeq, Bool.and_false]
      · rw [hE3 (sy * g.width + sx), if_pos ⟨rfl, rfl⟩]
        rw [idx_mod sy (by omega)]
        simp [hsb1]
      · intro j hj
        rw [hE3 j, if_neg (fun hc => hj hc.2)]
    have hVcnt : countIdx (g.width * g.height)
        (fun i => decide (i / g.width + 1 < g.height) &&
          ((carveMark g cx cy mx my d).cell i &&& SOUTH == 0)) =
      countIdx (g.width * g.height)
        (fun i => decide (i / g.width + 1 < g.height) &&
          (g.cell i &&& SOUTH == 0)) := by
      refine countIdx_congr ?_
      intro j _
      rw [hS3 j, if_neg (fun hc => absurd hc.1 (by decide))]
    rw [hHcnt, hVcnt]
    omega
  | false =>
    rw [if_neg (by decide)] at hslot
    obtain ⟨hsb1, hsb2, hept⟩ := hslot
    have hclosed : g.cell (sy * g.width + sx) &&& SOUTH ≠ 0 := by
      intro hzero
      have hviss := hSlotV sx sy ⟨hsb1, hsb2, hzero⟩
      have hpairvis : g.isVisited cx cy = true ∧ g.isVisited nx ny = true := by
        rcases hept with ⟨he1, he2⟩ | ⟨he1, he2⟩ <;>
          simp only [Prod.mk.injEq] at he1 he2
        · exact ⟨by rw [← he1.1, ← he1.2]; exact hviss.1,
            by rw [he2.1, he2.2]; exact hviss.2⟩
        · exact ⟨by rw [he2.1, he2.2]; exact hviss.2,
            by rw [← he1.1, ← he1.2]; exact hviss.1⟩
      have hmv : g.isVisited mx my = true := by
        rcases hpair with ⟨h1, _⟩ | ⟨h1, _⟩ <;> simp only [Prod.mk.injEq] at h1
        · rw [h1.1, h1.2]; exact hpairvis.1
        · rw [h1.1, h1.2]; exact hpairvis.2
      simp [hmv] at hmvis
    have hHcnt : countIdx (g.width * g.height)
        (fun i => decide (i % g.width + 1 < g.width) &&
          ((carveMark g cx cy mx my d).cell i &&& EAST == 0)) =
      countIdx (g.width * g.height)
        (fun i => decide (i % g.width + 1 < g.width) &&
          (g.cell i &&& EAST == 0)) := by
      refine countIdx_congr ?_
      intro j _
      rw [hE3 j, if_neg (fun hc => absurd hc.1 (by decide))]
    have hVcnt : countIdx (g.width * g.height)
        (fun i => decide (i / g.width + 1 < g.height) &&
          ((carveMark g cx cy mx my d).cell i &&& SOUTH == 0)) =
      countIdx (g.width * g.height)
        (fun i => decide (i / g.width + 1 < g.height) &&
          (g.cell i &&& SOUTH == 0)) + 1 := by
      refine countIdx_flip (i := sy * g.width + sx) (idx_lt hsb1 (by omega)) ?_ ?_ ?_
      · have hbeq : (g.cell (sy * g.width + sx) &&& SOUTH == 0) = false := by
          simp [hclosed]
        rw [hbeq, Bool.and_false]
      · rw [hS3 (sy * g.width + sx), if_pos ⟨rfl, rfl⟩]
        rw [idx_div sy hsb1]
        simp [hsb2]
      · intro j hj
        rw [hS3 j, if_neg (fun hc => hj hc.2)]
    rw [hHcnt, hVcnt]
    omega

/-- After a carve-and-mark step every open canonical pair still joins two
visited cells. -/
theorem carveMark_slots {g : Grid} {cx cy nx ny d mx my ox oy : Nat}
    (hlen : g.cells.length = g.width * g.height)
    (hcx : cx < g.width) (hcy : cy < g.height)
    (hnb : (nx, ny, d) ∈ g.getNeighbors cx cy)
    (hpair : ((mx, my) = (cx, cy) ∧ (ox, oy) = (nx, ny)) ∨
             ((mx, my) = (nx, ny) ∧ (ox, oy) = (cx, cy)))
    (hovis : g.isVisited ox oy = true)
    (hSlotH : ∀ x y, slotOpenH g x y →
      g.isVisited x y = true ∧ g.isVisited (x + 1) y = true)
    (hSlotV : ∀ x y, slotOpenV g x y →
      g.isVisited x y = true ∧ g.isVisited x (y + 1) = true) :
    (∀ x y, slotOpenH (carveMark g cx cy mx my d) x y →
      (carveMark g cx cy mx my d).isVisited x y = true ∧
      (carveMark g cx cy mx my d).isVisited (x + 1) y = true) ∧
    (∀ x y, slotOpenV (carveMark g cx cy mx my d) x y →
      (carveMark g cx cy mx my d).isVisited x y = true ∧
      (carveMark g cx cy mx my d).isVisited x (y + 1) = true) := by
  obtain ⟨sx, sy, o, hW2, hH2, hL2, hnxb, hnyb, _, hVis2, hslot, hE2, hS2⟩ :=
    carve_nbr_master hlen hcx hcy hnb
  have hmx : mx < g.width := by
    rcases hpair with ⟨h1, _⟩ | ⟨h1, _⟩ <;> simp only [Prod.mk.injEq] at h1
    · rw [h1.1]; exact hcx
    · rw [h1.1]; exact hnxb
  have hmy : my < g.height := by
    rcases hpair with ⟨h1, _⟩ | ⟨h1, _⟩ <;> simp only [Prod.mk.injEq] at h1
    · rw [h1.2]; exact hcy
    · rw [h1.2]; exact hnyb
  have hoxb : ox < g.width := by
    rcases hpair with ⟨_, h2⟩ | ⟨_, h2⟩ <;> simp only [Prod.mk.injEq] at h2
    · rw [h2.1]; exact hnxb
    · rw [h2.1]; exact hcx
  have hoyb : oy < g.height := by
    rcases hpair with ⟨_, h2⟩ | ⟨_, h2⟩ <;> simp only [Prod.mk.injEq] at h2
    · rw [h2.2]; exact hnyb
    · rw [h2.2]; exact hcy
  have hlen2 : (g.carvePath cx cy d).cells.length =
      (g.carvePath cx cy d).width * (g.carvePath cx cy d).height := by
    rw [hW2, hH2, hL2, hlen]
  have hset := setVisited_effect (g := g.carvePath cx cy d) hlen2
    (by rw [hW2]; exact hmx) (by rw [hH2]; exact hmy)
  have hW3 : (carveMark g cx cy mx my d).width = g.width := by
    unfold carveMark; rw [hset.1, hW2]
  have hH3 : (carveMark g cx cy mx my d).height = g.height := by
    unfold carveMark; rw [hset.2.1, hH2]
  have hVis3 : ∀ j, (carveMark g cx cy mx my d).cell j &&& VISITED =
      if j = my * g.width + mx then VISITED else g.cell j &&& VISITED := by
    intro j
    have hv := hset.2.2.2.2.2 j
    rw [hW2] at hv
    unfold carveMark
    rw [hv]
    by_cases hj : j = my * g.width + mx
    · rw [if_pos hj, if_pos hj]
    · rw [if_neg hj, if_neg hj, hVis2 j]
  have hE3 : ∀ j, (carveMark g cx cy mx my d).cell j &&& EAST =
      if o = true ∧ j = sy * g.width + sx then 0 else g.cell j &&& EAST := by
    intro j
    have he := hset.2.2.2.1 j
    unfold carveMark
    rw [he, hE2 j]
  have hS3 : ∀ j, (carveMark g cx cy mx my d).cell j &&& SOUTH =
      if o = false ∧ j = sy * g.width + sx then 0 else g.cell j &&& SOUTH := by
    intro j
    have hs := hset.2.2.2.2.1 j
    unfold carveMark
    rw [hs, hS2 j]
  have hvm3 : (carveMark g cx cy mx my d).isVisited mx my = true :=
    (isVisited_transport hW3 mx my).mpr
      (by rw [hVis3 (my * g.width + mx), if_pos rfl]; decide)
  have hmono3 : ∀ x y, x < g.width → y < g.height → g.isVisited x y = true →
      (carveMark g cx cy mx my d).isVisited x y = true := by
    intro x y hx hy hv
    refine (isVisited_transport hW3 x y).mpr ?_
    rw [hVis3 (y * g.width + x)]
    split_ifs
    · decide
    · exact isVisited_bit_iff.mp hv
  have hvo3 : (carveMark g cx cy mx my d).isVisited ox oy = true :=
    hmono3 ox oy hoxb hoyb hovis
  have hnew3 : ∀ u v, u < g.width → v < g.height →
      ((u, v) = (cx, cy) ∨ (u, v) = (nx, ny)) →
      (carveMark g cx cy mx my d).isVisited u v = true := by
    intro u v hu hv hcase
    rcases hpair with ⟨h1, h2⟩ | ⟨h1, h2⟩ <;>
      simp only [Prod.mk.injEq] at h1 h2 <;>
      rcases hcase with hc | hc <;> simp only [Prod.mk.injEq] at hc
    · rw [show u = mx from by omega, show v = my from by omega]; exact hvm3
    · rw [show u = ox from by omega, show v = oy from by omega]; exact hvo3
    · rw [show u = ox from by omega, show v = oy from by omega]; exact hvo3
    · rw [show u = mx from by omega, show v = my from by omega]; exact hvm3
  constructor
  · intro x y hop
    obtain ⟨hb1, hb2, hbit⟩ := (slotOpenH_transport hW3 hH3 x y).mp hop
    rw [hE3 (y * g.width + x)] at hbit
    by_cases hcond : o = true ∧ y * g.width + x = sy * g.width + sx
    · -- the newly carved pair
      cases o with
      | false => exact absurd hcond.1 (by decide)
      | true =>
        rw [if_pos rfl] at hslot
        obtain ⟨hsb1, hsb2, hept⟩ := hslot
        obtain ⟨hxx, hyy⟩ := (idx_eq_iff (show x < g.width from by omega)
          (show sx < g.width from by omega)).mp hcond.2
        rw [hxx, hyy]
        rcases hept with ⟨he1, he2⟩ | ⟨he1, he2⟩ <;>
          simp only [Prod.mk.injEq] at he1 he2
        · exact ⟨hnew3 sx sy (by omega) hsb2 (Or.inl (by simp only [Prod.mk.injEq]; omega)),
            hnew3 (sx + 1) sy (by omega) hsb2 (Or.inr (by simp only [Prod.mk.injEq]; omega))⟩
        · exact ⟨hnew3 sx sy (by omega) hsb2 (Or.inr (by simp only [Prod.mk.injEq]; omega)),
            hnew3 (sx + 1) sy (by omega) hsb2 (Or.inl (by simp only [Prod.mk.injEq]; omega))⟩
    · rw [if_neg hcond] at hbit
      have hold := hSlotH x y ⟨hb1, hb2, hbit⟩
      exact ⟨hmono3 x y (by omega) hb2 hold.1, hmono3 (x + 1) y hb1 hb2 hold.2⟩
  · intro x y hop
    obtain ⟨hb1, hb2, hbit⟩ := (slotOpenV_transport hW3 hH3 x y).mp hop
    rw [hS3 (y * g.width + x)] at hbit
    by_cases hcond : o = false ∧ y * g.width + x = sy * g.width + sx
    · cases o with
      | true => exact absurd hcond.1 (by decide)
      | false =>
        rw [if_neg (by decide)] at hslot
        obtain ⟨hsb1, hsb2, hept⟩ := hslot
        obtain ⟨hxx, hyy⟩ := (idx_eq_iff hb1 hsb1).mp hcond.2
        rw [hxx, hyy]
        rcases hept with ⟨he1, he2⟩ | ⟨he1, he2⟩ <;>
          simp only [Prod.mk.injEq] at he1 he2
        · exact ⟨hnew3 sx sy hsb1 (by omega) (Or.inl (by simp only [Prod.mk.injEq]; omega)),
            hnew3 sx (sy + 1) hsb1 (by omega) (Or.inr (by simp only [Prod.mk.injEq]; omega))⟩
        · exact ⟨hnew3 sx sy hsb1 (by omega) (Or.inr (by simp only [Prod.mk.injEq]; omega)),
            hnew3 sx (sy + 1) hsb1 (by omega) (Or.inl (by simp only [Prod.mk.injEq]; omega))⟩
    · rw [if_neg hcond] at hbit
      have hold := hSlotV x y ⟨hb1, hb2, hbit⟩
      exact ⟨hmono3 x y hb1 (by omega) hold.1, hmono3 x (y + 1) hb1 hb2 hold.2⟩

/-- A carve-and-mark step creates the open adjacency between the two cells of
the carved pair and preserves every existing open adjacency. -/
theorem carveMark_adj {g : Grid} {cx cy nx ny d mx my ox oy : Nat}
    (hlen : g.cells.length = g.width * g.height)
    (hcx : cx < g.width) (hcy : cy < g.height)
    (hnb : (nx, ny, d) ∈ g.getNeighbors cx cy)
    (hpair : ((mx, my) = (cx, cy) ∧ (ox, oy) = (nx, ny)) ∨
             ((mx, my) = (nx, ny) ∧ (ox, oy) = (cx, cy))) :
    openAdj (carveMark g cx cy mx my d) (mx, my) (ox, oy) ∧
    (∀ a b, openAdj g a b → openAdj (carveMark g cx cy mx my d) a b) := by
  obtain ⟨sx, sy, o, hW2, hH2, hL2, hnxb, hnyb, _, hVis2, hslot, hE2, hS2⟩ :=
    carve_nbr_master hlen hcx hcy hnb
  have hmx : mx < g.width := by
    rcases hpair with ⟨h1, _⟩ | ⟨h1, _⟩ <;> simp only [Prod.mk.injEq] at h1
    · rw [h1.1]; exact hcx
    · rw [h1.1]; exact hnxb
  have hmy : my < g.height := by
    rcases hpair with ⟨h1, _⟩ | ⟨h1, _⟩ <;> simp only [Prod.mk.injEq] at h1
    · rw [h1.2]; exact hcy
    · rw [h1.2]; exact hnyb
  have hlen2 : (g.carvePath cx cy d).cells.length =
      (g.carvePath cx cy d).width * (g.carvePath cx cy d).height := by
    rw [hW2, hH2, hL2, hlen]
  have hset := setVisited_effect (g := g.carvePath cx cy d) hlen2
    (by rw [hW2]; exact hmx) (by rw [hH2]; exact hmy)
  have hW3 : (carveMark g cx cy mx my d).width = g.width := by
    unfold carveMark; rw [hset.1, hW2]
  have hH3 : (carveMark g cx cy mx my d).height = g.height := by
    unfold carveMark; rw [hset.2.1, hH2]
  have hE3 : ∀ j, (carveMark g cx cy mx my d).cell j &&& EAST =
      if o = true ∧ j = sy * g.width + sx then 0 else g.cell j &&& EAST := by
    intro j
    have he := hset.2.2.2.1 j
    unfold carveMark
    rw [he, hE2 j]
  have hS3 : ∀ j, (carveMark g cx cy mx my d).cell j &&& SOUTH =
      if o = false ∧ j = sy * g.width + sx then 0 else g.cell j &&& SOUTH := by
    intro j
    have hs := hset.2.2.2.2.1 j
    unfold carveMark
    rw [hs, hS2 j]
  have hliftH : ∀ u v, slotOpenH g u v →
      slotOpenH (carveMark g cx cy mx my d) u v := by
    intro u v hs
    obtain ⟨h1, h2, h3⟩ := hs
    refine (slotOpenH_transport hW3 hH3 u v).mpr ⟨h1, h2, ?_⟩
    rw [hE3 (v * g.width + u)]
    split_ifs
    · rfl
    · exact h3
  have hliftV : ∀ u v, slotOpenV g u v →
      slotOpenV (carveMark g cx cy mx my d) u v := by
    intro u v hs
    obtain ⟨h1, h2, h3⟩ := hs
    refine (slotOpenV_transport hW3 hH3 u v).mpr ⟨h1, h2, ?_⟩
    rw [hS3 (v * g.width + u)]
    split_ifs
    · rfl
    · exact h3
  constructor
  · cases o with
    | true =>
      rw [if_pos rfl] at hslot
      obtain ⟨hsb1, hsb2, hept⟩ := hslot
      have hslot3 : slotOpenH (carveMark g cx cy mx my d) sx sy :=
        (slotOpenH_transport hW3 hH3 sx sy).mpr
          ⟨hsb1, hsb2, by rw [hE3 (sy * g.width + sx), if_pos ⟨rfl, rfl⟩]⟩
      rcases hept with ⟨he1, he2⟩ | ⟨he1, he2⟩ <;>
        rcases hpair with ⟨hp1, hp2⟩ | ⟨hp1, hp2⟩ <;>
        simp only [Prod.mk.injEq] at he1 he2 hp1 hp2
      · refine Or.inl ⟨?_, ?_⟩
        · rw [show sx = mx from by omega, show sy = my from by omega] at hslot3
          exact hslot3
        · simp only [Prod.mk.injEq]; omega
      · refine Or.inr (Or.inl ⟨?_, ?_⟩)
        · rw [show sx = ox from by omega, show sy = oy from by omega] at hslot3
          exact hslot3
        · simp only [Prod.mk.injEq]; omega
      · refine Or.inr (Or.inl ⟨?_, ?_⟩)
        · rw [show sx = ox from by omega, show sy = oy from by omega] at hslot3
          exact hslot3
        · simp only [Prod.mk.injEq]; omega
      · refine Or.inl ⟨?_, ?_⟩
        · rw [show sx = mx from by omega, show sy = my from by omega] at hslot3
          exact hslot3
        · simp only [Prod.mk.injEq]; omega
    | false =>
      rw [if_neg (by decide)] at hslot
      obtain ⟨hsb1, hsb2, hept⟩ := hslot
      have hslot3 : slotOpenV (carveMark g cx cy mx my d) sx sy :=
        (slotOpenV_transport hW3 hH3 sx sy).mpr
          ⟨hsb1, hsb2, by rw [hS3 (sy * g.width + sx), if_pos ⟨rfl, rfl⟩]⟩
      rcases hept with ⟨he1, he2⟩ | ⟨he1, he2⟩ <;>
        rcases hpair with ⟨hp1, hp2⟩ | ⟨hp1, hp2⟩ <;>
        simp only [Prod.mk.injEq] at he1 he2 hp1 hp2
      · refine Or.inr (Or.inr (Or.inl ⟨?_, ?_⟩))
        · rw [show sx = mx from by omega, show sy = my from by omega] at hslot3
          exact hslot3
        · simp only [Prod.mk.injEq]; omega
      · refine Or.inr (Or.inr (Or.inr ⟨?_, ?_⟩))
        · rw [show sx = ox from by omega, show sy = oy from by omega] at hslot3
          exact hslot3
        · simp only [Prod.mk.injEq]; omega
      · refine Or.inr (Or.inr (Or.inr ⟨?_, ?_⟩))
        · rw [show sx = ox from by omega, show sy = oy from by omega] at hslot3
          exact hslot3
        · simp only [Prod.mk.injEq]; omega
      · refine Or.inr (Or.inr (Or.inl ⟨?_, ?_⟩))
        · rw [show sx = mx from by omega, show sy = my from by omega] at hslot3
          exact hslot3
        · simp only [Prod.mk.injEq]; omega
  · intro a b h
    rcases h with ⟨hs, he⟩ | ⟨hs, he⟩ | ⟨hs, he⟩ | ⟨hs, he⟩
    · exact Or.inl ⟨hliftH _ _ hs, he⟩
    · exact Or.inr (Or.inl ⟨hliftH _ _ hs, he⟩)
    · exact Or.inr (Or.inr (Or.inl ⟨hliftV _ _ hs, he⟩))
    · exact Or.inr (Or.inr (Or.inr ⟨hliftV _ _ hs, he⟩))

theorem openAdj_symm {g : Grid} {a b : Nat × Nat} (h : openAdj g a b) : openAdj g b a := by
  rcases h with ⟨hs, he⟩ | ⟨hs, he⟩ | ⟨hs, he⟩ | ⟨hs, he⟩
  · exact Or.inr (Or.inl ⟨hs, he⟩)
  · exact Or.inl ⟨hs, he⟩
  · exact Or.inr (Or.inr (Or.inr ⟨hs, he⟩))
  · exact Or.inr (Or.inr (Or.inl ⟨hs, he⟩))

theorem mem_getNeighbors_bounds {g : Grid} {x y nx ny d : Nat}
    (hx : x < g.width) (hy : y < g.height)
    (h : (nx, ny, d) ∈ g.getNeighbors x y) : nx < g.width ∧ ny < g.height := by
  rcases mem_getNeighbors_iff.mp h with ⟨hc, he⟩ | ⟨hc, he⟩ | ⟨hc, he⟩ | ⟨hc, he⟩ <;>
    simp only [Prod.mk.injEq] at he <;> omega

/-! ### The recursive backtracker (`maze_engine/algo/dfs.py`)

`rng.choice(neighbors)` is modelled by an arbitrary draw stream
`σ : Nat → Nat`, draw `t` picking index `σ t % neighbors.length`.  The Python
stack grows at the end of the list; the model keeps the top at the head. -/

structure BkState where
  g : Grid
  stack : List (Nat × Nat)

/-- The unvisited lattice neighbors of the stack top. -/
def bkNbrs (g : Grid) (cx cy : Nat) : List (Nat × Nat × Nat) :=
  (g.getNeighbors cx cy).filter (fun p => !(g.isVisited p.1 p.2.1))

/-- The `while stack:` loop of `RecursiveBacktracker.run`. -/
def bkLoop (σ : Nat → Nat) : Nat → Nat → BkState → BkState
  | 0, _, st => st
  | fuel + 1, t, st =>
    match st.stack with
    | [] => st
    | (cx, cy) :: rest =>
      let nbrs := bkNbrs st.g cx cy
      if nbrs.length = 0 then
        bkLoop σ fuel t ⟨st.g, rest⟩
      else
        let pick := nbrs.getD (σ t % nbrs.length) (0, 0, 0)
        bkLoop σ fuel (t + 1)
          ⟨carveMark st.g cx cy pick.1 pick.2.1 pick.2.2,
           (pick.1, pick.2.1) :: st.stack⟩

/-- `RecursiveBacktracker.run`: start at `(0, 0)`, mark it visited, loop. -/
def bkRun (σ : Nat → Nat) (w h : Nat) : Grid :=
  (bkLoop σ (2 * (w * h)) 0 ⟨(mkGrid w h).setVisited 0 0, [(0, 0)]⟩).g

theorem bkLoop_zero (σ : Nat → Nat) (t : Nat) (st : BkState) :
    bkLoop σ 0 t st = st := rfl

theorem bkLoop_nil (σ : Nat → Nat) (fuel t : Nat) (g : Grid) :
    bkLoop σ (fuel + 1) t ⟨g, []⟩ = ⟨g, []⟩ := rfl

theorem bkLoop_cons (σ : Nat → Nat) (fuel t : Nat) (g : Grid) (cx cy : Nat)
    (rest : List (Nat × Nat)) :
    bkLoop σ (fuel + 1) t ⟨g, (cx, cy) :: rest⟩ =
      if (bkNbrs g cx cy).length = 0 then
        bkLoop σ fuel t ⟨g, rest⟩
      else
        bkLoop σ fuel (t + 1)
          ⟨carveMark g cx cy
              ((bkNbrs g cx cy).getD (σ t % (bkNbrs g cx cy).length) (0, 0, 0)).1
              ((bkNbrs g cx cy).getD (σ t % (bkNbrs g cx cy).length) (0, 0, 0)).2.1
              ((bkNbrs g cx cy).getD (σ t % (bkNbrs g cx cy).length) (0, 0, 0)).2.2,
           (((bkNbrs g cx cy).getD (σ t % (bkNbrs g cx cy).length) (0, 0, 0)).1,
            ((bkNbrs g cx cy).getD (σ t % (bkNbrs g cx cy).length) (0, 0, 0)).2.1) ::
             (cx, cy) :: rest⟩ := rfl

/-- Loop invariant of the backtracker: dimensions are stable, stack cells are
visited and in bounds, a visited cell is on the stack or fully explored, every
open pair joins two visited cells, the open-pair count is one less than the
visited count, and every visited cell is reachable from the start. -/
structure BkInv (w h : Nat) (st : BkState) : Prop where
  hw : st.g.width = w
  hh : st.g.height = h
  hlen : st.g.cells.length = st.g.width * st.g.height
  start : st.g.isVisited 0 0 = true
  stackBound : ∀ p ∈ st.stack, p.1 < w ∧ p.2 < h
  stackVis : ∀ p ∈ st.stack, st.g.isVisited p.1 p.2 = true
  processed : ∀ x y, x < w → y < h → st.g.isVisited x y = true →
    (x, y) ∈ st.stack ∨
      ∀ a b e, (a, b, e) ∈ st.g.getNeighbors x y → st.g.isVisited a b = true
  slotsH : ∀ x y, slotOpenH st.g x y →
    st.g.isVisited x y = true ∧ st.g.isVisited (x + 1) y = true
  slotsV : ∀ x y, slotOpenV st.g x y →
    st.g.isVisited x y = true ∧ st.g.isVisited x (y + 1) = true
  count : openPairCount st.g + 1 = countVisited st.g
  reach : ∀ x y, x < w → y < h → st.g.isVisited x y = true →
    ReachOpen st.g (0, 0) (x, y)

def bkMeasure (w h : Nat) (st : BkState) : Nat :=
  2 * (w * h - countVisited st.g) + st.stack.length

set_option maxHeartbeats 800000 in
/-- The backtracker loop terminates within its fuel and preserves the
invariant, ending with an empty stack. -/
theorem bkLoop_main (σ : Nat → Nat) (w h : Nat) (hwp : 0 < w) (hhp : 0 < h) :
    ∀ fuel t st, BkInv w h st → bkMeasure w h st ≤ fuel →
      BkInv w h (bkLoop σ fuel t st) ∧ (bkLoop σ fuel t st).stack = [] := by
  intro fuel
  induction fuel with
  | zero =>
    intro t st hinv hm
    have hstk : st.stack = [] := by
      unfold bkMeasure at hm
      exact List.length_eq_zero.mp (by omega)
    rw [bkLoop_zero]
    exact ⟨hinv, hstk⟩
  | succ fuel ih =>
    intro t st hinv hm
    obtain ⟨g, stack⟩ := st
    cases stack with
    | nil =>
      rw [bkLoop_nil]
      exact ⟨hinv, rfl⟩
    | cons hd rest =>
      obtain ⟨cx, cy⟩ := hd
      have Ihw : g.width = w := hinv.hw
      have Ihh : g.height = h := hinv.hh
      have Ihlen : g.cells.length = g.width * g.height := hinv.hlen
      have Istart : g.isVisited 0 0 = true := hinv.start
      have IstackB : ∀ p ∈ (cx, cy) :: rest, p.1 < w ∧ p.2 < h := hinv.stackBound
      have IstackV : ∀ p ∈ (cx, cy) :: rest, g.isVisited p.1 p.2 = true := hinv.stackVis
      have Iproc : ∀ x y, x < w → y < h → g.isVisited x y = true →
          (x, y) ∈ (cx, cy) :: rest ∨
            ∀ a b e, (a, b, e) ∈ g.getNeighbors x y → g.isVisited a b = true :=
        hinv.processed
      have IsH : ∀ x y, slotOpenH g x y →
          g.isVisited x y = true ∧ g.isVisited (x + 1) y = true := hinv.slotsH
      have IsV : ∀ x y, slotOpenV g x y →
          g.isVisited x y = true ∧ g.isVisited x (y + 1) = true := hinv.slotsV
      have Icount : openPairCount g + 1 = countVisited g := hinv.count
      have Ireach : ∀ x y, x < w → y < h → g.isVisited x y = true →
          ReachOpen g (0, 0) (x, y) := hinv.reach
      have hcb := IstackB (cx, cy) (List.mem_cons_self _ _)
      have hcxw : cx < g.width := by rw [Ihw]; exact hcb.1
      have hcyh : cy < g.height := by rw [Ihh]; exact hcb.2
      rw [bkLoop_cons]
      by_cases hn : (bkNbrs g cx cy).length = 0
      · rw [if_pos hn]
        have hnil : bkNbrs g cx cy = [] := List.length_eq_zero.mp hn
        have hexpl : ∀ a b e, (a, b, e) ∈ g.getNeighbors cx cy →
            g.isVisited a b = true := by
          intro a b e hmem
          have := List.filter_eq_nil.mp hnil _ hmem
          simpa using this
        apply ih
        · refine ⟨Ihw, Ihh, Ihlen, Istart, ?_, ?_, ?_, IsH, IsV, Icount, Ireach⟩
          · exact fun p hp => IstackB p (List.mem_cons_of_mem _ hp)
          · exact fun p hp => IstackV p (List.mem_cons_of_mem _ hp)
          · intro x y hx hy hv
            rcases Iproc x y hx hy hv with hmem | hall
            · rcases List.mem_cons.mp hmem with heq | hmem2
              · right
                intro a b e hmem3
                simp only [Prod.mk.injEq] at heq
                rw [heq.1, heq.2] at hmem3
                exact hexpl a b e hmem3
              · exact Or.inl hmem2
            · exact Or.inr hall
        · unfold bkMeasure at hm ⊢
          simp only [List.length_cons] at hm ⊢
          omega
      · rw [if_neg hn]
        set pick := (bkNbrs g cx cy).getD (σ t % (bkNbrs g cx cy).length) (0, 0, 0)
          with hpick
        have hlenpos : 0 < (bkNbrs g cx cy).length := Nat.pos_of_ne_zero hn
        have hmem : pick ∈ bkNbrs g cx cy := by
          rw [hpick, List.getD_eq_getElem _ _ (Nat.mod_lt _ hlenpos)]
          exact List.getElem_mem _
        have hfil := List.mem_filter.mp hmem
        have hnbm : (pick.1, pick.2.1, pick.2.2) ∈ g.getNeighbors cx cy := hfil.1
        have hpvis : g.isVisited pick.1 pick.2.1 = false := by
          have := hfil.2
          simpa using this
        have hpb := mem_getNeighbors_bounds hcxw hcyh hnbm
        have hcvis : g.isVisited cx cy = true := IstackV (cx, cy) (List.mem_cons_self _ _)
        obtain ⟨hW3, hH3, hL3, hviff, hcnt⟩ :=
          carveMark_base Ihlen hcxw hcyh hnbm hpb.1 hpb.2 hpvis
        have hpcnt := carveMark_pairCount Ihlen hcxw hcyh hnbm
          (Or.inr ⟨rfl, rfl⟩) hpvis IsH IsV
        have hslots := carveMark_slots Ihlen hcxw hcyh hnbm
          (Or.inr ⟨rfl, rfl⟩) hcvis IsH IsV
        have hadj := carveMark_adj Ihlen hcxw hcyh hnbm (Or.inr ⟨rfl, rfl⟩)
        set g3 := carveMark g cx cy pick.1 pick.2.1 pick.2.2 with hg3
        have hcntle : countVisited g3 ≤ w * h := by
          unfold countVisited
          exact le_trans (countIdx_le _ _) (by rw [hW3, hH3, Ihw, Ihh])
        have hinv3 : BkInv w h ⟨g3, (pick.1, pick.2.1) :: (cx, cy) :: rest⟩ := by
          refine ⟨?_, ?_, ?_, ?_, ?_, ?_, ?_, hslots.1, hslots.2, ?_, ?_⟩
          · rw [hW3, Ihw]
          · rw [hH3, Ihh]
          · rw [hL3, hW3, hH3]; exact Ihlen
          · exact (hviff 0 0 (by rw [Ihw]; exact hwp) (by rw [Ihh]; exact hhp)).mpr
              (Or.inr Istart)
          · intro p hp
            rcases List.mem_cons.mp hp with heq | hp2
            · rw [heq]
              exact ⟨Ihw ▸ hpb.1, Ihh ▸ hpb.2⟩
            · exact IstackB p hp2
          · intro p hp
            rcases List.mem_cons.mp hp with heq | hp2
            · rw [heq]
              exact (hviff pick.1 pick.2.1 hpb.1 hpb.2).mpr (Or.inl ⟨rfl, rfl⟩)
            · have hb := IstackB p hp2
              exact (hviff p.1 p.2 (by rw [Ihw]; exact hb.1)
                (by rw [Ihh]; exact hb.2)).mpr (Or.inr (IstackV p hp2))
          · intro x y hx hy hv3
            have hxg : x < g.width := by rw [Ihw]; exact hx
            have hyg : y < g.height := by rw [Ihh]; exact hy
            rcases (hviff x y hxg hyg).mp hv3 with ⟨hx1, hy1⟩ | hvold
            · left
              rw [hx1, hy1]
              exact List.mem_cons_self _ _
            · rcases Iproc x y hx hy hvold with hmemold | hall
              · exact Or.inl (List.mem_cons_of_mem _ hmemold)
              · right
                intro a b e hmem3
                rw [getNeighbors_congr hW3 hH3] at hmem3
                have hab := mem_getNeighbors_bounds hxg hyg hmem3
                exact (hviff a b hab.1 hab.2).mpr (Or.inr (hall a b e hmem3))
          · rw [hpcnt, hcnt]
            omega
          · intro x y hx hy hv3
            have hxg : x < g.width := by rw [Ihw]; exact hx
            have hyg : y < g.height := by rw [Ihh]; exact hy
            rcases (hviff x y hxg hyg).mp hv3 with ⟨hx1, hy1⟩ | hvold
            · have hrc : ReachOpen g (0, 0) (cx, cy) := Ireach cx cy hcb.1 hcb.2 hcvis
              have hrc3 : ReachOpen g3 (0, 0) (cx, cy) :=
                Relation.ReflTransGen.mono hadj.2 hrc
              have := Relation.ReflTransGen.tail hrc3 (openAdj_symm hadj.1)
              rw [hx1, hy1]
              exact this
            · exact Relation.ReflTransGen.mono hadj.2 (Ireach x y hx hy hvold)
        apply ih _ _ hinv3
        unfold bkMeasure at hm ⊢
        simp only [List.length_cons] at hm ⊢
        omega

theorem slotOpenH_iff {g : Grid} {w h : Nat} (hW : g.width = w) (hH : g.height = h)
    (x y : Nat) :
    slotOpenH g x y ↔ x + 1 < w ∧ y < h ∧ g.cell (y * w + x) &&& EAST = 0 := by
  unfold slotOpenH slotHbit
  rw [hW, hH]

theorem slotOpenV_iff {g : Grid} {w h : Nat} (hW : g.width = w) (hH : g.height = h)
    (x y : Nat) :
    slotOpenV g x y ↔ x < w ∧ y + 1 < h ∧ g.cell (y * w + x) &&& SOUTH = 0 := by
  unfold slotOpenV slotVbit
  rw [hW, hH]

theorem isVisited_iff_w {g : Grid} {w : Nat} (hW : g.width = w) (x y : Nat) :
    g.isVisited x y = true ↔ g.cell (y * w + x) &&& VISITED ≠ 0 := by
  unfold Grid.isVisited Grid.idx
  rw [hW]
  simp

/-- The freshly started backtracker satisfies the loop invariant, and the fuel
`2 * w * h` covers the initial measure. -/
theorem bkInit (w h : Nat) (hwp : 0 < w) (hhp : 0 < h) :
    BkInv w h ⟨(mkGrid w h).setVisited 0 0, [(0, 0)]⟩ ∧
    bkMeasure w h ⟨(mkGrid w h).setVisited 0 0, [(0, 0)]⟩ ≤ 2 * (w * h) := by
  have hmlen : (mkGrid w h).cells.length = (mkGrid w h).width * (mkGrid w h).height := by
    simp [mkGrid]
  have hset := setVisited_effect (g := mkGrid w h) hmlen hwp hhp
  have hW0 : ((mkGrid w h).setVisited 0 0).width = w := hset.1
  have hH0 : ((mkGrid w h).setVisited 0 0).height = h := hset.2.1
  have hL0 : ((mkGrid w h).setVisited 0 0).cells.length = w * h := by
    rw [hset.2.2.1]
    simp [mkGrid]
  have hmkcell : ∀ j, (mkGrid w h).cell j = if j < w * h then ALL_WALLS else 0 :=
    fun j => getD_replicate
  have hmk : ∀ j, (mkGrid w h).cell j &&& VISITED = 0 := by
    intro j
    rw [hmkcell j]
    split_ifs <;> decide
  have hmkE : ∀ j, j < w * h → (mkGrid w h).cell j &&& EAST ≠ 0 := by
    intro j hj
    rw [hmkcell j, if_pos hj]
    decide
  have hmkS : ∀ j, j < w * h → (mkGrid w h).cell j &&& SOUTH ≠ 0 := by
    intro j hj
    rw [hmkcell j, if_pos hj]
    decide
  have hv0 : ∀ j, ((mkGrid w h).setVisited 0 0).cell j &&& VISITED =
      if j = 0 then VISITED else (mkGrid w h).cell j &&& VISITED := by
    intro j
    have hx := hset.2.2.2.2.2 j
    rw [show 0 * (mkGrid w h).width + 0 = 0 from by omega] at hx
    exact hx
  have hE0 : ∀ j, ((mkGrid w h).setVisited 0 0).cell j &&& EAST =
      (mkGrid w h).cell j &&& EAST := hset.2.2.2.1
  have hS0 : ∀ j, ((mkGrid w h).setVisited 0 0).cell j &&& SOUTH =
      (mkGrid w h).cell j &&& SOUTH := hset.2.2.2.2.1
  have hstart : ((mkGrid w h).setVisited 0 0).isVisited 0 0 = true := by
    rw [isVisited_iff_w hW0]
    rw [show 0 * w + 0 = 0 from by omega, hv0 0, if_pos rfl]
    decide
  have hvisonly : ∀ x y, x < w → y < h →
      ((mkGrid w h).setVisited 0 0).isVisited x y = true → x = 0 ∧ y = 0 := by
    intro x y hx hy hv
    rw [isVisited_iff_w hW0] at hv
    rw [hv0 (y * w + x)] at hv
    by_cases hj : y * w + x = 0
    · have h00 : y * w + x = 0 * w + 0 := by omega
      exact (idx_eq_iff hx hwp).mp h00
    · rw [if_neg hj, hmk (y * w + x)] at hv
      exact absurd rfl hv
  have hcv : countVisited ((mkGrid w h).setVisited 0 0) = 1 := by
    unfold countVisited
    rw [hW0, hH0]
    have hflip := countIdx_flip (n := w * h) (i := 0)
      (p := fun _ => false)
      (q := fun j => ((mkGrid w h).setVisited 0 0).cell j &&& VISITED != 0)
      (Nat.mul_pos hwp hhp) rfl
      (by
        show (((mkGrid w h).setVisited 0 0).cell 0 &&& VISITED != 0) = true
        rw [hv0 0, if_pos rfl]
        decide)
      (fun j hj => by simp [hv0, hj, hmk j])
    rw [hflip, countIdx_false]
  have hop : openPairCount ((mkGrid w h).setVisited 0 0) = 0 := by
    unfold openPairCount
    rw [hW0, hH0]
    have h1 : countIdx (w * h) (fun i => decide (i % w + 1 < w) &&
        (((mkGrid w h).setVisited 0 0).cell i &&& EAST == 0)) = 0 := by
      rw [countIdx_congr (fun j hj => ?_), countIdx_false]
      have hb : ((mkGrid w h).cell j &&& EAST == 0) = false := by
        simp [hmkE j hj]
      simp [hE0 j, hb]
    have h2 : countIdx (w * h) (fun i => decide (i / w + 1 < h) &&
        (((mkGrid w h).setVisited 0 0).cell i &&& SOUTH == 0)) = 0 := by
      rw [countIdx_congr (fun j hj => ?_), countIdx_false]
      have hb : ((mkGrid w h).cell j &&& SOUTH == 0) = false := by
        simp [hmkS j hj]
      simp [hS0 j, hb]
    rw [h1, h2]
  constructor
  · refine ⟨hW0, hH0, by rw [hL0, hW0, hH0], hstart, ?_, ?_, ?_, ?_, ?_, ?_, ?_⟩
    · intro p hp
      rw [List.mem_singleton] at hp
      rw [hp]
      exact ⟨hwp, hhp⟩
    · intro p hp
      rw [List.mem_singleton] at hp
      rw [hp]
      exact hstart
    · intro x y hx hy hv
      left
      rw [List.mem_singleton]
      have := hvisonly x y hx hy hv
      rw [this.1, this.2]
    · intro x y hs
      obtain ⟨h1, h2, h3⟩ := (slotOpenH_iff hW0 hH0 x y).mp hs
      rw [hE0 (y * w + x)] at h3
      exact absurd h3 (hmkE (y * w + x) (idx_lt (by omega) h2))
    · intro x y hs
      obtain ⟨h1, h2, h3⟩ := (slotOpenV_iff hW0 hH0 x y).mp hs
      rw [hS0 (y * w + x)] at h3
      exact absurd h3 (hmkS (y * w + x) (idx_lt h1 (by omega)))
    · rw [hop, hcv]
    · intro x y hx hy hv
      have := hvisonly x y hx hy hv
      rw [this.1, this.2]
      exact Relation.ReflTransGen.refl
  · unfold bkMeasure
    rw [hcv]
    simp only [List.length_singleton]
    have hwh : 0 < w * h := Nat.mul_pos hwp hhp
    omega

/-- Full specification of the backtracking generator: it visits all `w * h`
cells, carves exactly `w * h - 1` open wall pairs, and connects every cell to
the start through open walls — a spanning tree of the lattice. -/
theorem bkRun_spec (σ : Nat → Nat) (w h : Nat) (hwp : 0 < w) (hhp : 0 < h) :
    (bkRun σ w h).width = w ∧ (bkRun σ w h).height = h ∧
    countVisited (bkRun σ w h) = w * h ∧
    openPairCount (bkRun σ w h) = w * h - 1 ∧
    (∀ x y, x < w → y < h → ReachOpen (bkRun σ w h) (0, 0) (x, y)) := by
  obtain ⟨hinv0, hm0⟩ := bkInit w h hwp hhp
  obtain ⟨hinv, hempty⟩ := bkLoop_main σ w h hwp hhp (2 * (w * h)) 0
    ⟨(mkGrid w h).setVisited 0 0, [(0, 0)]⟩ hinv0 hm0
  have hG : bkRun σ w h =
      (bkLoop σ (2 * (w * h)) 0 ⟨(mkGrid w h).setVisited 0 0, [(0, 0)]⟩).g := rfl
  rw [hG]
  set fin := bkLoop σ (2 * (w * h)) 0 ⟨(mkGrid w h).setVisited 0 0, [(0, 0)]⟩ with hfin
  have hclosed : ∀ x y, x < w → y < h → fin.g.isVisited x y = true := by
    have hmain := window_closure (P := fun x y => fin.g.isVisited x y = true) 0 0 w h
      hinv.start ?_ ?_
    · intro x y hx hy
      exact hmain x y (Nat.zero_le x) (by omega) (Nat.zero_le y) (by omega)
    · intro x y _ hx2 _ hy2 hp
      rcases hinv.processed x y (by omega) (by omega) hp with hmem | hall
      · rw [hempty] at hmem
        exact absurd hmem (List.not_mem_nil _)
      · refine hall (x + 1) y EAST (mem_getNeighbors_iff.mpr ?_)
        right; right; left
        exact ⟨by rw [hinv.hw]; omega, rfl⟩
    · intro x y _ hx2 _ hy2 hp
      rcases hinv.processed x y (by omega) (by omega) hp with hmem | hall
      · rw [hempty] at hmem
        exact absurd hmem (List.not_mem_nil _)
      · refine hall x (y + 1) SOUTH (mem_getNeighbors_iff.mpr ?_)
        right; left
        exact ⟨by rw [hinv.hh]; omega, rfl⟩
  have hcnt : countVisited fin.g = w * h := by
    unfold countVisited
    rw [hinv.hw, hinv.hh]
    refine countIdx_all ?_
    intro j hj
    have hxw : j % w < w := Nat.mod_lt _ hwp
    have hyh : j / w < h := Nat.div_lt_of_lt_mul hj
    have hv := hclosed (j % w) (j / w) hxw hyh
    rw [isVisited_iff_w hinv.hw] at hv
    rw [show j / w * w + j % w = j from by
      rw [Nat.mul_comm]; exact Nat.div_add_mod j w] at hv
    simpa using hv
  refine ⟨hinv.hw, hinv.hh, hcnt, ?_, ?_⟩
  · have := hinv.count
    omega
  · intro x y hx hy
    exact hinv.reach x y hx hy (hclosed x y hx hy)

/-! ### Prim frontier generator (`maze_engine/algo/prim.py`) -/

/-- The swap-remove Python performs on `frontier_list`:
`frontier_list[idx] = frontier_list[-1]; frontier_list.pop()`. -/
def swapRemove (l : List (Nat × Nat)) (i : Nat) : List (Nat × Nat) :=
  (l.set i (l.getLast?.getD (0, 0))).dropLast

theorem swapRemove_length (l : List (Nat × Nat)) (i : Nat) :
    (swapRemove l i).length = l.length - 1 := by
  simp [swapRemove]

theorem swapRemove_getElem {l : List (Nat × Nat)} {i j : Nat}
    (hj : j < l.length - 1) (hi : i < l.length) (hll : l ≠ []) :
    (swapRemove l i).get ⟨j, by rw [swapRemove_length]; exact hj⟩ =
      if i = j then l.getLast hll else l.get ⟨j, by omega⟩ := by
  unfold swapRemove
  rw [List.get_eq_getElem, List.getElem_dropLast, List.getElem_set]
  have hv : l.getLast?.getD (0, 0) = l.getLast hll := by
    rw [List.getLast?_eq_getLast l hll]
    rfl
  split_ifs with hc
  · exact hv
  · rw [List.get_eq_getElem]

theorem swapRemove_subset {l : List (Nat × Nat)} {i : Nat} {x : Nat × Nat}
    (hi : i < l.length) (hx : x ∈ swapRemove l i) : x ∈ l := by
  have hll : l ≠ [] := by
    intro hc
    rw [hc] at hi
    simp at hi
  obtain ⟨⟨j, hj⟩, hget⟩ := List.mem_iff_get.mp hx
  have hj2 : j < l.length - 1 := by
    rw [swapRemove_length] at hj
    exact hj
  rw [show (⟨j, hj⟩ : Fin (swapRemove l i).length) =
      ⟨j, by rw [swapRemove_length]; exact hj2⟩ from rfl,
    swapRemove_getElem hj2 hi hll] at hget
  split_ifs at hget
  · rw [← hget]
    exact List.getLast_mem hll
  · rw [← hget]
    exact List.get_mem l j (by omega)

theorem swapRemove_mem {l : List (Nat × Nat)} {i : Nat} {x : Nat × Nat}
    (hi : i < l.length) (hx : x ∈ l) (hne : x ≠ l.get ⟨i, hi⟩) :
    x ∈ swapRemove l i := by
  have hll : l ≠ [] := by
    intro hc
    rw [hc] at hi
    simp at hi
  obtain ⟨⟨j, hj⟩, hget⟩ := List.mem_iff_get.mp hx
  have hji : j ≠ i := by
    intro hc
    subst hc
    exact hne hget.symm
  by_cases hjl : j < l.length - 1
  · refine List.mem_iff_get.mpr ⟨⟨j, by rw [swapRemove_length]; exact hjl⟩, ?_⟩
    rw [swapRemove_getElem hjl hi hll, if_neg (fun hc => hji hc.symm)]
    exact hget
  · have hj1 : j = l.length - 1 := by omega
    have hi1 : i < l.length - 1 := by omega
    refine List.mem_iff_get.mpr ⟨⟨i, by rw [swapRemove_length]; exact hi1⟩, ?_⟩
    rw [swapRemove_getElem hi1 hi hll, if_pos rfl]
    rw [List.getLast_eq_get]
    subst hj1
    exact hget

theorem swapRemove_not_mem {l : List (Nat × Nat)} {i : Nat}
    (hn : l.Nodup) (hi : i < l.length) : l.get ⟨i, hi⟩ ∉ swapRemove l i := by
  intro hmem
  have hll : l ≠ [] := by
    intro hc
    rw [hc] at hi
    simp at hi
  obtain ⟨⟨j, hj⟩, hget⟩ := List.mem_iff_get.mp hmem
  have hj2 : j < l.length - 1 := by
    rw [swapRemove_length] at hj
    exact hj
  rw [show (⟨j, hj⟩ : Fin (swapRemove l i).length) =
      ⟨j, by rw [swapRemove_length]; exact hj2⟩ from rfl,
    swapRemove_getElem hj2 hi hll] at hget
  split_ifs at hget with hc
  · rw [List.getLast_eq_get] at hget
    have hval := congrArg Fin.val ((List.Nodup.get_inj_iff hn).mp hget)
    simp at hval
    omega
  · have hval := congrArg Fin.val ((List.Nodup.get_inj_iff hn).mp hget)
    simp at hval
    omega

theorem swapRemove_nodup {l : List (Nat × Nat)} {i : Nat}
    (hn : l.Nodup) (hi : i < l.length) : (swapRemove l i).Nodup := by
  have hll : l ≠ [] := by
    intro hc
    rw [hc] at hi
    simp at hi
  rw [List.nodup_iff_injective_get]
  rintro ⟨j1, h1⟩ ⟨j2, h2⟩ heq
  have h1b : j1 < l.length - 1 := by
    rw [swapRemove_length] at h1
    exact h1
  have h2b : j2 < l.length - 1 := by
    rw [swapRemove_length] at h2
    exact h2
  rw [show (⟨j1, h1⟩ : Fin (swapRemove l i).length) =
      ⟨j1, by rw [swapRemove_length]; exact h1b⟩ from rfl,
    show (⟨j2, h2⟩ : Fin (swapRemove l i).length) =
      ⟨j2, by rw [swapRemove_length]; exact h2b⟩ from rfl,
    swapRemove_getElem h1b hi hll, swapRemove_getElem h2b hi hll] at heq
  split_ifs at heq with hc1 hc2 hc2
  · exact Fin.ext (show j1 = j2 from by omega)
  · rw [List.getLast_eq_get] at heq
    have hval := (List.Nodup.get_inj_iff hn).mp heq
    simp only [Fin.mk.injEq] at hval
    exact Fin.ext (show j1 = j2 from by omega)
  · rw [List.getLast_eq_get] at heq
    have hval := (List.Nodup.get_inj_iff hn).mp heq.symm
    simp only [Fin.mk.injEq] at hval
    exact Fin.ext (show j1 = j2 from by omega)
  · have hval := (List.Nodup.get_inj_iff hn).mp heq
    simp only [Fin.mk.injEq] at hval
    exact Fin.ext (show j1 = j2 from by omega)

theorem getNeighbors_symm {g : Grid} {x y a b d : Nat}
    (hx : x < g.width) (hy : y < g.height)
    (h : (a, b, d) ∈ g.getNeighbors x y) : ∃ e, (x, y, e) ∈ g.getNeighbors a b := by
  rcases mem_getNeighbors_iff.mp h with ⟨hc, he⟩ | ⟨hc, he⟩ | ⟨hc, he⟩ | ⟨hc, he⟩ <;>
    simp only [Prod.mk.injEq] at he <;> obtain ⟨h1, h2, h3⟩ := he
  · refine ⟨SOUTH, mem_getNeighbors_iff.mpr (Or.inr (Or.inl ⟨by omega, ?_⟩))⟩
    simp only [Prod.mk.injEq]
    exact ⟨by omega, by omega, trivial⟩
  · refine ⟨NORTH, mem_getNeighbors_iff.mpr (Or.inl ⟨by omega, ?_⟩)⟩
    simp only [Prod.mk.injEq]
    exact ⟨by omega, by omega, trivial⟩
  · refine ⟨WEST, mem_getNeighbors_iff.mpr (Or.inr (Or.inr (Or.inr ⟨by omega, ?_⟩)))⟩
    simp only [Prod.mk.injEq]
    exact ⟨by omega, by omega, trivial⟩
  · refine ⟨EAST, mem_getNeighbors_iff.mpr (Or.inr (Or.inr (Or.inl ⟨by omega, ?_⟩)))⟩
    simp only [Prod.mk.injEq]
    exact ⟨by omega, by omega, trivial⟩

theorem getNeighbors_length_le (g : Grid) (x y : Nat) :
    (g.getNeighbors x y).length ≤ 4 := by
  unfold Grid.getNeighbors
  split_ifs <;> simp

/-- Elementary facts about the grid both generators start from: the all-walls
grid with only the origin marked visited. -/
theorem mkGridStart_facts (w h : Nat) (hwp : 0 < w) (hhp : 0 < h) :
    ((mkGrid w h).setVisited 0 0).width = w ∧
    ((mkGrid w h).setVisited 0 0).height = h ∧
    ((mkGrid w h).setVisited 0 0).cells.length = w * h ∧
    ((mkGrid w h).setVisited 0 0).isVisited 0 0 = true ∧
    (∀ x y, x < w → y < h →
      ((mkGrid w h).setVisited 0 0).isVisited x y = true → x = 0 ∧ y = 0) ∧
    countVisited ((mkGrid w h).setVisited 0 0) = 1 ∧
    openPairCount ((mkGrid w h).setVisited 0 0) = 0 ∧
    (∀ x y, ¬ slotOpenH ((mkGrid w h).setVisited 0 0) x y) ∧
    (∀ x y, ¬ slotOpenV ((mkGrid w h).setVisited 0 0) x y) := by
  have hmlen : (mkGrid w h).cells.length = (mkGrid w h).width * (mkGrid w h).height := by
    simp [mkGrid]
  have hset := setVisited_effect (g := mkGrid w h) hmlen hwp hhp
  have hW0 : ((mkGrid w h).setVisited 0 0).width = w := hset.1
  have hH0 : ((mkGrid w h).setVisited 0 0).height = h := hset.2.1
  have hL0 : ((mkGrid w h).setVisited 0 0).cells.length = w * h := by
    rw [hset.2.2.1]
    simp [mkGrid]
  have hmkcell : ∀ j, (mkGrid w h).cell j = if j < w * h then ALL_WALLS else 0 :=
    fun j => getD_replicate
  have hmk : ∀ j, (mkGrid w h).cell j &&& VISITED = 0 := by
    intro j
    rw [hmkcell j]
    split_ifs <;> decide
  have hmkE : ∀ j, j < w * h → (mkGrid w h).cell j &&& EAST ≠ 0 := by
    intro j hj
    rw [hmkcell j, if_pos hj]
    decide
  have hmkS : ∀ j, j < w * h → (mkGrid w h).cell j &&& SOUTH ≠ 0 := by
    intro j hj
    rw [hmkcell j, if_pos hj]
    decide
  have hv0 : ∀ j, ((mkGrid w h).setVisited 0 0).cell j &&& VISITED =
      if j = 0 then VISITED else (mkGrid w h).cell j &&& VISITED := by
    intro j
    have hx := hset.2.2.2.2.2 j
    rw [show 0 * (mkGrid w h).width + 0 = 0 from by omega] at hx
    exact hx
  have hE0 : ∀ j, ((mkGrid w h).setVisited 0 0).cell j &&& EAST =
      (mkGrid w h).cell j &&& EAST := hset.2.2.2.1
  have hS0 : ∀ j, ((mkGrid w h).setVisited 0 0).cell j &&& SOUTH =
      (mkGrid w h).cell j &&& SOUTH := hset.2.2.2.2.1
  have hstart : ((mkGrid w h).setVisited 0 0).isVisited 0 0 = true := by
    rw [isVisited_iff_w hW0]
    rw [show 0 * w + 0 = 0 from by omega, hv0 0, if_pos rfl]
    decide
  have hvisonly : ∀ x y, x < w → y < h →
      ((mkGrid w h).setVisited 0 0).isVisited x y = true → x = 0 ∧ y = 0 := by
    intro x y hx hy hv
    rw [isVisited_iff_w hW0] at hv
    rw [hv0 (y * w + x)] at hv
    by_cases hj : y * w + x = 0
    · have h00 : y * w + x = 0 * w + 0 := by omega
      exact (idx_eq_iff hx hwp).mp h00
    · rw [if_neg hj, hmk (y * w + x)] at hv
      exact absurd rfl hv
  have hcv : countVisited ((mkGrid w h).setVisited 0 0) = 1 := by
    unfold countVisited
    rw [hW0, hH0]
    have hflip := countIdx_flip (n := w * h) (i := 0)
      (p := fun _ => false)
      (q := fun j => ((mkGrid w h).setVisited 0 0).cell j &&& VISITED != 0)
      (Nat.mul_pos hwp hhp) rfl
      (by
        show (((mkGrid w h).setVisited 0 0).cell 0 &&& VISITED != 0) = true
        rw [hv0 0, if_pos rfl]
        decide)
      (fun j hj => by simp [hv0, hj, hmk j])
    rw [hflip, countIdx_false]
  have hop : openPairCount ((mkGrid w h).setVisited 0 0) = 0 := by
    unfold openPairCount
    rw [hW0, hH0]
    have h1 : countIdx (w * h) (fun i => decide (i % w + 1 < w) &&
        (((mkGrid w h).setVisited 0 0).cell i &&& EAST == 0)) = 0 := by
      rw [countIdx_congr (fun j hj => ?_), countIdx_false]
      have hb : ((mkGrid w h).cell j &&& EAST == 0) = false := by
        simp [hmkE j hj]
      simp [hE0 j, hb]
    have h2 : countIdx (w * h) (fun i => decide (i / w + 1 < h) &&
        (((mkGrid w h).setVisited 0 0).cell i &&& SOUTH == 0)) = 0 := by
      rw [countIdx_congr (fun j hj => ?_), countIdx_false]
      have hb : ((mkGrid w h).cell j &&& SOUTH == 0) = false := by
        simp [hmkS j hj]
      simp [hS0 j, hb]
    rw [h1, h2]
  refine ⟨hW0, hH0, hL0, hstart, hvisonly, hcv, hop, ?_, ?_⟩
  · intro x y hs
    obtain ⟨h1, h2, h3⟩ := (slotOpenH_iff hW0 hH0 x y).mp hs
    rw [hE0 (y * w + x)] at h3
    exact absurd h3 (hmkE (y * w + x) (idx_lt (by omega) h2))
  · intro x y hs
    obtain ⟨h1, h2, h3⟩ := (slotOpenV_iff hW0 hH0 x y).mp hs
    rw [hS0 (y * w + x)] at h3
    exact absurd h3 (hmkS (y * w + x) (idx_lt h1 (by omega)))

/-- The `for nx2, ny2, _ in get_neighbors(cx, cy)` loop of Prim: add each
unvisited neighbor not yet in the frontier set to both the set and the list. -/
def prAddL (g : Grid) : List (Nat × Nat × Nat) → List (Nat × Nat) →
    List (Nat × Nat) → List (Nat × Nat) × List (Nat × Nat)
  | [], fl, fs => (fl, fs)
  | p :: ps, fl, fs =>
    if g.isVisited p.1 p.2.1 = true then prAddL g ps fl fs
    else if (p.1, p.2.1) ∈ fs then prAddL g ps fl fs
    else prAddL g ps (fl ++ [(p.1, p.2.1)]) (fs ++ [(p.1, p.2.1)])

theorem prAddL_spec (g : Grid) :
    ∀ (L : List (Nat × Nat × Nat)) (fl fs : List (Nat × Nat)),
      (∀ p, p ∈ fs ↔ p ∈ fl) → fl.Nodup → fs.Nodup →
      (∀ p, p ∈ (prAddL g L fl fs).2 ↔ p ∈ (prAddL g L fl fs).1) ∧
      (prAddL g L fl fs).1.Nodup ∧ (prAddL g L fl fs).2.Nodup ∧
      (prAddL g L fl fs).1.length ≤ fl.length + L.length ∧
      (∀ p, p ∈ fl → p ∈ (prAddL g L fl fs).1) ∧
      (∀ q ∈ L, g.isVisited q.1 q.2.1 = false → (q.1, q.2.1) ∈ (prAddL g L fl fs).1) ∧
      (∀ p, p ∈ (prAddL g L fl fs).1 → p ∈ fl ∨
        ∃ q ∈ L, q.1 = p.1 ∧ q.2.1 = p.2 ∧ g.isVisited p.1 p.2 = false) := by
  intro L
  induction L with
  | nil =>
    intro fl fs hsync hnfl hnfs
    exact ⟨hsync, hnfl, hnfs, by simp [prAddL], fun p hp => hp,
      fun q hq => absurd hq (List.not_mem_nil _), fun p hp => Or.inl hp⟩
  | cons p ps ih =>
    intro fl fs hsync hnfl hnfs
    by_cases hv : g.isVisited p.1 p.2.1 = true
    · have hred : prAddL g (p :: ps) fl fs = prAddL g ps fl fs := by
        simp only [prAddL, if_pos hv]
      rw [hred]
      obtain ⟨s1, s2, s3, s4, s5, s6, s7⟩ := ih fl fs hsync hnfl hnfs
      refine ⟨s1, s2, s3, by simp only [List.length_cons]; omega, s5, ?_, ?_⟩
      · intro q hq hqv
        rcases List.mem_cons.mp hq with heq | hq2
        · rw [heq] at hqv
          rw [hv] at hqv
          exact absurd hqv (by decide)
        · exact s6 q hq2 hqv
      · intro q hq
        rcases s7 q hq with hin | ⟨r, hr, hrest⟩
        · exact Or.inl hin
        · exact Or.inr ⟨r, List.mem_cons_of_mem _ hr, hrest⟩
    · by_cases hm : (p.1, p.2.1) ∈ fs
      · have hred : prAddL g (p :: ps) fl fs = prAddL g ps fl fs := by
          simp only [prAddL, if_neg hv, if_pos hm]
        rw [hred]
        obtain ⟨s1, s2, s3, s4, s5, s6, s7⟩ := ih fl fs hsync hnfl hnfs
        refine ⟨s1, s2, s3, by simp only [List.length_cons]; omega, s5, ?_, ?_⟩
        · intro q hq hqv
          rcases List.mem_cons.mp hq with heq | hq2
          · rw [heq]
            exact s5 _ ((hsync _).mp hm)
          · exact s6 q hq2 hqv
        · intro q hq
          rcases s7 q hq with hin | ⟨r, hr, hrest⟩
          · exact Or.inl hin
          · exact Or.inr ⟨r, List.mem_cons_of_mem _ hr, hrest⟩
      · have hred : prAddL g (p :: ps) fl fs =
            prAddL g ps (fl ++ [(p.1, p.2.1)]) (fs ++ [(p.1, p.2.1)]) := by
          simp only [prAddL, if_neg hv, if_neg hm]
        rw [hred]
        have hcfl : (p.1, p.2.1) ∉ fl := fun hc => hm ((hsync _).mpr hc)
        have hsync2 : ∀ q, q ∈ fs ++ [(p.1, p.2.1)] ↔ q ∈ fl ++ [(p.1, p.2.1)] := by
          intro q
          simp only [List.mem_append, List.mem_singleton]
          rw [hsync q]
        have hnfl2 : (fl ++ [(p.1, p.2.1)]).Nodup := by
          rw [List.nodup_append]
          refine ⟨hnfl, List.nodup_singleton _, ?_⟩
          intro a ha hb
          rw [List.mem_singleton] at hb
          rw [hb] at ha
          exact hcfl ha
        have hnfs2 : (fs ++ [(p.1, p.2.1)]).Nodup := by
          rw [List.nodup_append]
          refine ⟨hnfs, List.nodup_singleton _, ?_⟩
          intro a ha hb
          rw [List.mem_singleton] at hb
          rw [hb] at ha
          exact hm ha
        obtain ⟨s1, s2, s3, s4, s5, s6, s7⟩ :=
          ih (fl ++ [(p.1, p.2.1)]) (fs ++ [(p.1, p.2.1)]) hsync2 hnfl2 hnfs2
        have hv2 : g.isVisited p.1 p.2.1 = false := by
          cases hb : g.isVisited p.1 p.2.1
          · rfl
          · exact absurd hb hv
        refine ⟨s1, s2, s3, ?_, ?_, ?_, ?_⟩
        · have hs4 : (prAddL g ps (fl ++ [(p.1, p.2.1)]) (fs ++ [(p.1, p.2.1)])).1.length ≤
              fl.length + 1 + ps.length := by
            calc (prAddL g ps (fl ++ [(p.1, p.2.1)]) (fs ++ [(p.1, p.2.1)])).1.length ≤
                (fl ++ [(p.1, p.2.1)]).length + ps.length := s4
              _ = fl.length + 1 + ps.length := by simp
          simp only [List.length_cons]
          omega
        · intro q hq
          exact s5 q (List.mem_append_left _ hq)
        · intro q hq hqv
          rcases List.mem_cons.mp hq with heq | hq2
          · rw [heq]
            exact s5 _ (List.mem_append_right _ (List.mem_singleton_self _))
          · exact s6 q hq2 hqv
        · intro q hq
          rcases s7 q hq with hin | ⟨r, hr, hrest⟩
          · rcases List.mem_append.mp hin with hfl | hone
            · exact Or.inl hfl
            · rw [List.mem_singleton] at hone
              refine Or.inr ⟨p, List.mem_cons_self _ _, ?_⟩
              rw [hone]
              exact ⟨rfl, rfl, hv2⟩
          · exact Or.inr ⟨r, List.mem_cons_of_mem _ hr, hrest⟩

structure PrState where
  g : Grid
  fl : List (Nat × Nat)
  fs : List (Nat × Nat)

/-- The frontier cell picked this round: `frontier_list[rng.randrange(len)]`. -/
def prC (σ : Nat → Nat) (t : Nat) (fl : List (Nat × Nat)) : Nat × Nat :=
  fl.getD (σ t % fl.length) (0, 0)

/-- The frontier list after the swap-remove of the picked cell. -/
def prFl2 (σ : Nat → Nat) (t : Nat) (fl : List (Nat × Nat)) : List (Nat × Nat) :=
  swapRemove fl (σ t % fl.length)

/-- `possible_neighbors`: the visited lattice neighbors of the picked cell. -/
def prPoss (g : Grid) (c : Nat × Nat) : List (Nat × Nat × Nat) :=
  (g.getNeighbors c.1 c.2).filter (fun p => g.isVisited p.1 p.2.1)

/-- The visited neighbor chosen to carve toward, `rng.choice(possible_neighbors)`. -/
def prPick (σ : Nat → Nat) (t : Nat) (g : Grid) (c : Nat × Nat) : Nat × Nat × Nat :=
  (prPoss g c).getD (σ (t + 1) % (prPoss g c).length) (0, 0, 0)

/-- One iteration of the `while frontier_list:` loop of `PrimsAlgorithm.run`,
returning the next state and the number of random draws consumed so far. -/
def prBody (σ : Nat → Nat) (t : Nat) (g : Grid) (fl fs : List (Nat × Nat)) :
    PrState × Nat :=
  if prC σ t fl ∈ fs then
    if g.isVisited (prC σ t fl).1 (prC σ t fl).2 = true then
      (⟨g, prFl2 σ t fl, fs.erase (prC σ t fl)⟩, t + 1)
    else
      if (prPoss g (prC σ t fl)).length = 0 then
        (⟨g, prFl2 σ t fl, fs.erase (prC σ t fl)⟩, t + 1)
      else
        (⟨carveMark g (prC σ t fl).1 (prC σ t fl).2 (prC σ t fl).1 (prC σ t fl).2
            (prPick σ t g (prC σ t fl)).2.2,
          (prAddL
            (carveMark g (prC σ t fl).1 (prC σ t fl).2 (prC σ t fl).1 (prC σ t fl).2
              (prPick σ t g (prC σ t fl)).2.2)
            ((carveMark g (prC σ t fl).1 (prC σ t fl).2 (prC σ t fl).1 (prC σ t fl).2
              (prPick σ t g (prC σ t fl)).2.2).getNeighbors (prC σ t fl).1 (prC σ t fl).2)
            (prFl2 σ t fl) (fs.erase (prC σ t fl))).1,
          (prAddL
            (carveMark g (prC σ t fl).1 (prC σ t fl).2 (prC σ t fl).1 (prC σ t fl).2
              (prPick σ t g (prC σ t fl)).2.2)
            ((carveMark g (prC σ t fl).1 (prC σ t fl).2 (prC σ t fl).1 (prC σ t fl).2
              (prPick σ t g (prC σ t fl)).2.2).getNeighbors (prC σ t fl).1 (prC σ t fl).2)
            (prFl2 σ t fl) (fs.erase (prC σ t fl))).2⟩, t + 2)
  else (⟨g, prFl2 σ t fl, fs⟩, t + 1)

/-- The `while frontier_list:` loop. -/
def prLoop (σ : Nat → Nat) : Nat → Nat → PrState → PrState
  | 0, _, st => st
  | fuel + 1, t, st =>
    match st.fl with
    | [] => st
    | _ :: _ => prLoop σ fuel (prBody σ t st.g st.fl st.fs).2 (prBody σ t st.g st.fl st.fs).1

theorem prLoop_zero (σ : Nat → Nat) (t : Nat) (st : PrState) :
    prLoop σ 0 t st = st := rfl

theorem prLoop_nil (σ : Nat → Nat) (fuel t : Nat) (g : Grid) (fs : List (Nat × Nat)) :
    prLoop σ (fuel + 1) t ⟨g, [], fs⟩ = ⟨g, [], fs⟩ := rfl

theorem prLoop_cons (σ : Nat → Nat) (fuel t : Nat) (g : Grid) (q : Nat × Nat)
    (flr fs : List (Nat × Nat)) :
    prLoop σ (fuel + 1) t ⟨g, q :: flr, fs⟩ =
      prLoop σ fuel (prBody σ t g (q :: flr) fs).2 (prBody σ t g (q :: flr) fs).1 := rfl

/-- The `list(frontier_set)` the run starts from, in neighbor-enumeration
order; the theorems quantify over every permutation of it, since Python set
iteration order is unspecified. -/
def prInit0 (g : Grid) : List (Nat × Nat) :=
  (g.getNeighbors 0 0).map (fun p => (p.1, p.2.1))

/-- `PrimsAlgorithm.run`. -/
def prRun (σ : Nat → Nat) (w h : Nat) (init : List (Nat × Nat)) : Grid :=
  (prLoop σ (6 * (w * h)) 0 ⟨(mkGrid w h).setVisited 0 0, init, init⟩).g

/-- Loop invariant of Prim: dimensions stable, frontier cells in bounds with a
visited neighbor, the set mirrors the list and both are duplicate-free, every
unvisited cell adjacent to a visited one is on the frontier, open pairs join
visited cells, and counting and reachability as for the backtracker. -/
structure PrInv (w h : Nat) (st : PrState) : Prop where
  hw : st.g.width = w
  hh : st.g.height = h
  hlen : st.g.cells.length = st.g.width * st.g.height
  start : st.g.isVisited 0 0 = true
  flB : ∀ p ∈ st.fl, p.1 < w ∧ p.2 < h
  flHV : ∀ p ∈ st.fl, ∃ a b e, (a, b, e) ∈ st.g.getNeighbors p.1 p.2 ∧
    st.g.isVisited a b = true
  sync : ∀ p, p ∈ st.fs ↔ p ∈ st.fl
  ndl : st.fl.Nodup
  nds : st.fs.Nodup
  complete : ∀ x y, x < w → y < h → st.g.isVisited x y = false →
    (∃ a b e, (a, b, e) ∈ st.g.getNeighbors x y ∧ st.g.isVisited a b = true) →
    (x, y) ∈ st.fl
  slotsH : ∀ x y, slotOpenH st.g x y →
    st.g.isVisited x y = true ∧ st.g.isVisited (x + 1) y = true
  slotsV : ∀ x y, slotOpenV st.g x y →
    st.g.isVisited x y = true ∧ st.g.isVisited x (y + 1) = true
  count : openPairCount st.g + 1 = countVisited st.g
  reach : ∀ x y, x < w → y < h → st.g.isVisited x y = true →
    ReachOpen st.g (0, 0) (x, y)

set_option maxHeartbeats 1000000 in
/-- One Prim iteration preserves the invariant and strictly decreases the
measure `6 * unvisited + frontier length`. -/
theorem prBody_spec (σ : Nat → Nat) (w h : Nat) (hwp : 0 < w) (hhp : 0 < h)
    (t : Nat) (g : Grid) (q : Nat × Nat) (flr fs : List (Nat × Nat))
    (hinv : PrInv w h ⟨g, q :: flr, fs⟩) :
    PrInv w h (prBody σ t g (q :: flr) fs).1 ∧
    6 * (w * h - countVisited (prBody σ t g (q :: flr) fs).1.g) +
        (prBody σ t g (q :: flr) fs).1.fl.length + 1 ≤
      6 * (w * h - countVisited g) + (q :: flr).length := by
  have Ihw : g.width = w := hinv.hw
  have Ihh : g.height = h := hinv.hh
  have Ihlen : g.cells.length = g.width * g.height := hinv.hlen
  have Istart : g.isVisited 0 0 = true := hinv.start
  have IflB : ∀ p ∈ q :: flr, p.1 < w ∧ p.2 < h := hinv.flB
  have IflHV : ∀ p ∈ q :: flr, ∃ a b e, (a, b, e) ∈ g.getNeighbors p.1 p.2 ∧
      g.isVisited a b = true := hinv.flHV
  have Isync : ∀ p, p ∈ fs ↔ p ∈ q :: flr := hinv.sync
  have Indl : (q :: flr).Nodup := hinv.ndl
  have Indfs : fs.Nodup := hinv.nds
  have Icomp : ∀ x y, x < w → y < h → g.isVisited x y = false →
      (∃ a b e, (a, b, e) ∈ g.getNeighbors x y ∧ g.isVisited a b = true) →
      (x, y) ∈ q :: flr := hinv.complete
  have IsH : ∀ x y, slotOpenH g x y →
      g.isVisited x y = true ∧ g.isVisited (x + 1) y = true := hinv.slotsH
  have IsV : ∀ x y, slotOpenV g x y →
      g.isVisited x y = true ∧ g.isVisited x (y + 1) = true := hinv.slotsV
  have Icount : openPairCount g + 1 = countVisited g := hinv.count
  have Ireach : ∀ x y, x < w → y < h → g.isVisited x y = true →
      ReachOpen g (0, 0) (x, y) := hinv.reach
  have hlpos : 0 < (q :: flr).length := by simp
  have hidx : σ t % (q :: flr).length < (q :: flr).length := Nat.mod_lt _ hlpos
  have hcget : prC σ t (q :: flr) =
      (q :: flr).get ⟨σ t % (q :: flr).length, hidx⟩ := by
    unfold prC
    rw [List.getD_eq_getElem _ _ hidx, List.get_eq_getElem]
  have hcmem : prC σ t (q :: flr) ∈ q :: flr := by
    rw [hcget]
    exact List.get_mem _ _ _
  have hcfs : prC σ t (q :: flr) ∈ fs := (Isync _).mpr hcmem
  have hcb := IflB _ hcmem
  have hcx : (prC σ t (q :: flr)).1 < g.width := by rw [Ihw]; exact hcb.1
  have hcy : (prC σ t (q :: flr)).2 < g.height := by rw [Ihh]; exact hcb.2
  have hfl2len : (prFl2 σ t (q :: flr)).length = (q :: flr).length - 1 := by
    unfold prFl2
    exact swapRemove_length _ _
  have hfl2sub : ∀ p ∈ prFl2 σ t (q :: flr), p ∈ q :: flr := by
    intro p hp
    unfold prFl2 at hp
    exact swapRemove_subset hidx hp
  have hfl2mem : ∀ p, p ∈ q :: flr → p ≠ prC σ t (q :: flr) →
      p ∈ prFl2 σ t (q :: flr) := by
    intro p hp hne
    unfold prFl2
    refine swapRemove_mem hidx hp ?_
    rw [← hcget]
    exact hne
  have hfl2nd : (prFl2 σ t (q :: flr)).Nodup := by
    unfold prFl2
    exact swapRemove_nodup Indl hidx
  have hcnot : prC σ t (q :: flr) ∉ prFl2 σ t (q :: flr) := by
    unfold prFl2
    rw [hcget]
    exact swapRemove_not_mem Indl hidx
  have hsync2 : ∀ p, p ∈ fs.erase (prC σ t (q :: flr)) ↔
      p ∈ prFl2 σ t (q :: flr) := by
    intro p
    rw [List.Nodup.mem_erase_iff Indfs, Isync p]
    constructor
    · intro hpair
      exact hfl2mem p hpair.2 hpair.1
    · intro hp
      refine ⟨?_, hfl2sub p hp⟩
      intro hc2
      rw [hc2] at hp
      exact hcnot hp
  have hfs2nd : (fs.erase (prC σ t (q :: flr))).Nodup := Indfs.erase _
  unfold prBody
  rw [if_pos hcfs]
  by_cases hcv : g.isVisited (prC σ t (q :: flr)).1 (prC σ t (q :: flr)).2 = true
  · rw [if_pos hcv]
    constructor
    · refine ⟨Ihw, Ihh, Ihlen, Istart, ?_, ?_, hsync2, hfl2nd, hfs2nd, ?_,
        IsH, IsV, Icount, Ireach⟩
      · exact fun p hp => IflB p (hfl2sub p hp)
      · exact fun p hp => IflHV p (hfl2sub p hp)
      · intro x y hx hy hunv hwit
        refine hfl2mem _ (Icomp x y hx hy hunv hwit) ?_
        intro hceq
        have hx1 : x = (prC σ t (q :: flr)).1 := congrArg Prod.fst hceq
        have hy1 : y = (prC σ t (q :: flr)).2 := congrArg Prod.snd hceq
        rw [hx1, hy1, hcv] at hunv
        exact absurd hunv (by decide)
    · show 6 * (w * h - countVisited g) + (prFl2 σ t (q :: flr)).length + 1 ≤
        6 * (w * h - countVisited g) + (q :: flr).length
      rw [hfl2len]
      simp only [List.length_cons]
      omega
  · rw [if_neg hcv]
    have hcv2 : g.isVisited (prC σ t (q :: flr)).1 (prC σ t (q :: flr)).2 = false := by
      cases hb : g.isVisited (prC σ t (q :: flr)).1 (prC σ t (q :: flr)).2
      · rfl
      · exact absurd hb hcv
    have hposs : ¬ (prPoss g (prC σ t (q :: flr))).length = 0 := by
      intro h0
      obtain ⟨a, b, e, hnb, hvis⟩ := IflHV _ hcmem
      have hmemposs : (a, b, e) ∈ prPoss g (prC σ t (q :: flr)) := by
        unfold prPoss
        exact List.mem_filter.mpr ⟨hnb, by simp [hvis]⟩
      rw [List.length_eq_zero.mp h0] at hmemposs
      exact absurd hmemposs (List.not_mem_nil _)
    rw [if_neg hposs]
    have hplen : σ (t + 1) % (prPoss g (prC σ t (q :: flr))).length <
        (prPoss g (prC σ t (q :: flr))).length :=
      Nat.mod_lt _ (Nat.pos_of_ne_zero hposs)
    have hpickmem : prPick σ t g (prC σ t (q :: flr)) ∈
        prPoss g (prC σ t (q :: flr)) := by
      unfold prPick
      rw [List.getD_eq_getElem _ _ hplen]
      exact List.getElem_mem _
    have hpickfil := List.mem_filter.mp (by
      unfold prPoss at hpickmem
      exact hpickmem)
    have hnbm : ((prPick σ t g (prC σ t (q :: flr))).1,
        (prPick σ t g (prC σ t (q :: flr))).2.1,
        (prPick σ t g (prC σ t (q :: flr))).2.2) ∈
        g.getNeighbors (prC σ t (q :: flr)).1 (prC σ t (q :: flr)).2 := hpickfil.1
    have hpvis : g.isVisited (prPick σ t g (prC σ t (q :: flr))).1
        (prPick σ t g (prC σ t (q :: flr))).2.1 = true := by
      have := hpickfil.2
      simpa using this
    have hpb := mem_getNeighbors_bounds hcx hcy hnbm
    obtain ⟨hW3, hH3, hL3, hviff, hcnt⟩ :=
      carveMark_base Ihlen hcx hcy hnbm hcx hcy hcv2
    have hpcnt := carveMark_pairCount Ihlen hcx hcy hnbm (Or.inl ⟨rfl, rfl⟩)
      hcv2 IsH IsV
    have hslots := carveMark_slots Ihlen hcx hcy hnbm (Or.inl ⟨rfl, rfl⟩)
      hpvis IsH IsV
    have hadj := carveMark_adj Ihlen hcx hcy hnbm (Or.inl ⟨rfl, rfl⟩)
    set C := prC σ t (q :: flr) with hCdef
    set P := prPick σ t g C with hPdef
    set G3 := carveMark g C.1 C.2 C.1 C.2 P.2.2 with hG3def
    set FL2 := prFl2 σ t (q :: flr) with hFL2def
    set FS2 := fs.erase C with hFS2def
    obtain ⟨s1, s2, s3, s4, s5, s6, s7⟩ :=
      prAddL_spec G3 (G3.getNeighbors C.1 C.2) FL2 FS2 hsync2 hfl2nd hfs2nd
    have hvm3 : G3.isVisited C.1 C.2 = true :=
      (hviff C.1 C.2 hcx hcy).mpr (Or.inl ⟨rfl, rfl⟩)
    have hmono3 : ∀ x y, x < g.width → y < g.height → g.isVisited x y = true →
        G3.isVisited x y = true :=
      fun x y hx hy hv => (hviff x y hx hy).mpr (Or.inr hv)
    have hgn3 : ∀ x y, G3.getNeighbors x y = g.getNeighbors x y :=
      fun x y => getNeighbors_congr hW3 hH3 x y
    constructor
    · refine ⟨?_, ?_, ?_, ?_, ?_, ?_, s1, s2, s3, ?_, hslots.1, hslots.2, ?_, ?_⟩
      · show G3.width = w
        rw [hW3, Ihw]
      · show G3.height = h
        rw [hH3, Ihh]
      · show G3.cells.length = G3.width * G3.height
        rw [hL3, hW3, hH3]
        exact Ihlen
      · show G3.isVisited 0 0 = true
        exact hmono3 0 0 (by rw [Ihw]; exact hwp) (by rw [Ihh]; exact hhp) Istart
      · intro p hp
        rcases s7 p hp with hin | ⟨r, hr, hr1, hr2, hrv⟩
        · exact IflB p (hfl2sub p hin)
        · rw [hgn3] at hr
          have hb := mem_getNeighbors_bounds hcx hcy hr
          constructor
          · rw [← hr1]
            exact Ihw ▸ hb.1
          · rw [← hr2]
            exact Ihh ▸ hb.2
      · intro p hp
        rcases s7 p hp with hin | ⟨r, hr, hr1, hr2, hrv⟩
        · obtain ⟨a, b, e, hnb2, hv2⟩ := IflHV p (hfl2sub p hin)
          have hpb2 := IflB p (hfl2sub p hin)
          have hab := mem_getNeighbors_bounds (by rw [Ihw]; exact hpb2.1)
            (by rw [Ihh]; exact hpb2.2) hnb2
          exact ⟨a, b, e, by rw [hgn3]; exact hnb2, hmono3 a b hab.1 hab.2 hv2⟩
        · rw [hgn3] at hr
          obtain ⟨e2, hsym⟩ := getNeighbors_symm hcx hcy hr
          rw [hr1, hr2] at hsym
          exact ⟨C.1, C.2, e2, by rw [hgn3]; exact hsym, hvm3⟩
      · intro x y hx hy hunv3 hwit3
        have hxg : x < g.width := by rw [Ihw]; exact hx
        have hyg : y < g.height := by rw [Ihh]; exact hy
        obtain ⟨a, b, e, hnbr3, hvis3⟩ := hwit3
        rw [hgn3] at hnbr3
        have hunvg : g.isVisited x y = false := by
          cases hb : g.isVisited x y
          · rfl
          · rw [hmono3 x y hxg hyg hb] at hunv3
            exact absurd hunv3 (by decide)
        have hxyne : (x, y) ≠ C := by
          intro hceq
          have hx1 : x = C.1 := congrArg Prod.fst hceq
          have hy1 : y = C.2 := congrArg Prod.snd hceq
          rw [hx1, hy1, hvm3] at hunv3
          exact absurd hunv3 (by decide)
        have hab := mem_getNeighbors_bounds hxg hyg hnbr3
        rcases (hviff a b hab.1 hab.2).mp hvis3 with ⟨ha1, hb1⟩ | hgvis
        · rw [ha1, hb1] at hnbr3
          obtain ⟨e2, hsym⟩ := getNeighbors_symm hxg hyg hnbr3
          exact s6 (x, y, e2) (by rw [hgn3]; exact hsym) hunv3
        · have hold := Icomp x y hx hy hunvg ⟨a, b, e, hnbr3, hgvis⟩
          exact s5 _ (hfl2mem _ hold hxyne)
      · show openPairCount G3 + 1 = countVisited G3
        rw [hpcnt, hcnt]
        omega
      · intro x y hx hy hv3
        have hxg : x < g.width := by rw [Ihw]; exact hx
        have hyg : y < g.height := by rw [Ihh]; exact hy
        rcases (hviff x y hxg hyg).mp hv3 with ⟨hx1, hy1⟩ | hvold
        · have hreach : ReachOpen g (0, 0) (P.1, P.2.1) :=
            Ireach P.1 P.2.1 (Ihw ▸ hpb.1) (Ihh ▸ hpb.2) hpvis
          have hrc3 := Relation.ReflTransGen.mono hadj.2 hreach
          have hfinal := Relation.ReflTransGen.tail hrc3 (openAdj_symm hadj.1)
          rw [hx1, hy1]
          exact hfinal
        · exact Relation.ReflTransGen.mono hadj.2 (Ireach x y hx hy hvold)
    · show 6 * (w * h - countVisited G3) +
          (prAddL G3 (G3.getNeighbors C.1 C.2) FL2 FS2).1.length + 1 ≤
        6 * (w * h - countVisited g) + (q :: flr).length
      have hnle := getNeighbors_length_le G3 C.1 C.2
      have hcntle : countVisited G3 ≤ w * h := by
        unfold countVisited
        exact le_trans (countIdx_le _ _) (by rw [hW3, hH3, Ihw, Ihh])
      simp only [List.length_cons] at hfl2len ⊢
      rw [hcnt] at hcntle ⊢
      omega

theorem prLoop_main (σ : Nat → Nat) (w h : Nat) (hwp : 0 < w) (hhp : 0 < h) :
    ∀ fuel t st, PrInv w h st →
      6 * (w * h - countVisited st.g) + st.fl.length ≤ fuel →
      PrInv w h (prLoop σ fuel t st) ∧ (prLoop σ fuel t st).fl = [] := by
  intro fuel
  induction fuel with
  | zero =>
    intro t st hinv hm
    have hstk : st.fl = [] := List.length_eq_zero.mp (by omega)
    rw [prLoop_zero]
    exact ⟨hinv, hstk⟩
  | succ fuel ih =>
    intro t st hinv hm
    obtain ⟨g, fl, fs⟩ := st
    cases fl with
    | nil =>
      rw [prLoop_nil]
      exact ⟨hinv, rfl⟩
    | cons q flr =>
      rw [prLoop_cons]
      obtain ⟨hinv2, hmeas⟩ := prBody_spec σ w h hwp hhp t g q flr fs hinv
      apply ih _ _ hinv2
      have hm2 : 6 * (w * h - countVisited g) + (q :: flr).length ≤ fuel + 1 := hm
      omega

theorem prInit0_nodup (g : Grid) : (prInit0 g).Nodup := by
  unfold prInit0 Grid.getNeighbors
  have h0 : ¬ ((0 : Nat) > 0) := by omega
  rw [if_neg h0, if_neg h0]
  by_cases h2 : (0 : Nat) < g.height - 1 <;> by_cases h3 : (0 : Nat) < g.width - 1 <;>
    simp [h2, h3]

theorem prInit0_mem {g : Grid} (init : List (Nat × Nat))
    (hperm : init.Perm (prInit0 g)) (p : Nat × Nat) :
    p ∈ init ↔ ∃ e, (p.1, p.2, e) ∈ g.getNeighbors 0 0 := by
  rw [hperm.mem_iff]
  unfold prInit0
  rw [List.mem_map]
  constructor
  · intro hr
    obtain ⟨r, hr, hre⟩ := hr
    have h1 : r.1 = p.1 := congrArg Prod.fst hre
    have h2 : r.2.1 = p.2 := congrArg Prod.snd hre
    refine ⟨r.2.2, ?_⟩
    rw [← h1, ← h2]
    exact hr
  · intro he
    obtain ⟨e, he⟩ := he
    exact ⟨(p.1, p.2, e), he, rfl⟩

/-- The freshly started Prim run satisfies the loop invariant, with fuel
`6 * w * h` covering the initial measure. -/
theorem prInit (w h : Nat) (hwp : 0 < w) (hhp : 0 < h) (init : List (Nat × Nat))
    (hperm : init.Perm (prInit0 ((mkGrid w h).setVisited 0 0))) :
    PrInv w h ⟨(mkGrid w h).setVisited 0 0, init, init⟩ ∧
    6 * (w * h - countVisited ((mkGrid w h).setVisited 0 0)) + init.length ≤
      6 * (w * h) := by
  obtain ⟨hW0, hH0, hL0, hstart, hvisonly, hcv, hop, hnsH, hnsV⟩ :=
    mkGridStart_facts w h hwp hhp
  have hx0 : (0 : Nat) < ((mkGrid w h).setVisited 0 0).width := by
    rw [hW0]; exact hwp
  have hy0 : (0 : Nat) < ((mkGrid w h).setVisited 0 0).height := by
    rw [hH0]; exact hhp
  have hmem0 := prInit0_mem init hperm
  constructor
  · refine ⟨hW0, hH0, by rw [hL0, hW0, hH0], hstart, ?_, ?_, fun p => Iff.rfl,
      ?_, ?_, ?_, ?_, ?_, ?_, ?_⟩
    · intro p hp
      obtain ⟨e, he⟩ := (hmem0 p).mp hp
      have hb := mem_getNeighbors_bounds hx0 hy0 he
      exact ⟨hW0 ▸ hb.1, hH0 ▸ hb.2⟩
    · intro p hp
      obtain ⟨e, he⟩ := (hmem0 p).mp hp
      obtain ⟨e2, hsym⟩ := getNeighbors_symm hx0 hy0 he
      exact ⟨0, 0, e2, hsym, hstart⟩
    · exact (hperm.nodup_iff).mpr (prInit0_nodup _)
    · exact (hperm.nodup_iff).mpr (prInit0_nodup _)
    · intro x y hx hy hunv hwit
      obtain ⟨a, b, e, hnb, hv⟩ := hwit
      have hxg : x < ((mkGrid w h).setVisited 0 0).width := by rw [hW0]; exact hx
      have hyg : y < ((mkGrid w h).setVisited 0 0).height := by rw [hH0]; exact hy
      have hab := mem_getNeighbors_bounds hxg hyg hnb
      have h00 := hvisonly a b (hW0 ▸ hab.1) (hH0 ▸ hab.2) hv
      rw [h00.1, h00.2] at hnb
      obtain ⟨e2, hsym⟩ := getNeighbors_symm hxg hyg hnb
      exact (hmem0 (x, y)).mpr ⟨e2, hsym⟩
    · exact fun x y hs => absurd hs (hnsH x y)
    · exact fun x y hs => absurd hs (hnsV x y)
    · rw [hop, hcv]
    · intro x y hx hy hv
      have h00 := hvisonly x y hx hy hv
      rw [h00.1, h00.2]
      exact Relation.ReflTransGen.refl
  · have hlen4 : init.length ≤ 4 := by
      rw [hperm.length_eq]
      unfold prInit0
      rw [List.length_map]
      exact getNeighbors_length_le _ 0 0
    rw [hcv]
    have hwh : 0 < w * h := Nat.mul_pos hwp hhp
    omega

/-- Full specification of the Prim frontier generator: whatever the random
stream and whatever order the set iterates in, it visits all `w * h` cells,
carves exactly `w * h - 1` open wall pairs, and connects every cell to the
start — a spanning tree of the lattice. -/
theorem prRun_spec (σ : Nat → Nat) (w h : Nat) (hwp : 0 < w) (hhp : 0 < h)
    (init : List (Nat × Nat))
    (hperm : init.Perm (prInit0 ((mkGrid w h).setVisited 0 0))) :
    (prRun σ w h init).width = w ∧ (prRun σ w h init).height = h ∧
    countVisited (prRun σ w h init) = w * h ∧
    openPairCount (prRun σ w h init) = w * h - 1 ∧
    (∀ x y, x < w → y < h → ReachOpen (prRun σ w h init) (0, 0) (x, y)) := by
  obtain ⟨hinv0, hm0⟩ := prInit w h hwp hhp init hperm
  obtain ⟨hinv, hempty⟩ := prLoop_main σ w h hwp hhp (6 * (w * h)) 0
    ⟨(mkGrid w h).setVisited 0 0, init, init⟩ hinv0 hm0
  have hG : prRun σ w h init =
      (prLoop σ (6 * (w * h)) 0 ⟨(mkGrid w h).setVisited 0 0, init, init⟩).g := rfl
  rw [hG]
  set fin := prLoop σ (6 * (w * h)) 0 ⟨(mkGrid w h).setVisited 0 0, init, init⟩
    with hfin
  have hclosed : ∀ x y, x < w → y < h → fin.g.isVisited x y = true := by
    have hmain := window_closure (P := fun x y => fin.g.isVisited x y = true) 0 0 w h
      hinv.start ?_ ?_
    · intro x y hx hy
      exact hmain x y (Nat.zero_le x) (by omega) (Nat.zero_le y) (by omega)
    · intro x y _ hx2 _ hy2 hp
      cases hb : fin.g.isVisited (x + 1) y
      · have hwit : ∃ a b e, (a, b, e) ∈ fin.g.getNeighbors (x + 1) y ∧
            fin.g.isVisited a b = true := by
          refine ⟨x, y, WEST, mem_getNeighbors_iff.mpr
            (Or.inr (Or.inr (Or.inr ⟨by omega, ?_⟩))), hp⟩
          rw [Nat.add_sub_cancel]
        have := hinv.complete (x + 1) y (by omega) (by omega) hb hwit
        rw [hempty] at this
        exact absurd this (List.not_mem_nil _)
      · rfl
    · intro x y _ hx2 _ hy2 hp
      cases hb : fin.g.isVisited x (y + 1)
      · have hwit : ∃ a b e, (a, b, e) ∈ fin.g.getNeighbors x (y + 1) ∧
            fin.g.isVisited a b = true := by
          refine ⟨x, y, NORTH, mem_getNeighbors_iff.mpr
            (Or.inl ⟨by omega, ?_⟩), hp⟩
          rw [Nat.add_sub_cancel]
        have := hinv.complete x (y + 1) (by omega) (by omega) hb hwit
        rw [hempty] at this
        exact absurd this (List.not_mem_nil _)
      · rfl
  have hcnt : countVisited fin.g = w * h := by
    unfold countVisited
    rw [hinv.hw, hinv.hh]
    refine countIdx_all ?_
    intro j hj
    have hxw : j % w < w := Nat.mod_lt _ hwp
    have hyh : j / w < h := Nat.div_lt_of_lt_mul hj
    have hv := hclosed (j % w) (j / w) hxw hyh
    rw [isVisited_iff_w hinv.hw] at hv
    rw [show j / w * w + j % w = j from by
      rw [Nat.mul_comm]; exact Nat.div_add_mod j w] at hv
    simpa using hv
  refine ⟨hinv.hw, hinv.hh, hcnt, ?_, ?_⟩
  · have := hinv.count
    omega
  · intro x y hx hy
    exact hinv.reach x y hx hy (hclosed x y hx hy)

/-! ### Coverage of the block-parallel generator (claim C2) -/

theorem getD_set_general (l : List Nat) (i j v : Nat) :
    (l.set i v).getD j 0 = if j = i ∧ i < l.length then v else l.getD j 0 := by
  by_cases hi : i < l.length
  · by_cases hj : j = i
    · subst hj
      rw [getD_set_eq hi, if_pos ⟨rfl, hi⟩]
    · rw [getD_set_ne (fun hc => hj hc.symm), if_neg (fun hc => hj hc.1)]
  · rw [List.set_eq_of_length_le (by omega), if_neg (fun hc => hi hc.2)]

theorem clearBits_vis {b : Nat} (hb : b = 1 ∨ b = 2 ∨ b = 4 ∨ b = 8) (v : Nat) :
    clearBits v b &&& 16 = v &&& 16 := by
  rw [clearBits_eq_ldiff]
  rcases hb with rfl | rfl | rfl | rfl
  · rw [show (1 : Nat) = 2 ^ 0 from rfl, show (16 : Nat) = 2 ^ 4 from rfl]
    exact and_pow_ldiff_ne v (by omega)
  · rw [show (2 : Nat) = 2 ^ 1 from rfl, show (16 : Nat) = 2 ^ 4 from rfl]
    exact and_pow_ldiff_ne v (by omega)
  · rw [show (4 : Nat) = 2 ^ 2 from rfl, show (16 : Nat) = 2 ^ 4 from rfl]
    exact and_pow_ldiff_ne v (by omega)
  · rw [show (8 : Nat) = 2 ^ 3 from rfl, show (16 : Nat) = 2 ^ 4 from rfl]
    exact and_pow_ldiff_ne v (by omega)

theorem or16_and16 (v : Nat) : (v ||| 16) &&& 16 = 16 := by
  rw [show (16 : Nat) = 2 ^ 4 from rfl]
  exact and_pow_or_self v 4

theorem listClearBit_vis (cs : List Nat) (i b j : Nat)
    (hb : b = 1 ∨ b = 2 ∨ b = 4 ∨ b = 8) :
    (listClearBit cs i b).getD j 0 &&& 16 = cs.getD j 0 &&& 16 := by
  unfold listClearBit
  rw [getD_set_general]
  split_ifs with hc
  · rw [clearBits_vis hb, hc.1]
  · rfl

theorem listClearBit_len (cs : List Nat) (i b : Nat) :
    (listClearBit cs i b).length = cs.length := by
  simp [listClearBit]

theorem listSetBit_len (cs : List Nat) (i b : Nat) :
    (listSetBit cs i b).length = cs.length := by
  simp [listSetBit]

/-- The visited-bit effect of one carve-and-mark update of the block kernel:
bit 16 is set at the marked in-range index and untouched everywhere else. -/
theorem tgUpdate_vis (cells : List Nat) (i1 i2 cb ob : Nat)
    (hcb : cb = 1 ∨ cb = 2 ∨ cb = 4 ∨ cb = 8)
    (hob : ob = 1 ∨ ob = 2 ∨ ob = 4 ∨ ob = 8) (j : Nat) :
    (listSetBit (listClearBit (listClearBit cells i1 cb) i2 ob) i2 16).getD j 0 &&& 16 =
      if j = i2 ∧ i2 < cells.length then 16 else cells.getD j 0 &&& 16 := by
  have hlen2 : (listClearBit (listClearBit cells i1 cb) i2 ob).length = cells.length := by
    rw [listClearBit_len, listClearBit_len]
  unfold listSetBit
  rw [getD_set_general]
  rw [hlen2]
  split_ifs with hc
  · rw [or16_and16]
  · rw [listClearBit_vis _ _ _ _ hob, listClearBit_vis _ _ _ _ hcb]

theorem listSetBit_vis16 (cs : List Nat) (i j : Nat) :
    (listSetBit cs i 16).getD j 0 &&& 16 =
      if j = i ∧ i < cs.length then 16 else cs.getD j 0 &&& 16 := by
  unfold listSetBit
  rw [getD_set_general]
  split_ifs with hc
  · rw [or16_and16]
  · rfl

theorem foldl_preserves_vis {α : Type} (f : List Nat → α → List Nat) (L : List α)
    (hf : ∀ cs a, ∀ j, (f cs a).getD j 0 &&& 16 = cs.getD j 0 &&& 16) :
    ∀ cs j, (L.foldl f cs).getD j 0 &&& 16 = cs.getD j 0 &&& 16 := by
  induction L with
  | nil => intro cs j; rfl
  | cons a as ih =>
    intro cs j
    rw [List.foldl_cons, ih, hf]

theorem foldl_preserves_len {α : Type} (f : List Nat → α → List Nat) (L : List α)
    (hf : ∀ cs a, (f cs a).length = cs.length) :
    ∀ cs, (L.foldl f cs).length = cs.length := by
  induction L with
  | nil => intro cs; rfl
  | cons a as ih =>
    intro cs
    rw [List.foldl_cons, ih, hf]

theorem tgBlockLoop_stop {w h bs gx0 gy0 : Nat} {σ : Nat → Nat} {fuel : Nat}
    {cells stack : List Nat} {t : Nat} (hst : stack.getLast? = none) :
    tgBlockLoop w h bs gx0 gy0 σ (fuel + 1) cells stack t = cells := by
  conv_lhs => unfold tgBlockLoop
  rw [hst]

theorem tgBlockLoop_pop {w h bs gx0 gy0 : Nat} {σ : Nat → Nat} {fuel : Nat}
    {cells stack : List Nat} {t curr : Nat} (hst : stack.getLast? = some curr)
    (hfind : tgFindNbr w h bs gx0 gy0 cells (curr % bs) (curr / bs) (σ t % 4) = none) :
    tgBlockLoop w h bs gx0 gy0 σ (fuel + 1) cells stack t =
      tgBlockLoop w h bs gx0 gy0 σ fuel cells stack.dropLast (t + 1) := by
  conv_lhs => unfold tgBlockLoop
  rw [hst]
  simp only [hfind]

theorem tgBlockLoop_push {w h bs gx0 gy0 : Nat} {σ : Nat → Nat} {fuel : Nat}
    {cells stack : List Nat} {t curr nlx nly cb ob : Nat}
    (hst : stack.getLast? = some curr)
    (hfind : tgFindNbr w h bs gx0 gy0 cells (curr % bs) (curr / bs) (σ t % 4) =
      some (nlx, nly, cb, ob)) :
    tgBlockLoop w h bs gx0 gy0 σ (fuel + 1) cells stack t =
      tgBlockLoop w h bs gx0 gy0 σ fuel
        (listSetBit (listClearBit (listClearBit cells
            ((gy0 + curr / bs) * w + (gx0 + curr % bs)) cb)
          ((gy0 + nly) * w + (gx0 + nlx)) ob)
          ((gy0 + nly) * w + (gx0 + nlx)) 16)
        (stack ++ [nly * bs + nlx]) (t + 1) := by
  conv_lhs => unfold tgBlockLoop
  rw [hst]
  simp only [hfind]

/-- When the rotated scan finds no candidate, the in-block in-grid east and
south neighbors are both already visited. -/
theorem tgFindNbr_none_expl {w h bs gx0 gy0 : Nat} {cells : List Nat} {cx cy sd : Nat}
    (hn : tgFindNbr w h bs gx0 gy0 cells cx cy sd = none) :
    (cx + 1 < bs → gx0 + (cx + 1) < w → cy < bs → gy0 + cy < h →
      (cells.getD ((gy0 + cy) * w + (gx0 + (cx + 1))) 0) &&& 16 ≠ 0) ∧
    (cy + 1 < bs → gy0 + (cy + 1) < h → cx < bs → gx0 + cx < w →
      (cells.getD ((gy0 + (cy + 1)) * w + (gx0 + cx)) 0) &&& 16 ≠ 0) := by
  have hall := List.findSome?_eq_none.mp hn
  constructor
  · intro hcx1 hgx1 hcy1 hgy1
    have hmem : (1 : Nat) ∈ (List.range 4).map (fun k => (sd + k) % 4) := by
      refine List.mem_map.mpr ⟨(1 + 4 - sd % 4) % 4, List.mem_range.mpr (by omega), by omega⟩
    have hf1 := hall 1 hmem
    norm_num [tgDirData] at hf1
    intro hbit0
    rw [List.getD_eq_getElem?_getD] at hbit0
    exact Option.noConfusion (hf1 (by omega) (by omega) hcy1 hgx1 hgy1 hbit0)
  · intro hcy1 hgy1 hcx1 hgx1
    have hmem : (2 : Nat) ∈ (List.range 4).map (fun k => (sd + k) % 4) := by
      refine List.mem_map.mpr ⟨(2 + 4 - sd % 4) % 4, List.mem_range.mpr (by omega), by omega⟩
    have hf2 := hall 2 hmem
    norm_num [tgDirData] at hf2
    intro hbit0
    rw [List.getD_eq_getElem?_getD] at hbit0
    exact Option.noConfusion (hf2 hcx1 (by omega) (by omega) hgx1 hgy1 hbit0)

/-- When the rotated scan returns a candidate, it lies in the block and the
grid, is unvisited, and carries single-direction carve and opposite bits. -/
theorem tgFindNbr_some_spec {w h bs gx0 gy0 : Nat} {cells : List Nat}
    {cx cy sd nlx nly cb ob : Nat}
    (hs : tgFindNbr w h bs gx0 gy0 cells cx cy sd = some (nlx, nly, cb, ob)) :
    nlx < bs ∧ nly < bs ∧ gx0 + nlx < w ∧ gy0 + nly < h ∧
    cells.getD ((gy0 + nly) * w + (gx0 + nlx)) 0 &&& 16 = 0 ∧
    (cb = 1 ∨ cb = 2 ∨ cb = 4 ∨ cb = 8) ∧ (ob = 1 ∨ ob = 2 ∨ ob = 4 ∨ ob = 8) := by
  obtain ⟨d, hdmem, hfd⟩ := List.exists_of_findSome?_eq_some hs
  have hd4 : d < 4 := by
    obtain ⟨k, hk, hdk⟩ := List.mem_map.mp hdmem
    omega
  interval_cases d
  · norm_num [tgDirData] at hfd
    obtain ⟨⟨ha, hb, hc⟩, ⟨hd1, hd2⟩, hbit, rfl, rfl, rfl, rfl⟩ := hfd
    rw [toNat_sub_one hb] at hd2 hbit ⊢
    rw [← List.getD_eq_getElem?_getD] at hbit
    exact ⟨ha, by omega, hd1, hd2, hbit, by norm_num, by norm_num⟩
  · norm_num [tgDirData] at hfd
    obtain ⟨⟨ha, hb, hc⟩, ⟨hd1, hd2⟩, hbit, rfl, rfl, rfl, rfl⟩ := hfd
    rw [← List.getD_eq_getElem?_getD] at hbit
    exact ⟨by omega, hc, hd1, hd2, hbit, by norm_num, by norm_num⟩
  · norm_num [tgDirData] at hfd
    obtain ⟨⟨ha, hb, hc⟩, ⟨hd1, hd2⟩, hbit, rfl, rfl, rfl, rfl⟩ := hfd
    rw [← List.getD_eq_getElem?_getD] at hbit
    exact ⟨ha, by omega, hd1, hd2, hbit, by norm_num, by norm_num⟩
  · norm_num [tgDirData] at hfd
    obtain ⟨⟨ha, hb, hc⟩, ⟨hd1, hd2⟩, hbit, rfl, rfl, rfl, rfl⟩ := hfd
    rw [toNat_sub_one ha] at hd1 hbit ⊢
    rw [← List.getD_eq_getElem?_getD] at hbit
    exact ⟨by omega, hc, hd1, hd2, hbit, by norm_num, by norm_num⟩


/-- The visited bit of a cell at offset `(x, y)` from a block origin, as a
proposition. -/
def tgVis (w gx0 gy0 : Nat) (cells : List Nat) (x y : Nat) : Prop :=
  cells.getD ((gy0 + y) * w + (gx0 + x)) 0 &&& 16 ≠ 0

/-- The number of unvisited cells of the clipped block region. -/
def tgUnvis (w gx0 gy0 rw rh : Nat) (cells : List Nat) : Nat :=
  countIdx (rw * rh) (fun e =>
    cells.getD ((gy0 + e / rw) * w + (gx0 + e % rw)) 0 &&& 16 == 0)

theorem countIdx_eq_zero {n : Nat} {p : Nat → Bool} (h : countIdx n p = 0) :
    ∀ j, j < n → p j = false := by
  intro j hj
  by_contra hc
  have hmem : j ∈ (Finset.range n).filter (fun i => p i = true) :=
    Finset.mem_filter.mpr ⟨Finset.mem_range.mpr hj, by simpa using hc⟩
  unfold countIdx at h
  rw [Finset.card_eq_zero] at h
  rw [h] at hmem
  exact absurd hmem (Finset.not_mem_empty j)

theorem tgUnvis_le (w gx0 gy0 rw rh : Nat) (cells : List Nat) :
    tgUnvis w gx0 gy0 rw rh cells ≤ rw * rh :=
  countIdx_le _ _

theorem tgUnvis_zero_cover {w gx0 gy0 rw rh : Nat} {cells : List Nat}
    (h : tgUnvis w gx0 gy0 rw rh cells = 0) :
    ∀ x y, x < rw → y < rh → tgVis w gx0 gy0 cells x y := by
  intro x y hx hy
  have hp : (cells.getD ((gy0 + (y * rw + x) / rw) * w +
      (gx0 + (y * rw + x) % rw)) 0 &&& 16 == 0) = false :=
    countIdx_eq_zero h (y * rw + x) (idx_lt hx hy)
  rw [idx_mod y hx, idx_div y hx] at hp
  intro hc
  rw [hc] at hp
  simp at hp

/-- Marking one unvisited region cell visited, with all other visited bits
unchanged, lowers the unvisited count of the region by one. -/
theorem tgUnvis_flip (w gx0 gy0 rw rh : Nat) (cells : List Nat) (nlx nly i2 : Nat)
    (hrw1 : 0 < rw) (hrwle : gx0 + rw ≤ w) (hnlx : nlx < rw) (hnly : nly < rh)
    (hi2 : i2 = (gy0 + nly) * w + (gx0 + nlx))
    (hunv : cells.getD i2 0 &&& 16 = 0)
    (cells2 : List Nat)
    (hnew : ∀ j, cells2.getD j 0 &&& 16 = if j = i2 then 16 else cells.getD j 0 &&& 16) :
    tgUnvis w gx0 gy0 rw rh cells = tgUnvis w gx0 gy0 rw rh cells2 + 1 := by
  unfold tgUnvis
  apply countIdx_flip (i := nly * rw + nlx) (idx_lt hnlx hnly)
  · show (cells2.getD ((gy0 + (nly * rw + nlx) / rw) * w +
      (gx0 + (nly * rw + nlx) % rw)) 0 &&& 16 == 0) = false
    rw [idx_mod nly hnlx, idx_div nly hnlx, ← hi2, hnew i2, if_pos rfl]
    decide
  · show (cells.getD ((gy0 + (nly * rw + nlx) / rw) * w +
      (gx0 + (nly * rw + nlx) % rw)) 0 &&& 16 == 0) = true
    rw [idx_mod nly hnlx, idx_div nly hnlx, ← hi2, hunv]
    decide
  · intro j hji
    have hIdx : (gy0 + j / rw) * w + (gx0 + j % rw) ≠ i2 := by
      intro he
      rw [hi2] at he
      have hjm : j % rw < rw := Nat.mod_lt j hrw1
      have hxw : gx0 + j % rw < w := by omega
      have hx2 : gx0 + nlx < w := by omega
      have hii := (idx_eq_iff hxw hx2).mp he
      have hxe : j % rw = nlx := by omega
      have hye : j / rw = nly := by omega
      apply hji
      rw [← Nat.div_add_mod j rw, hxe, hye, Nat.mul_comm]
    show (cells.getD ((gy0 + j / rw) * w + (gx0 + j % rw)) 0 &&& 16 == 0) =
      (cells2.getD ((gy0 + j / rw) * w + (gx0 + j % rw)) 0 &&& 16 == 0)
    rw [hnew ((gy0 + j / rw) * w + (gx0 + j % rw)), if_neg hIdx]

theorem tgBlockLoop_fz {w h bs gx0 gy0 : Nat} {σ : Nat → Nat} {cells stack : List Nat}
    {t : Nat} : tgBlockLoop w h bs gx0 gy0 σ 0 cells stack t = cells := rfl

/-- The loop invariant of the per-block DFS: the stack holds distinct visited
region cells, the origin is visited, and every visited region cell off the
stack already has visited in-region east and south neighbors. -/
structure TgInv (w h bs gx0 gy0 rw rh : Nat) (cells : List Nat) (stack : List Nat) :
    Prop where
  hlen : cells.length = w * h
  hnd : stack.Nodup
  hstk : ∀ c ∈ stack, c % bs < rw ∧ c / bs < rh ∧ tgVis w gx0 gy0 cells (c % bs) (c / bs)
  hvis0 : tgVis w gx0 gy0 cells 0 0
  hproc : ∀ x y, x < rw → y < rh → tgVis w gx0 gy0 cells x y → (y * bs + x) ∉ stack →
    (x + 1 < rw → tgVis w gx0 gy0 cells (x + 1) y) ∧
    (y + 1 < rh → tgVis w gx0 gy0 cells x (y + 1))

set_option maxHeartbeats 1000000 in
/-- Main lemma for the block DFS: started with enough fuel in an invariant
state, it covers the clipped region, preserves the array length, and leaves
the visited bit of every cell outside the region untouched. -/
theorem tgBlockLoop_main (w h bs gx0 gy0 rw rh : Nat) (σ : Nat → Nat)
    (hrw : rw = min bs (w - gx0)) (hrh : rh = min bs (h - gy0))
    (hbs : 0 < bs) (hgx : gx0 < w) (hgy : gy0 < h) :
    ∀ fuel cells stack t, TgInv w h bs gx0 gy0 rw rh cells stack →
    2 * tgUnvis w gx0 gy0 rw rh cells + stack.length ≤ fuel →
    (∀ x y, x < rw → y < rh →
      tgVis w gx0 gy0 (tgBlockLoop w h bs gx0 gy0 σ fuel cells stack t) x y) ∧
    (tgBlockLoop w h bs gx0 gy0 σ fuel cells stack t).length = w * h ∧
    (∀ j, (∀ x y, x < rw → y < rh → j ≠ (gy0 + y) * w + (gx0 + x)) →
      (tgBlockLoop w h bs gx0 gy0 σ fuel cells stack t).getD j 0 &&& 16 =
        cells.getD j 0 &&& 16) := by
  intro fuel
  induction fuel using Nat.strong_induction_on with
  | _ fuel ih =>
    intro cells stack t hinv hm
    cases fuel with
    | zero =>
      have hu0 : tgUnvis w gx0 gy0 rw rh cells = 0 := by omega
      rw [tgBlockLoop_fz]
      exact ⟨tgUnvis_zero_cover hu0, hinv.hlen, fun j _ => rfl⟩
    | succ fuel =>
      cases hst : stack.getLast? with
      | none =>
        have hse : stack = [] := List.getLast?_eq_none.mp hst
        rw [tgBlockLoop_stop hst]
        refine ⟨?_, hinv.hlen, fun j _ => rfl⟩
        have hright : ∀ a b, 0 ≤ a → a + 1 < 0 + rw → 0 ≤ b → b < 0 + rh →
            tgVis w gx0 gy0 cells a b → tgVis w gx0 gy0 cells (a + 1) b := by
          intro a b _ hab _ hbb hvab
          refine (hinv.hproc a b (by omega) (by omega) hvab ?_).1 (by omega)
          rw [hse]
          exact List.not_mem_nil _
        have hdown : ∀ a b, 0 ≤ a → a < 0 + rw → 0 ≤ b → b + 1 < 0 + rh →
            tgVis w gx0 gy0 cells a b → tgVis w gx0 gy0 cells a (b + 1) := by
          intro a b _ hab _ hbb hvab
          refine (hinv.hproc a b (by omega) (by omega) hvab ?_).2 (by omega)
          rw [hse]
          exact List.not_mem_nil _
        have hcov := window_closure (P := fun a b => tgVis w gx0 gy0 cells a b)
          0 0 rw rh hinv.hvis0 hright hdown
        intro x y hx hy
        exact hcov x y (by omega) (by omega) (by omega) (by omega)
      | some curr =>
        have hsne : stack ≠ [] := by
          intro he
          rw [he] at hst
          exact Option.noConfusion hst
        have hsplit : stack.dropLast ++ [curr] = stack :=
          List.dropLast_append_getLast? curr hst
        have hcurm : curr ∈ stack := by
          rw [← hsplit]
          exact List.mem_append_right _ (List.mem_singleton.mpr rfl)
        obtain ⟨hcxr, hcyr, hcvis⟩ := hinv.hstk curr hcurm
        cases hfind : tgFindNbr w h bs gx0 gy0 cells (curr % bs) (curr / bs)
            (σ t % 4) with
        | none =>
          rw [tgBlockLoop_pop hst hfind]
          have hexp := tgFindNbr_none_expl hfind
          have hproc2 : ∀ x y, x < rw → y < rh → tgVis w gx0 gy0 cells x y →
              (y * bs + x) ∉ stack.dropLast →
              (x + 1 < rw → tgVis w gx0 gy0 cells (x + 1) y) ∧
              (y + 1 < rh → tgVis w gx0 gy0 cells x (y + 1)) := by
            intro x y hx hy hv hnot
            by_cases hin : (y * bs + x) ∈ stack
            · have hxc : y * bs + x = curr := by
                rw [← hsplit] at hin
                rcases List.mem_append.mp hin with h1 | h1
                · exact absurd h1 hnot
                · exact List.mem_singleton.mp h1
              have hxbs : x < bs := by omega
              have hcurx : curr % bs = x := by rw [← hxc, idx_mod y hxbs]
              have hcury : curr / bs = y := by rw [← hxc, idx_div y hxbs]
              rw [hcurx, hcury] at hexp
              constructor
              · intro hxr
                exact hexp.1 (by omega) (by omega) (by omega) (by omega)
              · intro hyr
                exact hexp.2 (by omega) (by omega) (by omega) (by omega)
            · exact hinv.hproc x y hx hy hv hin
          have hstk2 : ∀ c ∈ stack.dropLast, c % bs < rw ∧ c / bs < rh ∧
              tgVis w gx0 gy0 cells (c % bs) (c / bs) := by
            intro c hc
            refine hinv.hstk c ?_
            rw [← hsplit]
            exact List.mem_append_left _ hc
          have hmeas : 2 * tgUnvis w gx0 gy0 rw rh cells + stack.dropLast.length ≤
              fuel := by
            have hlp : 0 < stack.length := List.length_pos.mpr hsne
            rw [List.length_dropLast]
            omega
          exact ih fuel (Nat.lt_succ_self fuel) cells stack.dropLast (t + 1)
            ⟨hinv.hlen, (List.dropLast_sublist stack).nodup hinv.hnd, hstk2,
              hinv.hvis0, hproc2⟩ hmeas
        | some quad =>
          obtain ⟨nlx, nly, cb, ob⟩ := quad
          obtain ⟨hnlxbs, hnlybs, hglx, hgly, hunv, hcb, hob⟩ :=
            tgFindNbr_some_spec hfind
          rw [tgBlockLoop_push hst hfind]
          set c3 := listSetBit (listClearBit (listClearBit cells
              ((gy0 + curr / bs) * w + (gx0 + curr % bs)) cb)
              ((gy0 + nly) * w + (gx0 + nlx)) ob)
              ((gy0 + nly) * w + (gx0 + nlx)) 16 with hc3def
          have hnlxr : nlx < rw := by omega
          have hnlyr : nly < rh := by omega
          have hi2lt : (gy0 + nly) * w + (gx0 + nlx) < w * h := idx_lt hglx hgly
          have hnew : ∀ j, c3.getD j 0 &&& 16 =
              if j = (gy0 + nly) * w + (gx0 + nlx) then 16
              else cells.getD j 0 &&& 16 := by
            intro j
            rw [hc3def, tgUpdate_vis cells _ _ cb ob hcb hob j]
            by_cases hji : j = (gy0 + nly) * w + (gx0 + nlx)
            · rw [if_pos ⟨hji, by rw [hinv.hlen]; exact hi2lt⟩, if_pos hji]
            · rw [if_neg (by intro hc; exact hji hc.1), if_neg hji]
          have hmono : ∀ a b, tgVis w gx0 gy0 cells a b →
              tgVis w gx0 gy0 c3 a b := by
            intro a b hv
            unfold tgVis
            rw [hnew]
            split_ifs with hc
            · norm_num
            · exact hv
          have hvisnew : tgVis w gx0 gy0 c3 nlx nly := by
            unfold tgVis
            rw [hnew, if_pos rfl]
            norm_num
          have hnotin : (nly * bs + nlx) ∉ stack := by
            intro hmem
            obtain ⟨h1, h2, h3⟩ := hinv.hstk _ hmem
            rw [idx_mod nly hnlxbs, idx_div nly hnlxbs] at h3
            exact h3 hunv
          have hlen3 : c3.length = w * h := by
            rw [hc3def, listSetBit_len, listClearBit_len, listClearBit_len]
            exact hinv.hlen
          have hndnew : (stack ++ [nly * bs + nlx]).Nodup := by
            rw [List.nodup_append]
            refine ⟨hinv.hnd, List.nodup_singleton _, ?_⟩
            intro a ha hamem
            rw [List.mem_singleton] at hamem
            exact hnotin (hamem ▸ ha)
          have hstknew : ∀ c ∈ stack ++ [nly * bs + nlx], c % bs < rw ∧
              c / bs < rh ∧ tgVis w gx0 gy0 c3 (c % bs) (c / bs) := by
            intro c hc
            rcases List.mem_append.mp hc with h1 | h1
            · obtain ⟨hb1, hb2, hb3⟩ := hinv.hstk c h1
              exact ⟨hb1, hb2, hmono _ _ hb3⟩
            · rw [List.mem_singleton] at h1
              subst h1
              rw [idx_mod nly hnlxbs, idx_div nly hnlxbs]
              exact ⟨hnlxr, hnlyr, hvisnew⟩
          have hprocnew : ∀ a b, a < rw → b < rh → tgVis w gx0 gy0 c3 a b →
              (b * bs + a) ∉ stack ++ [nly * bs + nlx] →
              (a + 1 < rw → tgVis w gx0 gy0 c3 (a + 1) b) ∧
              (b + 1 < rh → tgVis w gx0 gy0 c3 a (b + 1)) := by
            intro a b har hbr hv3 hnot
            have hnotst : (b * bs + a) ∉ stack := fun hmem =>
              hnot (List.mem_append_left _ hmem)
            have habn : ¬(a = nlx ∧ b = nly) := by
              rintro ⟨rfl, rfl⟩
              exact hnot (List.mem_append_right _ (List.mem_singleton.mpr rfl))
            have hIdxne : (gy0 + b) * w + (gx0 + a) ≠
                (gy0 + nly) * w + (gx0 + nlx) := by
              intro he
              have hxa : gx0 + a < w := by omega
              have hii := (idx_eq_iff hxa hglx).mp he
              exact habn ⟨by omega, by omega⟩
            have hvold : tgVis w gx0 gy0 cells a b := by
              unfold tgVis at hv3 ⊢
              rw [hnew, if_neg hIdxne] at hv3
              exact hv3
            have hold := hinv.hproc a b har hbr hvold hnotst
            exact ⟨fun h1 => hmono _ _ (hold.1 h1), fun h1 => hmono _ _ (hold.2 h1)⟩
          have hflip := tgUnvis_flip w gx0 gy0 rw rh cells nlx nly _ (by omega)
            (by omega) hnlxr hnlyr rfl hunv c3 hnew
          have hmeas : 2 * tgUnvis w gx0 gy0 rw rh c3 +
              (stack ++ [nly * bs + nlx]).length ≤ fuel := by
            rw [List.length_append, List.length_singleton]
            omega
          have hres := ih fuel (Nat.lt_succ_self fuel) c3
            (stack ++ [nly * bs + nlx]) (t + 1)
            ⟨hlen3, hndnew, hstknew, hmono 0 0 hinv.hvis0, hprocnew⟩ hmeas
          refine ⟨hres.1, hres.2.1, ?_⟩
          intro j hout
          rw [hres.2.2 j hout, hnew, if_neg (hout nlx nly hnlxr hnlyr)]


theorem tgBlockLoop_mono {w h bs gx0 gy0 : Nat} (σ : Nat → Nat) :
    ∀ fuel cells stack t j, cells.getD j 0 &&& 16 ≠ 0 →
      (tgBlockLoop w h bs gx0 gy0 σ fuel cells stack t).getD j 0 &&& 16 ≠ 0 := by
  intro fuel
  induction fuel with
  | zero =>
    intro cells stack t j hv
    rw [tgBlockLoop_fz]
    exact hv
  | succ fuel ih =>
    intro cells stack t j hv
    cases hst : stack.getLast? with
    | none =>
      rw [tgBlockLoop_stop hst]
      exact hv
    | some curr =>
      cases hfind : tgFindNbr w h bs gx0 gy0 cells (curr % bs) (curr / bs)
          (σ t % 4) with
      | none =>
        rw [tgBlockLoop_pop hst hfind]
        exact ih cells stack.dropLast (t + 1) j hv
      | some quad =>
        obtain ⟨nlx, nly, cb, ob⟩ := quad
        obtain ⟨_, _, _, _, _, hcb, hob⟩ := tgFindNbr_some_spec hfind
        rw [tgBlockLoop_push hst hfind]
        apply ih
        rw [tgUpdate_vis cells _ _ cb ob hcb hob j]
        split_ifs with hc
        · norm_num
        · exact hv

theorem tgBlock_mono {w h bs : Nat} (σ : Nat → Nat) (cells : List Nat) (bx by2 : Nat)
    (j : Nat) (hv : cells.getD j 0 &&& 16 ≠ 0) :
    (tgBlock w h bs σ cells bx by2).getD j 0 &&& 16 ≠ 0 := by
  simp only [tgBlock]
  split_ifs with hc
  · apply tgBlockLoop_mono
    rw [listSetBit_vis16]
    split_ifs with hc2
    · norm_num
    · exact hv
  · exact hv

/-- One block of the generate kernel: if its own clipped region is entirely
unvisited, the block pass visits exactly that region, preserving length and
all other visited bits. -/
theorem tgBlock_spec (w h bs : Nat) (σ : Nat → Nat) (hbs : 0 < bs)
    (cells : List Nat) (hlen : cells.length = w * h) (bx by2 : Nat)
    (hgx : bx * bs < w) (hgy : by2 * bs < h)
    (hunv : ∀ x y, x < min bs (w - bx * bs) → y < min bs (h - by2 * bs) →
      cells.getD ((by2 * bs + y) * w + (bx * bs + x)) 0 &&& 16 = 0) :
    (tgBlock w h bs σ cells bx by2).length = w * h ∧
    (∀ x y, x < min bs (w - bx * bs) → y < min bs (h - by2 * bs) →
      (tgBlock w h bs σ cells bx by2).getD
        ((by2 * bs + y) * w + (bx * bs + x)) 0 &&& 16 ≠ 0) ∧
    (∀ j, (∀ x y, x < min bs (w - bx * bs) → y < min bs (h - by2 * bs) →
        j ≠ (by2 * bs + y) * w + (bx * bs + x)) →
      (tgBlock w h bs σ cells bx by2).getD j 0 &&& 16 = cells.getD j 0 &&& 16) := by
  have hrw1 : 0 < min bs (w - bx * bs) := by omega
  have hrh1 : 0 < min bs (h - by2 * bs) := by omega
  have horig : (by2 * bs + 0) * w + (bx * bs + 0) = by2 * bs * w + bx * bs := by
    rw [Nat.add_zero, Nat.add_zero]
  have horiglt : by2 * bs * w + bx * bs < w * h := idx_lt hgx hgy
  have hv16 : ∀ j, (listSetBit cells (by2 * bs * w + bx * bs) 16).getD j 0 &&& 16 =
      if j = by2 * bs * w + bx * bs then 16 else cells.getD j 0 &&& 16 := by
    intro j
    rw [listSetBit_vis16]
    by_cases hj : j = by2 * bs * w + bx * bs
    · rw [if_pos ⟨hj, by rw [hlen]; exact horiglt⟩, if_pos hj]
    · rw [if_neg (by intro hc; exact hj hc.1), if_neg hj]
  have hlen0 : (listSetBit cells (by2 * bs * w + bx * bs) 16).length = w * h := by
    rw [listSetBit_len]
    exact hlen
  have hinv : TgInv w h bs (bx * bs) (by2 * bs) (min bs (w - bx * bs))
      (min bs (h - by2 * bs)) (listSetBit cells (by2 * bs * w + bx * bs) 16) [0] := by
    refine ⟨hlen0, List.nodup_singleton 0, ?_, ?_, ?_⟩
    · intro c hc
      rw [List.mem_singleton] at hc
      subst hc
      rw [Nat.zero_mod, Nat.zero_div]
      refine ⟨hrw1, hrh1, ?_⟩
      unfold tgVis
      rw [Nat.add_zero, Nat.add_zero, hv16, if_pos rfl]
      norm_num
    · unfold tgVis
      rw [Nat.add_zero, Nat.add_zero, hv16, if_pos rfl]
      norm_num
    · intro x y hx hy hv hnot
      exfalso
      have hne : y * bs + x ≠ 0 := by
        intro he
        exact hnot (he ▸ List.mem_singleton.mpr rfl)
      unfold tgVis at hv
      rw [hv16] at hv
      by_cases hc : (by2 * bs + y) * w + (bx * bs + x) = by2 * bs * w + bx * bs
      · rw [← horig] at hc
        have hxw : bx * bs + x < w := by omega
        have hx0 : bx * bs + 0 < w := by omega
        have hii := (idx_eq_iff hxw hx0).mp hc
        have hxz : x = 0 := by omega
        have hyz : y = 0 := by omega
        rw [hxz, hyz] at hne
        exact hne (by simp)
      · rw [if_neg hc] at hv
        exact hv (hunv x y hx hy)
  have hmeas : 2 * tgUnvis w (bx * bs) (by2 * bs) (min bs (w - bx * bs))
      (min bs (h - by2 * bs)) (listSetBit cells (by2 * bs * w + bx * bs) 16) +
      ([0] : List Nat).length ≤ 2 * bs * bs + 1 := by
    have hle := tgUnvis_le w (bx * bs) (by2 * bs) (min bs (w - bx * bs))
      (min bs (h - by2 * bs)) (listSetBit cells (by2 * bs * w + bx * bs) 16)
    have hmm : min bs (w - bx * bs) * min bs (h - by2 * bs) ≤ bs * bs :=
      Nat.mul_le_mul (Nat.min_le_left _ _) (Nat.min_le_left _ _)
    have hbb : 2 * bs * bs = 2 * (bs * bs) := by ring
    rw [List.length_singleton]
    omega
  have hmain := tgBlockLoop_main w h bs (bx * bs) (by2 * bs)
    (min bs (w - bx * bs)) (min bs (h - by2 * bs)) σ rfl rfl hbs hgx hgy
    (2 * bs * bs + 1) (listSetBit cells (by2 * bs * w + bx * bs) 16) [0] 0 hinv hmeas
  have hblk : tgBlock w h bs σ cells bx by2 =
      tgBlockLoop w h bs (bx * bs) (by2 * bs) σ (2 * bs * bs + 1)
        (listSetBit cells (by2 * bs * w + bx * bs) 16) [0] 0 := by
    simp only [tgBlock]
    rw [if_pos (show bx * bs < w ∧ by2 * bs < h from ⟨hgx, hgy⟩)]
  rw [hblk]
  refine ⟨hmain.2.1, ?_, ?_⟩
  · intro x y hx hy
    have hcv := hmain.1 x y hx hy
    unfold tgVis at hcv
    exact hcv
  · intro j hout
    have hjno : j ≠ by2 * bs * w + bx * bs := by
      intro he
      exact hout 0 0 hrw1 hrh1 (by rw [horig]; exact he)
    rw [hmain.2.2 j hout, hv16, if_neg hjno]

/-- The row-major block list of the generate kernel. -/
def tgPairs (X Y : Nat) : List (Nat × Nat) :=
  (List.range Y).flatMap (fun b => (List.range X).map (fun a => (a, b)))

theorem mem_tgPairs {X Y : Nat} {p : Nat × Nat} :
    p ∈ tgPairs X Y ↔ p.1 < X ∧ p.2 < Y := by
  unfold tgPairs
  rw [List.mem_flatMap]
  constructor
  · rintro ⟨b, hb, hp⟩
    rw [List.mem_range] at hb
    obtain ⟨a, ha, hap⟩ := List.mem_map.mp hp
    rw [List.mem_range] at ha
    rw [← hap]
    exact ⟨ha, hb⟩
  · intro hpp
    refine ⟨p.2, List.mem_range.mpr hpp.2,
      List.mem_map.mpr ⟨p.1, List.mem_range.mpr hpp.1, rfl⟩⟩

theorem nodup_tgPairs (X Y : Nat) : (tgPairs X Y).Nodup := by
  unfold tgPairs
  induction Y with
  | zero => simp
  | succ n ih =>
    rw [List.range_succ, List.flatMap_append, List.nodup_append]
    refine ⟨ih, ?_, ?_⟩
    · simp only [List.flatMap_cons, List.flatMap_nil, List.append_nil]
      exact (List.nodup_range X).map (fun a1 a2 he => congrArg Prod.fst he)
    · intro p hp hp2
      simp only [List.flatMap_cons, List.flatMap_nil, List.append_nil] at hp2
      obtain ⟨a, ha, hap⟩ := List.mem_map.mp hp2
      obtain ⟨b, hb, hpb⟩ := List.mem_flatMap.mp hp
      rw [List.mem_range] at hb
      obtain ⟨a2, ha2, hap2⟩ := List.mem_map.mp hpb
      rw [← hap] at hap2
      have hsnd := congrArg Prod.snd hap2
      simp only at hsnd
      omega

/-- Folding disjoint blocks whose regions start unvisited covers every
region, monotonically in the visited bit. -/
theorem tgFold_aux (w h bs : Nat) (hbs : 0 < bs) (σ2 : Nat × Nat → Nat → Nat) :
    ∀ (L : List (Nat × Nat)) (cells : List Nat), cells.length = w * h →
    L.Nodup →
    (∀ p ∈ L, p.1 * bs < w ∧ p.2 * bs < h ∧
      (∀ x y, x < min bs (w - p.1 * bs) → y < min bs (h - p.2 * bs) →
        cells.getD ((p.2 * bs + y) * w + (p.1 * bs + x)) 0 &&& 16 = 0)) →
    (L.foldl (fun cs p => tgBlock w h bs (σ2 p) cs p.1 p.2) cells).length = w * h ∧
    (∀ j, cells.getD j 0 &&& 16 ≠ 0 →
      (L.foldl (fun cs p => tgBlock w h bs (σ2 p) cs p.1 p.2) cells).getD j 0 &&&
        16 ≠ 0) ∧
    (∀ p ∈ L, ∀ x y, x < min bs (w - p.1 * bs) → y < min bs (h - p.2 * bs) →
      (L.foldl (fun cs p => tgBlock w h bs (σ2 p) cs p.1 p.2) cells).getD
        ((p.2 * bs + y) * w + (p.1 * bs + x)) 0 &&& 16 ≠ 0) := by
  intro L
  induction L with
  | nil =>
    intro cells hlen _ _
    exact ⟨hlen, fun j hv => hv, fun p hp => absurd hp (List.not_mem_nil p)⟩
  | cons q L ih =>
    intro cells hlen hnd hpre
    obtain ⟨hq1, hq2, hqunv⟩ := hpre q (List.mem_cons_self q L)
    have hnd2 : L.Nodup := (List.nodup_cons.mp hnd).2
    have hqn : q ∉ L := (List.nodup_cons.mp hnd).1
    have hspec := tgBlock_spec w h bs (σ2 q) hbs cells hlen q.1 q.2 hq1 hq2 hqunv
    rw [List.foldl_cons]
    have hpre2 : ∀ p ∈ L, p.1 * bs < w ∧ p.2 * bs < h ∧
        (∀ x y, x < min bs (w - p.1 * bs) → y < min bs (h - p.2 * bs) →
          (tgBlock w h bs (σ2 q) cells q.1 q.2).getD
            ((p.2 * bs + y) * w + (p.1 * bs + x)) 0 &&& 16 = 0) := by
      intro p hp
      obtain ⟨hp1, hp2, hpunv⟩ := hpre p (List.mem_cons_of_mem q hp)
      refine ⟨hp1, hp2, ?_⟩
      intro x y hx hy
      have hpq : p ≠ q := fun he => hqn (he ▸ hp)
      have hout : ∀ x2 y2, x2 < min bs (w - q.1 * bs) → y2 < min bs (h - q.2 * bs) →
          (p.2 * bs + y) * w + (p.1 * bs + x) ≠
            (q.2 * bs + y2) * w + (q.1 * bs + x2) := by
        intro x2 y2 hx2 hy2 he
        have hc1 : p.1 * bs + x < w := by omega
        have hc2 : q.1 * bs + x2 < w := by omega
        have hii := (idx_eq_iff hc1 hc2).mp he
        have hxb : x < bs := by omega
        have hx2b : x2 < bs := by omega
        have hyb : y < bs := by omega
        have hy2b : y2 < bs := by omega
        have hcols : (p.1 * bs + x) / bs = (q.1 * bs + x2) / bs := by rw [hii.1]
        rw [idx_div p.1 hxb, idx_div q.1 hx2b] at hcols
        have hrows : (p.2 * bs + y) / bs = (q.2 * bs + y2) / bs := by rw [hii.2]
        rw [idx_div p.2 hyb, idx_div q.2 hy2b] at hrows
        exact hpq (Prod.ext hcols hrows)
      rw [hspec.2.2 _ hout]
      exact hpunv x y hx hy
    have hres := ih (tgBlock w h bs (σ2 q) cells q.1 q.2) hspec.1 hnd2 hpre2
    refine ⟨hres.1, ?_, ?_⟩
    · intro j hv
      exact hres.2.1 j (tgBlock_mono (σ2 q) cells q.1 q.2 j hv)
    · intro p hp x y hx hy
      rcases List.mem_cons.mp hp with rfl | hpL
      · exact hres.2.1 _ (hspec.2.1 x y hx hy)
      · exact hres.2.2 p hpL x y hx hy

/-- The generate kernel visits every cell of the grid. -/
theorem tgGenerate_covers (w h bs : Nat) (hbs : 0 < bs) (hw : 0 < w) (hh : 0 < h)
    (σ : Nat → Nat → Nat) :
    (tgGenerate w h bs σ (List.replicate (w * h) 15)).length = w * h ∧
    (∀ a b, a < w → b < h →
      (tgGenerate w h bs σ (List.replicate (w * h) 15)).getD (b * w + a) 0 &&&
        16 ≠ 0) := by
  have hgen : tgGenerate w h bs σ (List.replicate (w * h) 15) =
      (tgPairs (tgBlocksX w bs) (tgBlocksY h bs)).foldl
        (fun cs p => tgBlock w h bs (σ (p.2 * tgBlocksX w bs + p.1)) cs p.1 p.2)
        (List.replicate (w * h) 15) := rfl
  have hXw : tgBlocksX w bs * bs ≤ w + bs - 1 := Nat.div_mul_le_self _ _
  have hYh : tgBlocksY h bs * bs ≤ h + bs - 1 := Nat.div_mul_le_self _ _
  have hbound : ∀ p : Nat × Nat, p.1 < tgBlocksX w bs → p.2 < tgBlocksY h bs →
      p.1 * bs < w ∧ p.2 * bs < h := by
    intro p hp1 hp2
    have he1 : (p.1 + 1) * bs = p.1 * bs + bs := by ring
    have he2 : (p.2 + 1) * bs = p.2 * bs + bs := by ring
    have hm1 : (p.1 + 1) * bs ≤ tgBlocksX w bs * bs :=
      Nat.mul_le_mul_right bs (by omega)
    have hm2 : (p.2 + 1) * bs ≤ tgBlocksY h bs * bs :=
      Nat.mul_le_mul_right bs (by omega)
    omega
  have hrepl : ∀ j, (List.replicate (w * h) 15).getD j 0 &&& 16 = 0 := by
    intro j
    rcases Nat.lt_or_ge j (w * h) with hj | hj
    · rw [List.getD_eq_getElem?_getD, List.getElem?_replicate, if_pos hj]
      decide
    · rw [List.getD_eq_default _ _ (by rw [List.length_replicate]; omega)]
      decide
  have hlenr : (List.replicate (w * h) 15).length = w * h := List.length_replicate _ _
  have hfold := tgFold_aux w h bs hbs
    (fun p => σ (p.2 * tgBlocksX w bs + p.1))
    (tgPairs (tgBlocksX w bs) (tgBlocksY h bs)) (List.replicate (w * h) 15)
    hlenr (nodup_tgPairs _ _) ?_
  · rw [hgen]
    refine ⟨hfold.1, ?_⟩
    intro a b ha hb
    have hmem : ((a / bs, b / bs) : Nat × Nat) ∈
        tgPairs (tgBlocksX w bs) (tgBlocksY h bs) := by
      rw [mem_tgPairs]
      constructor
      · show a / bs < tgBlocksX w bs
        rw [show tgBlocksX w bs = (w + bs - 1) / bs from rfl]
        rw [Nat.lt_iff_add_one_le, Nat.le_div_iff_mul_le hbs]
        have hd1 : a / bs * bs ≤ a := Nat.div_mul_le_self a bs
        have hd2 : (a / bs + 1) * bs = a / bs * bs + bs := by ring
        omega
      · show b / bs < tgBlocksY h bs
        rw [show tgBlocksY h bs = (h + bs - 1) / bs from rfl]
        rw [Nat.lt_iff_add_one_le, Nat.le_div_iff_mul_le hbs]
        have hd1 : b / bs * bs ≤ b := Nat.div_mul_le_self b bs
        have hd2 : (b / bs + 1) * bs = b / bs * bs + bs := by ring
        omega
    have hdma : a / bs * bs + a % bs = a := by
      rw [Nat.mul_comm]
      exact Nat.div_add_mod a bs
    have hdmb : b / bs * bs + b % bs = b := by
      rw [Nat.mul_comm]
      exact Nat.div_add_mod b bs
    have hcv := hfold.2.2 (a / bs, b / bs) hmem (a % bs) (b % bs) ?_ ?_
    · have hidx : (b / bs * bs + b % bs) * w + (a / bs * bs + a % bs) = b * w + a := by
        rw [hdma, hdmb]
      rw [hidx] at hcv
      rw [← hgen] at hcv
      exact hcv
    · have hmlt : a % bs < bs := Nat.mod_lt a hbs
      simp only
      omega
    · have hmlt : b % bs < bs := Nat.mod_lt b hbs
      simp only
      omega
  · intro p hp
    rw [mem_tgPairs] at hp
    obtain ⟨hb1, hb2⟩ := hbound p hp.1 hp.2
    exact ⟨hb1, hb2, fun x y _ _ => hrepl _⟩

theorem tgStitchH_vis (w h bs : Nat) (mbits : Nat → Nat → Nat)
    (τ : Nat → Nat → Nat → Bool) (cells : List Nat) (j : Nat) :
    (tgStitchH w h bs mbits τ cells).getD j 0 &&& 16 = cells.getD j 0 &&& 16 := by
  unfold tgStitchH
  refine foldl_preserves_vis _ _ ?_ cells j
  intro cs bx j2
  refine foldl_preserves_vis _ _ ?_ cs j2
  intro cs2 by2 j3
  dsimp only
  split_ifs with h1 h2
  · refine foldl_preserves_vis _ _ ?_ cs2 j3
    intro cs3 k j4
    dsimp only
    split_ifs with h3 h4
    · rw [listClearBit_vis _ _ _ _ (by norm_num), listClearBit_vis _ _ _ _ (by norm_num)]
    · rfl
    · rfl
  · rfl
  · rfl

theorem tgStitchV_vis (w h bs : Nat) (mbits : Nat → Nat → Nat)
    (τ : Nat → Nat → Nat → Bool) (cells : List Nat) (j : Nat) :
    (tgStitchV w h bs mbits τ cells).getD j 0 &&& 16 = cells.getD j 0 &&& 16 := by
  unfold tgStitchV
  refine foldl_preserves_vis _ _ ?_ cells j
  intro cs bx j2
  refine foldl_preserves_vis _ _ ?_ cs j2
  intro cs2 by2 j3
  dsimp only
  split_ifs with h1 h2
  · refine foldl_preserves_vis _ _ ?_ cs2 j3
    intro cs3 k j4
    dsimp only
    split_ifs with h3 h4
    · rw [listClearBit_vis _ _ _ _ (by norm_num), listClearBit_vis _ _ _ _ (by norm_num)]
    · rfl
    · rfl
  · rfl
  · rfl

/-- The block-parallel generator marks every cell of the grid visited: the
generate kernel covers each clipped block region and the stitch kernels only
clear wall bits. -/
theorem tgRunAll_covers (seed w h bs : Nat) (hbs : 0 < bs) (hw : 0 < w) (hh : 0 < h)
    (σ : Nat → Nat → Nat) (mbits : Nat → Nat → Nat) (τH τV : Nat → Nat → Nat → Bool) :
    countVisited (tgRunAll seed w h bs σ mbits τH τV) = w * h := by
  unfold countVisited
  have hwd : (tgRunAll seed w h bs σ mbits τH τV).width = w := rfl
  have hht : (tgRunAll seed w h bs σ mbits τH τV).height = h := rfl
  rw [hwd, hht]
  apply countIdx_all
  intro j hj
  have ha : j % w < w := Nat.mod_lt j hw
  have hb : j / w < h := Nat.div_lt_of_lt_mul hj
  have hcv := (tgGenerate_covers w h bs hbs hw hh σ).2 (j % w) (j / w) ha hb
  have hje : j / w * w + j % w = j := by
    rw [Nat.mul_comm]
    exact Nat.div_add_mod j w
  rw [hje] at hcv
  have hbit : (tgRunAll seed w h bs σ mbits τH τV).cell j &&& 16 ≠ 0 := by
    show (tgStitchV w h bs mbits τV (tgStitchH w h bs mbits τH
      (tgGenerate w h bs σ (List.replicate (w * h) 15)))).getD j 0 &&& 16 ≠ 0
    rw [tgStitchV_vis, tgStitchH_vis]
    exact hcv
  show ((tgRunAll seed w h bs σ mbits τH τV).cell j &&& VISITED != 0) = true
  simp only [VISITED, bne_iff_ne]
  exact hbit

/-- C2: Every generator run to completion on a `w`-by-`h` grid (`w, h ≥ 1`)
marks exactly `w*h` cells visited. The backtracking and frontier (Prim)
generators additionally leave exactly `w*h - 1` open wall pairs and connect
every cell to the start through open walls, i.e. they carve a spanning tree
with zero cycles. The statements hold for every draw stream; for Prim also
for every iteration order of the initial frontier set, and for the
block-parallel carver for every ambient kernel draw stream, block-graph bit
assignment and stitch draw predicate. -/
theorem c2_generators (σ τ : Nat → Nat) (w h : Nat) (hwp : 0 < w) (hhp : 0 < h)
    (init : List (Nat × Nat))
    (hperm : init.Perm (prInit0 ((mkGrid w h).setVisited 0 0)))
    (seed bs : Nat) (hbs : 0 < bs) (σg : Nat → Nat → Nat)
    (mbits : Nat → Nat → Nat) (τH τV : Nat → Nat → Nat → Bool) :
    ((bkRun σ w h).width = w ∧ (bkRun σ w h).height = h ∧
      countVisited (bkRun σ w h) = w * h ∧
      openPairCount (bkRun σ w h) = w * h - 1 ∧
      (∀ x y, x < w → y < h → ReachOpen (bkRun σ w h) (0, 0) (x, y))) ∧
    ((prRun τ w h init).width = w ∧ (prRun τ w h init).height = h ∧
      countVisited (prRun τ w h init) = w * h ∧
      openPairCount (prRun τ w h init) = w * h - 1 ∧
      (∀ x y, x < w → y < h → ReachOpen (prRun τ w h init) (0, 0) (x, y))) ∧
    countVisited (tgRunAll seed w h bs σg mbits τH τV) = w * h :=
  ⟨bkRun_spec σ w h hwp hhp, prRun_spec τ w h hwp hhp init hperm,
    tgRunAll_covers seed w h bs hbs hwp hhp σg mbits τH τV⟩

/-- Witness for C2 on a concrete 2-by-2 grid with constant draw streams. -/
theorem c2_generators_witness :
    ((0 : Nat) < 2 ∧ (0 : Nat) < 1 ∧
      (prInit0 ((mkGrid 2 2).setVisited 0 0)).Perm
        (prInit0 ((mkGrid 2 2).setVisited 0 0))) ∧
    countVisited (bkRun (fun _ => 0) 2 2) = 2 * 2 ∧
    openPairCount (bkRun (fun _ => 0) 2 2) = 2 * 2 - 1 ∧
    countVisited (prRun (fun _ => 0) 2 2 (prInit0 ((mkGrid 2 2).setVisited 0 0))) =
      2 * 2 ∧
    openPairCount (prRun (fun _ => 0) 2 2 (prInit0 ((mkGrid 2 2).setVisited 0 0))) =
      2 * 2 - 1 ∧
    countVisited (tgRunAll 0 2 2 1 (fun _ _ => 0) (fun _ _ => 0)
      (fun _ _ _ => false) (fun _ _ _ => false)) = 2 * 2 := by
  have hmain := c2_generators (fun _ => 0) (fun _ => 0) 2 2 (by decide) (by decide)
    (prInit0 ((mkGrid 2 2).setVisited 0 0)) (List.Perm.refl _) 0 1 (by decide)
    (fun _ _ => 0) (fun _ _ => 0) (fun _ _ _ => false) (fun _ _ _ => false)
  exact ⟨⟨by decide, by decide, List.Perm.refl _⟩, hmain.1.2.2.1, hmain.1.2.2.2.1,
    hmain.2.1.2.2.1, hmain.2.1.2.2.2.1, hmain.2.2⟩


/-! ### C3: solver shortest-path equivalence -/

def stepAdj (g : Grid) (a b : Nat × Nat) : Prop :=
  ∃ d, (b.1, b.2, d) ∈ g.getNeighbors a.1 a.2 ∧ g.hasWall a.1 a.2 d = false

/-- Chains of exactly `n` solver steps. -/
def stepChain (g : Grid) : Nat → Nat × Nat → Nat × Nat → Prop
  | 0, a, b => a = b
  | n + 1, a, b => ∃ c, stepAdj g a c ∧ stepChain g n c b

/-- `m` is the exact solver-step distance from `a` to `b`. -/
def minD (g : Grid) (a b : Nat × Nat) (m : Nat) : Prop :=
  stepChain g m a b ∧ ∀ n, stepChain g n a b → m ≤ n

theorem stepChain_trans {g : Grid} : ∀ {m : Nat} {n : Nat} {a b c : Nat × Nat},
    stepChain g m a b → stepChain g n b c → stepChain g (m + n) a c := by
  intro m
  induction m with
  | zero =>
    intro n a b c h1 h2
    have he : a = b := h1
    subst he
    rw [show 0 + n = n from by omega]
    exact h2
  | succ m ih =>
    intro n a b c h1 h2
    obtain ⟨c1, ha, hc⟩ := h1
    rw [show m + 1 + n = (m + n) + 1 from by omega]
    exact ⟨c1, ha, ih hc h2⟩

theorem stepChain_snoc {g : Grid} {n : Nat} {a b c : Nat × Nat}
    (h1 : stepChain g n a b) (h2 : stepAdj g b c) : stepChain g (n + 1) a c :=
  stepChain_trans h1 ⟨c, h2, show c = c from rfl⟩

theorem stepAdj_bounds {g : Grid} {a b : Nat × Nat} (ha1 : a.1 < g.width)
    (ha2 : a.2 < g.height) (h : stepAdj g a b) : b.1 < g.width ∧ b.2 < g.height := by
  obtain ⟨d, hmem, _⟩ := h
  exact mem_getNeighbors_bounds ha1 ha2 hmem

theorem stepChain_bounds {g : Grid} : ∀ {n : Nat} {a b : Nat × Nat},
    a.1 < g.width → a.2 < g.height → stepChain g n a b →
    b.1 < g.width ∧ b.2 < g.height := by
  intro n
  induction n with
  | zero =>
    intro a b ha1 ha2 h
    have he : a = b := h
    subst he
    exact ⟨ha1, ha2⟩
  | succ n ih =>
    intro a b ha1 ha2 h
    obtain ⟨c, h1, h2⟩ := h
    obtain ⟨hc1, hc2⟩ := stepAdj_bounds ha1 ha2 h1
    exact ih hc1 hc2 h2

theorem minD_exists {g : Grid} {a b : Nat × Nat} :
    ∀ n, stepChain g n a b → ∃ m, minD g a b m := by
  intro n
  induction n using Nat.strong_induction_on with
  | _ n ih =>
    intro hc
    by_cases hshort : ∃ k, k < n ∧ stepChain g k a b
    · obtain ⟨k, hk, hck⟩ := hshort
      exact ih k hk hck
    · refine ⟨n, hc, ?_⟩
      intro m hm
      by_contra hlt
      exact hshort ⟨m, by omega, hm⟩

theorem minD_unique {g : Grid} {a b : Nat × Nat} {m1 m2 : Nat}
    (h1 : minD g a b m1) (h2 : minD g a b m2) : m1 = m2 :=
  Nat.le_antisymm (h1.2 m2 h2.1) (h2.2 m1 h1.1)

theorem minD_self (g : Grid) (a : Nat × Nat) : minD g a a 0 :=
  ⟨show a = a from rfl, fun n _ => Nat.zero_le n⟩

theorem minD_zero {g : Grid} {a b : Nat × Nat} (h : minD g a b 0) : a = b := h.1

theorem stepChain_split {g : Grid} : ∀ (k : Nat) {n : Nat} {a b : Nat × Nat},
    k ≤ n → stepChain g n a b → ∃ c, stepChain g k a c ∧ stepChain g (n - k) c b := by
  intro k
  induction k with
  | zero =>
    intro n a b _ hc
    exact ⟨a, show a = a from rfl, by rw [Nat.sub_zero]; exact hc⟩
  | succ k ih =>
    intro n a b hk hc
    cases n with
    | zero => exact absurd hk (by omega)
    | succ m =>
      obtain ⟨c1, h1, hrest⟩ := hc
      obtain ⟨c, hc1, hc2⟩ := ih (by omega) hrest
      refine ⟨c, ⟨c1, h1, hc1⟩, ?_⟩
      rw [show m + 1 - (k + 1) = m - k from by omega]
      exact hc2

/-- Minimal chains visit each node at the step count equal to its own
distance: a node split off a minimal chain at position `k` has distance
exactly `k`. -/
theorem minD_prefix {g : Grid} {a b c : Nat × Nat} {m k : Nat}
    (hm : minD g a b m) (hk : k ≤ m)
    (h1 : stepChain g k a c) (h2 : stepChain g (m - k) c b) : minD g a c k := by
  refine ⟨h1, ?_⟩
  intro n hn
  by_contra hlt
  have := hm.2 (n + (m - k)) (stepChain_trans hn h2)
  omega

/-- Every chain between in-bounds cells can be shortened below the cell
count (pigeonhole on the visited cells). -/
theorem stepChain_short {g : Grid} {a b : Nat × Nat}
    (ha1 : a.1 < g.width) (ha2 : a.2 < g.height) :
    ∀ n, stepChain g n a b →
      ∃ m, m ≤ g.width * g.height - 1 ∧ stepChain g m a b := by
  intro n
  induction n using Nat.strong_induction_on with
  | _ n ih =>
    intro hc
    by_cases hn : n ≤ g.width * g.height - 1
    · exact ⟨n, hn, hc⟩
    · have hwh : 0 < g.width * g.height := Nat.mul_pos (by omega) (by omega)
      have hsplit : ∀ k, k ≤ n → ∃ c, stepChain g k a c ∧ stepChain g (n - k) c b :=
        fun k hk => stepChain_split k hk hc
      classical
      let f : Nat → Nat × Nat := fun k => if hk : k ≤ n then (hsplit k hk).choose else a
      have hf1 : ∀ k, k ≤ n → stepChain g k a (f k) ∧ stepChain g (n - k) (f k) b := by
        intro k hk
        simp only [f, dif_pos hk]
        exact (hsplit k hk).choose_spec
      have hmaps : ∀ k ∈ Finset.range (g.width * g.height + 1),
          f k ∈ (Finset.range g.width) ×ˢ (Finset.range g.height) := by
        intro k hk
        rw [Finset.mem_range] at hk
        have hkn : k ≤ n := by omega
        have hb := stepChain_bounds ha1 ha2 (hf1 k hkn).1
        rw [Finset.mem_product, Finset.mem_range, Finset.mem_range]
        exact hb
      have hcard : ((Finset.range g.width) ×ˢ (Finset.range g.height)).card <
          (Finset.range (g.width * g.height + 1)).card := by
        rw [Finset.card_product, Finset.card_range, Finset.card_range,
          Finset.card_range]
        omega
      obtain ⟨i, hi, j, hj, hij, hfe⟩ :=
        Finset.exists_ne_map_eq_of_card_lt_of_maps_to hcard hmaps
      rw [Finset.mem_range] at hi hj
      rcases Nat.lt_or_ge i j with hlt | hge
      · have hin : i ≤ n := by omega
        have hjn : j ≤ n := by omega
        have hchain := stepChain_trans (hf1 i hin).1 (hfe ▸ (hf1 j hjn).2)
        exact ih (i + (n - j)) (by omega) hchain
      · have hlt2 : j < i := by omega
        have hin : i ≤ n := by omega
        have hjn : j ≤ n := by omega
        have hchain := stepChain_trans (hf1 j hjn).1 (hfe ▸ (hf1 i hin).2)
        exact ih (j + (n - i)) (by omega) hchain

theorem minD_le_cells {g : Grid} {a b : Nat × Nat} {m : Nat}
    (ha1 : a.1 < g.width) (ha2 : a.2 < g.height) (hm : minD g a b m) :
    m ≤ g.width * g.height - 1 := by
  obtain ⟨k, hk, hck⟩ := stepChain_short ha1 ha2 m hm.1
  exact le_trans (hm.2 k hck) hk

/-- Heuristic consistency telescopes along chains. -/
theorem heur_telescope {g : Grid} {endp : Nat × Nat}
    {heur : Nat × Nat → Nat × Nat → Nat}
    (hcons : ∀ a b, stepAdj g a b → heur a endp ≤ heur b endp + 1) :
    ∀ n a b, stepChain g n a b → heur a endp ≤ n + heur b endp := by
  intro n
  induction n with
  | zero =>
    intro a b hc
    have he : a = b := hc
    subst he
    omega
  | succ n ih =>
    intro a b hc
    obtain ⟨c, h1, h2⟩ := hc
    have hx := hcons a c h1
    have hy := ih c b h2
    omega

/-- The Manhattan heuristic is consistent on unit-cost lattice steps. -/
theorem manhattan_consistent {g : Grid} {endp a b : Nat × Nat}
    (h : stepAdj g a b) : manhattan a endp ≤ manhattan b endp + 1 := by
  obtain ⟨d, hmem, _⟩ := h
  rcases mem_getNeighbors_iff.mp hmem with ⟨hc, he⟩ | ⟨hc, he⟩ | ⟨hc, he⟩ | ⟨hc, he⟩ <;>
    simp only [Prod.mk.injEq] at he <;> obtain ⟨h1, h2, h3⟩ := he <;>
    unfold manhattan <;> omega

theorem zero_heur_consistent {g : Grid} {endp a b : Nat × Nat}
    (h : stepAdj g a b) : (fun _ _ => (0 : Nat)) a endp ≤
      (fun _ _ => (0 : Nat)) b endp + 1 := by
  simp

theorem dir_of_mem_getNeighbors {g : Grid} {x y nx ny d : Nat}
    (h : (nx, ny, d) ∈ g.getNeighbors x y) : d = 1 ∨ d = 2 ∨ d = 4 ∨ d = 8 := by
  rcases mem_getNeighbors_iff.mp h with ⟨hc, he⟩ | ⟨hc, he⟩ | ⟨hc, he⟩ | ⟨hc, he⟩ <;>
    simp only [Prod.mk.injEq] at he <;> obtain ⟨h1, h2, h3⟩ := he <;>
    simp [h3, NORTH, SOUTH, EAST, WEST]

/-- Following the stored inverse direction from a discovered neighbor lands
back on the cell it was discovered from. -/
theorem parent_step {g : Grid} {x y nx ny d : Nat}
    (h : (nx, ny, d) ∈ g.getNeighbors x y) :
    OPPOSITE d ≠ 0 ∧ ((nx : Int) + DX (OPPOSITE d) = x) ∧
      ((ny : Int) + DY (OPPOSITE d) = y) := by
  rcases mem_getNeighbors_iff.mp h with ⟨hc, he⟩ | ⟨hc, he⟩ | ⟨hc, he⟩ | ⟨hc, he⟩ <;>
    simp only [Prod.mk.injEq] at he <;> obtain ⟨h1, h2, h3⟩ := he <;> subst h3 <;>
    refine ⟨by simp [OPPOSITE, NORTH, SOUTH, EAST, WEST], ?_, ?_⟩ <;>
    simp [OPPOSITE, DX, DY, NORTH, SOUTH, EAST, WEST] <;> omega

theorem and15_and (c d : Nat) (hd : 15 &&& d = d) : c &&& 15 &&& d = c &&& d := by
  rw [Nat.and_assoc, hd]

theorem hasWall_eq_of_walls {g2 g : Grid} (hw : g2.width = g.width)
    (hwall : ∀ j, g2.cell j &&& 15 = g.cell j &&& 15) (x y d : Nat)
    (hd : d = 1 ∨ d = 2 ∨ d = 4 ∨ d = 8) :
    g2.hasWall x y d = g.hasWall x y d := by
  unfold Grid.hasWall Grid.idx
  rw [hw]
  have hd15 : 15 &&& d = d := by rcases hd with rfl | rfl | rfl | rfl <;> decide
  rw [← and15_and (g2.cell (y * g.width + x)) d hd15, hwall,
    and15_and _ d hd15]

/-- Same dimensions and wall bits give the same solver step relation. -/
theorem stepAdj_iff_walls {g2 g : Grid} (hw : g2.width = g.width)
    (hh : g2.height = g.height)
    (hwall : ∀ j, g2.cell j &&& 15 = g.cell j &&& 15) (a b : Nat × Nat) :
    stepAdj g2 a b ↔ stepAdj g a b := by
  unfold stepAdj
  constructor <;> rintro ⟨d, hmem, hwl⟩
  · rw [getNeighbors_congr hw hh] at hmem
    have hd := dir_of_mem_getNeighbors hmem
    rw [hasWall_eq_of_walls hw hwall _ _ _ hd] at hwl
    exact ⟨d, hmem, hwl⟩
  · rw [← getNeighbors_congr hw hh] at hmem
    have hd := dir_of_mem_getNeighbors (by rw [getNeighbors_congr hw hh] at hmem; exact hmem)
    rw [← hasWall_eq_of_walls hw hwall _ _ _ hd] at hwl
    exact ⟨d, hmem, hwl⟩

theorem or_and15 {b : Nat} (hb : b &&& 15 = 0) (v : Nat) :
    (v ||| b) &&& 15 = v &&& 15 := by
  apply Nat.eq_of_testBit_eq
  intro i
  have hbt := congrArg (fun n => n.testBit i) hb
  simp only [Nat.testBit_and, Nat.zero_testBit] at hbt
  rw [Nat.testBit_and, Nat.testBit_or, Nat.testBit_and]
  cases hv : v.testBit i <;> cases hbi : b.testBit i <;>
    cases h15 : (15 : Nat).testBit i <;> simp_all

/-- Setting a non-wall scratch bit preserves dimensions, length and the
wall bits of every cell. -/
theorem setBitAt_effect (g : Grid) (i b : Nat) (hb : b &&& 15 = 0) :
    (setBitAt g i b).width = g.width ∧ (setBitAt g i b).height = g.height ∧
    (setBitAt g i b).cells.length = g.cells.length ∧
    (∀ j, (setBitAt g i b).cell j &&& 15 = g.cell j &&& 15) := by
  refine ⟨rfl, rfl, by simp [setBitAt], ?_⟩
  intro j
  show (g.cells.set i (g.cell i ||| b)).getD j 0 &&& 15 = g.cells.getD j 0 &&& 15
  by_cases hj : j = i
  · subst hj
    by_cases hlt : j < g.cells.length
    · rw [getD_set_eq hlt]
      exact or_and15 hb _
    · rw [List.set_eq_of_length_le (by omega)]
  · rw [getD_set_ne (fun he => hj he.symm)]

/-- The cell values of `setBitAt` pointwise. -/
theorem setBitAt_cell (g : Grid) (i b : Nat) (hi : i < g.cells.length) (j : Nat) :
    (setBitAt g i b).cell j = if j = i then g.cell i ||| b else g.cell j := by
  unfold setBitAt
  exact cell_set hi (g.cell i ||| b) j


/-! ### BFS optimality -/

/-- The solver-visited bit of a cell. -/
def solVis (w : Nat) (g : Grid) (v : Nat × Nat) : Prop :=
  g.cell (v.2 * w + v.1) &&& 64 ≠ 0

/-- The number of solver-visited cells. -/
def solVisCount (w h : Nat) (g : Grid) : Nat :=
  countIdx (w * h) (fun j => g.cell j &&& 64 != 0)

theorem countIdx_full {n : Nat} {p : Nat → Bool} (h : countIdx n p = n) :
    ∀ j, j < n → p j = true := by
  intro j hj
  by_contra hc
  have hssub : (Finset.range n).filter (fun i => p i = true) ⊆ Finset.range n :=
    Finset.filter_subset _ _
  have heq : (Finset.range n).filter (fun i => p i = true) = Finset.range n := by
    apply Finset.eq_of_subset_of_card_le hssub
    rw [Finset.card_range]
    unfold countIdx at h
    omega
  have hmem : j ∈ (Finset.range n).filter (fun i => p i = true) := by
    rw [heq]
    exact Finset.mem_range.mpr hj
  rw [Finset.mem_filter] at hmem
  exact hc hmem.2

theorem intPair_eq_iff {a b : Nat × Nat} :
    (((a.1 : Int), (a.2 : Int)) : Int × Int) = ((b.1 : Int), (b.2 : Int)) ↔ a = b := by
  rw [Prod.ext_iff, Prod.ext_iff]
  constructor
  · intro ⟨h1, h2⟩
    exact ⟨by omega, by omega⟩
  · intro ⟨h1, h2⟩
    exact ⟨by omega, by omega⟩

theorem or64_and64 (v : Nat) : (v ||| 64) &&& 64 = 64 := by
  apply Nat.eq_of_testBit_eq
  intro i
  rw [Nat.testBit_and, Nat.testBit_or]
  cases hv : v.testBit i <;> cases h64 : (64 : Nat).testBit i <;> simp

theorem opposite_ne_zero {d : Nat} (hd : d = 1 ∨ d = 2 ∨ d = 4 ∨ d = 8) :
    OPPOSITE d ≠ 0 := by
  rcases hd with rfl | rfl | rfl | rfl <;> decide

/-- The visited-bit effect of marking one in-range cell solver-visited. -/
theorem setBitAt_vis (w h : Nat) (G : Grid) (hw : G.width = w) (hl : G.cells.length = w * h)
    (i : Nat) (hi : i < w * h) (v : Nat × Nat) (hv1 : v.1 < w) (hv2 : v.2 < h) :
    (solVis w (setBitAt G i 64) v ↔ v.2 * w + v.1 = i ∨ solVis w G v) := by
  unfold solVis
  rw [show (setBitAt G i 64).cell (v.2 * w + v.1) =
    if v.2 * w + v.1 = i then G.cell i ||| 64 else G.cell (v.2 * w + v.1) from
    setBitAt_cell G i 64 (by omega) _]
  by_cases hj : v.2 * w + v.1 = i
  · rw [if_pos hj, or64_and64]
    simp [hj]
  · rw [if_neg hj]
    simp [hj]

/-- The BFS loop invariant: walls and dimensions stable, the queue is a
duplicate-free list of visited in-bounds cells whose distances are exact,
sorted and spanning at most two layers, every processed cell has all its open
neighbors visited, and every visited cell's stored parent realizes an exact
shortest-path predecessor. -/
structure BfsInv (g0 : Grid) (w h : Nat) (start : Nat × Nat) (st : BfsState) :
    Prop where
  hW : st.g.width = w
  hH : st.g.height = h
  hL : st.g.cells.length = w * h
  hwall : ∀ j, st.g.cell j &&& 15 = g0.cell j &&& 15
  hPlen : st.parents.length = w * h
  hnd : st.queue.Nodup
  hqb : ∀ c ∈ st.queue, c.1 < w ∧ c.2 < h ∧ solVis w st.g c
  hvstart : solVis w st.g start
  hclos : ∀ u : Nat × Nat, u.1 < w → u.2 < h → solVis w st.g u → u ∉ st.queue →
    ∀ v, stepAdj g0 u v → solVis w st.g v
  hdepth : ∃ D : List Nat, D.length = st.queue.length ∧
    (∀ i j, i ≤ j → j < D.length →
      D.getD i 0 ≤ D.getD j 0 ∧ D.getD j 0 ≤ D.getD i 0 + 1) ∧
    (∀ i, i < D.length → minD g0 start (st.queue.getD i (0, 0)) (D.getD i 0))
  hpar : ∀ v : Nat × Nat, v.1 < w → v.2 < h → solVis w st.g v → v ≠ start →
    ∃ p u mu, st.parents.getD (v.2 * w + v.1) 0 = p ∧ p ≠ 0 ∧
      ((v.1 : Int) + DX p = u.1) ∧ ((v.2 : Int) + DY p = u.2) ∧
      u.1 < w ∧ u.2 < h ∧ stepAdj g0 u v ∧ solVis w st.g u ∧
      minD g0 start u mu ∧ minD g0 start v (mu + 1)

theorem stepChain_one {g : Grid} {a b : Nat × Nat} (h : stepChain g 1 a b) :
    stepAdj g a b := by
  obtain ⟨c, h1, h2⟩ := h
  have he : c = b := h2
  subst he
  exact h1

/-- Layer completeness: if every queued cell has distance at least `K`, then
every cell at distance below `K` is already visited. -/
theorem bfs_comp {g0 : Grid} {w h : Nat} {start : Nat × Nat} {st : BfsState}
    (inv : BfsInv g0 w h start st) (hW0 : g0.width = w) (hH0 : g0.height = h)
    (hsb1 : start.1 < w) (hsb2 : start.2 < h) (K : Nat)
    (hqk : ∀ c ∈ st.queue, ∀ k, minD g0 start c k → K ≤ k) :
    ∀ n (v : Nat × Nat), n < K → stepChain g0 n start v → solVis w st.g v := by
  intro n
  induction n using Nat.strong_induction_on with
  | _ n ih =>
    intro v hn hc
    cases n with
    | zero =>
      have he : start = v := hc
      subst he
      exact inv.hvstart
    | succ m =>
      obtain ⟨u2, hcu, hlast⟩ := stepChain_split m (by omega) hc
      have hadj : stepAdj g0 u2 v := by
        apply stepChain_one
        rw [show m + 1 - m = 1 from by omega] at hlast
        exact hlast
      have hub : u2.1 < g0.width ∧ u2.2 < g0.height :=
        stepChain_bounds (by omega) (by omega) hcu
      have hvu : solVis w st.g u2 := ih m (by omega) u2 (by omega) hcu
      have hunq : u2 ∉ st.queue := by
        intro hmem
        obtain ⟨mu, hmu⟩ := minD_exists m hcu
        have h1 := hqk u2 hmem mu hmu
        have h2 := hmu.2 m hcu
        omega
      exact inv.hclos u2 (by omega) (by omega) hvu hunq v hadj

/-- The body of BFS's neighbor scan fold. -/
def bfsStep (cx cy : Nat) (s : BfsState) (p : Nat × Nat × Nat) : BfsState :=
  if s.g.hasWall cx cy p.2.2 then s
  else
    let i := p.2.1 * s.g.width + p.1
    if s.g.cell i &&& SOLVER_VISITED ≠ 0 then s
    else
      { g := setBitAt s.g i SOLVER_VISITED,
        queue := s.queue ++ [(p.1, p.2.1)],
        parents := s.parents.set i (OPPOSITE p.2.2) }

theorem bfsScan_eq (cx cy : Nat) (st : BfsState) :
    bfsScan cx cy st = (st.g.getNeighbors cx cy).foldl (bfsStep cx cy) st := rfl

/-- A target of the scanned neighbor list reachable through an open wall. -/
def openTarget (g0 : Grid) (cx cy : Nat) (L : List (Nat × Nat × Nat))
    (v : Nat × Nat) : Prop :=
  ∃ d, (v.1, v.2, d) ∈ L ∧ g0.hasWall cx cy d = false

/-- What the BFS neighbor scan does: exactly the unvisited open targets get
marked, enqueued at the tail, and given the inverse parent direction;
everything else is untouched. -/
theorem bfsScanAux (g0 : Grid) (w h : Nat) (hW0 : g0.width = w)
    (hH0 : g0.height = h) (cx cy : Nat) :
    ∀ (L : List (Nat × Nat × Nat)) (st : BfsState),
    st.g.width = w → st.g.height = h → st.g.cells.length = w * h →
    (∀ j, st.g.cell j &&& 15 = g0.cell j &&& 15) →
    st.parents.length = w * h →
    (∀ p ∈ L, p.1 < w ∧ p.2.1 < h ∧ (p.2.2 = 1 ∨ p.2.2 = 2 ∨ p.2.2 = 4 ∨ p.2.2 = 8)) →
    (L.map (fun p => (p.1, p.2.1))).Nodup →
    (L.foldl (bfsStep cx cy) st).g.width = w ∧
    (L.foldl (bfsStep cx cy) st).g.height = h ∧
    (L.foldl (bfsStep cx cy) st).g.cells.length = w * h ∧
    (∀ j, (L.foldl (bfsStep cx cy) st).g.cell j &&& 15 = g0.cell j &&& 15) ∧
    (L.foldl (bfsStep cx cy) st).parents.length = w * h ∧
    ∃ newQ : List (Nat × Nat),
      (L.foldl (bfsStep cx cy) st).queue = st.queue ++ newQ ∧
      newQ.Nodup ∧
      (∀ v ∈ newQ, v.1 < w ∧ v.2 < h ∧ ¬ solVis w st.g v ∧
        ∃ d, (v.1, v.2, d) ∈ L ∧ g0.hasWall cx cy d = false ∧
          (L.foldl (bfsStep cx cy) st).parents.getD (v.2 * w + v.1) 0 =
            OPPOSITE d ∧ OPPOSITE d ≠ 0) ∧
      (∀ v : Nat × Nat, openTarget g0 cx cy L v → v.1 < w → v.2 < h →
        ¬ solVis w st.g v → v ∈ newQ) ∧
      (∀ v : Nat × Nat, v.1 < w → v.2 < h →
        (solVis w (L.foldl (bfsStep cx cy) st).g v ↔
          solVis w st.g v ∨ (openTarget g0 cx cy L v ∧ ¬ solVis w st.g v))) ∧
      (∀ v : Nat × Nat, v.1 < w → v.2 < h → v ∉ newQ →
        (L.foldl (bfsStep cx cy) st).parents.getD (v.2 * w + v.1) 0 =
          st.parents.getD (v.2 * w + v.1) 0) ∧
      solVisCount w h (L.foldl (bfsStep cx cy) st).g =
        solVisCount w h st.g + newQ.length := by
  intro L
  induction L with
  | nil =>
    intro st hw hh hl hwall hpl hcond hnd
    refine ⟨hw, hh, hl, hwall, hpl, [], by simp, List.nodup_nil, ?_, ?_, ?_, ?_, by simp⟩
    · intro v hv
      exact absurd hv (List.not_mem_nil v)
    · intro v hvt _ _ _
      obtain ⟨d, hd, _⟩ := hvt
      exact absurd hd (List.not_mem_nil _)
    · intro v _ _
      constructor
      · intro hv
        exact Or.inl hv
      · intro hv
        rcases hv with hv | ⟨⟨d, hd, _⟩, _⟩
        · exact hv
        · exact absurd hd (List.not_mem_nil _)
    · intro v _ _ _
      rfl
  | cons q L2 ih =>
    intro st hw hh hl hwall hpl hcond hnd
    obtain ⟨hq1, hq2, hqd⟩ := hcond q (List.mem_cons_self q L2)
    have hcond2 : ∀ p ∈ L2, p.1 < w ∧ p.2.1 < h ∧
        (p.2.2 = 1 ∨ p.2.2 = 2 ∨ p.2.2 = 4 ∨ p.2.2 = 8) :=
      fun p hp => hcond p (List.mem_cons_of_mem q hp)
    have hnd2 : (L2.map (fun p => (p.1, p.2.1))).Nodup := by
      rw [List.map_cons, List.nodup_cons] at hnd
      exact hnd.2
    have hqnotin : ((q.1, q.2.1) : Nat × Nat) ∉ L2.map (fun p => (p.1, p.2.1)) := by
      rw [List.map_cons, List.nodup_cons] at hnd
      exact hnd.1
    have hwallq : st.g.hasWall cx cy q.2.2 = g0.hasWall cx cy q.2.2 :=
      hasWall_eq_of_walls (by rw [hw, hW0]) hwall cx cy q.2.2 hqd
    have hcell_eq : ∀ v : Nat × Nat, (v.1, v.2, q.2.2) = q → v = (q.1, q.2.1) := by
      intro v he
      have h1 : v.1 = q.1 := congrArg (fun r => r.1) he
      have h2 : v.2 = q.2.1 := congrArg (fun r => r.2.1) he
      exact Prod.ext h1 h2
    rw [List.foldl_cons]
    by_cases hwl : st.g.hasWall cx cy q.2.2 = true
    · have hstep : bfsStep cx cy st q = st := by
        unfold bfsStep
        rw [if_pos hwl]
      rw [hstep]
      obtain ⟨rw1, rh1, rl1, rwall1, rpl1, newQ, rq, rnd, rmem, rcompl, rvis, rpar, rcnt⟩ :=
        ih st hw hh hl hwall hpl hcond2 hnd2
      have hg0w : g0.hasWall cx cy q.2.2 = true := by rw [← hwallq]; exact hwl
      have htgt : ∀ v : Nat × Nat, openTarget g0 cx cy (q :: L2) v ↔
          openTarget g0 cx cy L2 v := by
        intro v
        unfold openTarget
        constructor
        · rintro ⟨d, hd, hdw⟩
          rcases List.mem_cons.mp hd with he | hd2
          · have hde : d = q.2.2 := congrArg (fun r => r.2.2) he
            rw [hde, hg0w] at hdw
            exact absurd hdw (by simp)
          · exact ⟨d, hd2, hdw⟩
        · rintro ⟨d, hd, hdw⟩
          exact ⟨d, List.mem_cons_of_mem q hd, hdw⟩
      refine ⟨rw1, rh1, rl1, rwall1, rpl1, newQ, rq, rnd, ?_, ?_, ?_, rpar, rcnt⟩
      · intro v hv
        obtain ⟨hb1, hb2, hnv, d, hd, hdw, hpar2, hone⟩ := rmem v hv
        exact ⟨hb1, hb2, hnv, d, List.mem_cons_of_mem q hd, hdw, hpar2, hone⟩
      · intro v hvt hb1 hb2 hnv
        exact rcompl v ((htgt v).mp hvt) hb1 hb2 hnv
      · intro v hb1 hb2
        rw [rvis v hb1 hb2, htgt v]
    · have hwlf : st.g.hasWall cx cy q.2.2 = false := by
        cases hb : st.g.hasWall cx cy q.2.2
        · rfl
        · exact absurd hb hwl
      have hg0w : g0.hasWall cx cy q.2.2 = false := by rw [← hwallq]; exact hwlf
      by_cases hvq : st.g.cell (q.2.1 * st.g.width + q.1) &&& SOLVER_VISITED ≠ 0
      · have hstep : bfsStep cx cy st q = st := by
          unfold bfsStep
          rw [if_neg (by rw [hwlf]; simp), if_pos hvq]
        rw [hstep]
        obtain ⟨rw1, rh1, rl1, rwall1, rpl1, newQ, rq, rnd, rmem, rcompl, rvis, rpar, rcnt⟩ :=
          ih st hw hh hl hwall hpl hcond2 hnd2
        have hvisq : solVis w st.g (q.1, q.2.1) := by
          unfold solVis
          rw [hw] at hvq
          exact hvq
        have htgt : ∀ v : Nat × Nat, v.1 < w → v.2 < h → ¬ solVis w st.g v →
            (openTarget g0 cx cy (q :: L2) v ↔ openTarget g0 cx cy L2 v) := by
          intro v hb1 hb2 hnv
          unfold openTarget
          constructor
          · rintro ⟨d, hd, hdw⟩
            rcases List.mem_cons.mp hd with he | hd2
            · have hvqc := hcell_eq v (by rw [show d = q.2.2 from
                congrArg (fun r => r.2.2) he] at he; exact he)
              rw [hvqc] at hnv
              exact absurd hvisq hnv
            · exact ⟨d, hd2, hdw⟩
          · rintro ⟨d, hd, hdw⟩
            exact ⟨d, List.mem_cons_of_mem q hd, hdw⟩
        refine ⟨rw1, rh1, rl1, rwall1, rpl1, newQ, rq, rnd, ?_, ?_, ?_, rpar, rcnt⟩
        · intro v hv
          obtain ⟨hb1, hb2, hnv, d, hd, hdw, hpar2, hone⟩ := rmem v hv
          exact ⟨hb1, hb2, hnv, d, List.mem_cons_of_mem q hd, hdw, hpar2, hone⟩
        · intro v hvt hb1 hb2 hnv
          exact rcompl v ((htgt v hb1 hb2 hnv).mp hvt) hb1 hb2 hnv
        · intro v hb1 hb2
          rw [rvis v hb1 hb2]
          constructor
          · rintro (hv | ⟨ht, hnv⟩)
            · exact Or.inl hv
            · exact Or.inr ⟨(htgt v hb1 hb2 hnv).mpr ht, hnv⟩
          · rintro (hv | ⟨ht, hnv⟩)
            · exact Or.inl hv
            · exact Or.inr ⟨(htgt v hb1 hb2 hnv).mp ht, hnv⟩
      · -- open and unvisited: the real marking step
        have hstep : bfsStep cx cy st q =
            { g := setBitAt st.g (q.2.1 * st.g.width + q.1) SOLVER_VISITED,
              queue := st.queue ++ [(q.1, q.2.1)],
              parents := st.parents.set (q.2.1 * st.g.width + q.1) (OPPOSITE q.2.2) } := by
          unfold bfsStep
          rw [if_neg (by rw [hwlf]; simp), if_neg hvq]
        rw [hstep, hw]
        set st1 : BfsState :=
          { g := setBitAt st.g (q.2.1 * w + q.1) SOLVER_VISITED,
            queue := st.queue ++ [(q.1, q.2.1)],
            parents := st.parents.set (q.2.1 * w + q.1) (OPPOSITE q.2.2) } with hst1
        have hqi : q.2.1 * w + q.1 < w * h := idx_lt hq1 hq2
        have hnvq : ¬ solVis w st.g (q.1, q.2.1) := by
          unfold solVis
          rw [hw] at hvq
          simpa using hvq
        have hw1 : st1.g.width = w := by rw [hst1]; exact hw
        have hh1 : st1.g.height = h := by rw [hst1]; exact hh
        have hl1 : st1.g.cells.length = w * h := by
          rw [hst1]
          show (setBitAt st.g _ 64).cells.length = w * h
          rw [(setBitAt_effect st.g _ 64 (by decide)).2.2.1]
          exact hl
        have hwall1 : ∀ j, st1.g.cell j &&& 15 = g0.cell j &&& 15 := by
          intro j
          rw [hst1]
          show (setBitAt st.g _ 64).cell j &&& 15 = _
          rw [(setBitAt_effect st.g _ 64 (by decide)).2.2.2 j]
          exact hwall j
        have hpl1 : st1.parents.length = w * h := by
          rw [hst1]
          show (st.parents.set _ _).length = w * h
          rw [List.length_set]
          exact hpl
        have hvis1 : ∀ v : Nat × Nat, v.1 < w → v.2 < h →
            (solVis w st1.g v ↔ v = (q.1, q.2.1) ∨ solVis w st.g v) := by
          intro v hb1 hb2
          rw [hst1]
          show solVis w (setBitAt st.g (q.2.1 * w + q.1) 64) v ↔ _
          rw [setBitAt_vis w h st.g hw hl _ hqi v hb1 hb2]
          constructor
          · rintro (he | hv)
            · have hc := (idx_eq_iff hb1 hq1).mp he
              exact Or.inl (Prod.ext hc.1 hc.2)
            · exact Or.inr hv
          · rintro (he | hv)
            · subst he
              exact Or.inl rfl
            · exact Or.inr hv
        obtain ⟨rw1, rh1, rl1, rwall1, rpl1, newQ2, rq, rnd, rmem, rcompl, rvis, rpar, rcnt⟩ :=
          ih st1 hw1 hh1 hl1 hwall1 hpl1 hcond2 hnd2
        have hvq1 : solVis w st1.g (q.1, q.2.1) :=
          (hvis1 (q.1, q.2.1) hq1 hq2).mpr (Or.inl rfl)
        have hqnot2 : ((q.1, q.2.1) : Nat × Nat) ∉ newQ2 := by
          intro hmem
          exact (rmem _ hmem).2.2.1 hvq1
        refine ⟨rw1, rh1, rl1, rwall1, rpl1, (q.1, q.2.1) :: newQ2, ?_, ?_, ?_, ?_, ?_, ?_, ?_⟩
        · rw [rq, hst1]
          show st.queue ++ [(q.1, q.2.1)] ++ newQ2 = _
          rw [List.append_assoc, List.singleton_append]
        · exact List.nodup_cons.mpr ⟨hqnot2, rnd⟩
        · intro v hv
          rcases List.mem_cons.mp hv with rfl | hv2
          · refine ⟨hq1, hq2, hnvq, q.2.2, ?_, hg0w, ?_, opposite_ne_zero hqd⟩
            · exact List.mem_cons_self _ _
            · rw [rpar _ hq1 hq2 hqnot2, hst1]
              show (st.parents.set (q.2.1 * w + q.1) (OPPOSITE q.2.2)).getD
                (q.2.1 * w + q.1) 0 = OPPOSITE q.2.2
              rw [getD_set_eq (by omega)]
          · obtain ⟨hb1, hb2, hnv1, d, hd, hdw, hpar2, hone⟩ := rmem v hv2
            have hnv : ¬ solVis w st.g v := fun hc =>
              hnv1 ((hvis1 v hb1 hb2).mpr (Or.inr hc))
            exact ⟨hb1, hb2, hnv, d, List.mem_cons_of_mem q hd, hdw, hpar2, hone⟩
        · intro v hvt hb1 hb2 hnv
          obtain ⟨d, hd, hdw⟩ := hvt
          rcases List.mem_cons.mp hd with he | hd2
          · have hvqc := hcell_eq v (by rw [show d = q.2.2 from
              congrArg (fun r => r.2.2) he] at he; exact he)
            rw [hvqc]
            exact List.mem_cons_self _ _
          · by_cases hvqc : v = (q.1, q.2.1)
            · rw [hvqc]
              exact List.mem_cons_self _ _
            · have hnv1 : ¬ solVis w st1.g v := by
                intro hc
                rcases (hvis1 v hb1 hb2).mp hc with he | hv2
                · exact hvqc he
                · exact hnv hv2
              exact List.mem_cons_of_mem _ (rcompl v ⟨d, hd2, hdw⟩ hb1 hb2 hnv1)
        · intro v hb1 hb2
          rw [rvis v hb1 hb2]
          constructor
          · rintro (hv1 | ⟨⟨d, hd2, hdw⟩, hnv1⟩)
            · rcases (hvis1 v hb1 hb2).mp hv1 with rfl | hv
              · exact Or.inr ⟨⟨q.2.2, List.mem_cons_self _ _, hg0w⟩, hnvq⟩
              · exact Or.inl hv
            · have hnv : ¬ solVis w st.g v := fun hc =>
                hnv1 ((hvis1 v hb1 hb2).mpr (Or.inr hc))
              exact Or.inr ⟨⟨d, List.mem_cons_of_mem q hd2, hdw⟩, hnv⟩
          · rintro (hv | ⟨⟨d, hd2, hdw⟩, hnv⟩)
            · exact Or.inl ((hvis1 v hb1 hb2).mpr (Or.inr hv))
            · rcases List.mem_cons.mp hd2 with he | hd3
              · have hvqc := hcell_eq v (by rw [show d = q.2.2 from
                  congrArg (fun r => r.2.2) he] at he; exact he)
                rw [hvqc]
                exact Or.inl hvq1
              · by_cases hvqc : v = (q.1, q.2.1)
                · rw [hvqc]
                  exact Or.inl hvq1
                · refine Or.inr ⟨⟨d, hd3, hdw⟩, ?_⟩
                  intro hc
                  rcases (hvis1 v hb1 hb2).mp hc with he | hv2
                  · exact hvqc he
                  · exact hnv hv2
        · intro v hb1 hb2 hnmem
          have hvne : v ≠ (q.1, q.2.1) := fun he => hnmem (he ▸ List.mem_cons_self _ _)
          have hnmem2 : v ∉ newQ2 := fun hm => hnmem (List.mem_cons_of_mem _ hm)
          rw [rpar v hb1 hb2 hnmem2, hst1]
          show (st.parents.set (q.2.1 * w + q.1) (OPPOSITE q.2.2)).getD
            (v.2 * w + v.1) 0 = st.parents.getD (v.2 * w + v.1) 0
          rw [getD_set_ne]
          intro he
          have hc := (idx_eq_iff hq1 hb1).mp he
          exact hvne (Prod.ext hc.1.symm hc.2.symm)
        · rw [rcnt]
          have hc1 : solVisCount w h st1.g = solVisCount w h st.g + 1 := by
            unfold solVisCount
            apply countIdx_flip (i := q.2.1 * w + q.1) hqi
            · show (st.g.cell (q.2.1 * w + q.1) &&& 64 != 0) = false
              unfold solVis at hnvq
              simpa using hnvq
            · show (st1.g.cell (q.2.1 * w + q.1) &&& 64 != 0) = true
              have := hvq1
              unfold solVis at this
              simpa using this
            · intro j hj
              show (st1.g.cell j &&& 64 != 0) = (st.g.cell j &&& 64 != 0)
              rw [hst1]
              show ((setBitAt st.g (q.2.1 * w + q.1) 64).cell j &&& 64 != 0) = _
              rw [setBitAt_cell st.g _ 64 (by omega) j, if_neg hj]
          rw [hc1, List.length_cons]
          omega


theorem bfsLoop_zero (endp : Nat × Nat) (st : BfsState) :
    bfsLoop endp 0 st = st := rfl

theorem bfsLoop_nil (endp : Nat × Nat) (fuel : Nat) (G : Grid) (P : List Nat) :
    bfsLoop endp (fuel + 1) ⟨G, [], P⟩ = ⟨G, [], P⟩ := rfl

theorem bfsLoop_cons (endp : Nat × Nat) (fuel : Nat) (G : Grid) (c : Nat × Nat)
    (rest : List (Nat × Nat)) (P : List Nat) :
    bfsLoop endp (fuel + 1) ⟨G, c :: rest, P⟩ =
      if c = endp then ⟨G, rest, P⟩
      else bfsLoop endp fuel (bfsScan c.1 c.2 ⟨G, rest, P⟩) := rfl

def bfsMeasure (w h : Nat) (st : BfsState) : Nat :=
  2 * (w * h - solVisCount w h st.g) + st.queue.length

/-- The facts about the stopped BFS state that feed reconstruction. -/
structure BfsPost (g0 : Grid) (w h : Nat) (start endp : Nat × Nat) (st : BfsState) :
    Prop where
  hW : st.g.width = w
  hH : st.g.height = h
  hPlen : st.parents.length = w * h
  hvend : solVis w st.g endp
  hpar : ∀ v : Nat × Nat, v.1 < w → v.2 < h → solVis w st.g v → v ≠ start →
    ∃ p u mu, st.parents.getD (v.2 * w + v.1) 0 = p ∧ p ≠ 0 ∧
      ((v.1 : Int) + DX p = u.1) ∧ ((v.2 : Int) + DY p = u.2) ∧
      u.1 < w ∧ u.2 < h ∧ stepAdj g0 u v ∧ solVis w st.g u ∧
      minD g0 start u mu ∧ minD g0 start v (mu + 1)

theorem getD_replicate_eq {n a i : Nat} (h : i < n) :
    (List.replicate n a).getD i 0 = a := by
  rw [List.getD_eq_getElem?_getD, List.getElem?_replicate, if_pos h]
  rfl

theorem getNeighbors_cells_nodup (g : Grid) (x y : Nat) :
    ((g.getNeighbors x y).map (fun p => (p.1, p.2.1))).Nodup := by
  unfold Grid.getNeighbors
  split_ifs <;> simp [Prod.ext_iff] <;> omega

theorem getD_mem_of_lt {l : List (Nat × Nat)} {i : Nat} (hi : i < l.length) :
    l.getD i (0, 0) ∈ l := by
  rw [List.getD_eq_getElem?_getD, List.getElem?_eq_getElem hi]
  exact List.getElem_mem hi

theorem mem_index_of_mem {l : List (Nat × Nat)} {c : Nat × Nat} (h : c ∈ l) :
    ∃ i, i < l.length ∧ l.getD i (0, 0) = c := by
  obtain ⟨i, hi, hgi⟩ := List.mem_iff_getElem.mp h
  refine ⟨i, hi, ?_⟩
  rw [List.getD_eq_getElem?_getD, List.getElem?_eq_getElem hi]
  exact hgi

set_option maxHeartbeats 1600000 in
/-- BFS main loop: from an invariant state with enough fuel, the loop stops
in a state where the end cell is visited and every visited cell's parent
realizes an exact shortest-path predecessor. -/
theorem bfsLoop_main (g0 : Grid) (w h : Nat) (start endp : Nat × Nat)
    (hW0 : g0.width = w) (hH0 : g0.height = h)
    (hs1 : start.1 < w) (hs2 : start.2 < h) (he1 : endp.1 < w) (he2 : endp.2 < h)
    (hreach : ∃ n, stepChain g0 n start endp) :
    ∀ fuel st, BfsInv g0 w h start st → bfsMeasure w h st ≤ fuel →
    BfsPost g0 w h start endp (bfsLoop endp fuel st) := by
  intro fuel
  induction fuel using Nat.strong_induction_on with
  | _ fuel ih =>
    intro st inv hm
    cases fuel with
    | zero =>
      rw [bfsLoop_zero]
      have hcle := countIdx_le (w * h) (fun j => st.g.cell j &&& 64 != 0)
      have hcnt : solVisCount w h st.g = w * h := by
        unfold bfsMeasure at hm
        unfold solVisCount at hm ⊢
        omega
      have hvend : solVis w st.g endp := by
        have := countIdx_full hcnt (endp.2 * w + endp.1) (idx_lt he1 he2)
        unfold solVis
        simpa using this
      exact ⟨inv.hW, inv.hH, inv.hPlen, hvend, inv.hpar⟩
    | succ fuel =>
      obtain ⟨G, q, P⟩ := st
      cases q with
      | nil =>
        rw [bfsLoop_nil]
        obtain ⟨n, hc⟩ := hreach
        have hvend : solVis w G endp := by
          have := bfs_comp inv hW0 hH0 hs1 hs2 (n + 1)
            (fun c hmem => absurd hmem (List.not_mem_nil c)) n endp (by omega) hc
          exact this
        exact ⟨inv.hW, inv.hH, inv.hPlen, hvend, inv.hpar⟩
      | cons c rest =>
        rw [bfsLoop_cons]
        obtain ⟨hc1, hc2, hvisc⟩ := inv.hqb c (List.mem_cons_self c rest)
        by_cases hce : c = endp
        · rw [if_pos hce]
          subst hce
          exact ⟨inv.hW, inv.hH, inv.hPlen, hvisc, inv.hpar⟩
        · rw [if_neg hce]
          -- unpack the depth witness
          obtain ⟨D, hDlen, hDsort, hDmin⟩ := inv.hdepth
          cases D with
          | nil => simp at hDlen
          | cons k Dt =>
            have hDtlen : Dt.length = rest.length := by
              simpa using hDlen
            have hkmin : minD g0 start c k := by
              have := hDmin 0 (by simp)
              simpa using this
            have hqk : ∀ c2 ∈ (c :: rest : List (Nat × Nat)), ∀ k2,
                minD g0 start c2 k2 → k ≤ k2 := by
              intro c2 hmem k2 hk2
              obtain ⟨i, hi, hgi⟩ := mem_index_of_mem hmem
              have hmd := hDmin i (by simpa [hDlen] using hi)
              rw [hgi] at hmd
              have hle := (hDsort 0 i (by omega) (by simpa [hDlen] using hi)).1
              have hequ := minD_unique hk2 hmd
              simp only [List.getD_cons_zero] at hle
              omega
            -- scan spec
            have hLcond : ∀ p ∈ G.getNeighbors c.1 c.2, p.1 < w ∧ p.2.1 < h ∧
                (p.2.2 = 1 ∨ p.2.2 = 2 ∨ p.2.2 = 4 ∨ p.2.2 = 8) := by
              intro p hp
              obtain ⟨hb1, hb2⟩ := mem_getNeighbors_bounds
                (by rw [inv.hW]; exact hc1) (by rw [inv.hH]; exact hc2) hp
              refine ⟨by rw [← inv.hW]; exact hb1, by rw [← inv.hH]; exact hb2, ?_⟩
              obtain ⟨a1, a2, a3⟩ := p
              exact dir_of_mem_getNeighbors hp
            have hscan := bfsScanAux g0 w h hW0 hH0 c.1 c.2
              (G.getNeighbors c.1 c.2) ⟨G, rest, P⟩ inv.hW inv.hH inv.hL inv.hwall
              inv.hPlen hLcond (getNeighbors_cells_nodup G c.1 c.2)
            rw [← bfsScan_eq] at hscan
            obtain ⟨rw1, rh1, rl1, rwall1, rpl1, newQ, rq, rnd, rmem, rcompl, rvis,
              rpar, rcnt⟩ := hscan
            set st2 := bfsScan c.1 c.2 ⟨G, rest, P⟩ with hst2
            -- membership in L translates to g0 adjacency
            have hGn : G.getNeighbors c.1 c.2 = g0.getNeighbors c.1 c.2 :=
              getNeighbors_congr (by rw [inv.hW, hW0]) (by rw [inv.hH, hH0]) c.1 c.2
            have hadj_of_tgt : ∀ v : Nat × Nat,
                openTarget g0 c.1 c.2 (G.getNeighbors c.1 c.2) v → stepAdj g0 c v := by
              intro v hvt
              obtain ⟨d, hd, hdw⟩ := hvt
              rw [hGn] at hd
              exact ⟨d, hd, hdw⟩
            have htgt_of_adj : ∀ v : Nat × Nat, stepAdj g0 c v →
                openTarget g0 c.1 c.2 (G.getNeighbors c.1 c.2) v := by
              intro v hvt
              obtain ⟨d, hd, hdw⟩ := hvt
              rw [← hGn] at hd
              exact ⟨d, hd, hdw⟩
            -- exact distance of new entries
            have hnewmin : ∀ v ∈ newQ, minD g0 start v (k + 1) := by
              intro v hv
              obtain ⟨hb1, hb2, hnv, d, hd, hdw, _, _⟩ := rmem v hv
              have hadj : stepAdj g0 c v := hadj_of_tgt v ⟨d, hd, hdw⟩
              refine ⟨stepChain_snoc hkmin.1 hadj, ?_⟩
              intro n hn
              by_contra hlt
              cases n with
              | zero =>
                have he : start = v := hn
                rw [← he] at hnv
                exact hnv inv.hvstart
              | succ m =>
                obtain ⟨u2, hcu, hlast⟩ := stepChain_split m (by omega) hn
                have hadj2 : stepAdj g0 u2 v := by
                  apply stepChain_one
                  rw [show m + 1 - m = 1 from by omega] at hlast
                  exact hlast
                have hub := stepChain_bounds (g := g0) (by omega) (by omega) hcu
                have hvu : solVis w G u2 :=
                  bfs_comp inv hW0 hH0 hs1 hs2 k hqk m u2 (by omega) hcu
                have hunq : u2 ∉ (c :: rest : List (Nat × Nat)) := by
                  intro hmem
                  obtain ⟨mu, hmu⟩ := minD_exists m hcu
                  have hge := hqk u2 hmem mu hmu
                  have hle := hmu.2 m hcu
                  omega
                exact hnv (inv.hclos u2 (by omega) (by omega) hvu hunq v hadj2)
            -- the new invariant
            have hvisc2 : solVis w st2.g c := (rvis c hc1 hc2).mpr (Or.inl hvisc)
            have inv2 : BfsInv g0 w h start st2 := by
              refine ⟨rw1, rh1, rl1, rwall1, rpl1, ?_, ?_, ?_, ?_, ?_, ?_⟩
              · -- nodup
                rw [rq]
                show (rest ++ newQ).Nodup
                rw [List.nodup_append]
                refine ⟨(List.nodup_cons.mp inv.hnd).2, rnd, ?_⟩
                intro a ha hamem
                obtain ⟨ha1, ha2, hva⟩ := inv.hqb a (List.mem_cons_of_mem c ha)
                exact (rmem a hamem).2.2.1 hva
              · -- queue bounds and vis
                intro c2 hmem
                rw [rq] at hmem
                show c2.1 < w ∧ c2.2 < h ∧ solVis w st2.g c2
                rcases List.mem_append.mp hmem with hmem | hmem
                · obtain ⟨hb1, hb2, hv⟩ := inv.hqb c2 (List.mem_cons_of_mem c hmem)
                  exact ⟨hb1, hb2, (rvis c2 hb1 hb2).mpr (Or.inl hv)⟩
                · obtain ⟨hb1, hb2, hnv, d, hd, hdw, _, _⟩ := rmem c2 hmem
                  exact ⟨hb1, hb2, (rvis c2 hb1 hb2).mpr (Or.inr ⟨⟨d, hd, hdw⟩, hnv⟩)⟩
              · exact (rvis start hs1 hs2).mpr (Or.inl inv.hvstart)
              · -- closure
                intro u hu1 hu2 hvu hunq v hadj
                rw [rq] at hunq
                have hvb := stepAdj_bounds (g := g0) (by omega) (by omega) hadj
                rcases (rvis u hu1 hu2).mp hvu with hvu0 | ⟨htgt, hnvu⟩
                · by_cases huc : u = c
                  · subst huc
                    rcases Classical.em (solVis w G v) with hv0 | hnv0
                    · exact (rvis v (by omega) (by omega)).mpr (Or.inl hv0)
                    · exact (rvis v (by omega) (by omega)).mpr
                        (Or.inr ⟨htgt_of_adj v hadj, hnv0⟩)
                  · have hnq0 : u ∉ (c :: rest : List (Nat × Nat)) := by
                      intro hmem
                      rcases List.mem_cons.mp hmem with he | hmem2
                      · exact huc he
                      · exact hunq (List.mem_append_left _ hmem2)
                    have := inv.hclos u hu1 hu2 hvu0 hnq0 v hadj
                    exact (rvis v (by omega) (by omega)).mpr (Or.inl this)
                · exact absurd (rcompl u htgt hu1 hu2 hnvu)
                    (fun hmem => hunq (List.mem_append_right _ hmem))
              · -- depth structure
                refine ⟨Dt ++ List.replicate newQ.length (k + 1), ?_, ?_, ?_⟩
                · rw [rq]
                  show _ = (rest ++ newQ).length
                  rw [List.length_append, List.length_append, List.length_replicate,
                    hDtlen]
                · intro i j hij hj
                  rw [List.length_append, List.length_replicate] at hj
                  have hlow : ∀ i2, i2 < Dt.length →
                      k ≤ Dt.getD i2 0 ∧ Dt.getD i2 0 ≤ k + 1 := by
                    intro i2 hi2
                    have := hDsort 0 (i2 + 1) (by omega) (by simp [hDlen]; omega)
                    simp only [List.getD_cons_zero, List.getD_cons_succ] at this
                    omega
                  have hrepl : ∀ i2, Dt.length ≤ i2 → i2 < Dt.length + newQ.length →
                      (Dt ++ List.replicate newQ.length (k + 1)).getD i2 0 = k + 1 := by
                    intro i2 ha1 ha2
                    rw [List.getD_append_right _ _ _ _ (by omega)]
                    exact getD_replicate_eq (by omega)
                  by_cases hid : i < Dt.length
                  · by_cases hjd : j < Dt.length
                    · rw [List.getD_append _ _ _ _ hid, List.getD_append _ _ _ _ hjd]
                      have := hDsort (i + 1) (j + 1) (by omega) (by simp [hDlen]; omega)
                      simp only [List.getD_cons_succ] at this
                      exact this
                    · rw [List.getD_append _ _ _ _ hid, hrepl j (by omega) (by omega)]
                      have := hlow i hid
                      omega
                  · rw [hrepl i (by omega) (by omega), hrepl j (by omega) (by omega)]
                    omega
                · intro i hi
                  rw [List.length_append, List.length_replicate] at hi
                  rw [rq]
                  show minD g0 start ((rest ++ newQ).getD i (0, 0)) _
                  by_cases hid : i < Dt.length
                  · rw [List.getD_append _ _ _ _ hid,
                      List.getD_append _ _ _ _ (by omega)]
                    have := hDmin (i + 1) (by simp [hDlen]; omega)
                    simpa using this
                  · rw [List.getD_append_right _ _ _ _ (by omega),
                      List.getD_append_right _ _ _ _ (by rw [hDtlen] at hid; omega)]
                    have hrg : i - Dt.length < newQ.length := by omega
                    rw [getD_replicate_eq hrg]
                    have hmemq : newQ.getD (i - rest.length) (0, 0) ∈ newQ := by
                      apply getD_mem_of_lt
                      omega
                    exact hnewmin _ hmemq
              · -- parent invariant
                intro v hb1 hb2 hv hvs
                rcases (rvis v hb1 hb2).mp hv with hv0 | ⟨htgt, hnv⟩
                · have hnmem : v ∉ newQ := fun hm => (rmem v hm).2.2.1 hv0
                  obtain ⟨p, u, mu, hp1, hp2, hp3, hp4, hp5, hp6, hp7, hp8, hp9, hp10⟩ :=
                    inv.hpar v hb1 hb2 hv0 hvs
                  refine ⟨p, u, mu, ?_, hp2, hp3, hp4, hp5, hp6, hp7,
                    (rvis u hp5 hp6).mpr (Or.inl hp8), hp9, hp10⟩
                  rw [rpar v hb1 hb2 hnmem]
                  exact hp1
                · have hmem := rcompl v htgt hb1 hb2 hnv
                  obtain ⟨_, _, _, d, hd, hdw, hpv, hone⟩ := rmem v hmem
                  have hps := parent_step (g := G) (by rw [hGn] at hd; rw [← hGn] at hd; exact hd)
                  refine ⟨OPPOSITE d, c, k, hpv, hone, ?_, ?_, hc1, hc2,
                    hadj_of_tgt v ⟨d, hd, hdw⟩, hvisc2, hkmin, hnewmin v hmem⟩
                  · exact hps.2.1
                  · exact hps.2.2
            -- measure decrease
            have hmeas2 : bfsMeasure w h st2 ≤ fuel := by
              have hcnt2 : solVisCount w h st2.g = solVisCount w h G + newQ.length := by
                have := rcnt
                dsimp only at this
                exact this
              have hql : st2.queue.length = rest.length + newQ.length := by
                rw [rq]
                dsimp only
                rw [List.length_append]
              have hm2 : 2 * (w * h - solVisCount w h G) + (rest.length + 1) ≤
                  fuel + 1 := by
                unfold bfsMeasure at hm
                dsimp only at hm
                simp only [List.length_cons] at hm
                exact hm
              have hle3 : solVisCount w h st2.g ≤ w * h := by
                unfold solVisCount
                exact countIdx_le _ _
              unfold bfsMeasure
              omega
            exact ih fuel (by omega) st2 inv2 hmeas2


theorem countIdx_zero_of {n : Nat} {p : Nat → Bool} (h : ∀ j, j < n → p j = false) :
    countIdx n p = 0 := by
  unfold countIdx
  rw [Finset.card_eq_zero]
  apply Finset.filter_false_of_mem
  intro j hj
  rw [h j (Finset.mem_range.mp hj)]
  simp

theorem getIndex_ok {g : Grid} {w h : Nat} (hw : g.width = w) (hh : g.height = h)
    {v : Nat × Nat} (h1 : v.1 < w) (h2 : v.2 < h) :
    g.getIndex (v.1 : Int) (v.2 : Int) = Except.ok (v.2 * w + v.1) := by
  unfold Grid.getIndex
  rw [if_pos]
  · congr 1
    rw [hw]
    simp
  · rw [hw, hh]
    omega

theorem reconLoop_succ (parents : List Nat) (start : Nat × Nat) (fuel : Nat)
    (g : Grid) (curr : Int × Int) (acc : List (Int × Int)) :
    reconLoop parents start (fuel + 1) g curr acc =
      if curr = ((start.1 : Int), (start.2 : Int)) then Except.ok (acc, g)
      else
        match g.getIndex curr.1 curr.2 with
        | Except.error e => Except.error e
        | Except.ok i =>
          let g2 := setBitAt g i PATH_BIT
          let acc2 := acc ++ [curr]
          let p := parents.getD i 0
          if p = 0 then Except.ok (acc2, g2)
          else reconLoop parents start fuel g2 (curr.1 + DX p, curr.2 + DY p) acc2 :=
  rfl

/-- The reconstruction walk: following exact-distance parent pointers from a
cell at distance `m` reaches the start in exactly `m` steps, accumulating
exactly `m` cells. -/
theorem reconLoop_spec (w h : Nat) (parents : List Nat) (start : Nat × Nat)
    (W : Nat × Nat → Nat → Prop)
    (hwalk : ∀ v m, W v m → v.1 < w ∧ v.2 < h ∧ (v = start ↔ m = 0) ∧
      (0 < m → ∃ p u, parents.getD (v.2 * w + v.1) 0 = p ∧ p ≠ 0 ∧
        ((v.1 : Int) + DX p = u.1) ∧ ((v.2 : Int) + DY p = u.2) ∧
        u.1 < w ∧ u.2 < h ∧ W u (m - 1))) :
    ∀ fuel m (v : Nat × Nat) (g : Grid) acc, m < fuel → W v m →
      g.width = w → g.height = h →
      ∃ tail g2, reconLoop parents start fuel g ((v.1 : Int), (v.2 : Int)) acc =
        Except.ok (acc ++ tail, g2) ∧ tail.length = m := by
  intro fuel
  induction fuel with
  | zero =>
    intro m v g acc hm
    exact absurd hm (by omega)
  | succ fuel ih =>
    intro m v g acc hm hW hgw hgh
    obtain ⟨hv1, hv2, hiff, hstep⟩ := hwalk v m hW
    rw [reconLoop_succ]
    by_cases hvs : v = start
    · rw [if_pos (intPair_eq_iff.mpr hvs)]
      refine ⟨[], g, ?_, ?_⟩
      · rw [List.append_nil]
      · simp [hiff.mp hvs]
    · rw [if_neg (fun he => hvs (intPair_eq_iff.mp he))]
      have hmpos : 0 < m := by
        rcases Nat.eq_zero_or_pos m with h0 | h0
        · exact absurd (hiff.mpr h0) hvs
        · exact h0
      obtain ⟨p, u, hp, hpne, hux, huy, hu1, hu2, hWu⟩ := hstep hmpos
      obtain ⟨tail2, g3, hrec, hlen2⟩ := ih (m - 1) u
        (setBitAt g (v.2 * w + v.1) PATH_BIT)
        (acc ++ [((v.1 : Int), (v.2 : Int))]) (by omega) hWu hgw hgh
      rw [getIndex_ok hgw hgh hv1 hv2]
      refine ⟨((v.1 : Int), (v.2 : Int)) :: tail2, g3, ?_, ?_⟩
      · show (if parents.getD (v.2 * w + v.1) 0 = 0 then
            Except.ok (acc ++ [(((v.1 : Int), (v.2 : Int)) : Int × Int)],
              setBitAt g (v.2 * w + v.1) PATH_BIT)
          else reconLoop parents start fuel (setBitAt g (v.2 * w + v.1) PATH_BIT)
            ((v.1 : Int) + DX (parents.getD (v.2 * w + v.1) 0),
              (v.2 : Int) + DY (parents.getD (v.2 * w + v.1) 0))
            (acc ++ [((v.1 : Int), (v.2 : Int))])) =
          Except.ok (acc ++ ((v.1 : Int), (v.2 : Int)) :: tail2, g3)
        rw [hp, if_neg hpne]
        rw [show (((v.1 : Int) + DX p, (v.2 : Int) + DY p) : Int × Int) =
          ((u.1 : Int), (u.2 : Int)) from by rw [Prod.ext_iff]; exact ⟨hux, huy⟩]
        rw [hrec, List.append_assoc]
        rfl
      · rw [List.length_cons]
        omega


theorem bfsRun_eq (g : Grid) (start endp : Nat × Nat) (fuel rfuel si : Nat)
    (hsi : g.getIndex (start.1 : Int) (start.2 : Int) = Except.ok si) :
    bfsRun g start endp fuel rfuel =
      bfsReconstructPath rfuel
        (bfsLoop endp fuel ⟨setBitAt g si SOLVER_VISITED, [start],
          List.replicate (g.width * g.height) 0⟩).g
        (bfsLoop endp fuel ⟨setBitAt g si SOLVER_VISITED, [start],
          List.replicate (g.width * g.height) 0⟩).parents start endp := by
  unfold bfsRun
  rw [hsi]

theorem bfsReconstructPath_eq (rfuel : Nat) (g : Grid) (parents : List Nat)
    (start endp : Nat × Nat) (ei : Nat)
    (hei : g.getIndex (endp.1 : Int) (endp.2 : Int) = Except.ok ei)
    (hvis : ¬(g.cell ei &&& SOLVER_VISITED = 0 ∧ start ≠ endp)) :
    bfsReconstructPath rfuel g parents start endp =
      match reconLoop parents start rfuel g ((endp.1 : Int), (endp.2 : Int)) [] with
      | Except.error e => Except.error e
      | Except.ok (acc, g2) =>
        Except.ok ((acc ++ [((start.1 : Int), (start.2 : Int))]).reverse, g2) := by
  unfold bfsReconstructPath
  rw [hei]
  show (if g.cell ei &&& SOLVER_VISITED = 0 ∧ start ≠ endp then Except.ok ([], g)
    else match reconLoop parents start rfuel g ((endp.1 : Int), (endp.2 : Int)) [] with
      | Except.error e => Except.error e
      | Except.ok (acc, g2) =>
        Except.ok ((acc ++ [((start.1 : Int), (start.2 : Int))]).reverse, g2)) = _
  rw [if_neg hvis]

/-- BFS returns a path of exactly the shortest-chain cell count `d + 1` on a
grid with clean solver-scratch bits. -/
theorem bfsRun_correct (g0 : Grid) (w h : Nat) (hW0 : g0.width = w)
    (hH0 : g0.height = h) (hlen0 : g0.cells.length = w * h)
    (start endp : Nat × Nat) (hs1 : start.1 < w) (hs2 : start.2 < h)
    (he1 : endp.1 < w) (he2 : endp.2 < h)
    (hclean : ∀ j, j < w * h → g0.cell j &&& 64 = 0)
    (d : Nat) (hd : minD g0 start endp d) :
    ∃ pg : List (Int × Int) × Grid,
      bfsRun g0 start endp (2 * (w * h)) (w * h + 1) = Except.ok pg ∧
      pg.1.length = d + 1 := by
  have hsi := getIndex_ok hW0 hH0 (v := start) hs1 hs2
  rw [bfsRun_eq g0 start endp _ _ _ hsi]
  have hsilt : start.2 * w + start.1 < w * h := idx_lt hs1 hs2
  have heff := setBitAt_effect g0 (start.2 * w + start.1) 64 (by decide)
  have hvis0 : ∀ v : Nat × Nat, v.1 < w → v.2 < h →
      (solVis w (setBitAt g0 (start.2 * w + start.1) 64) v ↔ v = start) := by
    intro v hb1 hb2
    rw [setBitAt_vis w h g0 hW0 hlen0 _ hsilt v hb1 hb2]
    constructor
    · rintro (he | hv)
      · have hc := (idx_eq_iff hb1 hs1).mp he
        exact Prod.ext hc.1 hc.2
      · exact absurd hv (by unfold solVis; simp [hclean _ (idx_lt hb1 hb2)])
    · intro he
      subst he
      exact Or.inl rfl
  have hst0g : (⟨setBitAt g0 (start.2 * w + start.1) SOLVER_VISITED, [start],
      List.replicate (g0.width * g0.height) 0⟩ : BfsState).g =
      setBitAt g0 (start.2 * w + start.1) 64 := rfl
  have inv0 : BfsInv g0 w h start ⟨setBitAt g0 (start.2 * w + start.1) SOLVER_VISITED,
      [start], List.replicate (g0.width * g0.height) 0⟩ := by
    refine ⟨heff.1.trans hW0, heff.2.1.trans hH0, ?_, heff.2.2.2, ?_, ?_, ?_, ?_, ?_,
      ?_, ?_⟩
    · rw [hst0g]
      show (setBitAt g0 _ 64).cells.length = w * h
      rw [heff.2.2.1]
      exact hlen0
    · show (List.replicate (g0.width * g0.height) 0).length = w * h
      rw [List.length_replicate, hW0, hH0]
    · exact List.nodup_singleton start
    · intro c hc
      rw [List.mem_singleton] at hc
      subst hc
      exact ⟨hs1, hs2, (hvis0 c hs1 hs2).mpr rfl⟩
    · exact (hvis0 start hs1 hs2).mpr rfl
    · intro u hu1 hu2 hvu hunq v hadj
      exact absurd (List.mem_singleton.mpr ((hvis0 u hu1 hu2).mp hvu)) hunq
    · refine ⟨[0], rfl, ?_, ?_⟩
      · intro i j hij hj
        simp only [List.length_singleton] at hj
        have hi0 : i = 0 := by omega
        have hj0 : j = 0 := by omega
        subst hi0; subst hj0
        exact ⟨le_refl _, by omega⟩
      · intro i hi
        simp only [List.length_singleton] at hi
        have hi0 : i = 0 := by omega
        subst hi0
        show minD g0 start (([start] : List (Nat × Nat)).getD 0 (0, 0)) _
        exact minD_self g0 start
    · intro v hb1 hb2 hv hvs
      exact absurd ((hvis0 v hb1 hb2).mp hv) hvs
  have hcnt0 : solVisCount w h (setBitAt g0 (start.2 * w + start.1) 64) = 1 := by
    have hbase : solVisCount w h g0 = 0 := by
      unfold solVisCount
      apply countIdx_zero_of
      intro j hj
      simp [hclean j hj]
    have hflip : countIdx (w * h)
        (fun j => (setBitAt g0 (start.2 * w + start.1) 64).cell j &&& 64 != 0) =
        countIdx (w * h) (fun j => g0.cell j &&& 64 != 0) + 1 := by
      apply countIdx_flip (i := start.2 * w + start.1) hsilt
      · show (g0.cell (start.2 * w + start.1) &&& 64 != 0) = false
        simp [hclean _ hsilt]
      · show ((setBitAt g0 (start.2 * w + start.1) 64).cell (start.2 * w + start.1) &&&
          64 != 0) = true
        have := (hvis0 start hs1 hs2).mpr rfl
        unfold solVis at this
        simpa using this
      · intro j hj
        show ((setBitAt g0 (start.2 * w + start.1) 64).cell j &&& 64 != 0) =
          (g0.cell j &&& 64 != 0)
        rw [setBitAt_cell g0 _ 64 (by omega) j, if_neg hj]
    unfold solVisCount at hbase ⊢
    omega
  have hmeas0 : bfsMeasure w h ⟨setBitAt g0 (start.2 * w + start.1) SOLVER_VISITED,
      [start], List.replicate (g0.width * g0.height) 0⟩ ≤ 2 * (w * h) := by
    unfold bfsMeasure
    rw [hst0g, hcnt0]
    simp only [List.length_singleton]
    omega
  have post := bfsLoop_main g0 w h start endp hW0 hH0 hs1 hs2 he1 he2 ⟨d, hd.1⟩
    (2 * (w * h)) _ inv0 hmeas0
  set st1 := bfsLoop endp (2 * (w * h)) ⟨setBitAt g0 (start.2 * w + start.1)
    SOLVER_VISITED, [start], List.replicate (g0.width * g0.height) 0⟩ with hst1
  have hei := getIndex_ok post.hW post.hH (v := endp) he1 he2
  have hvise : ¬(st1.g.cell (endp.2 * w + endp.1) &&& SOLVER_VISITED = 0 ∧
      start ≠ endp) := by
    intro hcc
    have := post.hvend
    unfold solVis at this
    exact this hcc.1
  rw [bfsReconstructPath_eq _ _ _ _ _ _ hei hvise]
  have hdb : d ≤ w * h - 1 := by
    have := minD_le_cells (a := start) (by rw [hW0]; exact hs1)
      (by rw [hH0]; exact hs2) hd
    rw [hW0, hH0] at this
    exact this
  have hwalk : ∀ (v : Nat × Nat) (m : Nat),
      (v.1 < w ∧ v.2 < h ∧ solVis w st1.g v ∧ minD g0 start v m) →
      v.1 < w ∧ v.2 < h ∧ (v = start ↔ m = 0) ∧
      (0 < m → ∃ p u, st1.parents.getD (v.2 * w + v.1) 0 = p ∧ p ≠ 0 ∧
        ((v.1 : Int) + DX p = u.1) ∧ ((v.2 : Int) + DY p = u.2) ∧
        u.1 < w ∧ u.2 < h ∧
        (u.1 < w ∧ u.2 < h ∧ solVis w st1.g u ∧ minD g0 start u (m - 1))) := by
    intro v m hWm
    obtain ⟨hb1, hb2, hvv, hmv⟩ := hWm
    refine ⟨hb1, hb2, ?_, ?_⟩
    · constructor
      · intro he
        subst he
        exact minD_unique hmv (minD_self g0 v)
      · intro hm0
        subst hm0
        exact (minD_zero hmv).symm
    · intro hmpos
      have hvs : v ≠ start := by
        intro he
        subst he
        have := minD_unique hmv (minD_self g0 v)
        omega
      obtain ⟨p, u, mu, hp1, hp2, hp3, hp4, hp5, hp6, hp7, hp8, hp9, hp10⟩ :=
        post.hpar v hb1 hb2 hvv hvs
      have hme : m = mu + 1 := minD_unique hmv hp10
      refine ⟨p, u, hp1, hp2, hp3, hp4, hp5, hp6, hp5, hp6, hp8, ?_⟩
      rw [show m - 1 = mu from by omega]
      exact hp9
  obtain ⟨tail, g2, hloop, hlen⟩ := reconLoop_spec w h st1.parents start
    (fun v m => v.1 < w ∧ v.2 < h ∧ solVis w st1.g v ∧ minD g0 start v m) hwalk
    (w * h + 1) d endp st1.g [] (by omega) ⟨he1, he2, post.hvend, hd⟩
    post.hW post.hH
  rw [hloop]
  refine ⟨(((([] : List (Int × Int)) ++ tail) ++
    [((start.1 : Int), (start.2 : Int))]).reverse, g2), rfl, ?_⟩
  simp [hlen]


theorem getDI_set_eq {l : List Int} {i : Nat} (h : i < l.length) (v d : Int) :
    (l.set i v).getD i d = v := by
  simp [List.getD, List.getElem?_set_self, h]

theorem getDI_set_ne {l : List Int} {i j : Nat} (h : i ≠ j) (v d : Int) :
    (l.set i v).getD j d = l.getD j d := by
  simp [List.getD, List.getElem?_set_ne h]

theorem getD_replicate_self {n j : Nat} (a : Int) :
    (List.replicate n a).getD j a = a := by
  rw [List.getD_eq_getElem?_getD, List.getElem?_replicate]
  split_ifs <;> rfl

theorem stepAdj_irrefl {g : Grid} {u : Nat × Nat} : ¬ stepAdj g u u := by
  rintro ⟨d, hmem, _⟩
  rcases mem_getNeighbors_iff.mp hmem with ⟨hc, he⟩ | ⟨hc, he⟩ | ⟨hc, he⟩ | ⟨hc, he⟩ <;>
    simp only [Prod.mk.injEq] at he <;> obtain ⟨h1, h2, h3⟩ := he <;> omega

theorem tripleLe_refl (a : Int × Nat × Nat) : tripleLe a a = true := by
  unfold tripleLe
  split_ifs <;> first | rfl | omega | simp

theorem tripleLe_total (a b : Int × Nat × Nat) :
    tripleLe a b = true ∨ tripleLe b a = true := by
  unfold tripleLe
  split_ifs <;> simp_all <;> omega

theorem tripleLe_trans {a b c : Int × Nat × Nat} (h1 : tripleLe a b = true)
    (h2 : tripleLe b c = true) : tripleLe a c = true := by
  unfold tripleLe at h1 h2 ⊢
  split_ifs at h1 h2 ⊢ <;> simp_all <;> omega

theorem tripleLe_first {a b : Int × Nat × Nat} (h : tripleLe a b = true) :
    a.1 ≤ b.1 := by
  unfold tripleLe at h
  split_ifs at h <;> omega

theorem foldlMin3_spec :
    ∀ (xs : List (Int × Nat × Nat)) (acc : Int × Nat × Nat),
      (xs.foldl (fun m a => if tripleLe m a then m else a) acc = acc ∨
        xs.foldl (fun m a => if tripleLe m a then m else a) acc ∈ xs) ∧
      tripleLe (xs.foldl (fun m a => if tripleLe m a then m else a) acc) acc = true ∧
      ∀ e ∈ xs, tripleLe (xs.foldl (fun m a => if tripleLe m a then m else a) acc) e
        = true := by
  intro xs
  induction xs with
  | nil =>
    intro acc
    refine ⟨Or.inl rfl, tripleLe_refl acc, ?_⟩
    intro e he
    exact absurd he (List.not_mem_nil e)
  | cons x xs ih =>
    intro acc
    have hfold : (x :: xs).foldl (fun m a => if tripleLe m a then m else a) acc =
        xs.foldl (fun m a => if tripleLe m a then m else a)
          (if tripleLe acc x then acc else x) := rfl
    rw [hfold]
    by_cases hax : tripleLe acc x = true
    · rw [if_pos hax]
      obtain ⟨hmem, hacc, hall⟩ := ih acc
      refine ⟨?_, hacc, ?_⟩
      · rcases hmem with he | hm
        · exact Or.inl he
        · exact Or.inr (List.mem_cons_of_mem x hm)
      · intro e he
        rcases List.mem_cons.mp he with rfl | he2
        · exact tripleLe_trans hacc hax
        · exact hall e he2
    · rw [if_neg hax]
      obtain ⟨hmem, hacc, hall⟩ := ih x
      have hxa : tripleLe x acc = true := by
        rcases tripleLe_total acc x with hc | hc
        · exact absurd hc hax
        · exact hc
      refine ⟨?_, tripleLe_trans hacc hxa, ?_⟩
      · rcases hmem with he | hm
        · exact Or.inr (by rw [he]; exact List.mem_cons_self x xs)
        · exact Or.inr (List.mem_cons_of_mem x hm)
      · intro e he
        rcases List.mem_cons.mp he with rfl | he2
        · exact hacc
        · exact hall e he2

theorem listMin3_spec {l : List (Int × Nat × Nat)} {m : Int × Nat × Nat}
    (h : listMin3 l = some m) : m ∈ l ∧ ∀ e ∈ l, tripleLe m e = true := by
  cases l with
  | nil => exact absurd h (by simp [listMin3])
  | cons x xs =>
    unfold listMin3 at h
    have hm := Option.some.inj h
    obtain ⟨hmem, hacc, hall⟩ := foldlMin3_spec xs x
    subst hm
    constructor
    · rcases hmem with he | hm2
      · rw [he]
        exact List.mem_cons_self x xs
      · exact List.mem_cons_of_mem x hm2
    · intro e he
      rcases List.mem_cons.mp he with rfl | he2
      · exact hacc
      · exact hall e he2

theorem popMin3_nil_iff {l : List (Int × Nat × Nat)} :
    popMin3 l = none ↔ l = [] := by
  cases l with
  | nil => simp [popMin3, listMin3]
  | cons x xs => simp [popMin3, listMin3]

theorem popMin3_some {l : List (Int × Nat × Nat)} {m : Int × Nat × Nat}
    {rest : List (Int × Nat × Nat)} (h : popMin3 l = some (m, rest)) :
    listMin3 l = some m ∧ rest = l.erase m := by
  unfold popMin3 at h
  cases hl : listMin3 l with
  | none =>
    rw [hl] at h
    exact absurd h (by simp)
  | some m2 =>
    rw [hl] at h
    have he := Option.some.inj h
    have h1 : m2 = m := congrArg Prod.fst he
    have h2 : l.erase m2 = rest := congrArg Prod.snd he
    subst h1
    exact ⟨rfl, h2.symm⟩

/-- The cost of one gScore slot in the A* termination measure. -/
def gsCost (cap : Nat) (v : Int) : Nat :=
  if v = -1 then cap + 1 else v.toNat

def aStarMeasure (w h : Nat) (st : AStarState) : Nat :=
  (∑ j ∈ Finset.range (w * h), gsCost (w * h) (st.gScore.getD j (-1))) +
    st.openSet.length

theorem sum_update_le {n i : Nat} (hi : i < n) (f f2 : Nat → Nat)
    (he : ∀ j, j < n → j ≠ i → f2 j = f j) (hd : f2 i + 1 ≤ f i) :
    (∑ j ∈ Finset.range n, f2 j) + 1 ≤ ∑ j ∈ Finset.range n, f j := by
  have h1 := Finset.sum_erase_add (Finset.range n) f2 (Finset.mem_range.mpr hi)
  have h2 := Finset.sum_erase_add (Finset.range n) f (Finset.mem_range.mpr hi)
  have h3 : ∑ j ∈ (Finset.range n).erase i, f2 j =
      ∑ j ∈ (Finset.range n).erase i, f j := by
    apply Finset.sum_congr rfl
    intro j hj
    have hj2 := Finset.mem_erase.mp hj
    exact he j (Finset.mem_range.mp hj2.2) hj2.1

  omega

/-- The body of the A* neighbor scan fold. -/
def aStarStep (heur : Nat × Nat → Nat × Nat → Nat) (endp : Nat × Nat)
    (cx cy : Nat) (currG : Int) (s : AStarState) (p : Nat × Nat × Nat) : AStarState :=
  if s.g.hasWall cx cy p.2.2 then s
  else
    let i := p.2.1 * s.g.width + p.1
    let newG : Int := currG + 1
    let oldG := s.gScore.getD i (-1)
    if oldG = -1 ∨ newG < oldG then
      { g := setBitAt s.g i SOLVER_VISITED,
        openSet := s.openSet ++ [(newG + (heur (p.1, p.2.1) endp : Int), p.1, p.2.1)],
        gScore := s.gScore.set i newG,
        parents := s.parents.set i (OPPOSITE p.2.2) }
    else s

theorem aStarScan_eq (heur : Nat × Nat → Nat × Nat → Nat) (endp : Nat × Nat)
    (cx cy : Nat) (currG : Int) (st : AStarState) :
    aStarScan heur endp cx cy currG st =
      (st.g.getNeighbors cx cy).foldl (aStarStep heur endp cx cy currG) st := rfl

theorem aStarLoop_zero (heur : Nat × Nat → Nat × Nat → Nat) (endp : Nat × Nat)
    (st : AStarState) : aStarLoop heur endp 0 st = st := rfl

theorem aStarLoop_succ (heur : Nat × Nat → Nat × Nat → Nat) (endp : Nat × Nat)
    (fuel : Nat) (st : AStarState) :
    aStarLoop heur endp (fuel + 1) st =
      match popMin3 st.openSet with
      | none => st
      | some ((_, cx, cy), rest) =>
        if (cx, cy) = endp then { st with openSet := rest }
        else
          aStarLoop heur endp fuel
            (aStarScan heur endp cx cy
              (st.gScore.getD (cy * st.g.width + cx) (-1))
              { st with openSet := rest }) := rfl


/-- What the A* neighbor scan does: every open neighbor gets a gScore no
worse than `du + 1`; a slot changes only by relaxation to exactly `du + 1`,
recording the inverse parent direction and pushing a matching open entry;
the measure does not increase. -/
theorem aStarScanAux (g0 : Grid) (w h : Nat) (hW0 : g0.width = w)
    (hH0 : g0.height = h) (endp : Nat × Nat)
    (heur : Nat × Nat → Nat × Nat → Nat) (u : Nat × Nat) (du : Nat)
    (hdub : du + 1 ≤ w * h) (hub1 : u.1 < w) (hub2 : u.2 < h) :
    ∀ (L : List (Nat × Nat × Nat)) (st : AStarState),
    st.g.width = w → st.g.height = h → st.g.cells.length = w * h →
    (∀ j, st.g.cell j &&& 15 = g0.cell j &&& 15) →
    st.gScore.length = w * h → st.parents.length = w * h →
    (∀ p ∈ L, (p.1, p.2.1, p.2.2) ∈ g0.getNeighbors u.1 u.2) →
    (L.foldl (aStarStep heur endp u.1 u.2 (du : Int)) st).g.width = w ∧
    (L.foldl (aStarStep heur endp u.1 u.2 (du : Int)) st).g.height = h ∧
    (L.foldl (aStarStep heur endp u.1 u.2 (du : Int)) st).g.cells.length = w * h ∧
    (∀ j, (L.foldl (aStarStep heur endp u.1 u.2 (du : Int)) st).g.cell j &&& 15 =
      g0.cell j &&& 15) ∧
    (L.foldl (aStarStep heur endp u.1 u.2 (du : Int)) st).gScore.length = w * h ∧
    (L.foldl (aStarStep heur endp u.1 u.2 (du : Int)) st).parents.length = w * h ∧
    (∃ pushed, (L.foldl (aStarStep heur endp u.1 u.2 (du : Int)) st).openSet =
        st.openSet ++ pushed ∧
      ∀ e ∈ pushed, e.2.1 < w ∧ e.2.2 < h ∧ stepAdj g0 u (e.2.1, e.2.2) ∧
        (L.foldl (aStarStep heur endp u.1 u.2 (du : Int)) st).gScore.getD
          (e.2.2 * w + e.2.1) (-1) = (du : Int) + 1 ∧
        e.1 = (du : Int) + 1 + (heur (e.2.1, e.2.2) endp : Int)) ∧
    (∀ j, j < w * h →
      ((L.foldl (aStarStep heur endp u.1 u.2 (du : Int)) st).gScore.getD j (-1) =
          st.gScore.getD j (-1) ∧
        (L.foldl (aStarStep heur endp u.1 u.2 (du : Int)) st).parents.getD j 0 =
          st.parents.getD j 0) ∨
      (∃ v : Nat × Nat, v.1 < w ∧ v.2 < h ∧ j = v.2 * w + v.1 ∧ stepAdj g0 u v ∧
        (st.gScore.getD j (-1) = -1 ∨ (du : Int) + 1 < st.gScore.getD j (-1)) ∧
        (L.foldl (aStarStep heur endp u.1 u.2 (du : Int)) st).gScore.getD j (-1) =
          (du : Int) + 1 ∧
        (L.foldl (aStarStep heur endp u.1 u.2 (du : Int)) st).parents.getD j 0 ≠ 0 ∧
        ((v.1 : Int) +
          DX ((L.foldl (aStarStep heur endp u.1 u.2 (du : Int)) st).parents.getD j 0) =
          (u.1 : Int)) ∧
        ((v.2 : Int) +
          DY ((L.foldl (aStarStep heur endp u.1 u.2 (du : Int)) st).parents.getD j 0) =
          (u.2 : Int)) ∧
        ((du : Int) + 1 + (heur v endp : Int), v.1, v.2) ∈
          (L.foldl (aStarStep heur endp u.1 u.2 (du : Int)) st).openSet)) ∧
    (∀ p ∈ L, g0.hasWall u.1 u.2 p.2.2 = false →
      (L.foldl (aStarStep heur endp u.1 u.2 (du : Int)) st).gScore.getD
        (p.2.1 * w + p.1) (-1) ≠ -1 ∧
      (L.foldl (aStarStep heur endp u.1 u.2 (du : Int)) st).gScore.getD
        (p.2.1 * w + p.1) (-1) ≤ (du : Int) + 1) ∧
    ((∑ j ∈ Finset.range (w * h),
        gsCost (w * h)
          ((L.foldl (aStarStep heur endp u.1 u.2 (du : Int)) st).gScore.getD j (-1))) +
        (L.foldl (aStarStep heur endp u.1 u.2 (du : Int)) st).openSet.length ≤
      (∑ j ∈ Finset.range (w * h), gsCost (w * h) (st.gScore.getD j (-1))) +
        st.openSet.length) := by
  intro L
  induction L with
  | nil =>
    intro st hw hh hl hwall hgl hpl hmemL
    refine ⟨hw, hh, hl, hwall, hgl, hpl, ⟨[], by simp, ?_⟩, ?_, ?_, le_refl _⟩
    · intro e he
      exact absurd he (List.not_mem_nil e)
    · intro j hj
      exact Or.inl ⟨rfl, rfl⟩
    · intro p hp
      exact absurd hp (List.not_mem_nil p)
  | cons q L2 ih =>
    intro st hw hh hl hwall hgl hpl hmemL
    have hq : (q.1, q.2.1, q.2.2) ∈ g0.getNeighbors u.1 u.2 :=
      hmemL q (List.mem_cons_self q L2)
    have hmemL2 : ∀ p ∈ L2, (p.1, p.2.1, p.2.2) ∈ g0.getNeighbors u.1 u.2 :=
      fun p hp => hmemL p (List.mem_cons_of_mem q hp)
    have hqb : q.1 < g0.width ∧ q.2.1 < g0.height :=
      mem_getNeighbors_bounds (by rw [hW0]; exact hub1) (by rw [hH0]; exact hub2) hq
    have hqb1 : q.1 < w := by rw [← hW0]; exact hqb.1
    have hqb2 : q.2.1 < h := by rw [← hH0]; exact hqb.2
    have hqd := dir_of_mem_getNeighbors hq
    have hqi : q.2.1 * w + q.1 < w * h := idx_lt hqb1 hqb2
    have hwallq : st.g.hasWall u.1 u.2 q.2.2 = g0.hasWall u.1 u.2 q.2.2 :=
      hasWall_eq_of_walls (by rw [hw, hW0]) hwall u.1 u.2 q.2.2 hqd
    rw [List.foldl_cons]
    by_cases hwl : st.g.hasWall u.1 u.2 q.2.2 = true
    · have hstep : aStarStep heur endp u.1 u.2 (du : Int) st q = st := by
        unfold aStarStep
        rw [if_pos hwl]
      rw [hstep]
      obtain ⟨r1, r2, r3, r4, r5, r6, r7, r8, r9, r10⟩ :=
        ih st hw hh hl hwall hgl hpl hmemL2
      refine ⟨r1, r2, r3, r4, r5, r6, r7, r8, ?_, r10⟩
      intro p hp hpw
      rcases List.mem_cons.mp hp with rfl | hp2
      · rw [← hwallq] at hpw
        rw [hwl] at hpw
        exact absurd hpw (by simp)
      · exact r9 p hp2 hpw
    · have hwlf : st.g.hasWall u.1 u.2 q.2.2 = false := by
        cases hb : st.g.hasWall u.1 u.2 q.2.2
        · rfl
        · exact absurd hb hwl
      have hg0w : g0.hasWall u.1 u.2 q.2.2 = false := by
        rw [← hwallq]
        exact hwlf
      have hadjq : stepAdj g0 u (q.1, q.2.1) := ⟨q.2.2, hq, hg0w⟩
      have hps := parent_step hq
      by_cases hrel : st.gScore.getD (q.2.1 * st.g.width + q.1) (-1) = -1 ∨
          (du : Int) + 1 < st.gScore.getD (q.2.1 * st.g.width + q.1) (-1)
      · -- relaxation step
        have hstep : aStarStep heur endp u.1 u.2 (du : Int) st q =
            { g := setBitAt st.g (q.2.1 * st.g.width + q.1) SOLVER_VISITED,
              openSet := st.openSet ++
                [((du : Int) + 1 + (heur (q.1, q.2.1) endp : Int), q.1, q.2.1)],
              gScore := st.gScore.set (q.2.1 * st.g.width + q.1) ((du : Int) + 1),
              parents := st.parents.set (q.2.1 * st.g.width + q.1)
                (OPPOSITE q.2.2) } := by
          unfold aStarStep
          rw [if_neg (by rw [hwlf]; simp), if_pos hrel]
        rw [hstep, hw]
        rw [hw] at hrel
        set eq1 : Int × Nat × Nat :=
          ((du : Int) + 1 + (heur (q.1, q.2.1) endp : Int), q.1, q.2.1) with heq1
        set st1 : AStarState :=
          { g := setBitAt st.g (q.2.1 * w + q.1) SOLVER_VISITED,
            openSet := st.openSet ++ [eq1],
            gScore := st.gScore.set (q.2.1 * w + q.1) ((du : Int) + 1),
            parents := st.parents.set (q.2.1 * w + q.1) (OPPOSITE q.2.2) } with hst1
        have hw1 : st1.g.width = w := by rw [hst1]; exact hw
        have hh1 : st1.g.height = h := by rw [hst1]; exact hh
        have hl1 : st1.g.cells.length = w * h := by
          rw [hst1]
          show (setBitAt st.g _ 64).cells.length = w * h
          rw [(setBitAt_effect st.g _ 64 (by decide)).2.2.1]
          exact hl
        have hwall1 : ∀ j, st1.g.cell j &&& 15 = g0.cell j &&& 15 := by
          intro j
          rw [hst1]
          show (setBitAt st.g _ 64).cell j &&& 15 = _
          rw [(setBitAt_effect st.g _ 64 (by decide)).2.2.2 j]
          exact hwall j
        have hgl1 : st1.gScore.length = w * h := by
          rw [hst1]
          show (st.gScore.set _ _).length = w * h
          rw [List.length_set]
          exact hgl
        have hpl1 : st1.parents.length = w * h := by
          rw [hst1]
          show (st.parents.set _ _).length = w * h
          rw [List.length_set]
          exact hpl
        have hgs1i : st1.gScore.getD (q.2.1 * w + q.1) (-1) = (du : Int) + 1 := by
          rw [hst1]
          exact getDI_set_eq (by rw [hgl]; exact hqi) _ _
        have hgs1ne : ∀ j, j ≠ q.2.1 * w + q.1 →
            st1.gScore.getD j (-1) = st.gScore.getD j (-1) := by
          intro j hj
          rw [hst1]
          exact getDI_set_ne (fun he => hj he.symm) _ _
        have hpar1i : st1.parents.getD (q.2.1 * w + q.1) 0 = OPPOSITE q.2.2 := by
          rw [hst1]
          exact getD_set_eq (by rw [hpl]; exact hqi) _
        have hpar1ne : ∀ j, j ≠ q.2.1 * w + q.1 →
            st1.parents.getD j 0 = st.parents.getD j 0 := by
          intro j hj
          rw [hst1]
          exact getD_set_ne (fun he => hj he.symm) _
        obtain ⟨r1, r2, r3, r4, r5, r6, ⟨pushed2, ro, rpu⟩, r8, r9, r10⟩ :=
          ih st1 hw1 hh1 hl1 hwall1 hgl1 hpl1 hmemL2
        have hrgsi : (L2.foldl (aStarStep heur endp u.1 u.2 (du : Int)) st1).gScore.getD
            (q.2.1 * w + q.1) (-1) = (du : Int) + 1 := by
          rcases r8 (q.2.1 * w + q.1) hqi with ⟨he, _⟩ | ⟨v, _, _, _, _, hcond, hval, _⟩
          · rw [he]
            exact hgs1i
          · rw [hgs1i] at hcond
            rcases hcond with hc | hc
            · exact absurd hc (by omega)
            · exact absurd hc (by omega)
        refine ⟨r1, r2, r3, r4, r5, r6, ⟨eq1 :: pushed2, ?_, ?_⟩, ?_, ?_, ?_⟩
        · rw [ro, hst1]
          show st.openSet ++ [eq1] ++ pushed2 = _
          rw [List.append_assoc, List.singleton_append]
        · intro e he
          rcases List.mem_cons.mp he with rfl | he2
          · exact ⟨hqb1, hqb2, hadjq, hrgsi, rfl⟩
          · exact rpu e he2
        · intro j hj
          rcases r8 j hj with ⟨hge, hpe⟩ | ⟨v, hv1, hv2, hvj, hvadj, hcond, hval, hpne,
              hdx, hdy, hment⟩
          · by_cases hji : j = q.2.1 * w + q.1
            · subst hji
              refine Or.inr ⟨(q.1, q.2.1), hqb1, hqb2, rfl, hadjq, hrel, ?_, ?_, ?_, ?_, ?_⟩
              · rw [hge]
                exact hgs1i
              · rw [hpe, hpar1i]
                exact hps.1
              · rw [hpe, hpar1i]
                exact hps.2.1
              · rw [hpe, hpar1i]
                exact hps.2.2
              · rw [ro]
                exact List.mem_append_left _ (by
                  rw [hst1]
                  show eq1 ∈ st.openSet ++ [eq1]
                  exact List.mem_append_right _ (List.mem_singleton.mpr rfl))
            · refine Or.inl ⟨?_, ?_⟩
              · rw [hge]
                exact hgs1ne j hji
              · rw [hpe]
                exact hpar1ne j hji
          · have hji : j ≠ q.2.1 * w + q.1 := by
              intro he
              rw [he, hgs1i] at hcond
              rcases hcond with hc | hc
              · exact absurd hc (by omega)
              · exact absurd hc (by omega)
            refine Or.inr ⟨v, hv1, hv2, hvj, hvadj, ?_, hval, hpne, hdx, hdy, hment⟩
            rw [← hgs1ne j hji]
            exact hcond
        · intro p hp hpw
          rcases List.mem_cons.mp hp with rfl | hp2
          · rw [hrgsi]
            constructor
            · omega
            · omega
          · exact r9 p hp2 hpw
        · have hlen1 : st1.openSet.length = st.openSet.length + 1 := by
            rw [hst1]
            show (st.openSet ++ [eq1]).length = _
            rw [List.length_append, List.length_singleton]
          have hsum1 : (∑ j ∈ Finset.range (w * h),
              gsCost (w * h) (st1.gScore.getD j (-1))) + 1 ≤
              ∑ j ∈ Finset.range (w * h), gsCost (w * h) (st.gScore.getD j (-1)) := by
            apply sum_update_le hqi
            · intro j hj hji
              rw [hgs1ne j hji]
            · rw [hgs1i]
              unfold gsCost
              rw [if_neg (by omega)]
              rcases hrel with hc | hc
              · rw [hc]
                rw [if_pos rfl]
                omega
              · rw [if_neg (by omega)]
                omega
          omega
      · -- no relaxation: the state is unchanged
        have hstep : aStarStep heur endp u.1 u.2 (du : Int) st q = st := by
          unfold aStarStep
          rw [if_neg (by rw [hwlf]; simp), if_neg hrel]
        rw [hstep]
        rw [hw] at hrel
        have hold : st.gScore.getD (q.2.1 * w + q.1) (-1) ≠ -1 ∧
            st.gScore.getD (q.2.1 * w + q.1) (-1) ≤ (du : Int) + 1 := by
          constructor
          · intro hc
            exact hrel (Or.inl hc)
          · by_contra hc
            exact hrel (Or.inr (by omega))
        obtain ⟨r1, r2, r3, r4, r5, r6, r7, r8, r9, r10⟩ :=
          ih st hw hh hl hwall hgl hpl hmemL2
        refine ⟨r1, r2, r3, r4, r5, r6, r7, r8, ?_, r10⟩
        intro p hp hpw
        rcases List.mem_cons.mp hp with rfl | hp2
        · rcases r8 (p.2.1 * w + p.1) hqi with ⟨he, _⟩ | ⟨v, _, _, _, _, _, hval, _⟩
          · rw [he]
            exact hold
          · rw [hval]
            constructor
            · omega
            · omega
        · exact r9 p hp2 hpw


/-- Loop invariant for A*, parametrized by the ghost set `C` of expanded
("closed") nodes. -/
structure AStarInv (g0 : Grid) (w h : Nat) (start endp : Nat × Nat)
    (heur : Nat × Nat → Nat × Nat → Nat) (C : Nat × Nat → Prop)
    (st : AStarState) : Prop where
  hW : st.g.width = w
  hH : st.g.height = h
  hL : st.g.cells.length = w * h
  hwall : ∀ j, st.g.cell j &&& 15 = g0.cell j &&& 15
  hGlen : st.gScore.length = w * h
  hPlen : st.parents.length = w * h
  hstart0 : st.gScore.getD (start.2 * w + start.1) (-1) = 0
  hreal : ∀ v : Nat × Nat, v.1 < w → v.2 < h →
    st.gScore.getD (v.2 * w + v.1) (-1) ≠ -1 →
    ∃ n : Nat, st.gScore.getD (v.2 * w + v.1) (-1) = (n : Int) ∧
      stepChain g0 n start v
  hent : ∀ e ∈ st.openSet, e.2.1 < w ∧ e.2.2 < h ∧
    st.gScore.getD (e.2.2 * w + e.2.1) (-1) ≠ -1 ∧
    (e.2 = start ∨
      st.gScore.getD (e.2.2 * w + e.2.1) (-1) + (heur e.2 endp : Int) ≤ e.1)
  hK : ∀ v : Nat × Nat, v.1 < w → v.2 < h →
    st.gScore.getD (v.2 * w + v.1) (-1) ≠ -1 →
    C v ∨ ∃ f : Int,
      f ≤ st.gScore.getD (v.2 * w + v.1) (-1) + (heur v endp : Int) ∧
      (f, v.1, v.2) ∈ st.openSet
  hCmem : ∀ v : Nat × Nat, C v → v.1 < w ∧ v.2 < h ∧ ∃ dv : Nat,
    minD g0 start v dv ∧ st.gScore.getD (v.2 * w + v.1) (-1) = (dv : Int) ∧
    ∀ u2 : Nat × Nat, stepAdj g0 v u2 →
      st.gScore.getD (u2.2 * w + u2.1) (-1) ≠ -1 ∧
      st.gScore.getD (u2.2 * w + u2.1) (-1) ≤ (dv : Int) + 1
  hpar : ∀ v : Nat × Nat, v.1 < w → v.2 < h → v ≠ start →
    st.gScore.getD (v.2 * w + v.1) (-1) ≠ -1 →
    ∃ (p : Nat) (u : Nat × Nat), st.parents.getD (v.2 * w + v.1) 0 = p ∧ p ≠ 0 ∧
      ((v.1 : Int) + DX p = u.1) ∧ ((v.2 : Int) + DY p = u.2) ∧
      u.1 < w ∧ u.2 < h ∧ stepAdj g0 u v ∧
      st.gScore.getD (u.2 * w + u.1) (-1) ≠ -1 ∧
      st.gScore.getD (u.2 * w + u.1) (-1) + 1 ≤ st.gScore.getD (v.2 * w + v.1) (-1)

/-- Every distance value is either already settled in the gScore array, or
there is a live open entry sitting on a minimal chain towards the node,
with f-value at most its exact distance plus its heuristic. -/
theorem live_entry {g0 : Grid} {w h : Nat} {start endp : Nat × Nat}
    {heur : Nat × Nat → Nat × Nat → Nat} {C : Nat × Nat → Prop} {st : AStarState}
    (inv : AStarInv g0 w h start endp heur C st) (hW0 : g0.width = w)
    (hH0 : g0.height = h) (hsb1 : start.1 < w) (hsb2 : start.2 < h) :
    ∀ (dz : Nat) (z : Nat × Nat), minD g0 start z dz →
      st.gScore.getD (z.2 * w + z.1) (-1) = (dz : Int) ∨
      ∃ (k : Nat) (y : Nat × Nat) (f : Int), k ≤ dz ∧ minD g0 start y k ∧
        stepChain g0 (dz - k) y z ∧ f ≤ (k : Int) + (heur y endp : Int) ∧
        (f, y.1, y.2) ∈ st.openSet ∧
        st.gScore.getD (y.2 * w + y.1) (-1) = (k : Int) := by
  intro dz
  induction dz with
  | zero =>
    intro z hz
    have he : start = z := minD_zero hz
    subst he
    exact Or.inl inv.hstart0
  | succ n ih =>
    intro z hz
    obtain ⟨z2, hcz2, hlast⟩ := stepChain_split n (by omega) hz.1
    have hadj : stepAdj g0 z2 z := by
      apply stepChain_one
      rw [show n + 1 - n = 1 from by omega] at hlast
      exact hlast
    have hz2m : minD g0 start z2 n := minD_prefix hz (by omega) hcz2 hlast
    have hz2b : z2.1 < w ∧ z2.2 < h := by
      have := stepChain_bounds (a := start) (by rw [hW0]; exact hsb1)
        (by rw [hH0]; exact hsb2) hcz2
      rw [hW0, hH0] at this
      exact this
    have hzb : z.1 < w ∧ z.2 < h := by
      have := stepChain_bounds (a := start) (by rw [hW0]; exact hsb1)
        (by rw [hH0]; exact hsb2) hz.1
      rw [hW0, hH0] at this
      exact this
    rcases ih z2 hz2m with hset | ⟨k, y, f, hk, hy, hcyz, hf, hmem, hgy⟩
    · have hz2ne : st.gScore.getD (z2.2 * w + z2.1) (-1) ≠ -1 := by
        rw [hset]
        omega
      rcases inv.hK z2 hz2b.1 hz2b.2 hz2ne with hC | ⟨f, hf, hmem⟩
      · obtain ⟨_, _, dv, hdv, hgv, hnb⟩ := inv.hCmem z2 hC
        have hdvn : dv = n := minD_unique hdv hz2m
        obtain ⟨hzne, hzle⟩ := hnb z hadj
        obtain ⟨m, hgm, hcm⟩ := inv.hreal z hzb.1 hzb.2 hzne
        have hmge : n + 1 ≤ m := hz.2 m hcm
        have hmle : m ≤ n + 1 := by
          rw [hdvn] at hzle
          rw [hgm] at hzle
          omega
        left
        rw [hgm]
        have hmn : m = n + 1 := by omega
        exact_mod_cast congrArg Nat.cast hmn
      · right
        refine ⟨n, z2, f, by omega, hz2m, ?_, ?_, hmem, hset⟩
        · rw [show n + 1 - n = 1 from by omega]
          exact ⟨z, hadj, show z = z from rfl⟩
        · rw [hset] at hf
          exact hf
    · right
      refine ⟨k, y, f, by omega, hy, ?_, hf, hmem, hgy⟩
      have hsnoc := stepChain_snoc hcyz hadj
      rw [show n + 1 - k = (n - k) + 1 from by omega]
      exact hsnoc

/-- Whenever A* pops a minimum entry, that node's gScore is already its
exact distance from the start (for a consistent heuristic). -/
theorem pop_settled {g0 : Grid} {w h : Nat} {start endp : Nat × Nat}
    {heur : Nat × Nat → Nat × Nat → Nat} {C : Nat × Nat → Prop} {st : AStarState}
    (inv : AStarInv g0 w h start endp heur C st) (hW0 : g0.width = w)
    (hH0 : g0.height = h) (hsb1 : start.1 < w) (hsb2 : start.2 < h)
    (hcons : ∀ a b, stepAdj g0 a b → heur a endp ≤ heur b endp + 1)
    (f0 : Int) (u : Nat × Nat) (hmem : (f0, u.1, u.2) ∈ st.openSet)
    (hmin : ∀ e ∈ st.openSet, tripleLe (f0, u.1, u.2) e = true) :
    ∃ du : Nat, minD g0 start u du ∧
      st.gScore.getD (u.2 * w + u.1) (-1) = (du : Int) := by
  obtain ⟨hb1, hb2, hgne, hor⟩ := inv.hent (f0, u.1, u.2) hmem
  obtain ⟨n, hgn, hcn⟩ := inv.hreal u hb1 hb2 hgne
  obtain ⟨du, hdu⟩ := minD_exists n hcn
  by_cases hus : u = start
  · subst hus
    exact ⟨0, minD_self g0 u, inv.hstart0⟩
  · have hf0 : st.gScore.getD (u.2 * w + u.1) (-1) + (heur u endp : Int) ≤ f0 := by
      rcases hor with he | hle
      · exact absurd he hus
      · exact hle
    rcases live_entry inv hW0 hH0 hsb1 hsb2 du u hdu with hset |
      ⟨k, y, fy, hk, hy, hcyu, hfy, hmemy, hgy⟩
    · exact ⟨du, hdu, hset⟩
    · have hmf : f0 ≤ fy := tripleLe_first (hmin (fy, y.1, y.2) hmemy)
      have htel := heur_telescope hcons (du - k) y u hcyu
      have htel2 : (heur y endp : Int) ≤ ((du : Int) - (k : Int)) +
          (heur u endp : Int) := by omega
      have hgled : st.gScore.getD (u.2 * w + u.1) (-1) ≤ (du : Int) := by omega
      refine ⟨du, hdu, ?_⟩
      rw [hgn]
      rw [hgn] at hgled
      have hnd : n = du := by
        have hdn : du ≤ n := hdu.2 n hcn
        omega
      exact_mod_cast congrArg Nat.cast hnd


/-- What holds when the A* loop stops: the end cell's gScore is the exact
distance, and parent pointers strictly decrease realizable gScores. -/
structure AStarPost (g0 : Grid) (w h : Nat) (start endp : Nat × Nat) (d : Nat)
    (st : AStarState) : Prop where
  hW : st.g.width = w
  hH : st.g.height = h
  hgse : st.gScore.getD (endp.2 * w + endp.1) (-1) = (d : Int)
  hstart0 : st.gScore.getD (start.2 * w + start.1) (-1) = 0
  hreal : ∀ v : Nat × Nat, v.1 < w → v.2 < h →
    st.gScore.getD (v.2 * w + v.1) (-1) ≠ -1 →
    ∃ n : Nat, st.gScore.getD (v.2 * w + v.1) (-1) = (n : Int) ∧
      stepChain g0 n start v
  hpar : ∀ v : Nat × Nat, v.1 < w → v.2 < h → v ≠ start →
    st.gScore.getD (v.2 * w + v.1) (-1) ≠ -1 →
    ∃ (p : Nat) (u : Nat × Nat), st.parents.getD (v.2 * w + v.1) 0 = p ∧ p ≠ 0 ∧
      ((v.1 : Int) + DX p = u.1) ∧ ((v.2 : Int) + DY p = u.2) ∧
      u.1 < w ∧ u.2 < h ∧ stepAdj g0 u v ∧
      st.gScore.getD (u.2 * w + u.1) (-1) ≠ -1 ∧
      st.gScore.getD (u.2 * w + u.1) (-1) + 1 ≤ st.gScore.getD (v.2 * w + v.1) (-1)

/-- The A* loop maintains its invariant and, given enough fuel, settles the
end cell at its exact distance. -/
theorem aStarLoop_main (g0 : Grid) (w h : Nat) (start endp : Nat × Nat)
    (heur : Nat × Nat → Nat × Nat → Nat)
    (hW0 : g0.width = w) (hH0 : g0.height = h)
    (hsb1 : start.1 < w) (hsb2 : start.2 < h)
    (hcons : ∀ a b, stepAdj g0 a b → heur a endp ≤ heur b endp + 1)
    (d : Nat) (hd : minD g0 start endp d) :
    ∀ (fuel : Nat) (st : AStarState) (C : Nat × Nat → Prop),
      AStarInv g0 w h start endp heur C st → aStarMeasure w h st < fuel →
      AStarPost g0 w h start endp d (aStarLoop heur endp fuel st) := by
  intro fuel
  induction fuel with
  | zero =>
    intro st C inv hm
    exact absurd hm (by omega)
  | succ fuel ih =>
    intro st C inv hm
    rw [aStarLoop_succ]
    cases hpop : popMin3 st.openSet with
    | none =>
      show AStarPost g0 w h start endp d st
      have hnil : st.openSet = [] := popMin3_nil_iff.mp hpop
      have hgse : st.gScore.getD (endp.2 * w + endp.1) (-1) = (d : Int) := by
        rcases live_entry inv hW0 hH0 hsb1 hsb2 d endp hd with hset |
          ⟨k, y, f, _, _, _, _, hmemy, _⟩
        · exact hset
        · rw [hnil] at hmemy
          exact absurd hmemy (List.not_mem_nil _)
      exact ⟨inv.hW, inv.hH, hgse, inv.hstart0, inv.hreal, inv.hpar⟩
    | some pr =>
      obtain ⟨⟨f0, cx, cy⟩, rest⟩ := pr
      show AStarPost g0 w h start endp d
        (if (cx, cy) = endp then { st with openSet := rest }
         else aStarLoop heur endp fuel
           (aStarScan heur endp cx cy (st.gScore.getD (cy * st.g.width + cx) (-1))
             { st with openSet := rest }))
      obtain ⟨hlm, hrest⟩ := popMin3_some hpop
      obtain ⟨hmemm, hminl⟩ := listMin3_spec hlm
      obtain ⟨du, hdu, hgdu⟩ :=
        pop_settled inv hW0 hH0 hsb1 hsb2 hcons f0 (cx, cy) hmemm hminl
      dsimp only at hgdu
      obtain ⟨hub1, hub2, hgne, _⟩ := inv.hent (f0, cx, cy) hmemm
      dsimp only at hub1 hub2 hgne
      by_cases hue : ((cx, cy) : Nat × Nat) = endp
      · rw [if_pos hue]
        have hde : du = d := by
          rw [hue] at hdu
          exact minD_unique hdu hd
        refine ⟨inv.hW, inv.hH, ?_, inv.hstart0, inv.hreal, inv.hpar⟩
        show st.gScore.getD (endp.2 * w + endp.1) (-1) = (d : Int)
        have hc1 : cx = endp.1 := congrArg Prod.fst hue
        have hc2 : cy = endp.2 := congrArg Prod.snd hue
        rw [hc1, hc2] at hgdu
        rw [hde] at hgdu
        exact hgdu
      · rw [if_neg hue]
        have hcur : st.gScore.getD (cy * st.g.width + cx) (-1) = (du : Int) := by
          rw [inv.hW]
          exact hgdu
        rw [hcur, aStarScan_eq]
        dsimp only
        have hgnb : st.g.getNeighbors cx cy = g0.getNeighbors cx cy :=
          getNeighbors_congr (by rw [inv.hW, hW0]) (by rw [inv.hH, hH0]) cx cy
        have hmemL : ∀ p ∈ st.g.getNeighbors cx cy,
            (p.1, p.2.1, p.2.2) ∈ g0.getNeighbors cx cy := by
          intro p hp
          rw [hgnb] at hp
          exact hp
        have hdub : du + 1 ≤ w * h := by
          have h1 := minD_le_cells (a := start) (by rw [hW0]; exact hsb1)
            (by rw [hH0]; exact hsb2) hdu
          rw [hW0, hH0] at h1
          have h2 : 0 < w * h := Nat.mul_pos (by omega) (by omega)
          omega
        obtain ⟨s1, s2, s3, s4, s5, s6, ⟨pushed, so, spu⟩, s8, s9, s10⟩ :=
          aStarScanAux g0 w h hW0 hH0 endp heur (cx, cy) du hdub hub1 hub2
            (st.g.getNeighbors cx cy) { st with openSet := rest }
            inv.hW inv.hH inv.hL inv.hwall inv.hGlen inv.hPlen hmemL
        dsimp only at s1 s2 s3 s4 s5 s6 so spu s8 s9 s10
        set R := (st.g.getNeighbors cx cy).foldl
          (aStarStep heur endp cx cy (du : Int)) { st with openSet := rest } with hR
        have hmono : ∀ j, j < w * h → st.gScore.getD j (-1) ≠ -1 →
            R.gScore.getD j (-1) ≠ -1 ∧
            R.gScore.getD j (-1) ≤ st.gScore.getD j (-1) := by
          intro j hj hjne
          rcases s8 j hj with ⟨hge, _⟩ | ⟨v2, _, _, _, _, hcond, hval, _, _, _, _⟩
          · rw [hge]
            exact ⟨hjne, le_refl _⟩
          · rw [hval]
            rcases hcond with hc | hc
            · exact absurd hc hjne
            · constructor
              · omega
              · omega
        have hRgsu : R.gScore.getD (cy * w + cx) (-1) = (du : Int) := by
          rcases s8 (cy * w + cx) (idx_lt hub1 hub2) with ⟨hge, _⟩ |
            ⟨v2, hv21, hv22, hvj, hadj, _, _, _, _, _, _⟩
          · rw [hge]
            exact hgdu
          · have hcc := idx_inj hub1 hv21 hvj
            have hveq : v2 = ((cx, cy) : Nat × Nat) := Prod.ext hcc.1.symm hcc.2.symm
            rw [hveq] at hadj
            exact absurd hadj stepAdj_irrefl
        have hmlt : aStarMeasure w h R < fuel := by
          have hp1 := List.length_erase_of_mem hmemm
          have hp2 := List.length_pos_of_mem hmemm
          have hlrest : rest.length + 1 = st.openSet.length := by
            rw [hrest]
            omega
          unfold aStarMeasure at hm ⊢
          omega
        refine ih R (fun v => v = ((cx, cy) : Nat × Nat) ∨ C v) ?_ hmlt
        refine ⟨s1, s2, s3, s4, s5, s6, ?_, ?_, ?_, ?_, ?_, ?_⟩
        · -- hstart0
          rcases s8 (start.2 * w + start.1) (idx_lt hsb1 hsb2) with ⟨hge, _⟩ |
            ⟨v2, _, _, _, _, hcond, _, _, _, _, _⟩
          · rw [hge]
            exact inv.hstart0
          · rw [inv.hstart0] at hcond
            rcases hcond with hc | hc
            · exact absurd hc (by omega)
            · exact absurd hc (by omega)
        · -- hreal
          intro v hv1 hv2 hne
          rcases s8 (v.2 * w + v.1) (idx_lt hv1 hv2) with ⟨hge, _⟩ |
            ⟨v2, hv21, hv22, hvj, hadj, hcond, hval, _, _, _, _⟩
          · rw [hge] at hne ⊢
            exact inv.hreal v hv1 hv2 hne
          · have hcc := idx_inj hv1 hv21 hvj
            have hveq : v2 = v := Prod.ext hcc.1.symm hcc.2.symm
            rw [hveq] at hadj
            refine ⟨du + 1, ?_, ?_⟩
            · rw [hval]
              omega
            · exact stepChain_snoc hdu.1 hadj
        · -- hent
          intro e he
          rw [so] at he
          rcases List.mem_append.mp he with hrest2 | hpu
          · have hel : e ∈ st.openSet := by
              rw [hrest] at hrest2
              exact List.mem_of_mem_erase hrest2
            obtain ⟨hb1, hb2, hne, hor⟩ := inv.hent e hel
            obtain ⟨hne', hle'⟩ := hmono (e.2.2 * w + e.2.1) (idx_lt hb1 hb2) hne
            refine ⟨hb1, hb2, hne', ?_⟩
            rcases hor with he2 | hle
            · exact Or.inl he2
            · right
              omega
          · obtain ⟨hb1, hb2, hadj, hval, hf⟩ := spu e hpu
            refine ⟨hb1, hb2, ?_, Or.inr ?_⟩
            · rw [hval]
              omega
            · rw [hval, hf]
        · -- hK
          intro v hv1 hv2 hne
          rcases s8 (v.2 * w + v.1) (idx_lt hv1 hv2) with ⟨hge, _⟩ |
            ⟨v2, hv21, hv22, hvj, hadj, hcond, hval, _, _, _, hment⟩
          · rw [hge] at hne
            rcases inv.hK v hv1 hv2 hne with hC | ⟨f, hf, hfm⟩
            · exact Or.inl (Or.inr hC)
            · by_cases hvm : ((f, v.1, v.2) : Int × Nat × Nat) = (f0, cx, cy)
              · left
                left
                have h1 : v.1 = cx := congrArg (fun t => t.2.1) hvm
                have h2 : v.2 = cy := congrArg (fun t => t.2.2) hvm
                exact Prod.ext h1 h2
              · right
                refine ⟨f, ?_, ?_⟩
                · rw [hge]
                  exact hf
                · rw [so]
                  apply List.mem_append_left
                  rw [hrest]
                  exact (List.mem_erase_of_ne hvm).mpr hfm
          · have hcc := idx_inj hv1 hv21 hvj
            have hveq : v2 = v := Prod.ext hcc.1.symm hcc.2.symm
            right
            refine ⟨(du : Int) + 1 + (heur v endp : Int), ?_, ?_⟩
            · rw [hval]
            · rw [← hveq]
              exact hment
        · -- hCmem
          intro v hCv
          rcases hCv with hvequ | hCv2
          · subst hvequ
            refine ⟨hub1, hub2, du, hdu, ?_, ?_⟩
            · exact hRgsu
            · intro u2 hadj2
              obtain ⟨d2, hd2mem, hd2w⟩ := hadj2
              have hp2 : ((u2.1, u2.2, d2) : Nat × Nat × Nat) ∈
                  st.g.getNeighbors cx cy := by
                rw [hgnb]
                exact hd2mem
              exact s9 (u2.1, u2.2, d2) hp2 hd2w
          · obtain ⟨hb1, hb2, dv, hdv, hgv, hnb⟩ := inv.hCmem v hCv2
            refine ⟨hb1, hb2, dv, hdv, ?_, ?_⟩
            · rcases s8 (v.2 * w + v.1) (idx_lt hb1 hb2) with ⟨hge, _⟩ |
                ⟨v2, hv21, hv22, hvj, hadj, hcond, _, _, _, _, _⟩
              · rw [hge]
                exact hgv
              · have hcc := idx_inj hb1 hv21 hvj
                have hveq : v2 = v := Prod.ext hcc.1.symm hcc.2.symm
                rw [hveq] at hadj
                have hdvle : dv ≤ du + 1 := hdv.2 (du + 1) (stepChain_snoc hdu.1 hadj)
                rw [hgv] at hcond
                rcases hcond with hc | hc
                · exact absurd hc (by omega)
                · exact absurd hc (by omega)
            · intro u2 hadj2
              obtain ⟨hne2, hle2⟩ := hnb u2 hadj2
              have hub2b : u2.1 < w ∧ u2.2 < h := by
                have := stepAdj_bounds (g := g0) (by rw [hW0]; exact hb1)
                  (by rw [hH0]; exact hb2) hadj2
                rw [hW0, hH0] at this
                exact this
              obtain ⟨hne', hle'⟩ :=
                hmono (u2.2 * w + u2.1) (idx_lt hub2b.1 hub2b.2) hne2
              exact ⟨hne', le_trans hle' hle2⟩
        · -- hpar
          intro v hv1 hv2 hvs hne
          rcases s8 (v.2 * w + v.1) (idx_lt hv1 hv2) with ⟨hge, hpe⟩ |
            ⟨v2, hv21, hv22, hvj, hadj, hcond, hval, hpne, hdx, hdy, _⟩
          · rw [hge] at hne
            obtain ⟨p, u2, hp, hpnz, hdx, hdy, hu1, hu2, hadj2, hune, hule⟩ :=
              inv.hpar v hv1 hv2 hvs hne
            obtain ⟨hune', hule'⟩ := hmono (u2.2 * w + u2.1) (idx_lt hu1 hu2) hune
            refine ⟨p, u2, ?_, hpnz, hdx, hdy, hu1, hu2, hadj2, hune', ?_⟩
            · rw [hpe]
              exact hp
            · rw [hge]
              omega
          · have hcc := idx_inj hv1 hv21 hvj
            have hveq : v2 = v := Prod.ext hcc.1.symm hcc.2.symm
            rw [hveq] at hadj hdx hdy
            refine ⟨R.parents.getD (v.2 * w + v.1) 0, (cx, cy), rfl, hpne, hdx, hdy,
              hub1, hub2, hadj, ?_, ?_⟩
            · show R.gScore.getD (cy * w + cx) (-1) ≠ -1
              rw [hRgsu]
              omega
            · show R.gScore.getD (cy * w + cx) (-1) + 1 ≤
                R.gScore.getD (v.2 * w + v.1) (-1)
              rw [hRgsu, hval]


theorem aStarRun_eq (heur : Nat × Nat → Nat × Nat → Nat) (g : Grid)
    (start endp : Nat × Nat) (fuel rfuel si : Nat)
    (hsi : g.getIndex (start.1 : Int) (start.2 : Int) = Except.ok si) :
    aStarRun heur g start endp fuel rfuel =
      aStarReconstructPath rfuel
        (aStarLoop heur endp fuel
          { g := setBitAt g si SOLVER_VISITED,
            openSet := [((0 : Int), start.1, start.2)],
            gScore := (List.replicate (g.width * g.height) (-1 : Int)).set si 0,
            parents := List.replicate (g.width * g.height) 0 }).g
        (aStarLoop heur endp fuel
          { g := setBitAt g si SOLVER_VISITED,
            openSet := [((0 : Int), start.1, start.2)],
            gScore := (List.replicate (g.width * g.height) (-1 : Int)).set si 0,
            parents := List.replicate (g.width * g.height) 0 }).gScore
        (aStarLoop heur endp fuel
          { g := setBitAt g si SOLVER_VISITED,
            openSet := [((0 : Int), start.1, start.2)],
            gScore := (List.replicate (g.width * g.height) (-1 : Int)).set si 0,
            parents := List.replicate (g.width * g.height) 0 }).parents
        start endp := by
  unfold aStarRun
  rw [hsi]

theorem aStarReconstructPath_eq (rfuel : Nat) (g : Grid) (gScore : List Int)
    (parents : List Nat) (start endp : Nat × Nat) (ei : Nat)
    (hei : g.getIndex (endp.1 : Int) (endp.2 : Int) = Except.ok ei)
    (hvis : ¬(gScore.getD ei (-1) = -1 ∧ start ≠ endp)) :
    aStarReconstructPath rfuel g gScore parents start endp =
      match reconLoop parents start rfuel g ((endp.1 : Int), (endp.2 : Int)) [] with
      | Except.error e => Except.error e
      | Except.ok (acc, g2) =>
        Except.ok ((acc ++ [((start.1 : Int), (start.2 : Int))]).reverse, g2) := by
  unfold aStarReconstructPath
  rw [hei]
  show (if gScore.getD ei (-1) = -1 ∧ start ≠ endp then Except.ok ([], g)
    else match reconLoop parents start rfuel g ((endp.1 : Int), (endp.2 : Int)) [] with
      | Except.error e => Except.error e
      | Except.ok (acc, g2) =>
        Except.ok ((acc ++ [((start.1 : Int), (start.2 : Int))]).reverse, g2)) = _
  rw [if_neg hvis]

/-- The A* solver with any consistent heuristic returns a path of exactly
the shortest-chain cell count `d + 1`. -/
theorem aStarRun_correct (g0 : Grid) (w h : Nat) (hW0 : g0.width = w)
    (hH0 : g0.height = h) (hlen0 : g0.cells.length = w * h)
    (start endp : Nat × Nat) (hs1 : start.1 < w) (hs2 : start.2 < h)
    (he1 : endp.1 < w) (he2 : endp.2 < h)
    (heur : Nat × Nat → Nat × Nat → Nat)
    (hcons : ∀ a b, stepAdj g0 a b → heur a endp ≤ heur b endp + 1)
    (d : Nat) (hd : minD g0 start endp d) :
    ∃ pg : List (Int × Int) × Grid,
      aStarRun heur g0 start endp (w * h * (w * h + 1) + 2) (w * h + 1) =
        Except.ok pg ∧ pg.1.length = d + 1 := by
  have hsi := getIndex_ok hW0 hH0 (v := start) hs1 hs2
  rw [aStarRun_eq heur g0 start endp _ _ _ hsi]
  have hsilt : start.2 * w + start.1 < w * h := idx_lt hs1 hs2
  have heff := setBitAt_effect g0 (start.2 * w + start.1) 64 (by decide)
  set st0 : AStarState :=
    { g := setBitAt g0 (start.2 * w + start.1) SOLVER_VISITED,
      openSet := [((0 : Int), start.1, start.2)],
      gScore := (List.replicate (g0.width * g0.height) (-1 : Int)).set
        (start.2 * w + start.1) 0,
      parents := List.replicate (g0.width * g0.height) 0 } with hst0
  have hgs0 : ∀ j, st0.gScore.getD j (-1) =
      if j = start.2 * w + start.1 then 0 else -1 := by
    intro j
    show ((List.replicate (g0.width * g0.height) (-1 : Int)).set
      (start.2 * w + start.1) 0).getD j (-1) = _
    by_cases hji : j = start.2 * w + start.1
    · subst hji
      rw [if_pos rfl]
      exact getDI_set_eq (by rw [List.length_replicate, hW0, hH0]; exact hsilt) _ _
    · rw [if_neg hji]
      rw [getDI_set_ne (fun he => hji he.symm) _ _]
      exact getD_replicate_self _
  have hvstart : st0.gScore.getD (start.2 * w + start.1) (-1) = 0 := by
    rw [hgs0, if_pos rfl]
  have inv0 : AStarInv g0 w h start endp heur (fun _ => False) st0 := by
    refine ⟨?_, ?_, ?_, ?_, ?_, ?_, hvstart, ?_, ?_, ?_, ?_, ?_⟩
    · show (setBitAt g0 _ 64).width = w
      rw [heff.1]
      exact hW0
    · show (setBitAt g0 _ 64).height = h
      rw [heff.2.1]
      exact hH0
    · show (setBitAt g0 _ 64).cells.length = w * h
      rw [heff.2.2.1]
      exact hlen0
    · intro j
      show (setBitAt g0 _ 64).cell j &&& 15 = _
      exact heff.2.2.2 j
    · show ((List.replicate (g0.width * g0.height) (-1 : Int)).set
        (start.2 * w + start.1) 0).length = w * h
      rw [List.length_set, List.length_replicate, hW0, hH0]
    · show (List.replicate (g0.width * g0.height) (0 : Nat)).length = w * h
      rw [List.length_replicate, hW0, hH0]
    · intro v hv1 hv2 hne
      by_cases hji : v.2 * w + v.1 = start.2 * w + start.1
      · have hcc := idx_inj hv1 hs1 hji
        have hveq : v = start := Prod.ext hcc.1 hcc.2
        subst hveq
        refine ⟨0, ?_, show v = v from rfl⟩
        rw [hvstart]
        omega
      · rw [hgs0, if_neg hji] at hne
        exact absurd rfl hne
    · intro e he
      rw [List.mem_singleton] at he
      subst he
      refine ⟨hs1, hs2, ?_, Or.inl rfl⟩
      show st0.gScore.getD (start.2 * w + start.1) (-1) ≠ -1
      rw [hvstart]
      omega
    · intro v hv1 hv2 hne
      by_cases hji : v.2 * w + v.1 = start.2 * w + start.1
      · have hcc := idx_inj hv1 hs1 hji
        have hveq : v = start := Prod.ext hcc.1 hcc.2
        subst hveq
        right
        refine ⟨0, ?_, ?_⟩
        · rw [hvstart]
          omega
        · show ((0 : Int), v.1, v.2) ∈ [((0 : Int), v.1, v.2)]
          exact List.mem_singleton.mpr rfl
      · rw [hgs0, if_neg hji] at hne
        exact absurd rfl hne
    · intro v hf
      exact hf.elim
    · intro v hv1 hv2 hvs hne
      by_cases hji : v.2 * w + v.1 = start.2 * w + start.1
      · have hcc := idx_inj hv1 hs1 hji
        exact absurd (Prod.ext hcc.1 hcc.2) hvs
      · rw [hgs0, if_neg hji] at hne
        exact absurd rfl hne
  have hmeas0 : aStarMeasure w h st0 < w * h * (w * h + 1) + 2 := by
    unfold aStarMeasure
    have hlen : st0.openSet.length = 1 := rfl
    have hsum : (∑ j ∈ Finset.range (w * h),
        gsCost (w * h) (st0.gScore.getD j (-1))) ≤ w * h * (w * h + 1) := by
      calc (∑ j ∈ Finset.range (w * h), gsCost (w * h) (st0.gScore.getD j (-1)))
          ≤ ∑ _j ∈ Finset.range (w * h), (w * h + 1) := by
            apply Finset.sum_le_sum
            intro j hj
            rw [hgs0]
            unfold gsCost
            split_ifs <;> omega
        _ = w * h * (w * h + 1) := by
            rw [Finset.sum_const, Finset.card_range, smul_eq_mul]
    rw [hlen]
    omega
  have post := aStarLoop_main g0 w h start endp heur hW0 hH0 hs1 hs2 hcons d hd
    (w * h * (w * h + 1) + 2) st0 (fun _ => False) inv0 hmeas0
  set L1 := aStarLoop heur endp (w * h * (w * h + 1) + 2) st0 with hL1
  have hei := getIndex_ok post.hW post.hH (v := endp) he1 he2
  have hvise : ¬(L1.gScore.getD (endp.2 * w + endp.1) (-1) = -1 ∧
      start ≠ endp) := by
    intro hcc
    rw [post.hgse] at hcc
    have := hcc.1
    omega
  rw [aStarReconstructPath_eq _ _ _ _ _ _ _ hei hvise]
  have hdb : d ≤ w * h - 1 := by
    have := minD_le_cells (a := start) (by rw [hW0]; exact hs1)
      (by rw [hH0]; exact hs2) hd
    rw [hW0, hH0] at this
    exact this
  have hwalk : ∀ (v : Nat × Nat) (m : Nat),
      (v.1 < w ∧ v.2 < h ∧
        L1.gScore.getD (v.2 * w + v.1) (-1) = (m : Int) ∧ minD g0 start v m) →
      v.1 < w ∧ v.2 < h ∧ (v = start ↔ m = 0) ∧
      (0 < m → ∃ p u, L1.parents.getD (v.2 * w + v.1) 0 = p ∧ p ≠ 0 ∧
        ((v.1 : Int) + DX p = u.1) ∧ ((v.2 : Int) + DY p = u.2) ∧
        u.1 < w ∧ u.2 < h ∧
        (u.1 < w ∧ u.2 < h ∧
          L1.gScore.getD (u.2 * w + u.1) (-1) = ((m - 1 : Nat) : Int) ∧
          minD g0 start u (m - 1))) := by
    intro v m hWm
    obtain ⟨hb1, hb2, hgv, hmv⟩ := hWm
    refine ⟨hb1, hb2, ?_, ?_⟩
    · constructor
      · intro he
        subst he
        rw [post.hstart0] at hgv
        omega
      · intro hm0
        subst hm0
        exact (minD_zero hmv).symm
    · intro hmpos
      have hvs : v ≠ start := by
        intro he
        subst he
        rw [post.hstart0] at hgv
        omega
      have hne : L1.gScore.getD (v.2 * w + v.1) (-1) ≠ -1 := by
        rw [hgv]
        omega
      obtain ⟨p, u2, hp, hpnz, hdx, hdy, hu1, hu2, hadj2, hune, hule⟩ :=
        post.hpar v hb1 hb2 hvs hne
      obtain ⟨n, hgn, hcn⟩ := post.hreal u2 hu1 hu2 hune
      obtain ⟨du2, hdu2⟩ := minD_exists n hcn
      have hmle : m ≤ du2 + 1 := hmv.2 (du2 + 1) (stepChain_snoc hdu2.1 hadj2)
      have hd2n : du2 ≤ n := hdu2.2 n hcn
      have hnm : n + 1 ≤ m := by
        rw [hgv, hgn] at hule
        omega
      refine ⟨p, u2, hp, hpnz, hdx, hdy, hu1, hu2, hu1, hu2, ?_, ?_⟩
      · rw [hgn]
        omega
      · rw [show m - 1 = du2 from by omega]
        exact hdu2
  obtain ⟨tail, g2, hloop, hlen⟩ := reconLoop_spec w h L1.parents start
    (fun v m => v.1 < w ∧ v.2 < h ∧
      L1.gScore.getD (v.2 * w + v.1) (-1) = (m : Int) ∧ minD g0 start v m) hwalk
    (w * h + 1) d endp L1.g [] (by omega) ⟨he1, he2, post.hgse, hd⟩
    post.hW post.hH
  rw [hloop]
  refine ⟨(((([] : List (Int × Int)) ++ tail) ++
    [((start.1 : Int), (start.2 : Int))]).reverse, g2), rfl, ?_⟩
  simp [hlen]


/-- A 1-by-3 corridor whose middle cell carries a stale SOLVER_VISITED bit
(cells 13, 69, 7): east-west passages are open, but bit 64 is set on cell 1. -/
def c3Grid : Grid := { width := 3, height := 1, cells := [13, 69, 7] }

/-- C3 counterexample: on a grid with a stale solver-visited bit, the end is
reachable at distance 2 and both A* and Dijkstra return the 3-cell shortest
path, but BFS (which consults the grid's SOLVER_VISITED bits when enqueuing)
never reaches the end and returns an empty path, so the three solvers do not
report identical shortest path lengths. -/
theorem c3_solver_equivalence_counterexample :
    minD c3Grid (0, 0) (2, 0) 2 ∧
    (match aStarRun manhattan c3Grid (0, 0) (2, 0) 14 4 with
     | Except.ok pg => pg.1.length
     | Except.error _ => 0) = 3 ∧
    (match dijkstraRun c3Grid (0, 0) (2, 0) 14 4 with
     | Except.ok pg => pg.1.length
     | Except.error _ => 0) = 3 ∧
    (match bfsRun c3Grid (0, 0) (2, 0) 6 4 with
     | Except.ok pg => pg.1.length
     | Except.error _ => 0) = 0 := by
  refine ⟨⟨⟨(1, 0), ⟨2, by decide, by decide⟩, (2, 0), ⟨2, by decide, by decide⟩,
    rfl⟩, ?_⟩, by decide, by decide, by decide⟩
  intro n hn
  rcases n with _ | n2
  · have he0 : ((0, 0) : Nat × Nat) = ((2, 0) : Nat × Nat) := hn
    exact absurd he0 (by decide)
  · rcases n2 with _ | k
    · obtain ⟨c, hadj, hc⟩ := hn
      have he : c = ((2, 0) : Nat × Nat) := hc
      subst he
      obtain ⟨dd, hmem, _⟩ := hadj
      have hls : c3Grid.getNeighbors 0 0 = [(1, 0, 2)] := rfl
      rw [hls] at hmem
      have he2 := List.mem_singleton.mp hmem
      have h1 : (2 : Nat) = 1 := congrArg (fun t => t.1) he2
      exact absurd h1 (by decide)
    · omega

/-- C3 (amended): when the grid's solver-scratch bits (SOLVER_VISITED) are
clear, BFS, Dijkstra and A* (Manhattan) all return a path of exactly
`d + 1` cells, where `d` is the exact open-wall step distance from start to
end — so all three agree on the shortest path length. -/
theorem c3_solvers_shortest_path (g0 : Grid) (w h : Nat) (hW0 : g0.width = w)
    (hH0 : g0.height = h) (hlen0 : g0.cells.length = w * h)
    (start endp : Nat × Nat) (hs1 : start.1 < w) (hs2 : start.2 < h)
    (he1 : endp.1 < w) (he2 : endp.2 < h)
    (hclean : ∀ j, j < w * h → g0.cell j &&& 64 = 0)
    (d : Nat) (hd : minD g0 start endp d) :
    (∃ pg : List (Int × Int) × Grid,
      bfsRun g0 start endp (2 * (w * h)) (w * h + 1) = Except.ok pg ∧
      pg.1.length = d + 1) ∧
    (∃ pg : List (Int × Int) × Grid,
      dijkstraRun g0 start endp (w * h * (w * h + 1) + 2) (w * h + 1) =
        Except.ok pg ∧ pg.1.length = d + 1) ∧
    (∃ pg : List (Int × Int) × Grid,
      aStarRun manhattan g0 start endp (w * h * (w * h + 1) + 2) (w * h + 1) =
        Except.ok pg ∧ pg.1.length = d + 1) :=
  ⟨bfsRun_correct g0 w h hW0 hH0 hlen0 start endp hs1 hs2 he1 he2 hclean d hd,
   aStarRun_correct g0 w h hW0 hH0 hlen0 start endp hs1 hs2 he1 he2
     (fun _ _ => 0) (fun a b hab => @zero_heur_consistent g0 endp a b hab) d hd,
   aStarRun_correct g0 w h hW0 hH0 hlen0 start endp hs1 hs2 he1 he2
     manhattan (fun a b hab => manhattan_consistent hab) d hd⟩

theorem c3_solvers_shortest_path_witness :
    (∃ pg : List (Int × Int) × Grid,
      bfsRun ⟨1, 1, [15]⟩ (0, 0) (0, 0) (2 * (1 * 1)) (1 * 1 + 1) = Except.ok pg ∧
      pg.1.length = 0 + 1) ∧
    (∃ pg : List (Int × Int) × Grid,
      dijkstraRun ⟨1, 1, [15]⟩ (0, 0) (0, 0) (1 * 1 * (1 * 1 + 1) + 2) (1 * 1 + 1) =
        Except.ok pg ∧ pg.1.length = 0 + 1) ∧
    (∃ pg : List (Int × Int) × Grid,
      aStarRun manhattan ⟨1, 1, [15]⟩ (0, 0) (0, 0) (1 * 1 * (1 * 1 + 1) + 2)
        (1 * 1 + 1) = Except.ok pg ∧ pg.1.length = 0 + 1) :=
  c3_solvers_shortest_path ⟨1, 1, [15]⟩ 1 1 rfl rfl rfl (0, 0) (0, 0)
    (by decide) (by decide) (by decide) (by decide) (by decide) 0
    (minD_self _ _)

end MazeEngine
